import Mathlib

/-!
# gamecore.js : object pool, linked list, hashtable, queue and logging

A shallow embedding of `dist/gamecore-andrada.js` (jshashtable, `gamecore.LinkedList`,
`gamecore.Pool` and its static registry of pools, the logging of `gamecore.Base`) and of
`src/queue.js` (`gamecore.Queue`), and the properties of the object pool, the registry, the
linked list, the hashtable, the queue and the logging proved over it.

Modelling conventions.

* A JavaScript object that extends `gamecore.Base` is identified by the `objectId` that
  `gamecore.Base.prototype.setup` hands out (`this.objectId = this.Class.totalObjects++`);
  its `getUniqueId()` string is `fullName + ':' + objectId`, which for the instances of one
  class is in bijection with `objectId`.  An object is that number, a `Nat`.
* Linked-list nodes are heap objects.  The heap of a list is the field `nodes`; a node
  reference is its index there and `null` is `none`.
* A JavaScript `throw` is an `Except.error`; the state of a throwing call is the state the
  caller already holds when the throw precedes every write of the method.  Where a property
  is about the state that a throwing call leaves, the method also has a definition that
  returns that state together with what was thrown (`addEffect`, `releaseEffect`,
  `Registry.release`).
* Pool objects in the registry are heap objects too: the heap is the field `heap` of the
  registry and a pool reference is its index there.
-/

namespace Gamecore

/-- What a call may throw. -/
inductive Err where
  /-- `'Attempting to add object: ... twice to list ...'` in `LinkedList.add`. -/
  | duplicateAdd
  /-- `"Hmm, no last in the list -- that shouldn't happen here"` in `LinkedList.add`. -/
  | noLast
  /-- A `TypeError`: a property of `null` or `undefined` was read. -/
  | nullRef
  /-- `"Oops, trying to release an object of type ... but no pool exists. ..."` in the
  static `gamecore.Pool.release`. -/
  | noPool
  /-- `"Oops, trying to move an object that isn't in the list"` in `LinkedList.moveUp` and
  `LinkedList.moveDown`. -/
  | notInList
  /-- Not a throw: the call does not return, because a loop that follows `nextLinked` from
  `first` never reaches `null`. -/
  | loops
  deriving DecidableEq, Repr

deriving instance DecidableEq for Except

/-! ## jshashtable  (`gamecore.Hashtable`, lines 1223-1654)

Keys have the type `K` and are compared with `===` (no key has an `equals` method, and the
constructor is given no equality function); hashes have the type `H`.

`buckets` is an array of bucket objects and `bucketsByHash` a plain object that holds the
same bucket objects under their hashes.  `put` enters a new bucket in both (lines
1480-1482), so every bucket of `buckets` is also held by `bucketsByHash`, under its hash.
The table is therefore the array `buckets` together with the buckets that `bucketsByHash`
holds and `buckets` no longer does, the field `detached`.  `bucketsByHash[hash]` is the
bucket of `detached` or of `buckets` that carries the hash.

The hash `__proto__` is no property of a plain object: `bucketsByHash['__proto__'] = bucket`
makes the bucket the prototype of `bucketsByHash`, where `bucketsByHash['__proto__']` reads
it, and `delete bucketsByHash['__proto__']` deletes nothing.  A bucket that `remove` takes
out of `buckets` without deleting its property (a bucket of the hash `__proto__`, or the
bucket at index 0 when `searchBuckets` returns `null`) stays in `bucketsByHash`. -/

/-- The `hashingFunction` of the tables whose keys have the type `K` (`hashObject`, unless
the constructor is given another function), and the test whether a hash is the property name
`__proto__`. -/
class Hashing (K : Type) (H : outParam Type) where
  hashingFunction : K → H
  isProto : H → Bool

/-- `hashObject(obj)` on a string: `if (typeof obj == "string") return obj`. -/
def hashObject (obj : String) : String := obj

/-- String keys under `hashObject`. -/
instance Hashing.ofString : Hashing String String :=
  ⟨hashObject, fun hash => decide (hash = "__proto__")⟩

/-- The `uniqueId` of an object that extends `gamecore.Base` is a string, and its own hash;
the `objectId` stands for it, as it stands for the object.  A `uniqueId` has a colon in it
and is not `__proto__`. -/
instance Hashing.ofUniqueId : Hashing Nat Nat := ⟨fun obj => obj, fun _ => false⟩

/-- A key object with a `hashCode` method and no `equals` method: the string that
`hashCode()` returns, and the reference `ref` that `===` compares. -/
structure KeyObject where
  hashCode : String
  ref : Nat
  deriving DecidableEq, Repr

/-- `hashObject(obj)` on an object with a `hashCode` method that returns a string. -/
instance Hashing.ofKeyObject : Hashing KeyObject String :=
  ⟨fun obj => obj.hashCode, fun hash => decide (hash = "__proto__")⟩

/-- `Bucket` : the hash in slot `0` and the array `entries` of `[key, value]` pairs. -/
structure Bucket (H K V : Type) where
  hash : H
  entries : List (K × V)
  deriving DecidableEq, Repr

/-- `createBucketSearcher(ENTRY_INDEX_AND_VALUE)` : `i = entries.length; while (i--)`, the
index of the last entry whose key equals `key`. -/
def searchEntries {K V : Type} [DecidableEq K] (key : K) : List (K × V) → Option Nat
  | [] => none
  | e :: rest =>
    match searchEntries key rest with
    | some i => some (i + 1)
    | none => if key = e.1 then some 0 else none

/-- `Bucket.prototype.getEntryForKey` : the entry found by the searcher, or `false`. -/
def Bucket.getEntryForKey {H K V : Type} [DecidableEq K] (b : Bucket H K V) (key : K) :
    Option (K × V) :=
  match searchEntries key b.entries with
  | some i => b.entries[i]?
  | none => none

/-- `Bucket.prototype.getEntryAndIndexForKey` : `[i, entry[1]]` for the entry found by the
searcher, or `false`. -/
def Bucket.getEntryAndIndexForKey {H K V : Type} [DecidableEq K] (b : Bucket H K V) (key : K) :
    Option (Nat × V) :=
  match searchEntries key b.entries with
  | some i =>
    match b.entries[i]? with
    | some e => some (i, e.2)
    | none => none
  | none => none

/-- `Bucket.prototype.containsKey` : the searcher in the mode `EXISTENCE`. -/
def Bucket.containsKey {H K V : Type} [DecidableEq K] (b : Bucket H K V) (key : K) : Bool :=
  (searchEntries key b.entries).isSome

/-- `bucketEntry[1] = value` on the entry that `getEntryForKey` returned. -/
def Bucket.setEntryValue {H K V : Type} [DecidableEq K] (b : Bucket H K V) (key : K)
    (value : V) : Bucket H K V :=
  match searchEntries key b.entries with
  | some i =>
    match b.entries[i]? with
    | some e => { b with entries := b.entries.set i (e.1, value) }
    | none => b
  | none => b

/-- `Bucket.prototype.addEntry` : `this.entries[this.entries.length] = [key, value]`. -/
def Bucket.addEntry {H K V : Type} (b : Bucket H K V) (key : K) (value : V) : Bucket H K V :=
  { b with entries := b.entries ++ [(key, value)] }

/-- `arrayRemoveAt(arr, idx)` : `arr.splice(idx, 1)`.  `idx` is `none` for `null`, which
`splice` reads as the index 0. -/
def arrayRemoveAt {α : Type} (arr : List α) (idx : Option Nat) : List α :=
  arr.eraseIdx (idx.getD 0)

/-- `Bucket.prototype.removeEntryForKey` : the bucket afterwards, and the value of the entry
removed or `null`. -/
def Bucket.removeEntryForKey {H K V : Type} [DecidableEq K] (b : Bucket H K V) (key : K) :
    Bucket H K V × Option V :=
  match b.getEntryAndIndexForKey key with
  | some result => ({ b with entries := arrayRemoveAt b.entries (some result.1) }, some result.2)
  | none => (b, none)

/-- `gamecore.Hashtable` : the array `buckets`, and the buckets that `bucketsByHash` holds
and `buckets` does not. -/
structure Hashtable (H K V : Type) where
  buckets : List (Bucket H K V)
  detached : List (Bucket H K V)
  deriving DecidableEq, Repr

/-- `new gamecore.Hashtable()`. -/
def Hashtable.empty {H K V : Type} : Hashtable H K V := ⟨[], []⟩

/-- The first bucket of a collection of buckets that carries `hash`. -/
def findBucket {H K V : Type} [DecidableEq H] (hash : H) :
    List (Bucket H K V) → Option (Bucket H K V)
  | [] => none
  | b :: rest => if b.hash = hash then some b else findBucket hash rest

/-- `searchBuckets(buckets, hash)` : `i = buckets.length; while (i--)`, the index of the last
bucket that carries `hash`, or `null`. -/
def searchBuckets {H K V : Type} [DecidableEq H] (hash : H) :
    List (Bucket H K V) → Option Nat
  | [] => none
  | b :: rest =>
    match searchBuckets hash rest with
    | some i => some (i + 1)
    | none => if hash = b.hash then some 0 else none

/-- The write of `put` into the bucket that carries `hash`, or a new bucket at the end of
`buckets` when there is none (lines 1462-1483). -/
def putBuckets {H K V : Type} [DecidableEq H] [DecidableEq K] (hash : H) (key : K) (value : V) :
    List (Bucket H K V) → List (Bucket H K V)
  | [] => [⟨hash, [(key, value)]⟩]
  | b :: rest =>
    if b.hash = hash then
      (match b.getEntryForKey key with
        | some _ => b.setEntryValue key value
        | none => b.addEntry key value) :: rest
    else b :: putBuckets hash key value rest

/-- The write of `bucket.removeEntryForKey(key)` into the bucket that carries `hash`. -/
def removeEntry {H K V : Type} [DecidableEq H] [DecidableEq K] (hash : H) (key : K) :
    List (Bucket H K V) → List (Bucket H K V)
  | [] => []
  | b :: rest =>
    if b.hash = hash then (b.removeEntryForKey key).1 :: rest
    else b :: removeEntry hash key rest

/-- `delete bucketsByHash[hash]` on the buckets that `bucketsByHash` alone holds: the bucket
under `hash` goes. -/
def deleteBucket {H K V : Type} [DecidableEq H] (hash : H) :
    List (Bucket H K V) → List (Bucket H K V)
  | [] => []
  | b :: rest => if b.hash = hash then rest else b :: deleteBucket hash rest

/-- `getBucketForHash(bucketsByHash, hash)` : the bucket that `bucketsByHash` holds under
`hash`, or `null`. -/
def Hashtable.getBucketForHash {H K V : Type} [DecidableEq H] (t : Hashtable H K V)
    (hash : H) : Option (Bucket H K V) :=
  match findBucket hash t.detached with
  | some bucket => some bucket
  | none => findBucket hash t.buckets

/-- A write into the bucket object `bucketsByHash[hash]`, in the collection that holds the
object. -/
def Hashtable.writeBucket {H K V : Type} [DecidableEq H] (t : Hashtable H K V) (hash : H)
    (write : List (Bucket H K V) → List (Bucket H K V)) : Hashtable H K V :=
  match findBucket hash t.detached with
  | some _ => { t with detached := write t.detached }
  | none => { t with buckets := write t.buckets }

/-- Lines 1579-1582 of `remove` : `bucketIndex = searchBuckets(buckets, hash);
arrayRemoveAt(buckets, bucketIndex); delete bucketsByHash[hash];`.  The bucket that leaves
`buckets` is still held by `bucketsByHash`; the `delete` then takes out the bucket under
`hash`, unless the hash is `__proto__`. -/
def Hashtable.dropBucket {H K V : Type} [DecidableEq H] [Hashing K H] (t : Hashtable H K V)
    (hash : H) : Hashtable H K V :=
  ⟨arrayRemoveAt t.buckets (searchBuckets hash t.buckets),
    if Hashing.isProto K hash then
      t.detached ++ (t.buckets[(searchBuckets hash t.buckets).getD 0]?).toList
    else
      deleteBucket hash
        (t.detached ++ (t.buckets[(searchBuckets hash t.buckets).getD 0]?).toList)⟩

/-- `Hashtable.get(key)` : the mapped value or `null`. -/
def Hashtable.get {H K V : Type} [DecidableEq H] [DecidableEq K] [Hashing K H]
    (t : Hashtable H K V) (key : K) : Option V :=
  match t.getBucketForHash (Hashing.hashingFunction key) with
  | some b =>
    match b.getEntryForKey key with
    | some e => some e.2
    | none => none
  | none => none

/-- `Hashtable.put(key, value)` : the table afterwards and the returned `oldValue`, which is
the value of the entry that `getEntryForKey` finds in the bucket of the key's hash, or
`null`.  The write goes into the bucket that `bucketsByHash` holds under the hash; a new
bucket is entered in `buckets` and in `bucketsByHash`. -/
def Hashtable.put {H K V : Type} [DecidableEq H] [DecidableEq K] [Hashing K H]
    (t : Hashtable H K V) (key : K) (value : V) : Hashtable H K V × Option V :=
  (t.writeBucket (Hashing.hashingFunction key)
      (putBuckets (Hashing.hashingFunction key) key value),
    match t.getBucketForHash (Hashing.hashingFunction key) with
    | some bucket =>
      match bucket.getEntryForKey key with
      | some bucketEntry => some bucketEntry.2
      | none => none
    | none => none)

/-- `Hashtable.containsKey(key)` : `bucket ? bucket.containsKey(key) : false`. -/
def Hashtable.containsKey {H K V : Type} [DecidableEq H] [DecidableEq K] [Hashing K H]
    (t : Hashtable H K V) (key : K) : Bool :=
  match t.getBucketForHash (Hashing.hashingFunction key) with
  | some bucket => bucket.containsKey key
  | none => false

/-- `Hashtable.remove(key)` : the table afterwards and the returned `oldValue`.  When the
bucket that `bucketsByHash` holds under the key's hash gives up an entry and is left empty,
the bucket at the index that `searchBuckets` returns is removed from `buckets`, and the
property of the hash is deleted from `bucketsByHash`. -/
def Hashtable.remove {H K V : Type} [DecidableEq H] [DecidableEq K] [Hashing K H]
    (t : Hashtable H K V) (key : K) : Hashtable H K V × Option V :=
  match t.getBucketForHash (Hashing.hashingFunction key) with
  | some bucket =>
    match (bucket.removeEntryForKey key).2 with
    | some oldValue =>
      if (bucket.removeEntryForKey key).1.entries.length = 0 then
        (Hashtable.dropBucket
          (t.writeBucket (Hashing.hashingFunction key)
            (removeEntry (Hashing.hashingFunction key) key))
          (Hashing.hashingFunction key), some oldValue)
      else
        (t.writeBucket (Hashing.hashingFunction key)
          (removeEntry (Hashing.hashingFunction key) key), some oldValue)
    | none => (t, none)
  | none => (t, none)

/-- `Hashtable.clear()` : `buckets.length = 0; bucketsByHash = {}`. -/
def Hashtable.clear {H K V : Type} (_ : Hashtable H K V) : Hashtable H K V := ⟨[], []⟩

/-- `Hashtable.size()` : `i = buckets.length; while (i--) total += buckets[i].entries.length`. -/
def Hashtable.size {H K V : Type} (t : Hashtable H K V) : Nat :=
  t.buckets.reverse.foldl (fun total b => total + b.entries.length) 0

/-- `Hashtable.keys()` : the buckets from the last to the first (`i = buckets.length;
while (i--)`), the keys of each bucket in the order of its entries. -/
def Hashtable.keys {H K V : Type} (t : Hashtable H K V) : List K :=
  t.buckets.reverse.flatMap (fun b => b.entries.map Prod.fst)

/-- `Hashtable.values()` : the values, in the order of `keys()`. -/
def Hashtable.values {H K V : Type} (t : Hashtable H K V) : List V :=
  t.buckets.reverse.flatMap (fun b => b.entries.map Prod.snd)

/-- `Hashtable.entries()` : copies of the `[key, value]` pairs, in the order of `keys()`. -/
def Hashtable.entries {H K V : Type} (t : Hashtable H K V) : List (K × V) :=
  t.buckets.reverse.flatMap (fun b => b.entries)

/-- The invariant of the array `buckets` : no two buckets carry the same hash, no bucket is
empty, no bucket holds a key twice, and every key is in the bucket of its hash. -/
structure Hashtable.Wf {H K V : Type} [Hashing K H] (t : Hashtable H K V) : Prop where
  hashes : (t.buckets.map Bucket.hash).Nodup
  nonempty : ∀ b ∈ t.buckets, b.entries ≠ []
  distinct : ∀ b ∈ t.buckets, (b.entries.map Prod.fst).Nodup
  hashed : ∀ b ∈ t.buckets, ∀ e ∈ b.entries, Hashing.hashingFunction e.1 = b.hash

/-- What a caller passes for a key or a value: `null`, `undefined`, or a value that is
neither. -/
inductive Arg (α : Type) where
  | null
  | undefined
  | value (a : α)
  deriving DecidableEq, Repr

/-- What `checkKey` and `checkValue` throw. -/
inductive CheckErr where
  /-- `new Error("null is not a valid " + kvStr)`. -/
  | nullNotValid (kvStr : String)
  /-- `new Error(kvStr + " must not be undefined")`. -/
  | mustNotBeUndefined (kvStr : String)
  deriving DecidableEq, Repr

/-- `createKeyValCheck(kvStr)` : the check it returns, which hands on a value that is
neither `null` nor `undefined`. -/
def createKeyValCheck {α : Type} (kvStr : String) (kv : Arg α) : Except CheckErr α :=
  match kv with
  | .null => .error (CheckErr.nullNotValid kvStr)
  | .undefined => .error (CheckErr.mustNotBeUndefined kvStr)
  | .value a => .ok a

/-- `checkKey = createKeyValCheck("key")`. -/
def checkKey {α : Type} (kv : Arg α) : Except CheckErr α := createKeyValCheck "key" kv

/-- `checkValue = createKeyValCheck("value")`. -/
def checkValue {α : Type} (kv : Arg α) : Except CheckErr α := createKeyValCheck "value" kv

/-- `put(key, value)` with its checks (`checkKey(key); checkValue(value);`) : the table the
call leaves, and what it returned or threw.  `Hashtable.put` is the rest of the body. -/
def Hashtable.putArg {H K V : Type} [DecidableEq H] [DecidableEq K] [Hashing K H]
    (t : Hashtable H K V) (key : Arg K) (value : Arg V) :
    Hashtable H K V × Except CheckErr (Option V) :=
  match checkKey key with
  | .error e => (t, .error e)
  | .ok k =>
    match checkValue value with
    | .error e => (t, .error e)
    | .ok v => ((t.put k v).1, .ok (t.put k v).2)

/-- `get(key)` with its check: the table the call leaves, and what it returned or threw. -/
def Hashtable.getArg {H K V : Type} [DecidableEq H] [DecidableEq K] [Hashing K H]
    (t : Hashtable H K V) (key : Arg K) : Hashtable H K V × Except CheckErr (Option V) :=
  match checkKey key with
  | .error e => (t, .error e)
  | .ok k => (t, .ok (t.get k))

/-- `remove(key)` with its check: the table the call leaves, and what it returned or
threw. -/
def Hashtable.removeArg {H K V : Type} [DecidableEq H] [DecidableEq K] [Hashing K H]
    (t : Hashtable H K V) (key : Arg K) : Hashtable H K V × Except CheckErr (Option V) :=
  match checkKey key with
  | .error e => (t, .error e)
  | .ok k => ((t.remove k).1, .ok (t.remove k).2)

/-- `containsKey(key)` with its check: the table the call leaves, and what it returned or
threw. -/
def Hashtable.containsKeyArg {H K V : Type} [DecidableEq H] [DecidableEq K] [Hashing K H]
    (t : Hashtable H K V) (key : Arg K) : Hashtable H K V × Except CheckErr Bool :=
  match checkKey key with
  | .error e => (t, .error e)
  | .ok k => (t, .ok (t.containsKey k))

/-- A call that writes a table. -/
inductive TableCall (K V : Type) where
  | put (key : K) (value : V)
  | remove (key : K)
  | clear
  deriving DecidableEq, Repr

/-- One call: the table it leaves. -/
def Hashtable.call {H K V : Type} [DecidableEq H] [DecidableEq K] [Hashing K H]
    (t : Hashtable H K V) : TableCall K V → Hashtable H K V
  | .put key value => (t.put key value).1
  | .remove key => (t.remove key).1
  | .clear => t.clear

/-- A sequence of calls, in order. -/
def Hashtable.run {H K V : Type} [DecidableEq H] [DecidableEq K] [Hashing K H]
    (t : Hashtable H K V) (calls : List (TableCall K V)) : Hashtable H K V :=
  calls.foldl Hashtable.call t

/-- No key of the sequence of calls has the hash `__proto__`. -/
def TableCall.plain {H K V : Type} [Hashing K H] : List (TableCall K V) → Bool
  | [] => true
  | .put key _ :: ks => !Hashing.isProto K (Hashing.hashingFunction key) && TableCall.plain ks
  | .remove key :: ks => !Hashing.isProto K (Hashing.hashingFunction key) && TableCall.plain ks
  | .clear :: ks => TableCall.plain ks

/-! ## gamecore.LinkedList  (lines 1708-2022) -/

/-- `gamecore.LinkedNode` : `obj`, `nextLinked`, `prevLinked`, `free`. -/
structure LinkedNode where
  obj : Nat
  nextLinked : Option Nat
  prevLinked : Option Nat
  free : Bool
  deriving DecidableEq, Repr

/-- The value read through a reference that names no node; references are only ever made by
`addNode`, so it is not read on a list built by the list's own methods. -/
def LinkedNode.blank : LinkedNode := ⟨0, none, none, true⟩

/-- `gamecore.LinkedList` : `first`, `last`, `count`, `objToNodeMap`, and the heap of the
nodes that `addNode` has constructed. -/
structure LinkedList where
  first : Option Nat
  last : Option Nat
  count : Int
  objToNodeMap : Hashtable Nat Nat Nat
  nodes : List LinkedNode
  deriving DecidableEq, Repr

/-- `new gamecore.LinkedList()`. -/
def LinkedList.init : LinkedList := ⟨none, none, 0, Hashtable.empty, []⟩

/-- Dereference of a node reference. -/
def readNode (h : List LinkedNode) (a : Nat) : LinkedNode := h[a]?.getD LinkedNode.blank

/-- A field write through a node reference. -/
def writeNode (h : List LinkedNode) (a : Nat) (f : LinkedNode → LinkedNode) : List LinkedNode :=
  h.set a (f (readNode h a))

/-- `getNode(obj)` : `this.objToNodeMap.get(obj.getUniqueId())`. -/
def LinkedList.getNode (l : LinkedList) (obj : Nat) : Option Nat := l.objToNodeMap.get obj

/-- `addNode(obj)` : a new node, not free, unlinked, recorded in `objToNodeMap`. -/
def LinkedList.addNode (l : LinkedList) (obj : Nat) : LinkedList × Nat :=
  ({ l with nodes := l.nodes ++ [⟨obj, none, none, false⟩],
            objToNodeMap := (l.objToNodeMap.put obj l.nodes.length).1 }, l.nodes.length)

/-- Lines 1837-1855 of `add` : append node `a` to the end of the list. -/
def LinkedList.append (l : LinkedList) (a : Nat) : Except Err LinkedList :=
  match l.first with
  | none =>
    .ok { l with first := some a, last := some a,
                 nodes := writeNode (writeNode l.nodes a (fun n => { n with nextLinked := none }))
                            a (fun n => { n with prevLinked := none }),
                 count := l.count + 1 }
  | some _ =>
    match l.last with
    | none => .error Err.noLast
    | some z =>
      let h1 := writeNode l.nodes z (fun n => { n with nextLinked := some a })
      let h2 := writeNode h1 a (fun n => { n with prevLinked := some z })
      let h3 := writeNode h2 a (fun n => { n with nextLinked := none })
      .ok { l with last := some a, nodes := h3, count := l.count + 1 }

/-- `add(obj)` : throws when the object already has a node that is not free; otherwise makes
or reuses its node and appends it. -/
def LinkedList.add (l : LinkedList) (obj : Nat) : Except Err LinkedList :=
  match l.getNode obj with
  | none =>
    let r := l.addNode obj
    r.1.append r.2
  | some a =>
    if (readNode l.nodes a).free = false then .error Err.duplicateAdd
    else
      LinkedList.append
        { l with nodes := writeNode l.nodes a (fun _ => ⟨obj, none, none, false⟩) } a

/-- `has(obj)` : `!(node == null || node.free == true)`. -/
def LinkedList.has (l : LinkedList) (obj : Nat) : Bool :=
  match l.getNode obj with
  | none => false
  | some a => !(readNode l.nodes a).free

/-- `if (ref != null) ref.nextLinked = v;` -/
def setNextLinked (h : List LinkedNode) (ref v : Option Nat) : List LinkedNode :=
  match ref with
  | some p => writeNode h p (fun n => { n with nextLinked := v })
  | none => h

/-- `if (ref != null) ref.prevLinked = v;` -/
def setPrevLinked (h : List LinkedNode) (ref v : Option Nat) : List LinkedNode :=
  match ref with
  | some q => writeNode h q (fun n => { n with prevLinked := v })
  | none => h

/-- Lines 1959-1975 of `remove` : pull node `a` out of the list and tie up the ends. -/
def LinkedList.unlink (l : LinkedList) (a : Nat) : LinkedList :=
  -- if (node.prevLinked != null) node.prevLinked.nextLinked = node.nextLinked;
  let h1 := setNextLinked l.nodes (readNode l.nodes a).prevLinked (readNode l.nodes a).nextLinked
  -- if (node.nextLinked != null) node.nextLinked.prevLinked = node.prevLinked;
  let h2 := setPrevLinked h1 (readNode h1 a).nextLinked (readNode h1 a).prevLinked
  -- if (node.prevLinked == null) this.first = node.nextLinked;
  let first1 := if (readNode h2 a).prevLinked = none then (readNode h2 a).nextLinked else l.first
  -- if (node.nextLinked == null) this.last = node.prevLinked;
  let last1 := if (readNode h2 a).nextLinked = none then (readNode h2 a).prevLinked else l.last
  -- node.free = true; node.prevLinked = null; node.nextLinked = null; this.count--;
  { l with first := first1, last := last1,
           nodes := writeNode h2 a (fun n => { n with free := true, prevLinked := none,
                                                      nextLinked := none }),
           count := l.count - 1 }

/-- `remove(obj)` : the list afterwards and the returned boolean. -/
def LinkedList.remove (l : LinkedList) (obj : Nat) : LinkedList × Bool :=
  match l.getNode obj with
  | none => (l, false)
  | some a => if (readNode l.nodes a).free = true then (l, false) else (l.unlink a, true)

/-- `length()` : `this.count`. -/
def LinkedList.length (l : LinkedList) : Int := l.count

/-- The iteration idiom of the class documentation, `node = list.first; while (node)` with
`node = node.next()` in the body, over at most `fuel` nodes: the objects visited. -/
def walk (h : List LinkedNode) : Nat → Option Nat → List Nat
  | 0, _ => []
  | _ + 1, none => []
  | fuel + 1, some a => (readNode h a).obj :: walk h fuel (readNode h a).nextLinked

/-- The objects of the list in forward order.  A list whose links are acyclic visits every
node within `nodes.length` steps. -/
def LinkedList.toList (l : LinkedList) : List Nat := walk l.nodes l.nodes.length l.first

/-! ## gamecore.Pool  (lines 2129-2361)

`tracing` is off (its default): the tracing block of `acquire` writes `traces` only. -/

/-- `Math.round(n / d)` for integers `n` and `d > 0` : `floor(n / d + 1/2)`.  The quotients
the pool rounds (`size / 5`, `expansion * 1.2`) are never within `1/10` of a tie, so the
double-precision result is this integer. -/
def mathRound (n d : Int) : Int := (2 * n + d) / (2 * d)

/-- An instance of `gamecore.Pool`, with the static state its methods read and write.
`freeList` is an array in simple mode and a linked list in dual mode: the array is the field
`freeArray` here, and `usedList` is only assigned in dual mode. -/
structure Pool where
  dual : Bool
  freeArray : List Nat
  freeList : LinkedList
  usedList : LinkedList
  expansion : Int
  returnObj : Option Nat
  /-- `this.classType.totalObjects`, the id of the next instance of the pooled class. -/
  totalObjects : Nat
  /-- `gamecore.Pool.totalPooled`. -/
  totalPooled : Int
  deriving DecidableEq, Repr

/-- The loop of `expand` : `howMany` times, `new this.classType()` is added to the free
collection. -/
def Pool.expandLoop : Nat → Pool → Except Err Pool
  | 0, p => .ok p
  | n + 1, p =>
    if p.dual then
      match p.freeList.add p.totalObjects with
      | .ok fl => Pool.expandLoop n { p with freeList := fl, totalObjects := p.totalObjects + 1 }
      | .error e => .error e
    else
      Pool.expandLoop n { p with freeArray := p.freeArray ++ [p.totalObjects],
                                 totalObjects := p.totalObjects + 1 }

/-- `expand(howMany)`. -/
def Pool.expand (p : Pool) (howMany : Int) : Except Err Pool :=
  Pool.expandLoop howMany.toNat { p with totalPooled := p.totalPooled + howMany }

/-- `init(classType, initial, dual)` : the constructor; `totalObjects` and `totalPooled` are
the values of the two static counters when it runs. -/
def Pool.init (totalObjects : Nat) (totalPooled : Int) (initial : Int) (dual : Bool) :
    Except Err Pool :=
  Pool.expand ⟨dual, [], LinkedList.init, LinkedList.init, 1, none, totalObjects, totalPooled⟩
    initial

/-- `size()`. -/
def Pool.size (p : Pool) : Int :=
  if p.dual then p.freeList.count + p.usedList.count else p.freeArray.length

/-- The test that guards the expansion in `acquire` : `this.freeList.first == null` in dual
mode, `this.freeList.length <= 0` in simple mode. -/
def Pool.exhausted (p : Pool) : Bool :=
  if p.dual then p.freeList.first == none else decide (p.freeArray.length ≤ 0)

/-- The first statement of `acquire` : expand when the free collection is exhausted
(lines 2274-2276 and 2283-2287). -/
def Pool.refill (p : Pool) : Except Err Pool :=
  if p.dual then
    if p.freeList.first = none then p.expand (mathRound p.size 5 + 1) else .ok p
  else
    if p.freeArray.length ≤ 0 then
      Pool.expand { p with expansion := mathRound (p.expansion * 6) 5 + 1 }
        (mathRound (p.expansion * 6) 5 + 1)
    else .ok p

/-- The rest of `acquire` : take an instance out of the free collection.  In dual mode it is
`freeList.first.obj`, removed from the free list and added to the used list (the write
`returnObj.destroyed = false` is to a field of the instance that the pool never reads); in
simple mode it is `freeList.pop()`, which is `undefined` (`none`) on an empty array. -/
def Pool.take (p : Pool) : Except Err (Option Nat × Pool) :=
  if p.dual then
    match p.freeList.first with
    | none => .error Err.nullRef
    | some a =>
      let obj := (readNode p.freeList.nodes a).obj
      let fl := (p.freeList.remove obj).1
      match p.usedList.add obj with
      | .ok ul => .ok (some obj, { p with returnObj := some obj, freeList := fl, usedList := ul })
      | .error e => .error e
  else
    .ok (p.freeArray.getLast?, { p with freeArray := p.freeArray.dropLast })

/-- `acquire()`. -/
def Pool.acquire (p : Pool) : Except Err (Option Nat × Pool) :=
  match p.refill with
  | .ok q => q.take
  | .error e => .error e

/-- `release(obj)`. -/
def Pool.release (p : Pool) (obj : Nat) : Except Err Pool :=
  if p.dual then
    match p.freeList.add obj with
    | .ok fl => .ok { p with freeList := fl, usedList := (p.usedList.remove obj).1 }
    | .error e => .error e
  else
    .ok { p with freeArray := p.freeArray ++ [obj] }

/-! ## Chains of nodes

`Fwd h as nxt` : along the addresses `as`, every node's `nextLinked` is its successor in
`as`, and the last one's is `nxt`.  `Bwd h prev as` : every node's `prevLinked` is its
predecessor in `as`, and the first one's is `prev`. -/

/-- The head of a list of addresses, or `nxt` when it is empty. -/
def headOr (nxt : Option Nat) : List Nat → Option Nat
  | [] => nxt
  | b :: _ => some b

/-- The last of a list of addresses, or `prev` when it is empty. -/
def lastOr (prev : Option Nat) : List Nat → Option Nat
  | [] => prev
  | a :: rest => lastOr (some a) rest

/-- Forward links along a list of addresses. -/
def Fwd (h : List LinkedNode) : List Nat → Option Nat → Prop
  | [], _ => True
  | a :: rest, nxt => (readNode h a).nextLinked = headOr nxt rest ∧ Fwd h rest nxt

/-- Backward links along a list of addresses. -/
def Bwd (h : List LinkedNode) : Option Nat → List Nat → Prop
  | _, [] => True
  | prev, a :: rest => (readNode h a).prevLinked = prev ∧ Bwd h (some a) rest

/-- The links of list `l` are those of the chain of node addresses `as` : `first` is its
head, `last` its end, and the nodes are linked both ways in that order.  A stale `last` is
allowed on an empty chain (`clear` leaves one behind). -/
structure Chain (l : LinkedList) (as : List Nat) : Prop where
  nodup : as.Nodup
  valid : ∀ a ∈ as, a < l.nodes.length
  fwd : Fwd l.nodes as none
  bwd : Bwd l.nodes none as
  first_eq : l.first = as.head?
  last_eq : as ≠ [] → l.last = as.getLast?

/-- The representation invariant of a list : its links form the chain `as`, `count` is the
length of the chain, `objToNodeMap` sends the object of every chain node to that node, every
indexed node carries the object it is indexed under, and an indexed node is free exactly
when it is off the chain. -/
structure Linked (l : LinkedList) (as : List Nat) extends Chain l as : Prop where
  count_eq : l.count = as.length
  indexed : ∀ a ∈ as, l.getNode (readNode l.nodes a).obj = some a
  map_valid : ∀ k a, l.getNode k = some a → a < l.nodes.length ∧ (readNode l.nodes a).obj = k
  live : ∀ a ∈ as, (readNode l.nodes a).free = false
  free_of : ∀ k a, l.getNode k = some a → a ∉ as → (readNode l.nodes a).free = true

/-- The objects along a chain. -/
def objsOf (h : List LinkedNode) (as : List Nat) : List Nat :=
  as.map (fun a => (readNode h a).obj)

/-- `Holds l xs` : list `l` is well formed and holds exactly the objects `xs`, in this
order. -/
def Holds (l : LinkedList) (xs : List Nat) : Prop :=
  ∃ as, Linked l as ∧ objsOf l.nodes as = xs

/-! ## Clients of a pool

A client makes calls on a pool and keeps the instances it is handed.  `held` lists the
instances handed out by `acquire` and not yet released, oldest first; `expansions` counts
the `acquire` calls that found the free collection exhausted and expanded the pool. -/

/-- A call on a pool. -/
inductive Call where
  | acquire
  | release (obj : Nat)
  | expand (howMany : Int)
  deriving DecidableEq, Repr

/-- A pool together with the bookkeeping of its client. -/
structure Client where
  pool : Pool
  held : List Nat
  expansions : Nat
  deriving DecidableEq, Repr

/-- One call.  A `release` that throws `duplicateAdd` does so in `freeList.add`, before
anything is written: the client goes on with the pool as it was.  Any other throw ends the
run. -/
def Client.call (c : Client) : Call → Except Err Client
  | .acquire =>
    match c.pool.acquire with
    | .ok (some x, q) =>
      .ok ⟨q, c.held ++ [x], if c.pool.exhausted then c.expansions + 1 else c.expansions⟩
    | .ok (none, q) =>
      .ok ⟨q, c.held, if c.pool.exhausted then c.expansions + 1 else c.expansions⟩
    | .error e => .error e
  | .release x =>
    match c.pool.release x with
    | .ok q => .ok ⟨q, c.held.erase x, c.expansions⟩
    | .error Err.duplicateAdd => .ok c
    | .error e => .error e
  | .expand n =>
    match c.pool.expand n with
    | .ok q => .ok ⟨q, c.held, c.expansions⟩
    | .error e => .error e

/-- A sequence of calls, in order. -/
def Client.run : Client → List Call → Except Err Client
  | c, [] => .ok c
  | c, k :: ks =>
    match c.call k with
    | .ok c1 => Client.run c1 ks
    | .error e => .error e

/-- Construction of a pool followed by a sequence of calls. -/
def Pool.session (totalObjects : Nat) (totalPooled : Int) (initial : Int) (dual : Bool)
    (calls : List Call) : Except Err Client :=
  match Pool.init totalObjects totalPooled initial dual with
  | .ok p => Client.run ⟨p, [], 0⟩ calls
  | .error e => .error e

/-- Every `release` of the sequence is called on an instance that passes `test` in the
state it is called in. -/
def Client.allowed (test : Client → Nat → Bool) : Client → List Call → Bool
  | _, [] => true
  | c, k :: ks =>
    (match k with
      | .release x => test c x
      | _ => true) &&
    (match c.call k with
      | .ok c1 => Client.allowed test c1 ks
      | .error _ => true)

/-- The instance is held by the client. -/
def Client.holds (c : Client) (x : Nat) : Bool := decide (x ∈ c.held)

/-- The instance has been constructed: its `objectId` is below the `totalObjects` of the
pooled class. -/
def Client.constructed (c : Client) (x : Nat) : Bool := decide (x < c.pool.totalObjects)

/-- From the pool that `init` constructs, every `release` of the sequence is called on an
instance that is held when it is called. -/
def Pool.disciplined (totalObjects : Nat) (totalPooled : Int) (initial : Int) (dual : Bool)
    (calls : List Call) : Bool :=
  match Pool.init totalObjects totalPooled initial dual with
  | .ok p => Client.allowed Client.holds ⟨p, [], 0⟩ calls
  | .error _ => true

/-- From the pool that `init` constructs, every `release` of the sequence is called on an
instance of the pooled class that exists when it is called. -/
def Pool.existing (totalObjects : Nat) (totalPooled : Int) (initial : Int) (dual : Bool)
    (calls : List Call) : Bool :=
  match Pool.init totalObjects totalPooled initial dual with
  | .ok p => Client.allowed Client.constructed ⟨p, [], 0⟩ calls
  | .error _ => true

/-- The invariant of a pool whose client holds `held` : in dual mode the free list and the
used list are well formed and disjoint, the used list holds exactly `held`, and every
instance in them is older than the next one the class will construct. -/
structure Pool.Inv (p : Pool) (held : List Nat) : Prop where
  dual : p.dual = true →
    ∃ fs, Holds p.freeList fs ∧ Holds p.usedList held ∧ (∀ x ∈ fs, x ∉ held) ∧
      ∀ x ∈ fs ++ held, x < p.totalObjects
  expansion_pos : 1 ≤ p.expansion

/-- In simple mode the instances in the free array and the instances held are pairwise
distinct, and older than the next one the class will construct. -/
def Pool.Distinct (p : Pool) (held : List Nat) : Prop :=
  p.dual = false →
    (p.freeArray ++ held).Nodup ∧ ∀ x ∈ p.freeArray ++ held, x < p.totalObjects

/-- The free collection as a sequence: the free array in simple mode, the forward iteration
of the free list in dual mode. -/
def Pool.free (p : Pool) : List Nat :=
  if p.dual then p.freeList.toList else p.freeArray

/-- The free count: the length of the free array in simple mode, the `count` of the free
list in dual mode. -/
def Pool.freeCount (p : Pool) : Int :=
  if p.dual then p.freeList.count else p.freeArray.length

/-- The used count of a dual pool: the `count` of the used list. -/
def Pool.usedCount (p : Pool) : Int := p.usedList.count

/-- The round trip `release(acquire())`.  `release(undefined)` reads `getUniqueId` of
`undefined` in dual mode. -/
def Pool.roundTrip (p : Pool) : Except Err Pool :=
  match p.acquire with
  | .ok (some x, q) => q.release x
  | .ok (none, _) => .error Err.nullRef
  | .error e => .error e

/-- From `t0` on, every instance the class has constructed is in the free collection or
held by the client, exactly once. -/
def Client.Accounted (t0 : Nat) (c : Client) : Prop :=
  t0 ≤ c.pool.totalObjects ∧
    (c.pool.free ++ c.held).Perm (List.range' t0 (c.pool.totalObjects - t0))

/-- From `t0` on, every instance the class has constructed is in the free collection or
held by the client. -/
def Client.Complete (t0 : Nat) (c : Client) : Prop :=
  ∀ x, t0 ≤ x → x < c.pool.totalObjects → x ∈ c.pool.free ∨ x ∈ c.held

/-! ## What a throwing call leaves behind

A JavaScript `throw` ends the call and keeps every write made before it.  The definitions
below return the state that the call leaves, together with what it threw. -/

/-- Lines 1837-1855 of `add` : the list these statements leave, and what they threw. -/
def LinkedList.appendEffect (l : LinkedList) (a : Nat) : LinkedList × Option Err :=
  match l.first with
  | none =>
    ({ l with first := some a, last := some a,
              nodes := writeNode (writeNode l.nodes a (fun n => { n with nextLinked := none }))
                         a (fun n => { n with prevLinked := none }),
              count := l.count + 1 }, none)
  | some _ =>
    match l.last with
    | none => (l, some Err.noLast)
    | some z =>
      let h1 := writeNode l.nodes z (fun n => { n with nextLinked := some a })
      let h2 := writeNode h1 a (fun n => { n with prevLinked := some z })
      let h3 := writeNode h2 a (fun n => { n with nextLinked := none })
      ({ l with last := some a, nodes := h3, count := l.count + 1 }, none)

/-- `add(obj)` : the list the call leaves, and what it threw.  The duplicate check throws
before any write; `"Hmm, no last"` is thrown after the node was made or reset. -/
def LinkedList.addEffect (l : LinkedList) (obj : Nat) : LinkedList × Option Err :=
  match l.getNode obj with
  | none =>
    let r := l.addNode obj
    r.1.appendEffect r.2
  | some a =>
    if (readNode l.nodes a).free = false then (l, some Err.duplicateAdd)
    else
      LinkedList.appendEffect
        { l with nodes := writeNode l.nodes a (fun _ => ⟨obj, none, none, false⟩) } a

/-- `release(obj)` of a pool : the pool the call leaves, and what it threw. -/
def Pool.releaseEffect (p : Pool) (obj : Nat) : Pool × Option Err :=
  if p.dual then
    match p.freeList.addEffect obj with
    | (fl, none) => ({ p with freeList := fl, usedList := (p.usedList.remove obj).1 }, none)
    | (fl, some e) => ({ p with freeList := fl }, some e)
  else
    ({ p with freeArray := p.freeArray ++ [obj] }, none)

/-! ## The registry of pools  (statics of `gamecore.Pool`, lines 2129-2189)

The values of the hashtable `pools` are pool objects.  Pool objects are heap objects: the
heap is the field `heap`, a pool reference is its index there.  `gamecore.Pool.totalPooled`
is one counter for all pools: a pool's methods run on the pool with the counter as it is
when they are called (`Registry.load`), and the counter they leave is stored back. -/

/-- A class that extends `gamecore.Pooled`, as the registry reads it: its `fullName` and its
static counter `totalObjects` when the call is made. -/
structure ClassType where
  fullName : String
  totalObjects : Nat
  deriving DecidableEq, Repr

/-- An instance of a class that extends `gamecore.Pooled` : `Class.fullName` and
`objectId`. -/
structure Pooled where
  fullName : String
  objectId : Nat
  deriving DecidableEq, Repr

/-- The statics of `gamecore.Pool` (or of a class that derives from it and overrides
`INITIAL_POOL_SIZE`), and the heap of the pools constructed. -/
structure Registry where
  INITIAL_POOL_SIZE : Int
  pools : Hashtable String String Nat
  totalPooled : Int
  heap : List Pool
  deriving DecidableEq, Repr

/-- The statics as the class definition leaves them: `INITIAL_POOL_SIZE:1`,
`pools:new gamecore.Hashtable()`, `totalPooled:0`. -/
def Registry.init : Registry := ⟨1, Hashtable.empty, 0, []⟩

/-- Static `getPool(classType)` : `this.pools.get(classType.fullName)`. -/
def Registry.getPool (g : Registry) (classType : ClassType) : Option Nat :=
  g.pools.get classType.fullName

/-- The pool behind a reference, with the static counter as it is now. -/
def Registry.load (g : Registry) (ref : Nat) : Option Pool :=
  match g.heap[ref]? with
  | some p => some { p with totalPooled := g.totalPooled }
  | none => none

/-- The pool behind a reference after one of its methods has run, and the counter. -/
def Registry.store (g : Registry) (ref : Nat) (q : Pool) : Registry :=
  { g with heap := g.heap.set ref q, totalPooled := q.totalPooled }

/-- `pool.acquire()` on the pool behind `ref`. -/
def Registry.acquireFrom (g : Registry) (ref : Nat) : Except Err (Option Nat × Registry) :=
  match g.load ref with
  | none => .error Err.nullRef
  | some p =>
    match p.acquire with
    | .ok (x, q) => .ok (x, g.store ref q)
    | .error e => .error e

/-- Static `acquire(classType, dual)`.  `dual` is `none` when the caller passes no boolean
(`typeof dual === 'boolean'` fails in `init` and the pool keeps `dual:false`). -/
def Registry.acquire (g : Registry) (classType : ClassType) (dual : Option Bool) :
    Except Err (Option Nat × Registry) :=
  match g.getPool classType with
  | none =>
    -- pool = new gamecore.Pool(classType, this.INITIAL_POOL_SIZE, dual);
    match Pool.init classType.totalObjects g.totalPooled g.INITIAL_POOL_SIZE
        (dual.getD false) with
    | .ok p =>
      -- this.pools.put(classType.fullName, pool);
      Registry.acquireFrom
        { g with heap := g.heap ++ [p],
                 pools := (g.pools.put classType.fullName g.heap.length).1,
                 totalPooled := p.totalPooled }
        g.heap.length
    | .error e => .error e
  | some ref => g.acquireFrom ref

/-- Static `release(pooledObj)` : the registry the call leaves, and what it threw. -/
def Registry.release (g : Registry) (pooledObj : Pooled) : Registry × Option Err :=
  match g.pools.get pooledObj.fullName with
  | none => (g, some Err.noPool)
  | some ref =>
    match g.load ref with
    | none => (g, some Err.nullRef)
    | some p =>
      let r := p.releaseEffect pooledObj.objectId
      (g.store ref r.1, r.2)

/-- The invariant of the registry: the table `pools` satisfies the invariant of a
table, every registered reference is to a pool of the heap, no pool is registered under two
names, and every pool satisfies the pool invariant for some set of held instances. -/
structure Registry.Wf (g : Registry) : Prop where
  table : g.pools.Wf
  valid : ∀ name ref, g.pools.get name = some ref → ref < g.heap.length
  inj : ∀ n1 n2 ref, g.pools.get n1 = some ref → g.pools.get n2 = some ref → n1 = n2
  pools : ∀ p ∈ g.heap, ∃ held, p.Inv held

/-- A call on the registry. -/
inductive RegistryCall where
  | acquire (classType : ClassType) (dual : Option Bool)
  | release (pooledObj : Pooled)
  deriving DecidableEq, Repr

/-- One call.  After a `release`, thrown or not, the caller goes on with the registry as
the call left it; an `acquire` that throws ends the run. -/
def Registry.call (g : Registry) : RegistryCall → Except Err Registry
  | .acquire classType dual =>
    match g.acquire classType dual with
    | .ok (_, g1) => .ok g1
    | .error e => .error e
  | .release pooledObj => .ok (g.release pooledObj).1

/-- A sequence of calls, in order. -/
def Registry.run : Registry → List RegistryCall → Except Err Registry
  | g, [] => .ok g
  | g, k :: ks =>
    match g.call k with
    | .ok g1 => Registry.run g1 ks
    | .error e => .error e

/-- A sequence of calls on the registry as the class definition leaves it, with
`INITIAL_POOL_SIZE` overridden by `size`. -/
def Registry.session (size : Int) (calls : List RegistryCall) : Except Err Registry :=
  Registry.run { Registry.init with INITIAL_POOL_SIZE := size } calls

/-- The instance exists: when a pool is registered for its class, its `objectId` is below
the `totalObjects` of the pooled class. -/
def Registry.existing (g : Registry) (pooledObj : Pooled) : Bool :=
  match g.pools.get pooledObj.fullName with
  | none => true
  | some ref =>
    match g.load ref with
    | some p => decide (pooledObj.objectId < p.totalObjects)
    | none => true

/-- Every `release` of the sequence is called on an instance that exists when it is
called. -/
def Registry.allowed : Registry → List RegistryCall → Bool
  | _, [] => true
  | g, k :: ks =>
    (match k with
      | .release pooledObj => g.existing pooledObj
      | _ => true) &&
    (match g.call k with
      | .ok g1 => Registry.allowed g1 ks
      | .error _ => true)

/-- From the registry as the class definition leaves it, with `INITIAL_POOL_SIZE`
overridden by `size`, every `release` of the sequence is called on an instance that exists
when it is called. -/
def Registry.admissible (size : Int) (calls : List RegistryCall) : Bool :=
  Registry.allowed { Registry.init with INITIAL_POOL_SIZE := size } calls

/-! ## Users of a list -/

/-- A call on a list. -/
inductive ListCall where
  | add (obj : Nat)
  | remove (obj : Nat)
  deriving DecidableEq, Repr

/-- One call: the list the call leaves, also when `add` throws. -/
def LinkedList.call (l : LinkedList) : ListCall → LinkedList
  | .add obj => (l.addEffect obj).1
  | .remove obj => (l.remove obj).1

/-- A sequence of calls, in order. -/
def LinkedList.run (l : LinkedList) (calls : List ListCall) : LinkedList :=
  calls.foldl LinkedList.call l

/-! ## gamecore.LinkedList : `clear`, `moveUp`, `moveDown`, `sort`  (lines 1866-1995)

`clear`, `sort` and `dump` follow `nextLinked` from `first` until they reach `null`.  A walk
that has visited more nodes than the heap holds has visited one of them twice and goes on
for ever: `walkEnds` with the fuel `nodes.length + 1` is false exactly then. -/

/-- The walk `node = first; while (node) node = node.nextLinked` reaches `null` within
`fuel` nodes. -/
def walkEnds (h : List LinkedNode) : Nat → Option Nat → Bool
  | _, none => true
  | 0, some _ => false
  | fuel + 1, some a => walkEnds h fuel (readNode h a).nextLinked

/-- The forward walk from `first` ends. -/
def LinkedList.acyclic (l : LinkedList) : Bool :=
  walkEnds l.nodes (l.nodes.length + 1) l.first

/-- The loop of `clear` : `next.free = true; next = next.nextLinked`. -/
def freeWalk (h : List LinkedNode) : Nat → Option Nat → List LinkedNode
  | 0, _ => h
  | _ + 1, none => h
  | fuel + 1, some a =>
    let h1 := writeNode h a (fun n => { n with free := true })
    freeWalk h1 fuel (readNode h1 a).nextLinked

/-- `clear()` : frees the nodes of the forward walk, then `first = null` and `count = 0`.
`last` and the links of the nodes are not written. -/
def LinkedList.clear (l : LinkedList) : Except Err LinkedList :=
  if l.acyclic then
    .ok { l with first := none, count := 0,
                 nodes := freeWalk l.nodes (l.nodes.length + 1) l.first }
  else .error Err.loops

/-- Lines 1881-1896 of `moveUp` : the writes that make node `c` swap places with the node
`b` before it; `a` is the node before `b`. -/
def swapLinks (h : List LinkedNode) (b c : Nat) : List LinkedNode :=
  let a := (readNode h b).prevLinked
  let oldCNext := (readNode h c).nextLinked
  -- if (a) a.nextLinked = c;
  let h1 := setNextLinked h a (some c)
  -- c.nextLinked = b; c.prevLinked = b.prevLinked;
  let h2 := writeNode h1 c (fun n => { n with nextLinked := some b })
  let h3 := writeNode h2 c (fun n => { n with prevLinked := (readNode h2 b).prevLinked })
  -- b.nextLinked = oldCNext; b.prevLinked = c;
  let h4 := writeNode h3 b (fun n => { n with nextLinked := oldCNext })
  writeNode h4 b (fun n => { n with prevLinked := some c })

/-- `moveUp(obj)`.  The call starts with `this.dump('before move up')`, which walks the list
from `first` and logs each node; it writes nothing.  `c` is the node of the object and `b`
the node before it. -/
def LinkedList.moveUp (l : LinkedList) (obj : Nat) : Except Err LinkedList :=
  if l.acyclic then
    match l.getNode obj with
    | none => .error Err.notInList
    | some c =>
      match (readNode l.nodes c).prevLinked with
      | none => .ok l
      | some b =>
        .ok { l with
              -- if (this.first == b) this.first = c;
              first := if l.first = some b then some c else l.first,
              -- if (c == this.last) this.last = b;
              last := if l.last = some c then some b else l.last,
              nodes := swapLinks l.nodes b c }
  else .error Err.loops

/-- `moveDown(obj)` : `b` is the node of the object and `c` the node after it;
`this.moveUp(c.obj)`, then `if (this.last == c) this.last = b`. -/
def LinkedList.moveDown (l : LinkedList) (obj : Nat) : Except Err LinkedList :=
  match l.getNode obj with
  | none => .error Err.notInList
  | some b =>
    match (readNode l.nodes b).nextLinked with
    | none => .ok l
    | some c =>
      match l.moveUp (readNode l.nodes c).obj with
      | .ok l1 => .ok (if l1.last = some c then { l1 with last := some b } else l1)
      | .error e => .error e

/-- The loop `for (i = 0; i < sortArray.length; i++) this.add(sortArray[i])` of `sort`. -/
def LinkedList.addAll : LinkedList → List Nat → Except Err LinkedList
  | l, [] => .ok l
  | l, x :: xs =>
    match l.add x with
    | .ok l1 => LinkedList.addAll l1 xs
    | .error e => .error e

/-- `sort(compare)`.  `arraySort` is `Array.prototype.sort` with the comparator `compare`
as its argument: it belongs to the JavaScript engine and is a parameter here. -/
def LinkedList.sort (arraySort : List Nat → List Nat) (l : LinkedList) :
    Except Err LinkedList :=
  if l.acyclic then
    -- while (node) { sortArray.push(node.object()); node = node.next(); }
    let sortArray := walk l.nodes (l.nodes.length + 1) l.first
    match l.clear with
    | .ok l1 => l1.addAll (arraySort sortArray)
    | .error e => .error e
  else .error Err.loops

/-- A call on a list, `clear`, `sort` and the moves included.  The comparator of `sort` is
the one of the `arraySort` that `LinkedList.perform` is given. -/
inductive ListOp where
  | add (obj : Nat)
  | remove (obj : Nat)
  | clear
  | sort
  | moveUp (obj : Nat)
  | moveDown (obj : Nat)
  deriving DecidableEq, Repr

/-- One call: the list the call leaves.  `add` may throw after writes, and leaves the list
that `addEffect` gives; `moveUp` and `moveDown` throw `notInList` before any write, and the
caller goes on with the list as it was.  Any other throw, and a call that does not return,
ends the run. -/
def LinkedList.perform (arraySort : List Nat → List Nat) (l : LinkedList) :
    ListOp → Except Err LinkedList
  | .add obj => .ok (l.addEffect obj).1
  | .remove obj => .ok (l.remove obj).1
  | .clear => l.clear
  | .sort => l.sort arraySort
  | .moveUp obj =>
    match l.moveUp obj with
    | .error Err.notInList => .ok l
    | r => r
  | .moveDown obj =>
    match l.moveDown obj with
    | .error Err.notInList => .ok l
    | r => r

/-- A sequence of calls, in order. -/
def LinkedList.performAll (arraySort : List Nat → List Nat) :
    LinkedList → List ListOp → Except Err LinkedList
  | l, [] => .ok l
  | l, op :: ops =>
    match l.perform arraySort op with
    | .ok l1 => LinkedList.performAll arraySort l1 ops
    | .error e => .error e

/-- The forward links of list `l` are those of the chain `as` : `first` is its head, `last`
its end, and the `nextLinked` of each node is the next node of `as`.  Nothing is said of
`prevLinked`. -/
structure Forward (l : LinkedList) (as : List Nat) : Prop where
  nodup : as.Nodup
  valid : ∀ a ∈ as, a < l.nodes.length
  fwd : Fwd l.nodes as none
  first_eq : l.first = as.head?
  last_eq : as ≠ [] → l.last = as.getLast?

/-! ## `getFreeCount`  (lines 2252-2254) -/

/-- What the expression `this.freeList.length` evaluates to: a number, or a function
object (named by the property it was read from). -/
inductive JsValue where
  | number (n : Int)
  | method (name : String)
  deriving DecidableEq, Repr

/-- `getFreeCount()` : `return this.freeList.length`.  In simple mode `freeList` is an array
and `length` is the number of its elements.  In dual mode `freeList` is a
`gamecore.LinkedList`, whose property `length` is the method of line 2000; the expression
reads the property and does not call it. -/
def Pool.getFreeCount (p : Pool) : JsValue :=
  if p.dual then JsValue.method "length" else JsValue.number p.freeArray.length

/-! ## gamecore.Queue  (`src/queue.js`, lines 21-48)

`newInstance` deep-copies the prototype's properties into every new instance, so a new
queue has its own empty array `queue` and `offset` 0. -/

/-- An element of a JavaScript array, and what reading one gives: an item, `null`, or
`undefined` (a hole, or an index beyond the end). -/
inductive Cell (α : Type) where
  | item (a : α)
  | null
  | undefined
  deriving DecidableEq, Repr

/-- The read `arr[i]`. -/
def arrayGet {α : Type} (arr : List (Cell α)) (i : Nat) : Cell α :=
  arr[i]?.getD Cell.undefined

/-- The write `arr[i] = v` : beyond the end it extends the array, and the indices in between
read as `undefined`. -/
def arraySet {α : Type} (arr : List (Cell α)) (i : Nat) (v : Cell α) : List (Cell α) :=
  if i < arr.length then arr.set i v
  else arr ++ List.replicate (i - arr.length) Cell.undefined ++ [v]

/-- An instance of `gamecore.Queue` : the array `queue` and the index `offset` of its
head. -/
structure Queue (α : Type) where
  queue : List (Cell α)
  offset : Nat
  deriving DecidableEq, Repr

/-- `new gamecore.Queue()`. -/
def Queue.init {α : Type} : Queue α := ⟨[], 0⟩

/-- `push(obj)` : `this.queue.push(obj)`. -/
def Queue.push {α : Type} (q : Queue α) (obj : α) : Queue α :=
  { q with queue := q.queue ++ [Cell.item obj] }

/-- `pop()` : the returned value and the queue afterwards. -/
def Queue.pop {α : Type} (q : Queue α) : Cell α × Queue α :=
  -- if (this.queue.length == 0) return undefined;
  if q.queue.length = 0 then (Cell.undefined, q)
  else
    -- var item = this.queue[this.offset]; this.queue[this.offset] = null;
    let item := arrayGet q.queue q.offset
    let queue1 := arraySet q.queue q.offset Cell.null
    -- if (++ this.offset * 2 >= this.queue.length)
    if (q.offset + 1) * 2 ≥ queue1.length then
      -- this.queue = this.queue.slice(this.offset); this.offset = 0;
      (item, ⟨queue1.drop (q.offset + 1), 0⟩)
    else (item, ⟨queue1, q.offset + 1⟩)

/-- The elements of the array from `offset` on. -/
def Queue.pending {α : Type} (q : Queue α) : List (Cell α) := q.queue.drop q.offset

/-- A call on a queue. -/
inductive QueueCall (α : Type) where
  | push (obj : α)
  | pop
  deriving DecidableEq, Repr

/-- A sequence of calls, in order: what the `pop` calls returned, and the queue left. -/
def Queue.run {α : Type} : Queue α → List (QueueCall α) → List (Cell α) × Queue α
  | q, [] => ([], q)
  | q, .push obj :: ks => Queue.run (q.push obj) ks
  | q, .pop :: ks => ((q.pop).1 :: (Queue.run (q.pop).2 ks).1, (Queue.run (q.pop).2 ks).2)

/-- The reference queue: the items in the order they were pushed, oldest first.  `push`
appends. -/
def RefQueue.push {α : Type} (r : List α) (obj : α) : List α := r ++ [obj]

/-- The reference queue: `pop` removes and returns the head, and returns `undefined` on the
empty queue. -/
def RefQueue.pop {α : Type} : List α → Cell α × List α
  | [] => (Cell.undefined, [])
  | a :: rest => (Cell.item a, rest)

/-- A sequence of calls on the reference queue. -/
def RefQueue.run {α : Type} : List α → List (QueueCall α) → List (Cell α) × List α
  | r, [] => ([], r)
  | r, .push obj :: ks => RefQueue.run (RefQueue.push r obj) ks
  | r, .pop :: ks =>
    ((RefQueue.pop r).1 :: (RefQueue.run (RefQueue.pop r).2 ks).1,
      (RefQueue.run (RefQueue.pop r).2 ks).2)

/-- Queue `q` represents the reference queue `r` : the array from `offset` on holds the
items of `r`, and `offset` is below half of the array's length unless the array is empty. -/
def Queue.Rep {α : Type} (q : Queue α) (r : List α) : Prop :=
  q.pending = r.map Cell.item ∧
    ((q.queue = [] ∧ q.offset = 0) ∨ q.offset + q.offset < q.queue.length)

/-! ## gamecore.Base : logging  (lines 975-1077) -/

/-- An instance of a class that extends `gamecore.Base`, as the logging methods read it:
`this.Class.fullName` and `this.objectId`. -/
structure BaseObject where
  fullName : String
  objectId : Nat
  deriving DecidableEq, Repr

/-- Static `WARN: 'WARN'`. -/
def Base.WARN : String := "WARN"

/-- Static `log(id, type, message)` of the class with the full name `fullName` : the line
given to `console.log`.  `id` is `none` for `null`.  The test `if (id)` fails for `null` and
for the number `0`. -/
def Base.log (fullName : String) (id : Option Nat) (type message : String) : String :=
  let idString :=
    match id with
    | some n => if n ≠ 0 then ":" ++ toString n else ""
    | none => ""
  fullName ++ idString ++ " [" ++ type ++ "] " ++ message

/-- Instance method `warn(message)` : `this.Class.log(this.objectId, this.Class.WARN,
message)`; the line logged. -/
def BaseObject.warn (o : BaseObject) (message : String) : String :=
  Base.log o.fullName (some o.objectId) Base.WARN message

/-! # Properties -/

/-! ## The hashtable as a finite map -/

section BucketLemmas

variable {H K V : Type} [DecidableEq K]

theorem searchEntries_cons (key : K) (e : K × V) (rest : List (K × V)) :
    searchEntries key (e :: rest) =
      match searchEntries key rest with
      | some i => some (i + 1)
      | none => if key = e.1 then some 0 else none := rfl

theorem searchEntries_none_iff (key : K) :
    ∀ (es : List (K × V)), searchEntries key es = none ↔ key ∉ es.map Prod.fst := by
  intro es
  induction es with
  | nil => simp [searchEntries]
  | cons e rest ih =>
    unfold searchEntries
    cases hr : searchEntries key rest with
    | some j =>
      have : ¬ key ∉ rest.map Prod.fst := fun h => by rw [ih.mpr h] at hr; simp at hr
      simp only [List.map_cons, List.mem_cons, not_or]
      constructor
      · intro h; simp at h
      · intro h; exact absurd h.2 this
    | none =>
      have hn := ih.mp hr
      simp only [List.map_cons, List.mem_cons, not_or]
      by_cases hk : key = e.1
      · simp [hk]
      · simp [hk, hn]

theorem searchEntries_some (key : K) :
    ∀ (es : List (K × V)) (i : Nat), searchEntries key es = some i →
      ∃ e, es[i]? = some e ∧ e.1 = key := by
  intro es
  induction es with
  | nil => intro i h; simp [searchEntries] at h
  | cons e0 rest ih =>
    intro i h
    unfold searchEntries at h
    cases hr : searchEntries key rest with
    | some j =>
      rw [hr] at h
      simp only [Option.some.injEq] at h
      subst h
      obtain ⟨e, he, hk⟩ := ih j hr
      exact ⟨e, by simpa using he, hk⟩
    | none =>
      rw [hr] at h
      simp only at h
      split at h
      · rename_i hk
        simp only [Option.some.injEq] at h
        subst h
        exact ⟨e0, by simp, hk.symm⟩
      · simp at h

/-- The search of a bucket, entry by entry: the entries after the first one are searched
before it. -/
theorem Bucket.getEntryForKey_cons (h : H) (e : K × V) (rest : List (K × V)) (key : K) :
    (⟨h, e :: rest⟩ : Bucket H K V).getEntryForKey key =
      match (⟨h, rest⟩ : Bucket H K V).getEntryForKey key with
      | some x => some x
      | none => if key = e.1 then some e else none := by
  unfold Bucket.getEntryForKey
  show (match searchEntries key (e :: rest) with
    | some i => (e :: rest)[i]?
    | none => none) = _
  rw [searchEntries_cons]
  show _ = match (match searchEntries key rest with
      | some i => rest[i]?
      | none => none) with
    | some x => some x
    | none => if key = e.1 then some e else none
  cases hr : searchEntries key rest with
  | some j =>
    obtain ⟨x, hx, _⟩ := searchEntries_some key rest j hr
    simp [hx]
  | none =>
    by_cases hk : key = e.1
    · simp [hk]
    · simp [hk]

theorem Bucket.getEntryForKey_nil (h : H) (key : K) :
    (⟨h, []⟩ : Bucket H K V).getEntryForKey key = none := rfl

theorem Bucket.getEntryForKey_none_iff (b : Bucket H K V) (key : K) :
    b.getEntryForKey key = none ↔ key ∉ b.entries.map Prod.fst := by
  rw [← searchEntries_none_iff]
  unfold Bucket.getEntryForKey
  cases hr : searchEntries key b.entries with
  | some j =>
    obtain ⟨x, hx, _⟩ := searchEntries_some key b.entries j hr
    simp [hx]
  | none => simp

theorem Bucket.getEntryForKey_mem (b : Bucket H K V) (key : K) (e : K × V)
    (h : b.getEntryForKey key = some e) : e ∈ b.entries ∧ e.1 = key := by
  unfold Bucket.getEntryForKey at h
  cases hr : searchEntries key b.entries with
  | some j =>
    obtain ⟨x, hx, hk⟩ := searchEntries_some key b.entries j hr
    rw [hr] at h
    simp only at h
    rw [hx] at h
    simp only [Option.some.injEq] at h
    subst h
    exact ⟨List.getElem?_mem hx, hk⟩
  | none => rw [hr] at h; simp at h

/-- In a bucket that holds no key twice, every entry is the one found for its key. -/
theorem Bucket.getEntryForKey_of_mem (h : H) :
    ∀ (es : List (K × V)), (es.map Prod.fst).Nodup → ∀ e ∈ es,
      (⟨h, es⟩ : Bucket H K V).getEntryForKey e.1 = some e := by
  intro es
  induction es with
  | nil => intro _ e he; simp at he
  | cons e0 rest ih =>
    intro hnd e he
    rw [List.map_cons, List.nodup_cons] at hnd
    rw [Bucket.getEntryForKey_cons]
    rcases List.mem_cons.mp he with h0 | hmem
    · subst h0
      have : (⟨h, rest⟩ : Bucket H K V).getEntryForKey e.1 = none :=
        (Bucket.getEntryForKey_none_iff _ _).mpr hnd.1
      rw [this]
      simp
    · rw [ih hnd.2 e hmem]

theorem Bucket.containsKey_isSome (b : Bucket H K V) (key : K) :
    b.containsKey key = (b.getEntryForKey key).isSome := by
  unfold Bucket.containsKey Bucket.getEntryForKey
  cases hr : searchEntries key b.entries with
  | some j =>
    obtain ⟨x, hx, _⟩ := searchEntries_some key b.entries j hr
    simp [hx]
  | none => simp

/-- The write `bucketEntry[1] = value`, entry by entry. -/
theorem Bucket.setEntryValue_cons (h : H) (e : K × V) (rest : List (K × V)) (key : K)
    (value : V) :
    ((⟨h, e :: rest⟩ : Bucket H K V).setEntryValue key value).entries =
      match (⟨h, rest⟩ : Bucket H K V).getEntryForKey key with
      | some _ => e :: ((⟨h, rest⟩ : Bucket H K V).setEntryValue key value).entries
      | none => if key = e.1 then (e.1, value) :: rest else e :: rest := by
  unfold Bucket.setEntryValue Bucket.getEntryForKey
  show (match searchEntries key (e :: rest) with
    | some i =>
      match (e :: rest)[i]? with
      | some e1 => ({ hash := h, entries := (e :: rest).set i (e1.1, value) } : Bucket H K V)
      | none => ⟨h, e :: rest⟩
    | none => ⟨h, e :: rest⟩).entries = _
  rw [searchEntries_cons]
  show _ = match (match searchEntries key rest with
      | some i => rest[i]?
      | none => none) with
    | some _ =>
      e :: (match searchEntries key rest with
        | some i =>
          match rest[i]? with
          | some e1 => ({ hash := h, entries := rest.set i (e1.1, value) } : Bucket H K V)
          | none => ⟨h, rest⟩
        | none => ⟨h, rest⟩).entries
    | none => if key = e.1 then (e.1, value) :: rest else e :: rest
  cases hr : searchEntries key rest with
  | some j =>
    obtain ⟨x, hx, _⟩ := searchEntries_some key rest j hr
    simp [hx]
  | none =>
    by_cases hk : key = e.1
    · simp [hk]
    · simp [hk]

theorem Bucket.setEntryValue_hash (b : Bucket H K V) (key : K) (value : V) :
    (b.setEntryValue key value).hash = b.hash := by
  unfold Bucket.setEntryValue
  split <;> [split; skip] <;> rfl

/-- The removal of the entry of a key, entry by entry. -/
theorem Bucket.removeEntryForKey_cons (h : H) (e : K × V) (rest : List (K × V)) (key : K) :
    ((⟨h, e :: rest⟩ : Bucket H K V).removeEntryForKey key).1.entries =
        (match (⟨h, rest⟩ : Bucket H K V).getEntryForKey key with
        | some _ => e :: ((⟨h, rest⟩ : Bucket H K V).removeEntryForKey key).1.entries
        | none => if key = e.1 then rest else e :: rest) ∧
      ((⟨h, e :: rest⟩ : Bucket H K V).removeEntryForKey key).2 =
        (match (⟨h, rest⟩ : Bucket H K V).getEntryForKey key with
        | some _ => ((⟨h, rest⟩ : Bucket H K V).removeEntryForKey key).2
        | none => if key = e.1 then some e.2 else none) := by
  unfold Bucket.removeEntryForKey Bucket.getEntryAndIndexForKey Bucket.getEntryForKey
    arrayRemoveAt
  show (match (match searchEntries key (e :: rest) with
      | some i =>
        match (e :: rest)[i]? with
        | some e1 => some (i, e1.2)
        | none => none
      | none => none) with
    | some result =>
      (({ hash := h, entries := (e :: rest).eraseIdx ((some result.1).getD 0) } : Bucket H K V),
        some result.2)
    | none => (⟨h, e :: rest⟩, none)).1.entries = _ ∧ _
  rw [searchEntries_cons]
  cases hr : searchEntries key rest with
  | some j =>
    obtain ⟨x, hx, _⟩ := searchEntries_some key rest j hr
    simp [hx]
  | none =>
    by_cases hk : key = e.1
    · simp [hk]
    · simp [hk]

theorem Bucket.removeEntryForKey_hash (b : Bucket H K V) (key : K) :
    (b.removeEntryForKey key).1.hash = b.hash := by
  unfold Bucket.removeEntryForKey
  split <;> rfl

theorem Bucket.removeEntryForKey_nil (h : H) (key : K) :
    (⟨h, []⟩ : Bucket H K V).removeEntryForKey key = (⟨h, []⟩, none) := rfl

end BucketLemmas

section BucketFacts

variable {H K V : Type} [DecidableEq K]

theorem Bucket.getEntryForKey_congr (b c : Bucket H K V) (key : K)
    (h : b.entries = c.entries) : b.getEntryForKey key = c.getEntryForKey key := by
  unfold Bucket.getEntryForKey
  rw [h]

theorem Bucket.setEntryValue_keys (b : Bucket H K V) (key : K) (value : V) :
    (b.setEntryValue key value).entries.map Prod.fst = b.entries.map Prod.fst := by
  obtain ⟨h, es⟩ := b
  induction es with
  | nil => rfl
  | cons e rest ih =>
    rw [Bucket.setEntryValue_cons]
    cases hg : (⟨h, rest⟩ : Bucket H K V).getEntryForKey key with
    | some x =>
      show (e :: _).map Prod.fst = _
      rw [List.map_cons, ih]
      rfl
    | none =>
      by_cases hk : key = e.1
      · simp [hk]
      · simp [hk]

theorem Bucket.setEntryValue_length (b : Bucket H K V) (key : K) (value : V) :
    (b.setEntryValue key value).entries.length = b.entries.length := by
  have h := congrArg List.length (Bucket.setEntryValue_keys b key value)
  simpa using h

theorem Bucket.setEntryValue_mem (b : Bucket H K V) (key : K) (value : V) :
    ∀ x ∈ (b.setEntryValue key value).entries, x ∈ b.entries ∨ x = (key, value) := by
  obtain ⟨h, es⟩ := b
  induction es with
  | nil => intro x hx; exact Or.inl hx
  | cons e rest ih =>
    intro x hx
    rw [Bucket.setEntryValue_cons] at hx
    cases hg : (⟨h, rest⟩ : Bucket H K V).getEntryForKey key with
    | some y =>
      rw [hg] at hx
      rcases List.mem_cons.mp hx with h0 | h1
      · exact Or.inl (h0 ▸ List.mem_cons_self _ _)
      · rcases ih x h1 with h2 | h2
        · exact Or.inl (List.mem_cons_of_mem _ h2)
        · exact Or.inr h2
    | none =>
      rw [hg] at hx
      by_cases hk : key = e.1
      · simp only [hk, if_true] at hx
        rcases List.mem_cons.mp hx with h0 | h1
        · exact Or.inr (by rw [h0, hk])
        · exact Or.inl (List.mem_cons_of_mem _ h1)
      · simp only [hk, if_false] at hx
        exact Or.inl hx

theorem Bucket.getEntryForKey_setEntryValue_self (b : Bucket H K V) (key : K) (value : V)
    (e : K × V) (hfound : b.getEntryForKey key = some e) :
    (b.setEntryValue key value).getEntryForKey key = some (key, value) := by
  obtain ⟨h, es⟩ := b
  induction es generalizing e with
  | nil => simp [Bucket.getEntryForKey_nil] at hfound
  | cons e0 rest ih =>
    rw [Bucket.getEntryForKey_cons] at hfound
    have hc := Bucket.setEntryValue_cons h e0 rest key value
    cases hg : (⟨h, rest⟩ : Bucket H K V).getEntryForKey key with
    | some y =>
      rw [hg] at hc
      rw [Bucket.getEntryForKey_congr _ ⟨h, e0 :: ((⟨h, rest⟩ : Bucket H K V).setEntryValue key
        value).entries⟩ key hc, Bucket.getEntryForKey_cons,
        Bucket.getEntryForKey_congr ⟨h, _⟩ ((⟨h, rest⟩ : Bucket H K V).setEntryValue key value)
          key rfl, ih y hg]
    | none =>
      rw [hg] at hc hfound
      by_cases hk : key = e0.1
      · rw [if_pos hk] at hc
        rw [Bucket.getEntryForKey_congr _ ⟨h, (e0.1, value) :: rest⟩ key hc,
          Bucket.getEntryForKey_cons, hg]
        simp [hk]
      · simp [hk] at hfound

theorem Bucket.getEntryForKey_setEntryValue_other (b : Bucket H K V) (key : K) (value : V)
    (k : K) (hk : k ≠ key) :
    (b.setEntryValue key value).getEntryForKey k = b.getEntryForKey k := by
  obtain ⟨h, es⟩ := b
  induction es with
  | nil => rfl
  | cons e0 rest ih =>
    have hc := Bucket.setEntryValue_cons h e0 rest key value
    cases hg : (⟨h, rest⟩ : Bucket H K V).getEntryForKey key with
    | some y =>
      rw [hg] at hc
      rw [Bucket.getEntryForKey_congr _ ⟨h, e0 :: ((⟨h, rest⟩ : Bucket H K V).setEntryValue key
        value).entries⟩ k hc, Bucket.getEntryForKey_cons, Bucket.getEntryForKey_cons,
        Bucket.getEntryForKey_congr ⟨h, _⟩ ((⟨h, rest⟩ : Bucket H K V).setEntryValue key value)
          k rfl, ih]
    | none =>
      rw [hg] at hc
      by_cases hke : key = e0.1
      · rw [if_pos hke] at hc
        rw [Bucket.getEntryForKey_congr _ ⟨h, (e0.1, value) :: rest⟩ k hc,
          Bucket.getEntryForKey_cons, Bucket.getEntryForKey_cons]
        have : ¬ k = e0.1 := fun h' => hk (h'.trans hke.symm)
        simp [this]
      · rw [if_neg hke] at hc
        rw [Bucket.getEntryForKey_congr _ ⟨h, e0 :: rest⟩ k hc]

theorem Bucket.getEntryForKey_addEntry (b : Bucket H K V) (key : K) (value : V) (k : K) :
    (b.addEntry key value).getEntryForKey k =
      if k = key then some (key, value) else b.getEntryForKey k := by
  obtain ⟨h, es⟩ := b
  induction es with
  | nil =>
    show (⟨h, [(key, value)]⟩ : Bucket H K V).getEntryForKey k = _
    rw [Bucket.getEntryForKey_cons, Bucket.getEntryForKey_nil]
  | cons e0 rest ih =>
    show (⟨h, e0 :: (rest ++ [(key, value)])⟩ : Bucket H K V).getEntryForKey k = _
    rw [Bucket.getEntryForKey_cons, Bucket.getEntryForKey_cons]
    have ih' : (⟨h, rest ++ [(key, value)]⟩ : Bucket H K V).getEntryForKey k =
        if k = key then some (key, value) else (⟨h, rest⟩ : Bucket H K V).getEntryForKey k := ih
    rw [ih']
    by_cases hk : k = key
    · simp [hk]
    · simp [hk]

theorem Bucket.removeEntryForKey_value (b : Bucket H K V) (key : K) :
    (b.removeEntryForKey key).2 = (b.getEntryForKey key).map Prod.snd := by
  obtain ⟨h, es⟩ := b
  induction es with
  | nil => rfl
  | cons e0 rest ih =>
    rw [(Bucket.removeEntryForKey_cons h e0 rest key).2, Bucket.getEntryForKey_cons]
    cases hg : (⟨h, rest⟩ : Bucket H K V).getEntryForKey key with
    | some y =>
      simp only
      rw [ih, hg]
    | none =>
      by_cases hk : key = e0.1
      · simp [hk]
      · simp [hk]

theorem Bucket.removeEntryForKey_length (b : Bucket H K V) (key : K) :
    (b.removeEntryForKey key).1.entries.length +
      (if (b.getEntryForKey key).isSome then 1 else 0) = b.entries.length := by
  obtain ⟨h, es⟩ := b
  induction es with
  | nil => rfl
  | cons e0 rest ih =>
    rw [(Bucket.removeEntryForKey_cons h e0 rest key).1, Bucket.getEntryForKey_cons]
    cases hg : (⟨h, rest⟩ : Bucket H K V).getEntryForKey key with
    | some y =>
      rw [hg] at ih
      simp only [Option.isSome_some, if_true, List.length_cons] at ih ⊢
      omega
    | none =>
      by_cases hk : key = e0.1
      · simp [hk]
      · simp [hk]

theorem Bucket.removeEntryForKey_sublist (b : Bucket H K V) (key : K) :
    (b.removeEntryForKey key).1.entries.Sublist b.entries := by
  obtain ⟨h, es⟩ := b
  induction es with
  | nil => exact List.Sublist.refl _
  | cons e0 rest ih =>
    rw [(Bucket.removeEntryForKey_cons h e0 rest key).1]
    cases hg : (⟨h, rest⟩ : Bucket H K V).getEntryForKey key with
    | some y => exact List.Sublist.cons₂ _ ih
    | none =>
      by_cases hk : key = e0.1
      · simp only [hk, if_true]
        exact List.sublist_cons_self _ _
      · simp only [hk, if_false]
        exact List.Sublist.refl _

theorem Bucket.getEntryForKey_removeEntryForKey_other (b : Bucket H K V) (key k : K)
    (hk : k ≠ key) :
    (b.removeEntryForKey key).1.getEntryForKey k = b.getEntryForKey k := by
  obtain ⟨h, es⟩ := b
  induction es with
  | nil => rfl
  | cons e0 rest ih =>
    have hc := (Bucket.removeEntryForKey_cons h e0 rest key).1
    cases hg : (⟨h, rest⟩ : Bucket H K V).getEntryForKey key with
    | some y =>
      rw [hg] at hc
      rw [Bucket.getEntryForKey_congr _ ⟨h, e0 :: ((⟨h, rest⟩ : Bucket H K V).removeEntryForKey
        key).1.entries⟩ k hc, Bucket.getEntryForKey_cons, Bucket.getEntryForKey_cons,
        Bucket.getEntryForKey_congr ⟨h, _⟩ ((⟨h, rest⟩ : Bucket H K V).removeEntryForKey key).1
          k rfl, ih]
    | none =>
      rw [hg] at hc
      by_cases hke : key = e0.1
      · rw [if_pos hke] at hc
        rw [Bucket.getEntryForKey_congr _ ⟨h, rest⟩ k hc, Bucket.getEntryForKey_cons]
        have : ¬ k = e0.1 := fun h' => hk (h'.trans hke.symm)
        cases (⟨h, rest⟩ : Bucket H K V).getEntryForKey k <;> simp [this]
      · rw [if_neg hke] at hc
        rw [Bucket.getEntryForKey_congr _ ⟨h, e0 :: rest⟩ k hc]

/-- In a bucket that holds no key twice, the key removed is no longer in the bucket. -/
theorem Bucket.removeEntryForKey_not_mem (b : Bucket H K V) (key : K)
    (hnd : (b.entries.map Prod.fst).Nodup) :
    key ∉ (b.removeEntryForKey key).1.entries.map Prod.fst := by
  obtain ⟨h, es⟩ := b
  induction es with
  | nil => simp [Bucket.removeEntryForKey_nil]
  | cons e0 rest ih =>
    have hnd' : e0.1 ∉ rest.map Prod.fst ∧ (rest.map Prod.fst).Nodup := by
      simpa [List.nodup_cons] using hnd
    rw [(Bucket.removeEntryForKey_cons h e0 rest key).1]
    cases hg : (⟨h, rest⟩ : Bucket H K V).getEntryForKey key with
    | some y =>
      have hin : key ∈ rest.map Prod.fst := by
        by_contra hcon
        rw [(Bucket.getEntryForKey_none_iff ⟨h, rest⟩ key).mpr hcon] at hg
        simp at hg
      have hne : key ≠ e0.1 := fun h' => hnd'.1 (h' ▸ hin)
      simp only [List.map_cons, List.mem_cons, not_or]
      exact ⟨hne, ih hnd'.2⟩
    | none =>
      have hout := (Bucket.getEntryForKey_none_iff ⟨h, rest⟩ key).mp hg
      by_cases hk : key = e0.1
      · simp only [hk, if_true]
        exact hnd'.1
      · rw [if_neg hk]
        simp only [List.map_cons, List.mem_cons, not_or]
        exact ⟨hk, hout⟩

end BucketFacts

section FindBucket

variable {H K V : Type} [DecidableEq H]

theorem findBucket_cons (hash : H) (b : Bucket H K V) (rest : List (Bucket H K V)) :
    findBucket hash (b :: rest) = if b.hash = hash then some b else findBucket hash rest := rfl

theorem findBucket_some (hash : H) :
    ∀ (bs : List (Bucket H K V)) (b : Bucket H K V), findBucket hash bs = some b →
      b ∈ bs ∧ b.hash = hash := by
  intro bs
  induction bs with
  | nil => intro b h; simp [findBucket] at h
  | cons b0 rest ih =>
    intro b h
    unfold findBucket at h
    by_cases hb : b0.hash = hash
    · rw [if_pos hb] at h
      simp only [Option.some.injEq] at h
      subst h
      exact ⟨List.mem_cons_self _ _, hb⟩
    · rw [if_neg hb] at h
      obtain ⟨h1, h2⟩ := ih b h
      exact ⟨List.mem_cons_of_mem _ h1, h2⟩

theorem findBucket_none_iff (hash : H) :
    ∀ (bs : List (Bucket H K V)), findBucket hash bs = none ↔ hash ∉ bs.map Bucket.hash := by
  intro bs
  induction bs with
  | nil => simp [findBucket]
  | cons b0 rest ih =>
    unfold findBucket
    by_cases hb : b0.hash = hash
    · rw [if_pos hb]
      simp [hb]
    · rw [if_neg hb, ih]
      simp only [List.map_cons, List.mem_cons, not_or]
      exact ⟨fun h => ⟨fun h' => hb h'.symm, h⟩, fun h => h.2⟩

/-- When no two buckets carry the same hash, every bucket is the one found for its hash. -/
theorem findBucket_of_mem :
    ∀ (bs : List (Bucket H K V)), (bs.map Bucket.hash).Nodup → ∀ b ∈ bs,
      findBucket b.hash bs = some b := by
  intro bs
  induction bs with
  | nil => intro _ b hb; simp at hb
  | cons b0 rest ih =>
    intro hnd b hb
    rw [List.map_cons, List.nodup_cons] at hnd
    unfold findBucket
    rcases List.mem_cons.mp hb with h0 | hmem
    · subst h0
      rw [if_pos rfl]
    · have hne : ¬ b0.hash = b.hash := fun h' =>
        hnd.1 (h' ▸ List.mem_map_of_mem Bucket.hash hmem)
      rw [if_neg hne]
      exact ih hnd.2 b hmem

theorem searchBuckets_none_iff (hash : H) :
    ∀ (bs : List (Bucket H K V)),
      searchBuckets hash bs = none ↔ hash ∉ bs.map Bucket.hash := by
  intro bs
  induction bs with
  | nil => simp [searchBuckets]
  | cons b0 rest ih =>
    unfold searchBuckets
    cases hr : searchBuckets hash rest with
    | some j =>
      have : ¬ hash ∉ rest.map Bucket.hash := fun h => by rw [ih.mpr h] at hr; simp at hr
      simp only [List.map_cons, List.mem_cons, not_or]
      constructor
      · intro h; simp at h
      · intro h; exact absurd h.2 this
    | none =>
      have hn := ih.mp hr
      simp only [List.map_cons, List.mem_cons, not_or]
      by_cases hk : hash = b0.hash
      · simp [hk]
      · simp [hk, hn]

theorem findBucket_filter_ne (hash hash1 : H) :
    ∀ (bs : List (Bucket H K V)),
      findBucket hash1 (bs.filter (fun b => decide (b.hash ≠ hash))) =
        if hash1 = hash then none else findBucket hash1 bs := by
  intro bs
  induction bs with
  | nil => simp [findBucket]
  | cons b0 rest ih =>
    by_cases hb : b0.hash = hash
    · rw [List.filter_cons_of_neg (by simp [hb]), ih, findBucket_cons]
      by_cases h1 : hash1 = hash
      · rw [if_pos h1, if_pos h1]
      · rw [if_neg h1, if_neg h1, if_neg (by rw [hb]; exact Ne.symm h1)]
    · rw [List.filter_cons_of_pos (by simpa using hb), findBucket_cons, findBucket_cons]
      by_cases h0 : b0.hash = hash1
      · rw [if_pos h0, if_neg (by rw [← h0]; exact hb), if_pos h0]
      · rw [if_neg h0, if_neg h0, ih]

theorem filter_ne_length (hash : H) :
    ∀ (bs : List (Bucket H K V)), (bs.map Bucket.hash).Nodup →
      ((bs.filter (fun b => decide (b.hash ≠ hash))).map (fun b => b.entries.length)).sum +
          (match findBucket hash bs with
            | some b => b.entries.length
            | none => 0) =
        (bs.map (fun b => b.entries.length)).sum := by
  intro bs
  induction bs with
  | nil => intro _; rfl
  | cons b0 rest ih =>
    intro hnd
    rw [List.map_cons, List.nodup_cons] at hnd
    rw [findBucket_cons]
    by_cases hb : b0.hash = hash
    · have hout : hash ∉ rest.map Bucket.hash := hb ▸ hnd.1
      have h1 := ih hnd.2
      rw [(findBucket_none_iff hash rest).mpr hout] at h1
      rw [if_pos hb, List.filter_cons_of_neg (by simp [hb])]
      simp only [List.map_cons, List.sum_cons] at h1 ⊢
      omega
    · have h1 := ih hnd.2
      rw [if_neg hb, List.filter_cons_of_pos (by simpa using hb)]
      simp only [List.map_cons, List.sum_cons] at h1 ⊢
      omega

/-- When no two buckets carry the same hash, the bucket that `remove` takes out of `buckets`
is the bucket of that hash: the other buckets stay, in their order. -/
theorem arrayRemoveAt_searchBuckets (hash : H) :
    ∀ (bs : List (Bucket H K V)), (bs.map Bucket.hash).Nodup → hash ∈ bs.map Bucket.hash →
      arrayRemoveAt bs (searchBuckets hash bs) = bs.filter (fun b => decide (b.hash ≠ hash)) := by
  intro bs
  induction bs with
  | nil => intro _ h; simp at h
  | cons b0 rest ih =>
    intro hnd hmem
    rw [List.map_cons, List.nodup_cons] at hnd
    unfold searchBuckets arrayRemoveAt
    by_cases hb : b0.hash = hash
    · have hout : hash ∉ rest.map Bucket.hash := hb ▸ hnd.1
      rw [(searchBuckets_none_iff hash rest).mpr hout]
      simp only [hb, if_true, Option.getD_some, List.eraseIdx_cons_zero]
      rw [List.filter_cons_of_neg (by simp [hb])]
      symm
      rw [List.filter_eq_self]
      intro c hc
      have : c.hash ≠ hash := fun h' => hout (h' ▸ List.mem_map_of_mem Bucket.hash hc)
      simpa using this
    · have hin : hash ∈ rest.map Bucket.hash := by
        rcases List.mem_cons.mp hmem with h0 | h1
        · exact absurd h0.symm hb
        · exact h1
      cases hr : searchBuckets hash rest with
      | none => exact absurd ((searchBuckets_none_iff hash rest).mp hr) (not_not.mpr hin)
      | some j =>
        simp only [Option.getD_some, List.eraseIdx_cons_succ]
        rw [List.filter_cons_of_pos (by simpa using hb)]
        have := ih hnd.2 hin
        unfold arrayRemoveAt at this
        rw [hr] at this
        simp only [Option.getD_some] at this
        rw [this]

end FindBucket

section TableLemmas

variable {H K V : Type} [DecidableEq H] [DecidableEq K]

theorem findBucket_putBuckets_same (hash : H) (key : K) (value : V) :
    ∀ (bs : List (Bucket H K V)),
      findBucket hash (putBuckets hash key value bs) =
        some (match findBucket hash bs with
          | some b =>
            (match b.getEntryForKey key with
              | some _ => b.setEntryValue key value
              | none => b.addEntry key value)
          | none => ⟨hash, [(key, value)]⟩) := by
  intro bs
  induction bs with
  | nil => simp [putBuckets, findBucket]
  | cons b0 rest ih =>
    unfold putBuckets
    by_cases hb : b0.hash = hash
    · rw [if_pos hb]
      have hf : findBucket hash (b0 :: rest) = some b0 := by
        rw [findBucket_cons, if_pos hb]
      rw [hf, findBucket_cons]
      cases hg : b0.getEntryForKey key with
      | some e =>
        rw [if_pos (by simp only; rw [Bucket.setEntryValue_hash]; exact hb)]
        simp only [hg]
      | none =>
        rw [if_pos (by exact hb)]
        simp only [hg]
    · rw [if_neg hb]
      have hf : findBucket hash (b0 :: rest) = findBucket hash rest := by
        rw [findBucket_cons, if_neg hb]
      rw [hf, ← ih, findBucket_cons, if_neg hb]

theorem findBucket_putBuckets_ne (hash : H) (key : K) (value : V) (hash1 : H)
    (hne : hash1 ≠ hash) :
    ∀ (bs : List (Bucket H K V)),
      findBucket hash1 (putBuckets hash key value bs) = findBucket hash1 bs := by
  intro bs
  induction bs with
  | nil => simp [putBuckets, findBucket, Ne.symm hne]
  | cons b0 rest ih =>
    unfold putBuckets
    by_cases hb : b0.hash = hash
    · have hb1 : ¬ b0.hash = hash1 := by rw [hb]; exact Ne.symm hne
      rw [if_pos hb, findBucket_cons, findBucket_cons, if_neg hb1]
      cases hg : b0.getEntryForKey key with
      | some e => rw [if_neg (by simp only; rw [Bucket.setEntryValue_hash]; exact hb1)]
      | none => rw [if_neg (by exact hb1)]
    · rw [if_neg hb, findBucket_cons, findBucket_cons, ih]

theorem putBuckets_hashes (hash : H) (key : K) (value : V) :
    ∀ (bs : List (Bucket H K V)),
      (putBuckets hash key value bs).map Bucket.hash =
        if hash ∈ bs.map Bucket.hash then bs.map Bucket.hash
        else bs.map Bucket.hash ++ [hash] := by
  intro bs
  induction bs with
  | nil => simp [putBuckets]
  | cons b0 rest ih =>
    unfold putBuckets
    by_cases hb : b0.hash = hash
    · rw [if_pos hb, if_pos (by simp [hb])]
      cases hg : b0.getEntryForKey key with
      | some e =>
        simp only [List.map_cons]
        rw [Bucket.setEntryValue_hash]
      | none => rfl
    · rw [if_neg hb, List.map_cons, ih]
      by_cases hm : hash ∈ rest.map Bucket.hash
      · rw [if_pos hm, if_pos (by simp [hm])]
        rfl
      · rw [if_neg hm, if_neg (by simp [hm, Ne.symm hb])]
        rfl

/-- A property of buckets that the writes of `put` keep holds of every bucket after the
`put`. -/
theorem putBuckets_forall (P : Bucket H K V → Prop) (hash : H) (key : K) (value : V)
    (hnew : P ⟨hash, [(key, value)]⟩)
    (hset : ∀ b, P b → b.hash = hash → P (b.setEntryValue key value))
    (hadd : ∀ b, P b → b.hash = hash → b.getEntryForKey key = none →
      P (b.addEntry key value)) :
    ∀ (bs : List (Bucket H K V)), (∀ b ∈ bs, P b) →
      ∀ b ∈ putBuckets hash key value bs, P b := by
  intro bs
  induction bs with
  | nil =>
    intro _ b hb
    simp only [putBuckets, List.mem_singleton] at hb
    rw [hb]
    exact hnew
  | cons b0 rest ih =>
    intro hall b hb
    unfold putBuckets at hb
    by_cases hb0 : b0.hash = hash
    · rw [if_pos hb0] at hb
      rcases List.mem_cons.mp hb with h0 | hmem
      · rw [h0]
        cases hg : b0.getEntryForKey key with
        | some e => exact hset b0 (hall b0 (List.mem_cons_self _ _)) hb0
        | none => exact hadd b0 (hall b0 (List.mem_cons_self _ _)) hb0 hg
      · exact hall b (List.mem_cons_of_mem _ hmem)
    · rw [if_neg hb0] at hb
      rcases List.mem_cons.mp hb with h0 | hmem
      · rw [h0]
        exact hall b0 (List.mem_cons_self _ _)
      · exact ih (fun c hc => hall c (List.mem_cons_of_mem _ hc)) b hmem

theorem putBuckets_length (hash : H) (key : K) (value : V) :
    ∀ (bs : List (Bucket H K V)),
      ((putBuckets hash key value bs).map (fun b => b.entries.length)).sum =
        (bs.map (fun b => b.entries.length)).sum +
          (match findBucket hash bs with
            | some b => if (b.getEntryForKey key).isSome then 0 else 1
            | none => 1) := by
  intro bs
  induction bs with
  | nil => simp [putBuckets, findBucket]
  | cons b0 rest ih =>
    unfold putBuckets
    rw [findBucket_cons]
    by_cases hb : b0.hash = hash
    · rw [if_pos hb, if_pos hb]
      cases hg : b0.getEntryForKey key with
      | some e =>
        simp only [List.map_cons, List.sum_cons, hg, Option.isSome_some, if_true]
        rw [Bucket.setEntryValue_length]
        rfl
      | none =>
        simp only [List.map_cons, List.sum_cons, hg, Option.isSome_none, Bool.false_eq_true,
          if_false, Bucket.addEntry, List.length_append, List.length_singleton]
        omega
    · rw [if_neg hb, if_neg hb]
      simp only [List.map_cons, List.sum_cons]
      rw [ih]
      omega

theorem removeEntry_hashes (hash : H) (key : K) :
    ∀ (bs : List (Bucket H K V)),
      (removeEntry hash key bs).map Bucket.hash = bs.map Bucket.hash := by
  intro bs
  induction bs with
  | nil => rfl
  | cons b0 rest ih =>
    unfold removeEntry
    by_cases hb : b0.hash = hash
    · rw [if_pos hb, List.map_cons, Bucket.removeEntryForKey_hash]
      rfl
    · rw [if_neg hb, List.map_cons, ih]
      rfl

theorem findBucket_removeEntry_same (hash : H) (key : K) :
    ∀ (bs : List (Bucket H K V)),
      findBucket hash (removeEntry hash key bs) =
        (findBucket hash bs).map (fun b => (b.removeEntryForKey key).1) := by
  intro bs
  induction bs with
  | nil => rfl
  | cons b0 rest ih =>
    unfold removeEntry
    by_cases hb : b0.hash = hash
    · rw [if_pos hb, findBucket_cons, findBucket_cons, if_pos hb,
        if_pos (by rw [Bucket.removeEntryForKey_hash]; exact hb)]
      rfl
    · rw [if_neg hb, findBucket_cons, findBucket_cons, if_neg hb, if_neg hb]
      exact ih

theorem findBucket_removeEntry_ne (hash : H) (key : K) (hash1 : H) (hne : hash1 ≠ hash) :
    ∀ (bs : List (Bucket H K V)),
      findBucket hash1 (removeEntry hash key bs) = findBucket hash1 bs := by
  intro bs
  induction bs with
  | nil => rfl
  | cons b0 rest ih =>
    unfold removeEntry
    by_cases hb : b0.hash = hash
    · have hb1 : ¬ b0.hash = hash1 := by rw [hb]; exact Ne.symm hne
      rw [if_pos hb, findBucket_cons, findBucket_cons, if_neg hb1,
        if_neg (by rw [Bucket.removeEntryForKey_hash]; exact hb1)]
    · rw [if_neg hb, findBucket_cons, findBucket_cons, ih]

/-- A property `Q` holds of every bucket after the removal of an entry, when it holds of the
buckets that had the property `P` and of what `removeEntryForKey` makes of them. -/
theorem removeEntry_forall (P Q : Bucket H K V → Prop) (hash : H) (key : K)
    (hrem : ∀ b, P b → b.hash = hash → Q (b.removeEntryForKey key).1)
    (hkeep : ∀ b, P b → Q b) :
    ∀ (bs : List (Bucket H K V)), (∀ b ∈ bs, P b) → ∀ b ∈ removeEntry hash key bs, Q b := by
  intro bs
  induction bs with
  | nil => intro _ b hb; simp [removeEntry] at hb
  | cons b0 rest ih =>
    intro hall b hb
    unfold removeEntry at hb
    by_cases hb0 : b0.hash = hash
    · rw [if_pos hb0] at hb
      rcases List.mem_cons.mp hb with h0 | hmem
      · rw [h0]
        exact hrem b0 (hall b0 (List.mem_cons_self _ _)) hb0
      · exact hkeep b (hall b (List.mem_cons_of_mem _ hmem))
    · rw [if_neg hb0] at hb
      rcases List.mem_cons.mp hb with h0 | hmem
      · rw [h0]
        exact hkeep b0 (hall b0 (List.mem_cons_self _ _))
      · exact ih (fun c hc => hall c (List.mem_cons_of_mem _ hc)) b hmem

theorem removeEntry_length (hash : H) (key : K) :
    ∀ (bs : List (Bucket H K V)),
      ((removeEntry hash key bs).map (fun b => b.entries.length)).sum +
          (match findBucket hash bs with
            | some b => if (b.getEntryForKey key).isSome then 1 else 0
            | none => 0) =
        (bs.map (fun b => b.entries.length)).sum := by
  intro bs
  induction bs with
  | nil => rfl
  | cons b0 rest ih =>
    unfold removeEntry
    rw [findBucket_cons]
    by_cases hb : b0.hash = hash
    · rw [if_pos hb, if_pos hb]
      have h := Bucket.removeEntryForKey_length b0 key
      simp only [List.map_cons, List.sum_cons]
      omega
    · rw [if_neg hb, if_neg hb]
      simp only [List.map_cons, List.sum_cons]
      omega

end TableLemmas

section HashtableLists

variable {H K V : Type}

theorem Hashtable.size_eq (t : Hashtable H K V) :
    t.size = (t.buckets.map (fun b => b.entries.length)).sum := by
  unfold Hashtable.size
  rw [List.foldl_reverse]
  induction t.buckets with
  | nil => rfl
  | cons b rest ih =>
    rw [List.foldr_cons, ih, List.map_cons, List.sum_cons]
    exact Nat.add_comm _ _

theorem Hashtable.keys_eq_map (t : Hashtable H K V) : t.keys = t.entries.map Prod.fst := by
  unfold Hashtable.keys Hashtable.entries
  rw [List.map_flatMap]

theorem Hashtable.values_eq_map (t : Hashtable H K V) : t.values = t.entries.map Prod.snd := by
  unfold Hashtable.values Hashtable.entries
  rw [List.map_flatMap]

theorem Hashtable.size_eq_length (t : Hashtable H K V) : t.size = t.entries.length := by
  rw [Hashtable.size_eq]
  unfold Hashtable.entries
  induction t.buckets with
  | nil => rfl
  | cons b rest ih =>
    rw [List.reverse_cons, List.flatMap_append, List.length_append, ← ih]
    simp only [List.map_cons, List.sum_cons, List.flatMap_cons, List.flatMap_nil,
      List.append_nil]
    exact Nat.add_comm _ _

theorem Hashtable.mem_entries_iff (t : Hashtable H K V) (e : K × V) :
    e ∈ t.entries ↔ ∃ b ∈ t.buckets, e ∈ b.entries := by
  unfold Hashtable.entries
  rw [List.mem_flatMap]
  simp only [List.mem_reverse]

end HashtableLists

section HashtableEmpty

variable {H K V : Type} [Hashing K H]

theorem Hashtable.Wf.of_empty : (Hashtable.empty : Hashtable H K V).Wf :=
  ⟨List.nodup_nil, fun b hb => by simp [Hashtable.empty] at hb,
    fun b hb => by simp [Hashtable.empty] at hb, fun b hb => by simp [Hashtable.empty] at hb⟩

theorem Hashtable.Wf.of_clear (t : Hashtable H K V) : t.clear.Wf := Hashtable.Wf.of_empty

end HashtableEmpty

section HashtableKeys

variable {H K V : Type} [Hashing K H]

theorem Hashtable.Wf.keys_nodup {t : Hashtable H K V} (h : t.Wf) : t.keys.Nodup := by
  unfold Hashtable.keys
  rw [List.nodup_flatMap]
  refine ⟨fun b hb => h.distinct b (List.mem_reverse.mp hb), ?_⟩
  rw [List.pairwise_reverse]
  have hp : List.Pairwise (fun a b : Bucket H K V => a.hash ≠ b.hash) t.buckets :=
    List.pairwise_map.mp h.hashes
  refine List.Pairwise.imp_of_mem ?_ hp
  intro a b ha hb hab
  show List.Disjoint (b.entries.map Prod.fst) (a.entries.map Prod.fst)
  rw [List.disjoint_left]
  intro x hx1 hx2
  obtain ⟨e1, he1, hk1⟩ := List.mem_map.mp hx1
  obtain ⟨e2, he2, hk2⟩ := List.mem_map.mp hx2
  have h1 := h.hashed b hb e1 he1
  have h2 := h.hashed a ha e2 he2
  rw [hk1] at h1
  rw [hk2] at h2
  exact hab (h2.symm.trans h1)

end HashtableKeys

section HashtableLookup

variable {H K V : Type} [DecidableEq H]

theorem Hashtable.getBucketForHash_of_nil (t : Hashtable H K V) (hash : H)
    (hd : t.detached = []) : t.getBucketForHash hash = findBucket hash t.buckets := by
  unfold Hashtable.getBucketForHash
  rw [hd]
  rfl

theorem Hashtable.writeBucket_of_nil (t : Hashtable H K V) (hash : H)
    (write : List (Bucket H K V) → List (Bucket H K V)) (hd : t.detached = []) :
    t.writeBucket hash write = ⟨write t.buckets, []⟩ := by
  unfold Hashtable.writeBucket
  rw [hd]
  rfl

theorem Hashtable.getBucketForHash_some (t : Hashtable H K V) (hash : H) (b : Bucket H K V)
    (h : t.getBucketForHash hash = some b) :
    (b ∈ t.detached ∨ b ∈ t.buckets) ∧ b.hash = hash := by
  unfold Hashtable.getBucketForHash at h
  cases hd : findBucket hash t.detached with
  | some c =>
    rw [hd] at h
    simp only [Option.some.injEq] at h
    subst h
    exact ⟨Or.inl (findBucket_some _ _ _ hd).1, (findBucket_some _ _ _ hd).2⟩
  | none =>
    rw [hd] at h
    exact ⟨Or.inr (findBucket_some _ _ _ h).1, (findBucket_some _ _ _ h).2⟩

end HashtableLookup

section HashtableFacts

variable {H K V : Type} [DecidableEq H] [DecidableEq K] [Hashing K H]

/-- The bucket that `bucketsByHash` holds under the hash of the key after `put(key, value)` :
the bucket it held before with the entry written, or a new bucket. -/
theorem Hashtable.getBucketForHash_put_same (t : Hashtable H K V) (key : K) (value : V) :
    (t.put key value).1.getBucketForHash (Hashing.hashingFunction key) =
      some (match t.getBucketForHash (Hashing.hashingFunction key) with
        | some b =>
          (match b.getEntryForKey key with
            | some _ => b.setEntryValue key value
            | none => b.addEntry key value)
        | none => ⟨Hashing.hashingFunction key, [(key, value)]⟩) := by
  unfold Hashtable.put Hashtable.writeBucket Hashtable.getBucketForHash
  cases hd : findBucket (Hashing.hashingFunction key) t.detached with
  | some b =>
    simp only
    rw [findBucket_putBuckets_same, hd]
  | none =>
    simp only
    rw [hd, findBucket_putBuckets_same]

theorem Hashtable.getBucketForHash_put_ne (t : Hashtable H K V) (key : K) (value : V)
    (hash1 : H) (hne : hash1 ≠ Hashing.hashingFunction key) :
    (t.put key value).1.getBucketForHash hash1 = t.getBucketForHash hash1 := by
  unfold Hashtable.put Hashtable.writeBucket Hashtable.getBucketForHash
  cases hd : findBucket (Hashing.hashingFunction key) t.detached with
  | some b =>
    simp only
    rw [findBucket_putBuckets_ne _ _ _ _ hne]
  | none =>
    simp only
    rw [findBucket_putBuckets_ne _ _ _ _ hne]

/-- After `put(key, value)`, `get(key)` is `value`. -/
theorem Hashtable.get_put_self (t : Hashtable H K V) (key : K) (value : V) :
    (t.put key value).1.get key = some value := by
  unfold Hashtable.get
  rw [Hashtable.getBucketForHash_put_same]
  cases hf : t.getBucketForHash (Hashing.hashingFunction key) with
  | none =>
    simp only
    rw [Bucket.getEntryForKey_cons, Bucket.getEntryForKey_nil]
    simp
  | some b =>
    simp only
    cases hg : b.getEntryForKey key with
    | some e =>
      simp only
      rw [Bucket.getEntryForKey_setEntryValue_self b key value e hg]
    | none =>
      simp only
      rw [Bucket.getEntryForKey_addEntry, if_pos rfl]

/-- After `put(key, value)`, `get` of every other key is what it was. -/
theorem Hashtable.get_put_other (t : Hashtable H K V) (key : K) (value : V) (k : K)
    (hk : k ≠ key) : (t.put key value).1.get k = t.get k := by
  unfold Hashtable.get
  by_cases hh : (Hashing.hashingFunction k : H) = Hashing.hashingFunction key
  · rw [hh, Hashtable.getBucketForHash_put_same]
    cases hf : t.getBucketForHash (Hashing.hashingFunction key) with
    | none =>
      simp only
      rw [Bucket.getEntryForKey_cons, Bucket.getEntryForKey_nil]
      simp [hk]
    | some b =>
      simp only
      cases hg : b.getEntryForKey key with
      | some e =>
        simp only
        rw [Bucket.getEntryForKey_setEntryValue_other b key value k hk]
      | none =>
        simp only
        rw [Bucket.getEntryForKey_addEntry, if_neg hk]
  · rw [Hashtable.getBucketForHash_put_ne _ _ _ _ hh]

theorem Hashtable.get_empty (k : K) : (Hashtable.empty : Hashtable H K V).get k = none := rfl

theorem Hashtable.containsKey_eq (t : Hashtable H K V) (k : K) :
    t.containsKey k = (t.get k).isSome := by
  unfold Hashtable.containsKey Hashtable.get
  cases t.getBucketForHash (Hashing.hashingFunction k) with
  | none => rfl
  | some b =>
    simp only
    rw [Bucket.containsKey_isSome]
    cases b.getEntryForKey k <;> rfl

theorem Hashtable.get_clear (t : Hashtable H K V) (k : K) : t.clear.get k = none := rfl

theorem Hashtable.get_of_bucket (t : Hashtable H K V) (k : K) (c : Bucket H K V)
    (h : t.getBucketForHash (Hashing.hashingFunction k) = some c) :
    t.get k = (c.getEntryForKey k).map Prod.snd := by
  unfold Hashtable.get
  rw [h]
  simp only
  cases hg : c.getEntryForKey k with
  | none => rfl
  | some e => rfl

theorem Hashtable.get_of_no_bucket (t : Hashtable H K V) (k : K)
    (h : t.getBucketForHash (Hashing.hashingFunction k) = none) : t.get k = none := by
  unfold Hashtable.get
  rw [h]

/-- A mapped key is in an entry of a bucket that `bucketsByHash` holds. -/
theorem Hashtable.mem_of_get (t : Hashtable H K V) (k : K) (v : V) (h : t.get k = some v) :
    ∃ b, (b ∈ t.detached ∨ b ∈ t.buckets) ∧ (k, v) ∈ b.entries := by
  cases hf : t.getBucketForHash (Hashing.hashingFunction k) with
  | none => rw [t.get_of_no_bucket k hf] at h; simp at h
  | some b =>
    rw [t.get_of_bucket k b hf] at h
    cases hg : b.getEntryForKey k with
    | none => rw [hg] at h; simp at h
    | some e =>
      rw [hg] at h
      simp only [Option.map_some', Option.some.injEq] at h
      obtain ⟨he, hk⟩ := Bucket.getEntryForKey_mem b k e hg
      have : e = (k, v) := Prod.ext hk h
      rw [← this]
      exact ⟨b, (t.getBucketForHash_some _ b hf).1, he⟩

/-- Without a detached bucket, `size()` is one more after a `put` under a key that was not
mapped, and the same after a `put` under a key that was. -/
theorem Hashtable.size_put (t : Hashtable H K V) (key : K) (value : V)
    (hd : t.detached = []) :
    (t.put key value).1.size = t.size + if (t.get key).isSome then 0 else 1 := by
  have hput : (t.put key value).1 =
      ⟨putBuckets (Hashing.hashingFunction key) key value t.buckets, []⟩ :=
    t.writeBucket_of_nil _ _ hd
  rw [hput, Hashtable.size_eq, Hashtable.size_eq]
  show ((putBuckets (Hashing.hashingFunction key) key value t.buckets).map
    (fun b => b.entries.length)).sum = _
  rw [putBuckets_length]
  unfold Hashtable.get
  rw [t.getBucketForHash_of_nil _ hd]
  cases findBucket (Hashing.hashingFunction key) t.buckets with
  | none => rfl
  | some b =>
    have hsome : ∀ x : Option (K × V),
        (match x with
          | some e => some e.2
          | none => none : Option V).isSome = x.isSome := by
      intro x
      cases x <;> rfl
    simp only [hsome]

theorem Hashtable.detached_put (t : Hashtable H K V) (key : K) (value : V)
    (hd : t.detached = []) : (t.put key value).1.detached = [] := by
  have hput : (t.put key value).1 =
      ⟨putBuckets (Hashing.hashingFunction key) key value t.buckets, []⟩ :=
    t.writeBucket_of_nil _ _ hd
  rw [hput]

/-- The invariant of `buckets` after the write of `put` into it. -/
theorem Hashtable.Wf.put_buckets {t : Hashtable H K V} (h : t.Wf) (key : K) (value : V)
    (d : List (Bucket H K V)) :
    (⟨putBuckets (Hashing.hashingFunction key) key value t.buckets, d⟩ :
      Hashtable H K V).Wf := by
  have hall : ∀ b ∈ putBuckets (Hashing.hashingFunction key) key value t.buckets,
      b.entries ≠ [] ∧ (b.entries.map Prod.fst).Nodup ∧
        ∀ e ∈ b.entries, (Hashing.hashingFunction e.1 : H) = b.hash := by
    refine putBuckets_forall _ _ key value ?_ ?_ ?_ t.buckets
      (fun b hb => ⟨h.nonempty b hb, h.distinct b hb, h.hashed b hb⟩)
    · refine ⟨by simp, by simp, ?_⟩
      intro e he
      simp only [List.mem_singleton] at he
      rw [he]
    · intro b ⟨h1, h2, h3⟩ hb
      refine ⟨?_, ?_, ?_⟩
      · intro hnil
        have hl := Bucket.setEntryValue_length b key value
        rw [hnil] at hl
        exact h1 (List.length_eq_zero.mp hl.symm)
      · rw [Bucket.setEntryValue_keys]
        exact h2
      · intro e he
        rw [Bucket.setEntryValue_hash]
        rcases Bucket.setEntryValue_mem b key value e he with h4 | h4
        · exact h3 e h4
        · rw [h4, hb]
    · intro b ⟨h1, h2, h3⟩ hb hg
      refine ⟨by simp [Bucket.addEntry], ?_, ?_⟩
      · show ((b.entries ++ [(key, value)]).map Prod.fst).Nodup
        rw [List.map_append, List.nodup_append]
        refine ⟨h2, by simp, ?_⟩
        intro x hx hx2
        simp only [List.map_cons, List.map_nil, List.mem_singleton] at hx2
        rw [hx2] at hx
        exact (Bucket.getEntryForKey_none_iff b key).mp hg hx
      · intro e he
        have he' : e ∈ b.entries ++ [(key, value)] := he
        rcases List.mem_append.mp he' with h4 | h4
        · exact h3 e h4
        · simp only [List.mem_singleton] at h4
          rw [h4]
          exact hb.symm
  refine ⟨?_, fun b hb => (hall b hb).1, fun b hb => (hall b hb).2.1,
    fun b hb => (hall b hb).2.2⟩
  show ((putBuckets (Hashing.hashingFunction key) key value t.buckets).map Bucket.hash).Nodup
  rw [putBuckets_hashes]
  by_cases hm : (Hashing.hashingFunction key : H) ∈ t.buckets.map Bucket.hash
  · rw [if_pos hm]
    exact h.hashes
  · rw [if_neg hm, List.nodup_append]
    refine ⟨h.hashes, by simp, ?_⟩
    intro x hx hx2
    simp only [List.mem_singleton] at hx2
    rw [hx2] at hx
    exact hm hx

theorem Hashtable.Wf.put {t : Hashtable H K V} (h : t.Wf) (key : K) (value : V) :
    (t.put key value).1.Wf := by
  unfold Hashtable.put Hashtable.writeBucket
  cases hd : findBucket (Hashing.hashingFunction key) t.detached with
  | some b => exact ⟨h.hashes, h.nonempty, h.distinct, h.hashed⟩
  | none => exact h.put_buckets key value t.detached

end HashtableFacts

section SearchBuckets

variable {H K V : Type} [DecidableEq H]

theorem searchBuckets_cons (hash : H) (b : Bucket H K V) (rest : List (Bucket H K V)) :
    searchBuckets hash (b :: rest) =
      match searchBuckets hash rest with
      | some i => some (i + 1)
      | none => if hash = b.hash then some 0 else none := rfl

/-- When no two buckets carry the same hash, the index that `searchBuckets` returns is the
index of the bucket of that hash. -/
theorem searchBuckets_getElem (hash : H) :
    ∀ (bs : List (Bucket H K V)), (bs.map Bucket.hash).Nodup → ∀ c,
      findBucket hash bs = some c → bs[(searchBuckets hash bs).getD 0]? = some c := by
  intro bs
  induction bs with
  | nil => intro _ c h; simp [findBucket] at h
  | cons b0 rest ih =>
    intro hnd c hc
    rw [List.map_cons, List.nodup_cons] at hnd
    rw [findBucket_cons] at hc
    rw [searchBuckets_cons]
    by_cases hb : b0.hash = hash
    · rw [if_pos hb] at hc
      simp only [Option.some.injEq] at hc
      have hout : hash ∉ rest.map Bucket.hash := hb ▸ hnd.1
      rw [(searchBuckets_none_iff hash rest).mpr hout]
      subst hc
      simp only
      rw [if_pos hb.symm]
      simp
    · rw [if_neg hb] at hc
      have hin : hash ∈ rest.map Bucket.hash := by
        rw [← (findBucket_some _ _ c hc).2]
        exact List.mem_map_of_mem Bucket.hash (findBucket_some _ _ c hc).1
      cases hr : searchBuckets hash rest with
      | none => exact absurd ((searchBuckets_none_iff hash rest).mp hr) (not_not.mpr hin)
      | some j =>
        have := ih hnd.2 c hc
        rw [hr] at this
        simpa using this

end SearchBuckets

section HashtableRemove

variable {H K V : Type} [DecidableEq H] [DecidableEq K] [Hashing K H]

/-- `remove(key)` on a table without a detached bucket whose `buckets` satisfy the
invariant: the returned value is the value mapped to the key, the key is not mapped
afterwards, every other key is mapped as before, the size goes down by one exactly when the
key was mapped, the invariant holds, and no bucket is detached afterwards unless the hash of
the key is `__proto__`. -/
theorem Hashtable.Wf.remove_entry {t : Hashtable H K V} (h : t.Wf) (hd : t.detached = [])
    (key : K) :
    (t.remove key).2 = t.get key ∧ (t.remove key).1.get key = none ∧
      (∀ k, k ≠ key → (t.remove key).1.get k = t.get k) ∧
      (t.remove key).1.size + (if (t.get key).isSome then 1 else 0) = t.size ∧
      (t.remove key).1.Wf ∧
      (Hashing.isProto K (Hashing.hashingFunction key : H) = false →
        (t.remove key).1.detached = []) := by
  have hlook := t.getBucketForHash_of_nil (Hashing.hashingFunction key) hd
  have hwrite := t.writeBucket_of_nil (Hashing.hashingFunction key)
    (removeEntry (Hashing.hashingFunction key) key) hd
  cases hf : findBucket (Hashing.hashingFunction key) t.buckets with
  | none =>
    have hrem : t.remove key = (t, none) := by
      unfold Hashtable.remove
      rw [hlook, hf]
    have hget := t.get_of_no_bucket key (hlook.trans hf)
    rw [hrem, hget]
    exact ⟨rfl, rfl, fun _ _ => rfl, rfl, h, fun _ => hd⟩
  | some b =>
    obtain ⟨hbmem, hbhash⟩ := findBucket_some _ _ b hf
    have hget := t.get_of_bucket key b (hlook.trans hf)
    have hval := Bucket.removeEntryForKey_value b key
    cases hv : (b.removeEntryForKey key).2 with
    | none =>
      have hrem : t.remove key = (t, none) := by
        unfold Hashtable.remove
        rw [hlook, hf]
        simp only [hv]
      have hnone : t.get key = none := by rw [hget, ← hval, hv]
      rw [hrem, hnone]
      exact ⟨rfl, rfl, fun _ _ => rfl, rfl, h, fun _ => hd⟩
    | some v =>
      have hsome : t.get key = some v := by rw [hget, ← hval, hv]
      have hfound : (b.getEntryForKey key).isSome = true := by
        cases hg : b.getEntryForKey key with
        | none => rw [hg] at hval; rw [hval] at hv; simp at hv
        | some e => rfl
      have hb1 := findBucket_removeEntry_same (Hashing.hashingFunction key) key t.buckets
      rw [hf] at hb1
      simp only [Option.map_some'] at hb1
      have hlen := removeEntry_length (Hashing.hashingFunction key) key t.buckets
      rw [hf] at hlen
      simp only [hfound, if_true] at hlen
      have hhashes := removeEntry_hashes (Hashing.hashingFunction key) key t.buckets
      have hsub := Bucket.removeEntryForKey_sublist b key
      have hnd1 : ((removeEntry (Hashing.hashingFunction key) key t.buckets).map
          Bucket.hash).Nodup := by
        rw [hhashes]
        exact h.hashes
      by_cases hempty : (b.removeEntryForKey key).1.entries.length = 0
      · have hnil : (b.removeEntryForKey key).1.entries = [] := List.length_eq_zero.mp hempty
        have hidx := searchBuckets_getElem (Hashing.hashingFunction key)
          (removeEntry (Hashing.hashingFunction key) key t.buckets) hnd1 _ hb1
        have hfilter := arrayRemoveAt_searchBuckets (Hashing.hashingFunction key)
          (removeEntry (Hashing.hashingFunction key) key t.buckets) hnd1
          (by rw [hhashes, ← hbhash]; exact List.mem_map_of_mem Bucket.hash hbmem)
        have hdel : deleteBucket (Hashing.hashingFunction key)
            [(b.removeEntryForKey key).1] = [] := by
          simp [deleteBucket, Bucket.removeEntryForKey_hash, hbhash]
        have hrem : t.remove key =
            (⟨(removeEntry (Hashing.hashingFunction key) key t.buckets).filter
                (fun c => decide (c.hash ≠ Hashing.hashingFunction key)),
              if Hashing.isProto K (Hashing.hashingFunction key : H) then
                [(b.removeEntryForKey key).1] else []⟩, some v) := by
          unfold Hashtable.remove
          rw [hlook, hf]
          simp only [hv, hempty, if_true]
          rw [hwrite]
          unfold Hashtable.dropBucket
          simp only [hidx, hfilter, List.nil_append, Option.toList_some, hdel]
        -- lookups in the table that `remove` leaves
        have hother : ∀ hash1 : H, hash1 ≠ Hashing.hashingFunction key →
            (t.remove key).1.getBucketForHash hash1 = findBucket hash1 t.buckets := by
          intro hash1 hne
          rw [hrem]
          unfold Hashtable.getBucketForHash
          have hD : findBucket hash1
              (if Hashing.isProto K (Hashing.hashingFunction key : H) then
                [(b.removeEntryForKey key).1] else []) = none := by
            split
            · rw [findBucket_cons, if_neg (by
                rw [Bucket.removeEntryForKey_hash, hbhash]; exact Ne.symm hne)]
              rfl
            · rfl
          simp only [hD]
          rw [findBucket_filter_ne, if_neg hne, findBucket_removeEntry_ne _ _ _ hne]
        have hsame : ∀ k : K,
            (Hashing.hashingFunction k : H) = Hashing.hashingFunction key →
              (t.remove key).1.get k = none := by
          intro k hh
          rw [hrem]
          unfold Hashtable.get Hashtable.getBucketForHash
          rw [hh]
          by_cases hp : Hashing.isProto K (Hashing.hashingFunction key : H) = true
          · simp only [hp, if_true]
            rw [findBucket_cons, if_pos (by rw [Bucket.removeEntryForKey_hash, hbhash])]
            simp only
            rw [(Bucket.getEntryForKey_none_iff _ k).mpr (by rw [hnil]; simp)]
          · simp only [hp]
            rw [findBucket_filter_ne, if_pos rfl]
            rfl
        refine ⟨?_, hsame key rfl, ?_, ?_, ?_, ?_⟩
        · rw [hrem, hsome]
        · intro k hk
          by_cases hh : (Hashing.hashingFunction k : H) = Hashing.hashingFunction key
          · rw [hsame k hh, t.get_of_bucket k b (by rw [hh]; exact hlook.trans hf),
              ← Bucket.getEntryForKey_removeEntryForKey_other b key k hk,
              (Bucket.getEntryForKey_none_iff _ k).mpr (by rw [hnil]; simp)]
            rfl
          · unfold Hashtable.get
            rw [hother _ hh, t.getBucketForHash_of_nil _ hd]
        · rw [hrem, hsome, Hashtable.size_eq, Hashtable.size_eq]
          have hfl := filter_ne_length (Hashing.hashingFunction key)
            (removeEntry (Hashing.hashingFunction key) key t.buckets) hnd1
          rw [hb1] at hfl
          simp only [hempty] at hfl
          simp only [Option.isSome_some, if_true]
          show ((List.filter _ _).map _).sum + 1 = _
          omega
        · rw [hrem]
          have hall : ∀ c ∈ removeEntry (Hashing.hashingFunction key) key t.buckets,
              c.hash ≠ Hashing.hashingFunction key →
                c.entries ≠ [] ∧ (c.entries.map Prod.fst).Nodup ∧
                  ∀ e ∈ c.entries, (Hashing.hashingFunction e.1 : H) = c.hash := by
            refine removeEntry_forall (fun c => c ∈ t.buckets) _ _ key ?_ ?_ t.buckets
              (fun c hc => hc)
            · intro c _ hc hne
              rw [Bucket.removeEntryForKey_hash] at hne
              exact absurd hc hne
            · intro c hc _
              exact ⟨h.nonempty c hc, h.distinct c hc, h.hashed c hc⟩
          have hmem : ∀ c ∈ (removeEntry (Hashing.hashingFunction key) key t.buckets).filter
              (fun c => decide (c.hash ≠ Hashing.hashingFunction key)),
              c.entries ≠ [] ∧ (c.entries.map Prod.fst).Nodup ∧
                ∀ e ∈ c.entries, (Hashing.hashingFunction e.1 : H) = c.hash := by
            intro c hc
            obtain ⟨hc1, hc2⟩ := List.mem_filter.mp hc
            exact hall c hc1 (by simpa using hc2)
          refine ⟨?_, fun c hc => (hmem c hc).1, fun c hc => (hmem c hc).2.1,
            fun c hc => (hmem c hc).2.2⟩
          show (((removeEntry (Hashing.hashingFunction key) key t.buckets).filter
            (fun c => decide (c.hash ≠ Hashing.hashingFunction key))).map Bucket.hash).Nodup
          exact List.Nodup.sublist ((List.filter_sublist _).map Bucket.hash) hnd1
        · intro hp
          rw [hrem]
          simp [hp]
      · have hrem : t.remove key =
            (⟨removeEntry (Hashing.hashingFunction key) key t.buckets, []⟩, some v) := by
          unfold Hashtable.remove
          rw [hlook, hf]
          simp only [hv, hempty, if_false]
          rw [hwrite]
        have hlook1 : ∀ hash1 : H,
            (t.remove key).1.getBucketForHash hash1 =
              findBucket hash1 (removeEntry (Hashing.hashingFunction key) key t.buckets) := by
          intro hash1
          rw [hrem]
          exact Hashtable.getBucketForHash_of_nil _ _ rfl
        refine ⟨?_, ?_, ?_, ?_, ?_, ?_⟩
        · rw [hrem, hsome]
        · rw [Hashtable.get_of_bucket _ key _ ((hlook1 _).trans hb1),
            (Bucket.getEntryForKey_none_iff _ key).mpr
              (Bucket.removeEntryForKey_not_mem b key (h.distinct b hbmem))]
          rfl
        · intro k hk
          by_cases hh : (Hashing.hashingFunction k : H) = Hashing.hashingFunction key
          · rw [Hashtable.get_of_bucket _ k _ (by rw [hh]; exact (hlook1 _).trans hb1),
              t.get_of_bucket k b (by rw [hh]; exact hlook.trans hf),
              Bucket.getEntryForKey_removeEntryForKey_other b key k hk]
          · unfold Hashtable.get
            rw [hlook1, findBucket_removeEntry_ne _ _ _ hh, t.getBucketForHash_of_nil _ hd]
        · rw [hrem, hsome, Hashtable.size_eq, Hashtable.size_eq]
          simp only [Option.isSome_some, if_true]
          exact hlen
        · rw [hrem]
          have hall : ∀ c ∈ removeEntry (Hashing.hashingFunction key) key t.buckets,
              c.entries ≠ [] ∧ (c.entries.map Prod.fst).Nodup ∧
                ∀ e ∈ c.entries, (Hashing.hashingFunction e.1 : H) = c.hash := by
            refine removeEntry_forall (fun c => c ∈ t.buckets) _ _ key ?_ ?_ t.buckets
              (fun c hc => hc)
            · intro c hc hch
              have hcb : c = b := by
                have h1 := findBucket_of_mem t.buckets h.hashes c hc
                rw [hch, hf] at h1
                simp only [Option.some.injEq] at h1
                exact h1.symm
              rw [hcb]
              refine ⟨fun hn => hempty (by rw [hn]; rfl), ?_, ?_⟩
              · exact List.Nodup.sublist (hsub.map Prod.fst) (h.distinct b hbmem)
              · intro e he
                rw [Bucket.removeEntryForKey_hash]
                exact h.hashed b hbmem e (hsub.subset he)
            · intro c hc
              exact ⟨h.nonempty c hc, h.distinct c hc, h.hashed c hc⟩
          exact ⟨hnd1, fun c hc => (hall c hc).1, fun c hc => (hall c hc).2.1,
            fun c hc => (hall c hc).2.2⟩
        · intro _
          rw [hrem]

/-- A sequence of calls none of whose keys has the hash `__proto__` keeps the invariant
of `buckets` and detaches no bucket. -/
theorem Hashtable.Wf.run_plain (calls : List (TableCall K V)) :
    ∀ {t : Hashtable H K V}, t.Wf → t.detached = [] → TableCall.plain calls = true →
      (t.run calls).Wf ∧ (t.run calls).detached = [] := by
  induction calls with
  | nil => intro t h hd _; exact ⟨h, hd⟩
  | cons k ks ih =>
    intro t h hd hp
    cases k with
    | put key value =>
      simp only [TableCall.plain, Bool.and_eq_true] at hp
      exact ih (h.put key value) (t.detached_put key value hd) hp.2
    | remove key =>
      simp only [TableCall.plain, Bool.and_eq_true, Bool.not_eq_true'] at hp
      obtain ⟨_, _, _, _, hw, hd1⟩ := h.remove_entry hd key
      exact ih hw (hd1 hp.1) hp.2
    | clear =>
      simp only [TableCall.plain] at hp
      exact ih (Hashtable.Wf.of_clear t) rfl hp

/-- Without a detached bucket, a mapped key is in the entries with its value. -/
theorem Hashtable.mem_entries_of_get (t : Hashtable H K V) (hd : t.detached = []) (k : K)
    (v : V) (h : t.get k = some v) : (k, v) ∈ t.entries := by
  obtain ⟨b, hb, he⟩ := t.mem_of_get k v h
  rw [hd] at hb
  rw [Hashtable.mem_entries_iff]
  rcases hb with hb | hb
  · simp at hb
  · exact ⟨b, hb, he⟩

/-- Without a detached bucket, on `buckets` that satisfy the invariant every entry is the
mapping of its key. -/
theorem Hashtable.Wf.get_of_mem {t : Hashtable H K V} (h : t.Wf) (hd : t.detached = [])
    (e : K × V) (he : e ∈ t.entries) : t.get e.1 = some e.2 := by
  obtain ⟨b, hb, heb⟩ := (t.mem_entries_iff e).mp he
  have hf : t.getBucketForHash (Hashing.hashingFunction e.1) = some b := by
    rw [t.getBucketForHash_of_nil _ hd, h.hashed b hb e heb]
    exact findBucket_of_mem t.buckets h.hashes b hb
  rw [t.get_of_bucket e.1 b hf]
  have := Bucket.getEntryForKey_of_mem b.hash b.entries (h.distinct b hb) e heb
  rw [Bucket.getEntryForKey_congr b ⟨b.hash, b.entries⟩ e.1 rfl, this]
  rfl

theorem Hashtable.Wf.mem_keys_iff {t : Hashtable H K V} (h : t.Wf) (hd : t.detached = [])
    (k : K) : k ∈ t.keys ↔ ∃ v, t.get k = some v := by
  rw [Hashtable.keys_eq_map]
  constructor
  · intro hk
    obtain ⟨e, he, hke⟩ := List.mem_map.mp hk
    exact ⟨e.2, hke ▸ h.get_of_mem hd e he⟩
  · intro ⟨v, hv⟩
    exact List.mem_map.mpr ⟨(k, v), t.mem_entries_of_get hd k v hv, rfl⟩

end HashtableRemove

/-! ## The node heap -/

theorem length_writeNode (h : List LinkedNode) (a : Nat) (f : LinkedNode → LinkedNode) :
    (writeNode h a f).length = h.length := by
  simp [writeNode]

theorem readNode_writeNode (h : List LinkedNode) (a b : Nat) (f : LinkedNode → LinkedNode) :
    readNode (writeNode h a f) b
      = if a = b ∧ a < h.length then f (readNode h b) else readNode h b := by
  unfold writeNode
  by_cases hab : a = b
  · subst hab
    by_cases hlt : a < h.length
    · simp [readNode, List.getElem?_set, hlt]
    · have hnone : h[a]? = none := List.getElem?_eq_none (by omega)
      simp [readNode, List.getElem?_set, hlt, hnone]
  · simp [readNode, List.getElem?_set, hab]

theorem readNode_writeNode_same (h : List LinkedNode) (a : Nat) (f : LinkedNode → LinkedNode)
    (ha : a < h.length) : readNode (writeNode h a f) a = f (readNode h a) := by
  simp [readNode_writeNode, ha]

theorem readNode_writeNode_ne (h : List LinkedNode) (a b : Nat) (f : LinkedNode → LinkedNode)
    (hab : a ≠ b) : readNode (writeNode h a f) b = readNode h b := by
  simp [readNode_writeNode, hab]

theorem readNode_append_old (h : List LinkedNode) (n : LinkedNode) (a : Nat)
    (ha : a < h.length) : readNode (h ++ [n]) a = readNode h a := by
  simp [readNode, List.getElem?_append_left ha]

theorem readNode_append_new (h : List LinkedNode) (n : LinkedNode) :
    readNode (h ++ [n]) h.length = n := by
  simp [readNode]

theorem headOr_append (nxt : Option Nat) (as bs : List Nat) :
    headOr nxt (as ++ bs) = headOr (headOr nxt bs) as := by
  cases as <;> rfl

theorem lastOr_append (prev : Option Nat) (as bs : List Nat) :
    lastOr prev (as ++ bs) = lastOr (lastOr prev as) bs := by
  induction as generalizing prev with
  | nil => rfl
  | cons a rest ih => exact ih (some a)

theorem headOr_none_eq_head? (as : List Nat) : headOr none as = as.head? := by
  cases as <;> rfl

theorem lastOr_none_eq_getLast? (as : List Nat) : lastOr none as = as.getLast? := by
  have key : ∀ (bs : List Nat) (p : Option Nat),
      lastOr p bs = match bs.getLast? with | some z => some z | none => p := by
    intro bs
    induction bs with
    | nil => intro p; rfl
    | cons b rest ih =>
      intro p
      show lastOr (some b) rest = _
      rw [ih (some b)]
      cases rest with
      | nil => rfl
      | cons c rest2 =>
        rw [List.getLast?_cons_cons]
        cases hcr : (c :: rest2).getLast? with
        | some z => rfl
        | none => simp at hcr
  rw [key as none]
  cases as.getLast? <;> rfl

theorem Fwd_append (h : List LinkedNode) (as bs : List Nat) (nxt : Option Nat) :
    Fwd h (as ++ bs) nxt ↔ Fwd h as (headOr nxt bs) ∧ Fwd h bs nxt := by
  induction as with
  | nil => simp [Fwd]
  | cons a rest ih =>
    show ((readNode h a).nextLinked = headOr nxt (rest ++ bs) ∧ Fwd h (rest ++ bs) nxt)
      ↔ ((readNode h a).nextLinked = headOr (headOr nxt bs) rest ∧ Fwd h rest (headOr nxt bs))
        ∧ Fwd h bs nxt
    rw [ih, headOr_append, and_assoc]

theorem Bwd_append (h : List LinkedNode) (as bs : List Nat) (prev : Option Nat) :
    Bwd h prev (as ++ bs) ↔ Bwd h prev as ∧ Bwd h (lastOr prev as) bs := by
  induction as generalizing prev with
  | nil => simp [Bwd, lastOr]
  | cons a rest ih =>
    show ((readNode h a).prevLinked = prev ∧ Bwd h (some a) (rest ++ bs))
      ↔ ((readNode h a).prevLinked = prev ∧ Bwd h (some a) rest)
        ∧ Bwd h (lastOr (some a) rest) bs
    rw [ih, and_assoc]

theorem Fwd_congr (h h' : List LinkedNode) (as : List Nat) (nxt : Option Nat)
    (hsame : ∀ a ∈ as, (readNode h' a).nextLinked = (readNode h a).nextLinked)
    (hf : Fwd h as nxt) : Fwd h' as nxt := by
  induction as with
  | nil => trivial
  | cons a rest ih =>
    obtain ⟨h1, h2⟩ := hf
    exact ⟨by rw [hsame a (List.mem_cons_self _ _)]; exact h1,
      ih (fun b hb => hsame b (List.mem_cons_of_mem _ hb)) h2⟩

theorem Bwd_congr (h h' : List LinkedNode) (as : List Nat) (prev : Option Nat)
    (hsame : ∀ a ∈ as, (readNode h' a).prevLinked = (readNode h a).prevLinked)
    (hb : Bwd h prev as) : Bwd h' prev as := by
  induction as generalizing prev with
  | nil => trivial
  | cons a rest ih =>
    obtain ⟨h1, h2⟩ := hb
    exact ⟨by rw [hsame a (List.mem_cons_self _ _)]; exact h1,
      ih (some a) (fun b hb => hsame b (List.mem_cons_of_mem _ hb)) h2⟩

/-- The forward iteration over a forward-linked chain visits exactly its nodes. -/
theorem walk_of_Fwd (h : List LinkedNode) (as : List Nat) (fuel : Nat) (hf : Fwd h as none)
    (hfuel : as.length ≤ fuel) :
    walk h fuel (headOr none as) = as.map (fun a => (readNode h a).obj) := by
  induction as generalizing fuel with
  | nil => cases fuel <;> rfl
  | cons a rest ih =>
    obtain ⟨h1, h2⟩ := hf
    cases fuel with
    | zero => simp at hfuel
    | succ n =>
      show (readNode h a).obj :: walk h n (readNode h a).nextLinked
        = (readNode h a).obj :: rest.map (fun a => (readNode h a).obj)
      rw [h1, ih n h2 (by simpa using hfuel)]

theorem length_le_of_nodup_of_lt (as : List Nat) (n : Nat) (hn : as.Nodup)
    (hv : ∀ a ∈ as, a < n) : as.length ≤ n := by
  have hsub : as ⊆ List.range n := fun a ha => List.mem_range.mpr (hv a ha)
  have := (List.subperm_of_subset hn hsub).length_le
  simpa using this

theorem readNode_writeNode_field {β : Type} (g : LinkedNode → β) (h : List LinkedNode)
    (a b : Nat) (f : LinkedNode → LinkedNode) (hg : ∀ n, g (f n) = g n) :
    g (readNode (writeNode h a f) b) = g (readNode h b) := by
  rw [readNode_writeNode]
  split
  · exact hg _
  · rfl

theorem LinkedList.append_spec (l : LinkedList) (as : List Nat) (a : Nat) (hc : Chain l as)
    (ha : a ∉ as) (hlt : a < l.nodes.length) :
    ∃ l', l.append a = .ok l' ∧ Chain l' (as ++ [a]) ∧ l'.count = l.count + 1 ∧
      l'.objToNodeMap = l.objToNodeMap ∧ l'.nodes.length = l.nodes.length ∧
      ∀ b, (readNode l'.nodes b).obj = (readNode l.nodes b).obj ∧
        (readNode l'.nodes b).free = (readNode l.nodes b).free := by
  rcases List.eq_nil_or_concat as with hnil | ⟨init, z, hcat⟩
  · subst hnil
    have hfirst : l.first = none := by simpa using hc.first_eq
    unfold LinkedList.append
    rw [hfirst]
    refine ⟨_, rfl, ?_, rfl, rfl, ?_, ?_⟩
    · refine ⟨by simp, ?_, ?_, ?_, by simp, by simp⟩
      · intro b hb
        simp only [List.nil_append, List.mem_singleton] at hb
        subst hb
        simpa [length_writeNode] using hlt
      · refine ⟨?_, trivial⟩
        simp [readNode_writeNode, length_writeNode, hlt, headOr]
      · refine ⟨?_, trivial⟩
        simp [readNode_writeNode, length_writeNode, hlt]
    · simp [length_writeNode]
    · intro b
      dsimp only
      constructor
      · rw [readNode_writeNode_field LinkedNode.obj, readNode_writeNode_field LinkedNode.obj]
        all_goals intro n; rfl
      · rw [readNode_writeNode_field LinkedNode.free, readNode_writeNode_field LinkedNode.free]
        all_goals intro n; rfl
  · rw [List.concat_eq_append] at hcat
    subst hcat
    have hne : init ++ [z] ≠ [] := by simp
    have hfirst : ∃ x, l.first = some x := by
      rw [hc.first_eq]
      cases init <;> simp
    obtain ⟨x, hx⟩ := hfirst
    have hlast : l.last = some z := by rw [hc.last_eq hne]; simp
    have hza : z ≠ a := by
      rintro rfl
      exact ha (by simp)
    have hzlt : z < l.nodes.length := hc.valid z (by simp)
    have hnd := hc.nodup
    rw [List.nodup_append] at hnd
    obtain ⟨_, _, hdisj⟩ := hnd
    have hzinit : ∀ b ∈ init, b ≠ z := by
      intro b hb hbz
      exact hdisj hb (by simp [hbz])
    have hainit : ∀ b ∈ init, b ≠ a := by
      intro b hb hba
      exact ha (by simp [← hba, hb])
    obtain ⟨hf1, hf2⟩ := (Fwd_append _ _ _ _).mp hc.fwd
    unfold LinkedList.append
    rw [hx, hlast]
    refine ⟨_, rfl, ?_, rfl, rfl, ?_, ?_⟩
    · refine ⟨?_, ?_, ?_, ?_, ?_, ?_⟩
      · exact List.Nodup.append hc.nodup (by simp) (by simpa using ha)
      · intro b hb
        simp only [length_writeNode]
        rcases List.mem_append.mp hb with hb | hb
        · exact hc.valid b hb
        · simp only [List.mem_singleton] at hb
          subst hb
          exact hlt
      · rw [Fwd_append, Fwd_append]
        refine ⟨⟨?_, ?_, trivial⟩, ?_, trivial⟩
        · refine Fwd_congr _ _ _ _ ?_ hf1
          intro b hb
          dsimp only
          rw [readNode_writeNode_ne _ _ _ _ (Ne.symm (hainit b hb)),
            readNode_writeNode_ne _ _ _ _ (Ne.symm (hainit b hb)),
            readNode_writeNode_ne _ _ _ _ (Ne.symm (hzinit b hb))]
        · dsimp only
          rw [readNode_writeNode_ne _ _ _ _ (Ne.symm hza),
            readNode_writeNode_ne _ _ _ _ (Ne.symm hza),
            readNode_writeNode_same _ _ _ hzlt]
          rfl
        · dsimp only
          rw [readNode_writeNode_same _ _ _ (by simpa [length_writeNode] using hlt)]
          rfl
      · rw [Bwd_append]
        refine ⟨?_, ?_, trivial⟩
        · refine Bwd_congr _ _ _ _ ?_ hc.bwd
          intro b hb
          have hba : b ≠ a := by
            rintro rfl
            exact ha hb
          dsimp only
          rw [readNode_writeNode_ne _ _ _ _ (Ne.symm hba),
            readNode_writeNode_ne _ _ _ _ (Ne.symm hba),
            readNode_writeNode_field LinkedNode.prevLinked]
          intro n; rfl
        · dsimp only
          rw [readNode_writeNode_field LinkedNode.prevLinked,
            readNode_writeNode_same _ _ _ (by simpa [length_writeNode] using hlt),
            lastOr_append]
          · rfl
          · intro n; rfl
      · dsimp only
        rw [← hx, hc.first_eq]
        cases init <;> simp
      · intro _
        dsimp only
        simp
    · simp [length_writeNode]
    · intro b
      dsimp only
      constructor
      · rw [readNode_writeNode_field LinkedNode.obj, readNode_writeNode_field LinkedNode.obj,
          readNode_writeNode_field LinkedNode.obj]
        all_goals intro n; rfl
      · rw [readNode_writeNode_field LinkedNode.free, readNode_writeNode_field LinkedNode.free,
          readNode_writeNode_field LinkedNode.free]
        all_goals intro n; rfl

theorem length_setNextLinked (h : List LinkedNode) (ref v : Option Nat) :
    (setNextLinked h ref v).length = h.length := by
  cases ref <;> simp [setNextLinked, length_writeNode]

theorem length_setPrevLinked (h : List LinkedNode) (ref v : Option Nat) :
    (setPrevLinked h ref v).length = h.length := by
  cases ref <;> simp [setPrevLinked, length_writeNode]

theorem readNode_setNextLinked_field {β : Type} (g : LinkedNode → β) (h : List LinkedNode)
    (ref v : Option Nat) (b : Nat)
    (hg : ∀ (n : LinkedNode) (w : Option Nat), g { n with nextLinked := w } = g n) :
    g (readNode (setNextLinked h ref v) b) = g (readNode h b) := by
  cases ref with
  | none => rfl
  | some p => exact readNode_writeNode_field g h p b _ (fun n => hg n v)

theorem readNode_setPrevLinked_field {β : Type} (g : LinkedNode → β) (h : List LinkedNode)
    (ref v : Option Nat) (b : Nat)
    (hg : ∀ (n : LinkedNode) (w : Option Nat), g { n with prevLinked := w } = g n) :
    g (readNode (setPrevLinked h ref v) b) = g (readNode h b) := by
  cases ref with
  | none => rfl
  | some p => exact readNode_writeNode_field g h p b _ (fun n => hg n v)

theorem readNode_setNextLinked_ne (h : List LinkedNode) (ref v : Option Nat) (b : Nat)
    (hb : ref ≠ some b) : readNode (setNextLinked h ref v) b = readNode h b := by
  cases ref with
  | none => rfl
  | some p =>
    simp only [setNextLinked, setPrevLinked]
    exact readNode_writeNode_ne h p b _ (fun hpb => hb (by rw [hpb]))

theorem readNode_setPrevLinked_ne (h : List LinkedNode) (ref v : Option Nat) (b : Nat)
    (hb : ref ≠ some b) : readNode (setPrevLinked h ref v) b = readNode h b := by
  cases ref with
  | none => rfl
  | some p =>
    simp only [setNextLinked, setPrevLinked]
    exact readNode_writeNode_ne h p b _ (fun hpb => hb (by rw [hpb]))

theorem next_setNextLinked_same (h : List LinkedNode) (p : Nat) (v : Option Nat)
    (hp : p < h.length) : (readNode (setNextLinked h (some p) v) p).nextLinked = v := by
  simp [setNextLinked, readNode_writeNode_same _ _ _ hp]

theorem prev_setPrevLinked_same (h : List LinkedNode) (q : Nat) (v : Option Nat)
    (hq : q < h.length) : (readNode (setPrevLinked h (some q) v) q).prevLinked = v := by
  simp [setPrevLinked, readNode_writeNode_same _ _ _ hq]

theorem lastOr_none_mem (as : List Nat) (p : Nat) (h : lastOr none as = some p) : p ∈ as := by
  rw [lastOr_none_eq_getLast?] at h
  exact List.mem_of_getLast?_eq_some h

theorem headOr_none_mem (as : List Nat) (q : Nat) (h : headOr none as = some q) : q ∈ as := by
  rw [headOr_none_eq_head?] at h
  exact List.mem_of_mem_head? h

theorem lastOr_none_ne_none (as : List Nat) (h : as ≠ []) : lastOr none as ≠ none := by
  rw [lastOr_none_eq_getLast?]
  intro hn
  exact h (List.getLast?_eq_none_iff.mp hn)

theorem LinkedList.unlink_spec (l : LinkedList) (pre post : List Nat) (a : Nat)
    (hc : Chain l (pre ++ a :: post)) :
    Chain (l.unlink a) (pre ++ post) ∧ (l.unlink a).count = l.count - 1 ∧
      (l.unlink a).objToNodeMap = l.objToNodeMap ∧
      (l.unlink a).nodes.length = l.nodes.length ∧
      (∀ b, (readNode (l.unlink a).nodes b).obj = (readNode l.nodes b).obj) ∧
      (∀ b, b ≠ a → (readNode (l.unlink a).nodes b).free = (readNode l.nodes b).free) ∧
      (readNode (l.unlink a).nodes a).free = true := by
  -- the shape of the chain
  have hnd := hc.nodup
  rw [List.nodup_append] at hnd
  obtain ⟨hndpre, hndapost, hdisj⟩ := hnd
  rw [List.nodup_cons] at hndapost
  obtain ⟨hapost, hndpost⟩ := hndapost
  have hapre : a ∉ pre := fun h => hdisj h (List.mem_cons_self _ _)
  have hprepost : ∀ b ∈ pre, b ∉ post := fun b hb hb' => hdisj hb (List.mem_cons_of_mem _ hb')
  have halt : a < l.nodes.length := hc.valid a (by simp)
  obtain ⟨hfpre, hna, hfpost⟩ := (Fwd_append _ _ _ _).mp hc.fwd
  obtain ⟨hbpre, hpa, hbpost⟩ := (Bwd_append _ _ _ _).mp hc.bwd
  have hPa : lastOr none pre ≠ some a := fun h => hapre (lastOr_none_mem _ _ h)
  have hNa : headOr none post ≠ some a := fun h => hapost (headOr_none_mem _ _ h)
  -- the node being removed is not written by the two relinking steps
  have r1 : readNode (setNextLinked l.nodes (lastOr none pre) (headOr none post)) a
      = readNode l.nodes a := readNode_setNextLinked_ne _ _ _ _ hPa
  have r2 : readNode (setPrevLinked (setNextLinked l.nodes (lastOr none pre)
      (headOr none post)) (headOr none post) (lastOr none pre)) a = readNode l.nodes a := by
    rw [readNode_setPrevLinked_ne _ _ _ _ hNa, r1]
  have e1 : l.unlink a =
      { l with
        first := if lastOr none pre = none then headOr none post else l.first,
        last := if headOr none post = none then lastOr none pre else l.last,
        nodes := writeNode (setPrevLinked (setNextLinked l.nodes (lastOr none pre)
          (headOr none post)) (headOr none post) (lastOr none pre)) a
          (fun n => { n with free := true, prevLinked := none, nextLinked := none }),
        count := l.count - 1 } := by
    unfold LinkedList.unlink
    simp only [hpa, hna, r1, r2]
  rw [e1]
  dsimp only
  -- reads of the new heap
  have hnext3 : ∀ b, b ≠ a → lastOr none pre ≠ some b →
      (readNode (writeNode (setPrevLinked (setNextLinked l.nodes (lastOr none pre)
        (headOr none post)) (headOr none post) (lastOr none pre)) a
        (fun n => { n with free := true, prevLinked := none, nextLinked := none })) b).nextLinked
      = (readNode l.nodes b).nextLinked := by
    intro b hba hPb
    rw [readNode_writeNode_ne _ _ _ _ (Ne.symm hba),
      readNode_setPrevLinked_field LinkedNode.nextLinked _ _ _ _ (fun _ _ => rfl),
      readNode_setNextLinked_ne _ _ _ _ hPb]
  have hnext3P : ∀ p, lastOr none pre = some p →
      (readNode (writeNode (setPrevLinked (setNextLinked l.nodes (lastOr none pre)
        (headOr none post)) (headOr none post) (lastOr none pre)) a
        (fun n => { n with free := true, prevLinked := none, nextLinked := none })) p).nextLinked
      = headOr none post := by
    intro p hP
    have hpa' : p ≠ a := fun h => hPa (by rw [hP, h])
    have hplt : p < l.nodes.length :=
      hc.valid p (List.mem_append_left _ (lastOr_none_mem _ _ hP))
    rw [readNode_writeNode_ne _ _ _ _ (Ne.symm hpa'),
      readNode_setPrevLinked_field LinkedNode.nextLinked _ _ _ _ (fun _ _ => rfl), hP,
      next_setNextLinked_same _ _ _ hplt]
  have hprev3 : ∀ b, b ≠ a → headOr none post ≠ some b →
      (readNode (writeNode (setPrevLinked (setNextLinked l.nodes (lastOr none pre)
        (headOr none post)) (headOr none post) (lastOr none pre)) a
        (fun n => { n with free := true, prevLinked := none, nextLinked := none })) b).prevLinked
      = (readNode l.nodes b).prevLinked := by
    intro b hba hNb
    rw [readNode_writeNode_ne _ _ _ _ (Ne.symm hba),
      readNode_setPrevLinked_ne _ _ _ _ hNb,
      readNode_setNextLinked_field LinkedNode.prevLinked _ _ _ _ (fun _ _ => rfl)]
  have hprev3N : ∀ q, headOr none post = some q →
      (readNode (writeNode (setPrevLinked (setNextLinked l.nodes (lastOr none pre)
        (headOr none post)) (headOr none post) (lastOr none pre)) a
        (fun n => { n with free := true, prevLinked := none, nextLinked := none })) q).prevLinked
      = lastOr none pre := by
    intro q hN
    have hqa : q ≠ a := fun h => hNa (by rw [hN, h])
    have hqlt : q < l.nodes.length :=
      hc.valid q (List.mem_append_right _ (List.mem_cons_of_mem _ (headOr_none_mem _ _ hN)))
    rw [readNode_writeNode_ne _ _ _ _ (Ne.symm hqa)]
    conv_lhs => rw [hN]
    rw [prev_setPrevLinked_same _ _ _ (by rw [length_setNextLinked]; exact hqlt)]
  refine ⟨⟨?_, ?_, ?_, ?_, ?_, ?_⟩, rfl, rfl, ?_, ?_, ?_, ?_⟩
  · -- nodup
    exact List.Nodup.append hndpre hndpost (fun b hb hb' => hprepost b hb hb')
  · -- valid
    intro b hb
    dsimp only
    rw [length_writeNode, length_setPrevLinked, length_setNextLinked]
    refine hc.valid b ?_
    rcases List.mem_append.mp hb with hb | hb
    · exact List.mem_append_left _ hb
    · exact List.mem_append_right _ (List.mem_cons_of_mem _ hb)
  · -- forward links
    dsimp only
    rw [Fwd_append]
    constructor
    · rcases List.eq_nil_or_concat pre with hnil | ⟨init, p, hcat⟩
      · rw [hnil]; trivial
      · rw [List.concat_eq_append] at hcat
        have hP : lastOr none pre = some p := by rw [hcat, lastOr_append]; rfl
        have hfpre' : Fwd l.nodes (init ++ [p]) (headOr none (a :: post)) := hcat ▸ hfpre
        have hndpre' : (init ++ [p]).Nodup := hcat ▸ hndpre
        rw [Fwd_append] at hfpre'
        rw [List.nodup_append] at hndpre'
        have hgoal : Fwd (writeNode (setPrevLinked (setNextLinked l.nodes (lastOr none pre)
            (headOr none post)) (headOr none post) (lastOr none pre)) a
            (fun n => { n with free := true, prevLinked := none, nextLinked := none }))
            (init ++ [p]) (headOr none post) := by
          rw [Fwd_append]
          refine ⟨Fwd_congr _ _ _ _ ?_ hfpre'.1, hnext3P p hP, trivial⟩
          intro b hb
          have hbp : b ≠ p := fun h => hndpre'.2.2 hb (by simp [h])
          have hba : b ≠ a :=
            fun h => hapre (by rw [hcat, ← h]; exact List.mem_append_left _ hb)
          exact hnext3 b hba (by rw [hP]; exact fun h => hbp (Option.some.inj h).symm)
        rw [hcat] at hgoal ⊢
        exact hgoal
    · refine Fwd_congr _ _ _ _ ?_ hfpost
      intro b hb
      have hba : b ≠ a := fun h => hapost (h ▸ hb)
      exact hnext3 b hba (fun h => hprepost b (lastOr_none_mem _ _ h) hb)
  · -- backward links
    dsimp only
    rw [Bwd_append]
    constructor
    · refine Bwd_congr _ _ _ _ ?_ hbpre
      intro b hb
      have hba : b ≠ a := fun h => hapre (h ▸ hb)
      exact hprev3 b hba (fun h => hprepost b hb (headOr_none_mem _ _ h))
    · cases post with
      | nil => trivial
      | cons q post' =>
        have hN : headOr none (q :: post') = some q := rfl
        rw [List.nodup_cons] at hndpost
        refine ⟨hprev3N q hN, Bwd_congr _ _ _ _ ?_ hbpost.2⟩
        intro b hb
        have hbq : b ≠ q := fun h => hndpost.1 (h ▸ hb)
        have hba : b ≠ a := fun h => hapost (h ▸ List.mem_cons_of_mem _ hb)
        exact hprev3 b hba (by rw [hN]; exact fun h => hbq (Option.some.inj h).symm)
  · -- first
    dsimp only
    cases pre with
    | nil => simp [lastOr, headOr_none_eq_head?]
    | cons x rest =>
      rw [if_neg (lastOr_none_ne_none _ (by simp)), hc.first_eq]
      rfl
  · -- last
    intro hne
    dsimp only
    cases post with
    | nil =>
      simp [headOr, lastOr_none_eq_getLast?]
    | cons q post' =>
      have hN : headOr none (q :: post') ≠ none := by simp [headOr]
      rw [if_neg hN, hc.last_eq (by simp)]
      simp [List.getLast?_append]
  · rw [length_writeNode, length_setPrevLinked, length_setNextLinked]
  · intro b
    rw [readNode_writeNode_field LinkedNode.obj,
      readNode_setPrevLinked_field LinkedNode.obj _ _ _ _ (fun _ _ => rfl),
      readNode_setNextLinked_field LinkedNode.obj _ _ _ _ (fun _ _ => rfl)]
    intro n; rfl
  · intro b hba
    rw [readNode_writeNode_ne _ _ _ _ (Ne.symm hba),
      readNode_setPrevLinked_field LinkedNode.free _ _ _ _ (fun _ _ => rfl),
      readNode_setNextLinked_field LinkedNode.free _ _ _ _ (fun _ _ => rfl)]
  · rw [readNode_writeNode_same _ _ _
      (by rw [length_setPrevLinked, length_setNextLinked]; exact halt)]

/-! ## The list as a sequence of objects -/

theorem Linked.of_new : Linked LinkedList.init [] := by
  refine ⟨⟨List.nodup_nil, ?_, trivial, trivial, rfl, ?_⟩, rfl, ?_, ?_, ?_, ?_⟩
  · intro a ha; simp at ha
  · intro h; exact absurd rfl h
  · intro a ha; simp at ha
  · intro k a h; simp [LinkedList.getNode, LinkedList.init, Hashtable.get_empty] at h
  · intro a ha; simp at ha
  · intro k a h; simp [LinkedList.getNode, LinkedList.init, Hashtable.get_empty] at h

theorem Linked.has_iff_mem {l : LinkedList} {as : List Nat} (hl : Linked l as) (k : Nat) :
    l.has k = true ↔ k ∈ objsOf l.nodes as := by
  unfold LinkedList.has objsOf
  constructor
  · intro h
    cases hg : l.getNode k with
    | none => rw [hg] at h; simp at h
    | some a =>
      rw [hg] at h
      have hfree : (readNode l.nodes a).free = false := by simpa using h
      have hmem : a ∈ as := by
        by_contra hcon
        have := hl.free_of k a hg hcon
        rw [hfree] at this
        exact absurd this (by simp)
      exact List.mem_map.mpr ⟨a, hmem, (hl.map_valid k a hg).2⟩
  · intro h
    obtain ⟨a, hmem, hobj⟩ := List.mem_map.mp h
    have hg := hl.indexed a hmem
    rw [hobj] at hg
    rw [hg]
    simp [hl.live a hmem]

theorem Linked.objs_nodup {l : LinkedList} {as : List Nat} (hl : Linked l as) :
    (objsOf l.nodes as).Nodup := by
  unfold objsOf
  refine List.Nodup.map_on ?_ hl.nodup
  intro a ha b hb hab
  have h1 := hl.indexed a ha
  have h2 := hl.indexed b hb
  rw [hab, h2] at h1
  exact (Option.some.inj h1).symm

theorem Linked.toList_eq_objs {l : LinkedList} {as : List Nat} (hl : Linked l as) :
    l.toList = objsOf l.nodes as := by
  unfold LinkedList.toList objsOf
  rw [hl.first_eq, ← headOr_none_eq_head?]
  exact walk_of_Fwd _ _ _ hl.fwd (length_le_of_nodup_of_lt _ _ hl.nodup hl.valid)

theorem LinkedList.add_of_has (l : LinkedList) (k : Nat) (hk : l.has k = true) :
    l.add k = .error Err.duplicateAdd := by
  unfold LinkedList.has at hk
  unfold LinkedList.add
  cases hg : l.getNode k with
  | none => rw [hg] at hk; simp at hk
  | some a =>
    rw [hg] at hk
    have hfree : (readNode l.nodes a).free = false := by simpa using hk
    simp [hfree]

theorem LinkedList.remove_of_not_has (l : LinkedList) (k : Nat) (hk : l.has k = false) :
    l.remove k = (l, false) := by
  unfold LinkedList.has at hk
  unfold LinkedList.remove
  cases hg : l.getNode k with
  | none => rfl
  | some a =>
    rw [hg] at hk
    have hfree : (readNode l.nodes a).free = true := by simpa using hk
    simp [hfree]

theorem LinkedList.remove_spec (l : LinkedList) (as : List Nat) (k : Nat) (hl : Linked l as)
    (hk : l.has k = true) :
    ∃ as', (l.remove k).2 = true ∧ Linked (l.remove k).1 as' ∧
      objsOf (l.remove k).1.nodes as' = (objsOf l.nodes as).erase k := by
  have hkmem := (hl.has_iff_mem k).mp hk
  have hnodup := hl.objs_nodup
  unfold LinkedList.has at hk
  cases hg : l.getNode k with
  | none => rw [hg] at hk; simp at hk
  | some a =>
    rw [hg] at hk
    have hfree : (readNode l.nodes a).free = false := by simpa using hk
    have hobj : (readNode l.nodes a).obj = k := (hl.map_valid k a hg).2
    have hmem : a ∈ as := by
      by_contra hcon
      have := hl.free_of k a hg hcon
      rw [hfree] at this
      exact absurd this (by simp)
    obtain ⟨pre, post, hsplit⟩ := List.append_of_mem hmem
    subst hsplit
    have hrem : l.remove k = (l.unlink a, true) := by
      unfold LinkedList.remove
      rw [hg]
      simp [hfree]
    obtain ⟨hch, hcount, hmap, hlen, hobjs, hfrees, hfreea⟩ :=
      LinkedList.unlink_spec l pre post a hl.toChain
    have hnd := hl.nodup
    rw [List.nodup_append] at hnd
    obtain ⟨_, hndapost, hdisj⟩ := hnd
    rw [List.nodup_cons] at hndapost
    have hapre : a ∉ pre := fun h => hdisj h (List.mem_cons_self _ _)
    have hanot : a ∉ pre ++ post := by
      intro h
      rcases List.mem_append.mp h with h | h
      · exact hapre h
      · exact hndapost.1 h
    have hsub : ∀ b ∈ pre ++ post, b ∈ pre ++ a :: post := by
      intro b hb
      rcases List.mem_append.mp hb with hb | hb
      · exact List.mem_append_left _ hb
      · exact List.mem_append_right _ (List.mem_cons_of_mem _ hb)
    have hgetNode : ∀ k', (l.unlink a).getNode k' = l.getNode k' := by
      intro k'; unfold LinkedList.getNode; rw [hmap]
    rw [hrem]
    refine ⟨pre ++ post, rfl, ⟨hch, ?_, ?_, ?_, ?_, ?_⟩, ?_⟩
    · rw [hcount, hl.count_eq]
      simp only [List.length_append, List.length_cons]
      push_cast
      ring
    · intro b hb
      rw [hgetNode, hobjs]
      exact hl.indexed b (hsub b hb)
    · intro k' a' h
      rw [hgetNode] at h
      rw [hlen, hobjs]
      exact hl.map_valid k' a' h
    · intro b hb
      have hba : b ≠ a := fun h => hanot (h ▸ hb)
      rw [hfrees b hba]
      exact hl.live b (hsub b hb)
    · intro k' a' h hnot
      rw [hgetNode] at h
      by_cases ha' : a' = a
      · rw [ha']; exact hfreea
      · rw [hfrees a' ha']
        refine hl.free_of k' a' h ?_
        intro hin
        rcases List.mem_append.mp hin with hin | hin
        · exact hnot (List.mem_append_left _ hin)
        · rcases List.mem_cons.mp hin with hin | hin
          · exact ha' hin
          · exact hnot (List.mem_append_right _ hin)
    · have hko : ∀ bs : List Nat, objsOf (l.unlink a).nodes bs = objsOf l.nodes bs := by
        intro bs
        unfold objsOf
        exact List.map_congr_left (fun b _ => hobjs b)
      show objsOf (l.unlink a).nodes (pre ++ post) = _
      rw [hko]
      unfold objsOf at hnodup ⊢
      simp only [List.map_append, List.map_cons, hobj] at hnodup ⊢
      have hkpre : k ∉ List.map (fun a => (readNode l.nodes a).obj) pre := by
        intro hin
        rw [List.nodup_append] at hnodup
        exact hnodup.2.2 hin (List.mem_cons_self _ _)
      rw [List.erase_append_right _ hkpre, List.erase_cons_head]

/-- The common end of the two branches of `add` : node `a`, which is off the chain, carries
object `k` and is indexed under it, is appended to the list. -/
theorem Linked.append_node (l l1 : LinkedList) (as : List Nat) (k : Nat) (a : Nat)
    (hl : Linked l as) (hk : l.has k = false) (hch1 : Chain l1 as) (ha : a ∉ as)
    (halt : a < l1.nodes.length)
    (hobj : (readNode l1.nodes a).obj = k) (hfree : (readNode l1.nodes a).free = false)
    (hgk : l1.getNode k = some a)
    (hgo : ∀ k', k' ≠ k → l1.getNode k' = l.getNode k')
    (hga : ∀ k', k' ≠ k → l.getNode k' ≠ some a)
    (hrd : ∀ b, b ≠ a → b < l.nodes.length → readNode l1.nodes b = readNode l.nodes b)
    (hlen : l.nodes.length ≤ l1.nodes.length) (hcnt : l1.count = l.count) :
    ∃ l', l1.append a = .ok l' ∧ Linked l' (as ++ [a]) ∧
      objsOf l'.nodes (as ++ [a]) = objsOf l.nodes as ++ [k] := by
  obtain ⟨l', happ, hch, hcount, hmap, hlen', hframe⟩ :=
    LinkedList.append_spec l1 as a hch1 ha halt
  have hgetNode : ∀ k', l'.getNode k' = l1.getNode k' := by
    intro k'; unfold LinkedList.getNode; rw [hmap]
  have hold : ∀ b ∈ as, readNode l1.nodes b = readNode l.nodes b := by
    intro b hb
    exact hrd b (fun h => ha (h ▸ hb)) (hl.valid b hb)
  have hkold : ∀ b ∈ as, (readNode l.nodes b).obj ≠ k := by
    intro b hb hbk
    have := (hl.has_iff_mem k).mpr (List.mem_map.mpr ⟨b, hb, hbk⟩)
    rw [hk] at this
    exact absurd this (by simp)
  refine ⟨l', happ, ⟨hch, ?_, ?_, ?_, ?_, ?_⟩, ?_⟩
  · rw [hcount, hcnt, hl.count_eq]
    simp
  · intro b hb
    rw [hgetNode, (hframe b).1]
    rcases List.mem_append.mp hb with hb | hb
    · rw [hold b hb, hgo _ (hkold b hb)]
      exact hl.indexed b hb
    · simp only [List.mem_singleton] at hb
      subst hb
      rw [hobj]
      exact hgk
  · intro k' a' h
    rw [hgetNode] at h
    rw [hlen', (hframe a').1]
    by_cases hkk : k' = k
    · subst hkk
      rw [hgk] at h
      have := Option.some.inj h
      subst this
      exact ⟨halt, hobj⟩
    · rw [hgo k' hkk] at h
      have hv := hl.map_valid k' a' h
      have hne : a' ≠ a := fun hh => hga k' hkk (hh ▸ h)
      exact ⟨lt_of_lt_of_le hv.1 hlen, by rw [hrd a' hne hv.1]; exact hv.2⟩
  · intro b hb
    rw [(hframe b).2]
    rcases List.mem_append.mp hb with hb | hb
    · rw [hold b hb]
      exact hl.live b hb
    · simp only [List.mem_singleton] at hb
      subst hb
      exact hfree
  · intro k' a' h hnot
    rw [hgetNode] at h
    rw [(hframe a').2]
    have hne : a' ≠ a := fun hh => hnot (by simp [hh])
    have hkk : k' ≠ k := by
      intro hh
      subst hh
      rw [hgk] at h
      exact hne (Option.some.inj h).symm
    rw [hgo k' hkk] at h
    have hv := hl.map_valid k' a' h
    rw [hrd a' hne hv.1]
    exact hl.free_of k' a' h (fun hin => hnot (List.mem_append_left _ hin))
  · unfold objsOf
    rw [List.map_append, List.map_singleton, (hframe a).1, hobj]
    congr 1
    refine List.map_congr_left ?_
    intro b hb
    rw [(hframe b).1, hold b hb]

theorem LinkedList.add_spec (l : LinkedList) (as : List Nat) (k : Nat) (hl : Linked l as)
    (hk : l.has k = false) :
    ∃ l' a, l.add k = .ok l' ∧ Linked l' (as ++ [a]) ∧
      objsOf l'.nodes (as ++ [a]) = objsOf l.nodes as ++ [k] := by
  have hk0 := hk
  unfold LinkedList.has at hk
  cases hg : l.getNode k with
  | none =>
    have hnot : l.nodes.length ∉ as := fun h => lt_irrefl _ (hl.valid _ h)
    have hch1 : Chain (l.addNode k).1 as := by
      refine ⟨hl.nodup, ?_, ?_, ?_, hl.first_eq, hl.last_eq⟩
      · intro b hb
        have := hl.valid b hb
        simp only [LinkedList.addNode, List.length_append, List.length_singleton]
        omega
      · refine Fwd_congr _ _ _ _ ?_ hl.fwd
        intro b hb
        simp only [LinkedList.addNode]
        rw [readNode_append_old _ _ _ (hl.valid b hb)]
      · refine Bwd_congr _ _ _ _ ?_ hl.bwd
        intro b hb
        simp only [LinkedList.addNode]
        rw [readNode_append_old _ _ _ (hl.valid b hb)]
    obtain ⟨l', happ, hlinked, hobjs⟩ :=
      Linked.append_node l (l.addNode k).1 as k l.nodes.length hl hk0 hch1 hnot
        (by simp [LinkedList.addNode])
        (by simp [LinkedList.addNode, readNode_append_new])
        (by simp [LinkedList.addNode, readNode_append_new])
        (by simp [LinkedList.addNode, LinkedList.getNode, Hashtable.get_put_self])
        (by
          intro k' hk'
          simp only [LinkedList.addNode, LinkedList.getNode]
          exact Hashtable.get_put_other _ _ _ _ hk')
        (by
          intro k' _ h
          exact lt_irrefl _ (hl.map_valid k' _ h).1)
        (by
          intro b _ hb
          simp only [LinkedList.addNode]
          exact readNode_append_old _ _ _ hb)
        (by simp [LinkedList.addNode])
        rfl
    refine ⟨l', l.nodes.length, ?_, hlinked, hobjs⟩
    unfold LinkedList.add
    rw [hg]
    exact happ
  | some a =>
    rw [hg] at hk
    have hfree : (readNode l.nodes a).free = true := by simpa using hk
    have hv := hl.map_valid k a hg
    have hnot : a ∉ as := by
      intro h
      have := hl.live a h
      rw [hfree] at this
      exact absurd this (by simp)
    have hch1 : Chain { l with nodes := writeNode l.nodes a (fun _ => ⟨k, none, none, false⟩) }
        as := by
      refine ⟨hl.nodup, ?_, ?_, ?_, hl.first_eq, hl.last_eq⟩
      · intro b hb
        simpa [length_writeNode] using hl.valid b hb
      · refine Fwd_congr _ _ _ _ ?_ hl.fwd
        intro b hb
        dsimp only
        rw [readNode_writeNode_ne _ _ _ _ (fun h : a = b => hnot (h ▸ hb))]
      · refine Bwd_congr _ _ _ _ ?_ hl.bwd
        intro b hb
        dsimp only
        rw [readNode_writeNode_ne _ _ _ _ (fun h : a = b => hnot (h ▸ hb))]
    obtain ⟨l', happ, hlinked, hobjs⟩ :=
      Linked.append_node l
        { l with nodes := writeNode l.nodes a (fun _ => ⟨k, none, none, false⟩) }
        as k a hl hk0 hch1 hnot
        (by simpa [length_writeNode] using hv.1)
        (by dsimp only; rw [readNode_writeNode_same _ _ _ hv.1])
        (by dsimp only; rw [readNode_writeNode_same _ _ _ hv.1])
        hg
        (fun _ _ => rfl)
        (by
          intro k' hk' h
          exact hk' ((hl.map_valid k' a h).2.symm.trans hv.2))
        (by
          intro b hb _
          dsimp only
          exact readNode_writeNode_ne _ _ _ _ (Ne.symm hb))
        (by simp [length_writeNode])
        rfl
    refine ⟨l', a, ?_, hlinked, hobjs⟩
    unfold LinkedList.add
    rw [hg]
    simp only [hfree]
    exact happ

theorem Holds.empty_list : Holds LinkedList.init [] := ⟨[], Linked.of_new, rfl⟩

theorem Holds.nodup {l : LinkedList} {xs : List Nat} (h : Holds l xs) : xs.Nodup := by
  obtain ⟨as, hl, rfl⟩ := h
  exact hl.objs_nodup

theorem Holds.toList_eq {l : LinkedList} {xs : List Nat} (h : Holds l xs) : l.toList = xs := by
  obtain ⟨as, hl, rfl⟩ := h
  exact hl.toList_eq_objs

theorem Holds.count_eq {l : LinkedList} {xs : List Nat} (h : Holds l xs) :
    l.count = xs.length := by
  obtain ⟨as, hl, rfl⟩ := h
  rw [hl.count_eq]
  simp [objsOf]

theorem Holds.has_iff {l : LinkedList} {xs : List Nat} (h : Holds l xs) (k : Nat) :
    l.has k = true ↔ k ∈ xs := by
  obtain ⟨as, hl, rfl⟩ := h
  exact hl.has_iff_mem k

theorem Holds.has_false {l : LinkedList} {xs : List Nat} (h : Holds l xs) (k : Nat)
    (hk : k ∉ xs) : l.has k = false := by
  cases hh : l.has k with
  | false => rfl
  | true => exact absurd ((h.has_iff k).mp hh) hk

theorem Holds.first_none_iff {l : LinkedList} {xs : List Nat} (h : Holds l xs) :
    l.first = none ↔ xs = [] := by
  obtain ⟨as, hl, rfl⟩ := h
  rw [hl.first_eq]
  cases as <;> simp [objsOf]

theorem Holds.first_obj {l : LinkedList} {xs : List Nat} (h : Holds l xs) (a : Nat)
    (ha : l.first = some a) : ∃ rest, xs = (readNode l.nodes a).obj :: rest := by
  obtain ⟨as, hl, rfl⟩ := h
  rw [hl.first_eq] at ha
  cases as with
  | nil => simp at ha
  | cons b rest =>
    simp only [List.head?_cons, Option.some.injEq] at ha
    subst ha
    exact ⟨objsOf l.nodes rest, rfl⟩

theorem Holds.add {l : LinkedList} {xs : List Nat} (h : Holds l xs) (k : Nat) (hk : k ∉ xs) :
    ∃ l', l.add k = .ok l' ∧ Holds l' (xs ++ [k]) := by
  have hhas := h.has_false k hk
  obtain ⟨as, hl, rfl⟩ := h
  obtain ⟨l', a, hadd, hl', hobjs⟩ := LinkedList.add_spec l as k hl hhas
  exact ⟨l', hadd, as ++ [a], hl', hobjs⟩

theorem Holds.add_dup {l : LinkedList} {xs : List Nat} (h : Holds l xs) (k : Nat) (hk : k ∈ xs) :
    l.add k = .error Err.duplicateAdd :=
  LinkedList.add_of_has l k ((h.has_iff k).mpr hk)

theorem Holds.remove {l : LinkedList} {xs : List Nat} (h : Holds l xs) (k : Nat) (hk : k ∈ xs) :
    (l.remove k).2 = true ∧ Holds (l.remove k).1 (xs.erase k) := by
  have hhas := (h.has_iff k).mpr hk
  obtain ⟨as, hl, rfl⟩ := h
  obtain ⟨as', hret, hl', hobjs⟩ := LinkedList.remove_spec l as k hl hhas
  exact ⟨hret, as', hl', hobjs⟩

theorem Holds.remove_absent {l : LinkedList} {xs : List Nat} (h : Holds l xs) (k : Nat)
    (hk : k ∉ xs) : l.remove k = (l, false) :=
  LinkedList.remove_of_not_has l k (h.has_false k hk)

theorem Holds.unique {l : LinkedList} {xs ys : List Nat} (h1 : Holds l xs) (h2 : Holds l ys) :
    xs = ys := by
  rw [← h1.toList_eq, ← h2.toList_eq]

/-! ## The pool -/

theorem Pool.free_simple (p : Pool) (hd : p.dual = false) : p.free = p.freeArray := by
  unfold Pool.free
  rw [if_neg (by rw [hd]; simp)]

theorem Pool.free_dual (p : Pool) (hd : p.dual = true) (fs : List Nat)
    (hf : Holds p.freeList fs) : p.free = fs := by
  unfold Pool.free
  rw [if_pos hd, hf.toList_eq]

theorem mathRound_nonneg (n : Int) (hn : 0 ≤ n) : 0 ≤ mathRound n 5 := by
  unfold mathRound
  omega

theorem mathRound_growth (e : Int) (he : 1 ≤ e) : e + 1 ≤ mathRound (e * 6) 5 + 1 := by
  unfold mathRound
  omega

theorem Pool.expandLoop_simple (n : Nat) (p : Pool) (hd : p.dual = false) :
    Pool.expandLoop n p =
      .ok { p with freeArray := p.freeArray ++ List.range' p.totalObjects n,
                   totalObjects := p.totalObjects + n } := by
  induction n generalizing p with
  | zero => simp [Pool.expandLoop]
  | succ n ih =>
    unfold Pool.expandLoop
    rw [if_neg (by rw [hd]; simp)]
    refine (ih _ ?_).trans ?_
    · exact hd
    · simp [List.range'_succ, Nat.add_assoc, Nat.add_comm 1 n]

theorem Pool.expandLoop_dual (n : Nat) (p : Pool) (fs : List Nat) (hd : p.dual = true)
    (hr : Holds p.freeList fs) (hb : ∀ x ∈ fs, x < p.totalObjects) :
    ∃ fl, Pool.expandLoop n p =
        .ok { p with freeList := fl, totalObjects := p.totalObjects + n } ∧
      Holds fl (fs ++ List.range' p.totalObjects n) := by
  induction n generalizing p fs with
  | zero => exact ⟨p.freeList, by simp [Pool.expandLoop], by simpa using hr⟩
  | succ n ih =>
    have hfresh : p.totalObjects ∉ fs := fun h => lt_irrefl _ (hb _ h)
    obtain ⟨fl1, hadd, hr1⟩ := hr.add p.totalObjects hfresh
    have hb1 : ∀ x ∈ fs ++ [p.totalObjects], x < p.totalObjects + 1 := by
      intro x hx
      rcases List.mem_append.mp hx with hx | hx
      · exact Nat.lt_succ_of_lt (hb x hx)
      · simp only [List.mem_singleton] at hx
        subst hx
        exact Nat.lt_succ_self _
    obtain ⟨fl, hloop, hr2⟩ :=
      ih { p with freeList := fl1, totalObjects := p.totalObjects + 1 }
        (fs ++ [p.totalObjects]) hd hr1 hb1
    refine ⟨fl, ?_, ?_⟩
    · unfold Pool.expandLoop
      rw [if_pos hd]
      simp only [hadd]
      dsimp only at hloop
      rw [hloop]
      simp [Nat.add_assoc, Nat.add_comm 1 n]
    · simpa [List.range'_succ, List.append_assoc] using hr2

theorem Pool.expand_simple (p : Pool) (m : Int) (hd : p.dual = false) :
    p.expand m =
      .ok { p with freeArray := p.freeArray ++ List.range' p.totalObjects m.toNat,
                   totalObjects := p.totalObjects + m.toNat,
                   totalPooled := p.totalPooled + m } := by
  unfold Pool.expand
  exact Pool.expandLoop_simple _ _ hd

theorem Pool.expand_dual (p : Pool) (m : Int) (fs : List Nat) (hd : p.dual = true)
    (hr : Holds p.freeList fs) (hb : ∀ x ∈ fs, x < p.totalObjects) :
    ∃ fl, p.expand m =
        .ok { p with freeList := fl, totalObjects := p.totalObjects + m.toNat,
                     totalPooled := p.totalPooled + m } ∧
      Holds fl (fs ++ List.range' p.totalObjects m.toNat) := by
  unfold Pool.expand
  obtain ⟨fl, h1, h2⟩ :=
    Pool.expandLoop_dual m.toNat { p with totalPooled := p.totalPooled + m } fs hd hr hb
  exact ⟨fl, h1, h2⟩

theorem Pool.take_simple (p : Pool) (hd : p.dual = false) :
    p.take = .ok (p.freeArray.getLast?, { p with freeArray := p.freeArray.dropLast }) := by
  unfold Pool.take
  rw [if_neg (by rw [hd]; simp)]

theorem Pool.refill_simple_nonempty (p : Pool) (hd : p.dual = false)
    (hne : p.freeArray ≠ []) : p.refill = .ok p := by
  have hlen : ¬ p.freeArray.length ≤ 0 := by
    intro h
    exact hne (List.length_eq_zero.mp (Nat.le_zero.mp h))
  unfold Pool.refill
  rw [if_neg (by rw [hd]; simp), if_neg hlen]

theorem Pool.refill_simple_empty (p : Pool) (hd : p.dual = false) (hempty : p.freeArray = []) :
    p.refill = .ok
      { p with
        expansion := mathRound (p.expansion * 6) 5 + 1,
        freeArray := List.range' p.totalObjects (mathRound (p.expansion * 6) 5 + 1).toNat,
        totalObjects := p.totalObjects + (mathRound (p.expansion * 6) 5 + 1).toNat,
        totalPooled := p.totalPooled + (mathRound (p.expansion * 6) 5 + 1) } := by
  unfold Pool.refill
  rw [if_neg (by rw [hd]; simp), if_pos (by rw [hempty]; simp)]
  refine (Pool.expand_simple _ _ ?_).trans ?_
  · exact hd
  · simp [hempty]

theorem Pool.acquire_simple_nonempty (p : Pool) (hd : p.dual = false)
    (hne : p.freeArray ≠ []) :
    p.acquire = .ok (p.freeArray.getLast?, { p with freeArray := p.freeArray.dropLast }) := by
  unfold Pool.acquire
  rw [Pool.refill_simple_nonempty p hd hne]
  exact Pool.take_simple p hd

theorem Pool.acquire_simple_empty (p : Pool) (hd : p.dual = false) (hempty : p.freeArray = []) :
    p.acquire = .ok
      ((List.range' p.totalObjects (mathRound (p.expansion * 6) 5 + 1).toNat).getLast?,
        { p with
          expansion := mathRound (p.expansion * 6) 5 + 1,
          freeArray :=
            (List.range' p.totalObjects (mathRound (p.expansion * 6) 5 + 1).toNat).dropLast,
          totalObjects := p.totalObjects + (mathRound (p.expansion * 6) 5 + 1).toNat,
          totalPooled := p.totalPooled + (mathRound (p.expansion * 6) 5 + 1) }) := by
  unfold Pool.acquire
  rw [Pool.refill_simple_empty p hd hempty]
  exact Pool.take_simple _ hd

theorem Pool.refill_dual_nonempty (p : Pool) (hd : p.dual = true)
    (hne : p.freeList.first ≠ none) : p.refill = .ok p := by
  unfold Pool.refill
  rw [if_pos hd, if_neg hne]

theorem Pool.refill_dual_empty (p : Pool) (hd : p.dual = true) (hr : Holds p.freeList [])
    (hempty : p.freeList.first = none) :
    ∃ fl, p.refill = .ok { p with freeList := fl,
                                  totalObjects := p.totalObjects + (mathRound p.size 5 + 1).toNat,
                                  totalPooled := p.totalPooled + (mathRound p.size 5 + 1) } ∧
      Holds fl (List.range' p.totalObjects (mathRound p.size 5 + 1).toNat) := by
  unfold Pool.refill
  rw [if_pos hd, if_pos hempty]
  obtain ⟨fl, h1, h2⟩ := Pool.expand_dual p (mathRound p.size 5 + 1) [] hd hr (by simp)
  exact ⟨fl, h1, by simpa using h2⟩

theorem Pool.take_dual (p : Pool) (hd : p.dual = true) (x : Nat) (fs held : List Nat)
    (hf : Holds p.freeList (x :: fs)) (hu : Holds p.usedList held) (hx : x ∉ held) :
    ∃ fl ul, p.take = .ok (some x, { p with returnObj := some x, freeList := fl,
                                            usedList := ul }) ∧
      Holds fl fs ∧ Holds ul (held ++ [x]) := by
  have hfirst : p.freeList.first ≠ none := fun h => by
    have := hf.first_none_iff.mp h
    simp at this
  cases ha : p.freeList.first with
  | none => exact absurd ha hfirst
  | some a =>
    obtain ⟨rest, hrest⟩ := hf.first_obj a ha
    have hobj : (readNode p.freeList.nodes a).obj = x := by
      simp only [List.cons.injEq] at hrest
      exact hrest.1.symm
    obtain ⟨_, hrem⟩ := hf.remove x (List.mem_cons_self _ _)
    rw [List.erase_cons_head] at hrem
    obtain ⟨ul, hadd, hul⟩ := hu.add x hx
    refine ⟨(p.freeList.remove x).1, ul, ?_, hrem, hul⟩
    unfold Pool.take
    rw [if_pos hd]
    simp only [ha, hobj, hadd]

theorem Pool.release_simple (p : Pool) (hd : p.dual = false) (x : Nat) :
    p.release x = .ok { p with freeArray := p.freeArray ++ [x] } := by
  unfold Pool.release
  rw [if_neg (by rw [hd]; simp)]

theorem Pool.release_dual (p : Pool) (hd : p.dual = true) (x : Nat) (fs held : List Nat)
    (hf : Holds p.freeList fs) (hu : Holds p.usedList held) (hx : x ∉ fs) :
    ∃ fl ul, p.release x = .ok { p with freeList := fl, usedList := ul } ∧
      Holds fl (fs ++ [x]) ∧ Holds ul (held.erase x) := by
  obtain ⟨fl, hadd, hfl⟩ := hf.add x hx
  refine ⟨fl, (p.usedList.remove x).1, ?_, hfl, ?_⟩
  · unfold Pool.release
    rw [if_pos hd]
    simp only [hadd]
  · by_cases hmem : x ∈ held
    · exact (hu.remove x hmem).2
    · rw [hu.remove_absent x hmem, List.erase_of_not_mem hmem]
      exact hu

theorem Pool.release_dual_dup (p : Pool) (hd : p.dual = true) (x : Nat) (fs : List Nat)
    (hf : Holds p.freeList fs) (hx : x ∈ fs) : p.release x = .error Err.duplicateAdd := by
  unfold Pool.release
  rw [if_pos hd, hf.add_dup x hx]

/-! ## The invariant along a run -/

theorem nodup_insert_fresh (xs ys : List Nat) (t m : Nat) (h : (xs ++ ys).Nodup)
    (hb : ∀ x ∈ xs ++ ys, x < t) : (xs ++ List.range' t m ++ ys).Nodup := by
  rw [List.nodup_append] at h
  obtain ⟨hx, hy, hxy⟩ := h
  have hfresh : ∀ z ∈ List.range' t m, t ≤ z := fun z hz => (List.mem_range'_1.mp hz).1
  refine List.Nodup.append (List.Nodup.append hx (List.nodup_range' _ _) ?_) hy ?_
  · intro z hz hz'
    have h1 := hb z (List.mem_append_left _ hz)
    have h2 := hfresh z hz'
    omega
  · intro z hz hz'
    rcases List.mem_append.mp hz with hz | hz
    · exact hxy hz hz'
    · have h1 := hb z (List.mem_append_right _ hz')
      have h2 := hfresh z hz
      omega

theorem Pool.Inv.init (t0 : Nat) (tp n : Int) (d : Bool) :
    ∃ p, Pool.init t0 tp n d = .ok p ∧ p.Inv [] ∧ p.Distinct [] ∧ p.dual = d ∧
      p.expansion = 1 ∧ p.totalObjects = t0 + n.toNat ∧ p.totalPooled = tp + n ∧
      (d = false → p.freeArray = List.range' t0 n.toNat) ∧
      (d = true → Holds p.freeList (List.range' t0 n.toNat)) := by
  cases d with
  | false =>
    refine ⟨_, Pool.expand_simple _ _ rfl, ⟨?_, ?_⟩, ?_, rfl, rfl, rfl, rfl, ?_, ?_⟩
    · intro h; simp at h
    · simp
    · intro _
      simp only [List.nil_append, List.append_nil]
      refine ⟨List.nodup_range' _ _, ?_⟩
      intro x hx
      have := List.mem_range'_1.mp hx
      omega
    · intro _; simp
    · intro h; simp at h
  | true =>
    obtain ⟨fl, h1, h2⟩ :=
      Pool.expand_dual ⟨true, [], LinkedList.init, LinkedList.init, 1, none, t0, tp⟩ n []
        rfl Holds.empty_list (by simp)
    refine ⟨_, h1, ⟨?_, ?_⟩, ?_, rfl, rfl, rfl, rfl, ?_, ?_⟩
    · intro _
      refine ⟨List.range' t0 n.toNat, by simpa using h2, Holds.empty_list, by simp, ?_⟩
      intro x hx
      simp only [List.append_nil] at hx
      have := List.mem_range'_1.mp hx
      show x < t0 + n.toNat
      omega
    · simp
    · intro h; simp at h
    · intro h; simp at h
    · intro _; simpa using h2

theorem Pool.Inv.expand {p : Pool} {held : List Nat} (hinv : p.Inv held) (m : Int) :
    ∃ q, p.expand m = .ok q ∧ q.Inv held ∧ q.dual = p.dual ∧ q.expansion = p.expansion ∧
      (p.Distinct held → q.Distinct held) ∧ p.totalObjects ≤ q.totalObjects ∧
      q.free = p.free ++ List.range' p.totalObjects (q.totalObjects - p.totalObjects) := by
  cases hd : p.dual with
  | false =>
    refine ⟨_, Pool.expand_simple p m hd, ⟨?_, hinv.expansion_pos⟩, hd, rfl, ?_,
      Nat.le_add_right _ _, ?_⟩
    rotate_left 2
    · rw [Pool.free_simple _ (by exact hd), Pool.free_simple p hd]
      simp
    · intro h
      have h' : p.dual = true := h
      rw [hd] at h'
      simp at h'
    · intro hdist _
      obtain ⟨hnd, hb⟩ := hdist hd
      dsimp only
      refine ⟨nodup_insert_fresh _ _ _ _ hnd hb, ?_⟩
      intro x hx
      rcases List.mem_append.mp hx with hx | hx
      · rcases List.mem_append.mp hx with hx | hx
        · have := hb x (List.mem_append_left _ hx)
          omega
        · have := List.mem_range'_1.mp hx
          omega
      · have := hb x (List.mem_append_right _ hx)
        omega
  | true =>
    obtain ⟨fs, hf, hu, hdisj, hb⟩ := hinv.dual hd
    obtain ⟨fl, h1, h2⟩ := Pool.expand_dual p m fs hd hf
      (fun x hx => hb x (List.mem_append_left _ hx))
    refine ⟨_, h1, ⟨?_, hinv.expansion_pos⟩, hd, rfl, ?_, Nat.le_add_right _ _, ?_⟩
    rotate_left 2
    · rw [Pool.free_dual _ (by exact hd) _ h2, Pool.free_dual p hd _ hf]
      simp
    · intro _
      refine ⟨_, h2, hu, ?_, ?_⟩
      · intro x hx hx'
        rcases List.mem_append.mp hx with hx | hx
        · exact hdisj x hx hx'
        · have h3 := List.mem_range'_1.mp hx
          have h4 := hb x (List.mem_append_right _ hx')
          omega
      · intro x hx
        show x < p.totalObjects + m.toNat
        rcases List.mem_append.mp hx with hx | hx
        · rcases List.mem_append.mp hx with hx | hx
          · have := hb x (List.mem_append_left _ hx)
            omega
          · have := List.mem_range'_1.mp hx
            omega
        · have := hb x (List.mem_append_right _ hx)
          omega
    · intro _ h
      have h' : p.dual = false := h
      rw [hd] at h'
      simp at h'

theorem Pool.exhausted_simple (p : Pool) (hd : p.dual = false) :
    p.exhausted = true ↔ p.freeArray = [] := by
  unfold Pool.exhausted
  rw [if_neg (by rw [hd]; simp)]
  simp

theorem Pool.exhausted_dual (p : Pool) (hd : p.dual = true) :
    p.exhausted = true ↔ p.freeList.first = none := by
  unfold Pool.exhausted
  rw [if_pos hd]
  simp

theorem Pool.Inv.size_nonneg {p : Pool} {held : List Nat} (hinv : p.Inv held) :
    0 ≤ p.size := by
  unfold Pool.size
  cases hd : p.dual with
  | false => simp
  | true =>
    obtain ⟨fs, hf, hu, _, _⟩ := hinv.dual hd
    rw [if_pos rfl, hf.count_eq, hu.count_eq]
    omega

theorem Pool.Inv.refill {p : Pool} {held : List Nat} (hinv : p.Inv held) :
    ∃ r, p.refill = .ok r ∧ r.Inv held ∧ r.dual = p.dual ∧ p.expansion ≤ r.expansion ∧
      r.exhausted = false ∧ (p.Distinct held → r.Distinct held) ∧
      p.totalObjects ≤ r.totalObjects ∧
      r.free = p.free ++ List.range' p.totalObjects (r.totalObjects - p.totalObjects) ∧
      (p.exhausted = false → r = p) := by
  have hpos := hinv.expansion_pos
  cases hd : p.dual with
  | false =>
    by_cases hempty : p.freeArray = []
    · have hgrow := mathRound_growth p.expansion hpos
      refine ⟨_, Pool.refill_simple_empty p hd hempty, ⟨?_, ?_⟩, hd, ?_, ?_, ?_,
        Nat.le_add_right _ _, ?_, ?_⟩
      rotate_left 5
      · rw [Pool.free_simple _ (by exact hd), Pool.free_simple p hd, hempty]
        simp
      · intro hex
        have := (Pool.exhausted_simple p hd).mpr hempty
        rw [hex] at this
        simp at this
      · intro h
        have h' : p.dual = true := h
        rw [hd] at h'
        simp at h'
      · show 1 ≤ mathRound (p.expansion * 6) 5 + 1
        omega
      · show p.expansion ≤ mathRound (p.expansion * 6) 5 + 1
        omega
      · cases hex : Pool.exhausted _ with
        | false => rfl
        | true =>
          have hnil := (Pool.exhausted_simple _ (by exact hd)).mp hex
          have hlen := congrArg List.length hnil
          simp only [List.length_range', List.length_nil] at hlen
          omega
      · intro hdist _
        obtain ⟨hnd, hb⟩ := hdist hd
        rw [hempty] at hnd hb
        dsimp only
        constructor
        · have := nodup_insert_fresh [] held p.totalObjects
            (mathRound (p.expansion * 6) 5 + 1).toNat hnd hb
          simpa using this
        · intro x hx
          rcases List.mem_append.mp hx with hx | hx
          · have := List.mem_range'_1.mp hx
            omega
          · have := hb x (by simpa using hx)
            omega
    · refine ⟨p, Pool.refill_simple_nonempty p hd hempty, hinv, hd, le_refl _, ?_, id,
        le_refl _, by simp, fun _ => rfl⟩
      cases hex : p.exhausted with
      | false => rfl
      | true => exact absurd ((Pool.exhausted_simple p hd).mp hex) hempty
  | true =>
    obtain ⟨fs, hf, hu, hdisj, hb⟩ := hinv.dual hd
    by_cases hempty : p.freeList.first = none
    · have hfs : fs = [] := hf.first_none_iff.mp hempty
      subst hfs
      obtain ⟨fl, h1, h2⟩ := Pool.refill_dual_empty p hd hf hempty
      have hsize := hinv.size_nonneg
      have hround := mathRound_nonneg p.size hsize
      refine ⟨_, h1, ⟨?_, hpos⟩, hd, le_refl _, ?_, ?_, Nat.le_add_right _ _, ?_, ?_⟩
      rotate_left 3
      · rw [Pool.free_dual _ (by exact hd) _ h2, Pool.free_dual p hd _ hf]
        simp
      · intro hex
        have := (Pool.exhausted_dual p hd).mpr hempty
        rw [hex] at this
        simp at this
      · intro _
        refine ⟨_, h2, hu, ?_, ?_⟩
        · intro x hx hx'
          have h3 := List.mem_range'_1.mp hx
          have h4 := hb x (by simpa using hx')
          omega
        · intro x hx
          show x < p.totalObjects + (mathRound p.size 5 + 1).toNat
          rcases List.mem_append.mp hx with hx | hx
          · have := List.mem_range'_1.mp hx
            omega
          · have := hb x (by simpa using hx)
            omega
      · cases hex : Pool.exhausted _ with
        | false => rfl
        | true =>
          have hnone := (Pool.exhausted_dual _ (by exact hd)).mp hex
          have hnil := h2.first_none_iff.mp hnone
          have hlen := congrArg List.length hnil
          simp only [List.length_range', List.length_nil] at hlen
          omega
      · intro _ h
        have h' : p.dual = false := h
        rw [hd] at h'
        simp at h'
    · refine ⟨p, Pool.refill_dual_nonempty p hd hempty, hinv, hd, le_refl _, ?_, id,
        le_refl _, by simp, fun _ => rfl⟩
      cases hex : p.exhausted with
      | false => rfl
      | true => exact absurd ((Pool.exhausted_dual p hd).mp hex) hempty

theorem Pool.Inv.take {p : Pool} {held : List Nat} (hinv : p.Inv held)
    (hne : p.exhausted = false) :
    ∃ x q, p.take = .ok (some x, q) ∧ q.Inv (held ++ [x]) ∧ q.dual = p.dual ∧
      q.expansion = p.expansion ∧ q.totalObjects = p.totalObjects ∧
      q.totalPooled = p.totalPooled ∧ (p.dual = true → x ∉ held) ∧
      (p.Distinct held → x ∉ held ∧ q.Distinct (held ++ [x])) ∧
      (x :: q.free).Perm p.free := by
  cases hd : p.dual with
  | false =>
    have hnonempty : p.freeArray ≠ [] := by
      intro h
      have := (Pool.exhausted_simple p hd).mpr h
      rw [hne] at this
      simp at this
    rcases List.eq_nil_or_concat' p.freeArray with h | ⟨init, x, hcat⟩
    · exact absurd h hnonempty
    · refine ⟨x, { p with freeArray := init }, ?_, ⟨?_, hinv.expansion_pos⟩, hd, rfl, rfl, rfl,
        ?_, ?_, ?_⟩
      rotate_left 4
      · rw [Pool.free_simple _ (by exact hd), Pool.free_simple p hd, hcat]
        exact (List.perm_append_singleton x init).symm
      · rw [Pool.take_simple p hd, hcat]
        simp
      · intro h
        have h' : p.dual = true := h
        rw [hd] at h'
        simp at h'
      · intro h; simp at h
      · intro hdist
        obtain ⟨hnd, hb⟩ := hdist hd
        rw [hcat] at hnd hb
        refine ⟨?_, fun _ => ⟨?_, ?_⟩⟩
        · intro hx
          rw [List.nodup_append] at hnd
          exact hnd.2.2 (by simp) hx
        · dsimp only
          rw [← List.append_assoc]
          refine List.Nodup.append ?_ (by simp) ?_
          · rw [List.append_assoc] at hnd
            rw [List.nodup_append] at hnd ⊢
            refine ⟨hnd.1, (List.nodup_cons.mp hnd.2.1).2, ?_⟩
            intro z hz hz'
            exact hnd.2.2 hz (List.mem_cons_of_mem _ hz')
          · intro z hz hz'
            simp only [List.mem_singleton] at hz'
            subst hz'
            rw [List.append_assoc] at hnd
            rw [List.nodup_append] at hnd
            rcases List.mem_append.mp hz with hz | hz
            · exact hnd.2.2 hz (List.mem_cons_self _ _)
            · exact (List.nodup_cons.mp hnd.2.1).1 hz
        · intro z hz
          dsimp only at hz ⊢
          refine hb z ?_
          simp only [List.mem_append, List.mem_singleton] at hz ⊢
          tauto
  | true =>
    obtain ⟨fs, hf, hu, hdisj, hb⟩ := hinv.dual hd
    have hfirst : p.freeList.first ≠ none := by
      intro h
      have := (Pool.exhausted_dual p hd).mpr h
      rw [hne] at this
      simp at this
    cases fs with
    | nil => exact absurd (hf.first_none_iff.mpr rfl) hfirst
    | cons x rest =>
      have hx : x ∉ held := hdisj x (List.mem_cons_self _ _)
      obtain ⟨fl, ul, htake, hfl, hul⟩ := Pool.take_dual p hd x rest held hf hu hx
      have hnd := hf.nodup
      refine ⟨x, _, htake, ⟨?_, hinv.expansion_pos⟩, hd, rfl, rfl, rfl, fun _ => hx, ?_, ?_⟩
      rotate_left 2
      · rw [Pool.free_dual _ (by exact hd) _ hfl, Pool.free_dual p hd _ hf]
      · intro _
        refine ⟨rest, hfl, hul, ?_, ?_⟩
        · intro z hz hz'
          rcases List.mem_append.mp hz' with hz' | hz'
          · exact hdisj z (List.mem_cons_of_mem _ hz) hz'
          · simp only [List.mem_singleton] at hz'
            subst hz'
            exact (List.nodup_cons.mp hnd).1 hz
        · intro z hz
          refine hb z ?_
          simp only [List.mem_append, List.mem_singleton, List.mem_cons] at hz ⊢
          tauto
      · intro hdist
        refine ⟨hx, fun h => ?_⟩
        have h' : p.dual = false := h
        rw [hd] at h'
        simp at h'

theorem Pool.Inv.acquire {p : Pool} {held : List Nat} (hinv : p.Inv held) :
    ∃ x q, p.acquire = .ok (some x, q) ∧ q.Inv (held ++ [x]) ∧ q.dual = p.dual ∧
      p.expansion ≤ q.expansion ∧ (p.dual = true → x ∉ held) ∧
      (p.Distinct held → x ∉ held ∧ q.Distinct (held ++ [x])) ∧
      p.totalObjects ≤ q.totalObjects ∧
      (x :: q.free).Perm
        (p.free ++ List.range' p.totalObjects (q.totalObjects - p.totalObjects)) ∧
      (p.exhausted = false → q.totalObjects = p.totalObjects) := by
  obtain ⟨r, hr, hrinv, hrd, hre, hrex, hrdist, hrt, hrfree, hrsame⟩ := hinv.refill
  obtain ⟨x, q, hq, hqinv, hqd, hqe, hqt, _, hqx, hqdist, hqfree⟩ := hrinv.take hrex
  refine ⟨x, q, ?_, hqinv, hqd.trans hrd, by rw [hqe]; exact hre, ?_, ?_, by rw [hqt]; exact hrt,
    ?_, ?_⟩
  · unfold Pool.acquire
    rw [hr]
    exact hq
  · intro h
    exact hqx (hrd.trans h)
  · intro h
    exact hqdist (hrdist h)
  · rw [hqt, ← hrfree]
    exact hqfree
  · intro hex
    rw [hqt, hrsame hex]

theorem Pool.Inv.release {p : Pool} {held : List Nat} (hinv : p.Inv held) (x : Nat)
    (hx : p.dual = true → x ∉ held → x < p.totalObjects) :
    (∃ q, p.release x = .ok q ∧ q.Inv (held.erase x) ∧ q.dual = p.dual ∧
        q.expansion = p.expansion ∧ q.totalObjects = p.totalObjects ∧
        q.totalPooled = p.totalPooled ∧ q.free = p.free ++ [x]) ∨
      (p.release x = .error Err.duplicateAdd ∧ p.dual = true ∧ x ∉ held) := by
  cases hd : p.dual with
  | false =>
    refine Or.inl ⟨_, Pool.release_simple p hd x, ⟨?_, hinv.expansion_pos⟩, hd, rfl, rfl, rfl,
      by rw [Pool.free_simple _ (by exact hd), Pool.free_simple p hd]⟩
    intro h
    have h' : p.dual = true := h
    rw [hd] at h'
    simp at h'
  | true =>
    obtain ⟨fs, hf, hu, hdisj, hb⟩ := hinv.dual hd
    by_cases hfs : x ∈ fs
    · exact Or.inr ⟨Pool.release_dual_dup p hd x fs hf hfs, rfl, hdisj x hfs⟩
    · obtain ⟨fl, ul, hrel, hfl, hul⟩ := Pool.release_dual p hd x fs held hf hu hfs
      refine Or.inl ⟨_, hrel, ⟨?_, hinv.expansion_pos⟩, hd, rfl, rfl, rfl,
        by rw [Pool.free_dual _ (by exact hd) _ hfl, Pool.free_dual p hd _ hf]⟩
      intro _
      refine ⟨_, hfl, hul, ?_, ?_⟩
      · intro z hz hz'
        rcases List.mem_append.mp hz with hz | hz
        · exact hdisj z hz (List.mem_of_mem_erase hz')
        · simp only [List.mem_singleton] at hz
          subst hz
          exact ((List.Nodup.mem_erase_iff hu.nodup).mp hz').1 rfl
      · intro z hz
        show z < p.totalObjects
        rcases List.mem_append.mp hz with hz | hz
        · rcases List.mem_append.mp hz with hz | hz
          · exact hb z (List.mem_append_left _ hz)
          · simp only [List.mem_singleton] at hz
            subst hz
            by_cases hh : z ∈ held
            · exact hb z (List.mem_append_right _ hh)
            · exact hx hd hh
        · exact hb z (List.mem_append_right _ (List.mem_of_mem_erase hz))

theorem Pool.Inv.release_held {p : Pool} {held : List Nat} (hinv : p.Inv held) (x : Nat)
    (hx : x ∈ held) :
    ∃ q, p.release x = .ok q ∧ q.Inv (held.erase x) ∧ q.dual = p.dual ∧
      q.expansion = p.expansion ∧ q.totalObjects = p.totalObjects ∧
      q.totalPooled = p.totalPooled ∧ q.free = p.free ++ [x] := by
  rcases hinv.release x (fun _ h => absurd hx h) with h | ⟨_, _, h⟩
  · exact h
  · exact absurd hx h

theorem Pool.Distinct.after_release {p : Pool} {held : List Nat} (hdist : p.Distinct held) (x : Nat)
    (hx : x ∈ held) (q : Pool) (hq : p.release x = .ok q) : q.Distinct (held.erase x) := by
  intro hqd
  cases hd : p.dual with
  | true =>
    exfalso
    unfold Pool.release at hq
    rw [if_pos hd] at hq
    split at hq
    · simp only [Except.ok.injEq] at hq
      rw [← hq] at hqd
      have h' : p.dual = false := hqd
      rw [hd] at h'
      simp at h'
    · simp at hq
  | false =>
    rw [Pool.release_simple p hd x] at hq
    simp only [Except.ok.injEq] at hq
    subst hq
    obtain ⟨hnd, hb⟩ := hdist hd
    have hperm : (p.freeArray ++ [x] ++ held.erase x).Perm (p.freeArray ++ held) := by
      rw [List.append_assoc]
      exact List.Perm.append_left _ (List.perm_cons_erase hx).symm
    exact ⟨hperm.nodup_iff.mpr hnd, fun z hz => hb z (hperm.subset hz)⟩

theorem Client.call_inv (c : Client) (k : Call) (hinv : c.pool.Inv c.held)
    (hk : ∀ x, k = .release x → c.pool.dual = true → x ∈ c.held ∨ x < c.pool.totalObjects) :
    ∃ c1, c.call k = .ok c1 ∧ c1.pool.Inv c1.held ∧ c1.pool.dual = c.pool.dual ∧
      c.pool.expansion ≤ c1.pool.expansion := by
  cases k with
  | acquire =>
    obtain ⟨x, q, hacq, hqinv, hqd, hqe, _, _, _⟩ := hinv.acquire
    exact ⟨⟨q, c.held ++ [x], if c.pool.exhausted then c.expansions + 1 else c.expansions⟩,
      by simp [Client.call, hacq], hqinv, hqd, hqe⟩
  | release x =>
    have hx : c.pool.dual = true → x ∉ c.held → x < c.pool.totalObjects := by
      intro hdual hnot
      rcases hk x rfl hdual with h | h
      · exact absurd h hnot
      · exact h
    rcases hinv.release x hx with ⟨q, hrel, hqinv, hqd, hqe, _, _, _⟩ | ⟨hrel, _, _⟩
    · exact ⟨⟨q, c.held.erase x, c.expansions⟩, by simp [Client.call, hrel], hqinv, hqd,
        le_of_eq hqe.symm⟩
    · exact ⟨c, by simp [Client.call, hrel], hinv, rfl, le_refl _⟩
  | expand m =>
    obtain ⟨q, hexp, hqinv, hqd, hqe, _, _, _⟩ := hinv.expand m
    exact ⟨⟨q, c.held, c.expansions⟩, by simp [Client.call, hexp], hqinv, hqd,
      le_of_eq hqe.symm⟩

theorem Client.call_distinct (c : Client) (k : Call) (hinv : c.pool.Inv c.held)
    (hdist : c.pool.Distinct c.held) (hk : ∀ x, k = .release x → x ∈ c.held)
    (c1 : Client) (hc : c.call k = .ok c1) : c1.pool.Distinct c1.held := by
  cases k with
  | acquire =>
    obtain ⟨x, q, hacq, _, _, _, _, hqdist, _⟩ := hinv.acquire
    simp only [Client.call, hacq, Except.ok.injEq] at hc
    subst hc
    exact (hqdist hdist).2
  | release x =>
    obtain ⟨q, hrel, _⟩ := hinv.release_held x (hk x rfl)
    simp only [Client.call, hrel, Except.ok.injEq] at hc
    subst hc
    exact hdist.after_release x (hk x rfl) q hrel
  | expand m =>
    obtain ⟨q, hexp, _, _, _, hqdist, _, _⟩ := hinv.expand m
    simp only [Client.call, hexp, Except.ok.injEq] at hc
    subst hc
    exact hqdist hdist

theorem Client.run_inv (test : Client → Nat → Bool)
    (htest : ∀ c x, test c x = true → x ∈ c.held ∨ x < c.pool.totalObjects)
    (ks : List Call) (c : Client) (hinv : c.pool.Inv c.held)
    (hal : Client.allowed test c ks = true) :
    ∃ c1, c.run ks = .ok c1 ∧ c1.pool.Inv c1.held ∧ c1.pool.dual = c.pool.dual ∧
      c.pool.expansion ≤ c1.pool.expansion := by
  induction ks generalizing c with
  | nil => exact ⟨c, rfl, hinv, rfl, le_refl _⟩
  | cons k ks ih =>
    unfold Client.allowed at hal
    rw [Bool.and_eq_true] at hal
    obtain ⟨hk, hrest⟩ := hal
    obtain ⟨c1, hcall, hinv1, hd1, he1⟩ := Client.call_inv c k hinv (by
      intro x hkx _
      subst hkx
      exact htest c x hk)
    rw [hcall] at hrest
    obtain ⟨c2, hrun, hinv2, hd2, he2⟩ := ih c1 hinv1 hrest
    refine ⟨c2, ?_, hinv2, hd2.trans hd1, le_trans he1 he2⟩
    unfold Client.run
    rw [hcall]
    exact hrun

theorem Client.run_distinct (ks : List Call) (c : Client) (hinv : c.pool.Inv c.held)
    (hdist : c.pool.Distinct c.held) (hal : Client.allowed Client.holds c ks = true)
    (c1 : Client) (hrun : c.run ks = .ok c1) : c1.pool.Distinct c1.held := by
  induction ks generalizing c with
  | nil =>
    simp only [Client.run, Except.ok.injEq] at hrun
    subst hrun
    exact hdist
  | cons k ks ih =>
    unfold Client.allowed at hal
    rw [Bool.and_eq_true] at hal
    obtain ⟨hk, hrest⟩ := hal
    have hk' : ∀ x, k = .release x → x ∈ c.held := by
      intro x hkx
      subst hkx
      simpa [Client.holds] using hk
    obtain ⟨c2, hcall, hinv2, _, _⟩ := Client.call_inv c k hinv (fun x hx _ => Or.inl (hk' x hx))
    rw [hcall] at hrest
    unfold Client.run at hrun
    rw [hcall] at hrun
    exact ih c2 hinv2 (Client.call_distinct c k hinv hdist hk' c2 hcall) hrest hrun

theorem holds_admissible (c : Client) (x : Nat) (h : Client.holds c x = true) :
    x ∈ c.held ∨ x < c.pool.totalObjects := by
  left
  simpa [Client.holds] using h

theorem constructed_admissible (c : Client) (x : Nat) (h : Client.constructed c x = true) :
    x ∈ c.held ∨ x < c.pool.totalObjects := by
  right
  simpa [Client.constructed] using h

/-- A session that releases existing instances only never throws out of a call, and its
pool satisfies the invariant. -/
theorem Pool.session_existing (t0 : Nat) (tp n : Int) (d : Bool) (calls : List Call)
    (h : Pool.existing t0 tp n d calls = true) :
    ∃ c, Pool.session t0 tp n d calls = .ok c ∧ c.pool.Inv c.held ∧ c.pool.dual = d ∧
      1 ≤ c.pool.expansion := by
  obtain ⟨p, hinit, hinv, _, hd, _⟩ := Pool.Inv.init t0 tp n d
  unfold Pool.existing at h
  rw [hinit] at h
  obtain ⟨c, hrun, hcinv, hcd, _⟩ :=
    Client.run_inv Client.constructed constructed_admissible calls ⟨p, [], 0⟩ hinv h
  refine ⟨c, ?_, hcinv, hcd.trans hd, hcinv.expansion_pos⟩
  unfold Pool.session
  rw [hinit]
  exact hrun

/-- A disciplined session never throws out of a call, and its pool satisfies the invariant
of both modes. -/
theorem Pool.session_disciplined (t0 : Nat) (tp n : Int) (d : Bool) (calls : List Call)
    (h : Pool.disciplined t0 tp n d calls = true) :
    ∃ c, Pool.session t0 tp n d calls = .ok c ∧ c.pool.Inv c.held ∧
      c.pool.Distinct c.held ∧ c.pool.dual = d := by
  obtain ⟨p, hinit, hinv, hdist, hd, _⟩ := Pool.Inv.init t0 tp n d
  unfold Pool.disciplined at h
  rw [hinit] at h
  obtain ⟨c, hrun, hcinv, hcd, _⟩ :=
    Client.run_inv Client.holds holds_admissible calls ⟨p, [], 0⟩ hinv h
  refine ⟨c, ?_, hcinv, Client.run_distinct calls ⟨p, [], 0⟩ hinv hdist h c hrun,
    hcd.trans hd⟩
  unfold Pool.session
  rw [hinit]
  exact hrun

theorem Pool.Inv.held_nodup {p : Pool} {held : List Nat} (hinv : p.Inv held)
    (hdist : p.Distinct held) : held.Nodup := by
  cases hd : p.dual with
  | false => exact (List.nodup_append.mp (hdist hd).1).2.1
  | true =>
    obtain ⟨_, _, hu, _, _⟩ := hinv.dual hd
    exact hu.nodup

/-! ## Where the instances are -/

theorem Client.call_effect (c : Client) (k : Call) (hinv : c.pool.Inv c.held) (c1 : Client)
    (hc : c.call k = .ok c1) :
    c.pool.totalObjects ≤ c1.pool.totalObjects ∧
      ∃ extra, (c1.pool.free ++ c1.held).Perm
          (c.pool.free ++ c.held ++
            List.range' c.pool.totalObjects (c1.pool.totalObjects - c.pool.totalObjects) ++
            extra) ∧
        ((∀ x, k = .release x → x ∈ c.held) → extra = []) := by
  cases k with
  | acquire =>
    obtain ⟨x, q, hacq, _, _, _, _, _, hle, hperm, _⟩ := hinv.acquire
    simp only [Client.call, hacq, Except.ok.injEq] at hc
    subst hc
    refine ⟨hle, [], ?_, fun _ => rfl⟩
    dsimp only
    rw [List.append_nil]
    have h1 : (q.free ++ (c.held ++ [x])).Perm ((x :: q.free) ++ c.held) := by
      rw [← List.append_assoc]
      refine (List.perm_append_singleton x (q.free ++ c.held)).trans ?_
      rfl
    refine h1.trans ?_
    refine (List.Perm.append_right c.held hperm).trans ?_
    rw [List.append_assoc, List.append_assoc]
    exact List.Perm.append_left _ List.perm_append_comm
  | release x =>
    simp only [Client.call] at hc
    cases hrel : c.pool.release x with
    | ok q =>
      rw [hrel] at hc
      simp only [Except.ok.injEq] at hc
      subst hc
      dsimp only
      -- the effect of a successful release on the free collection
      have hfree : q.free = c.pool.free ++ [x] ∧ q.totalObjects = c.pool.totalObjects := by
        cases hd : c.pool.dual with
        | false =>
          rw [Pool.release_simple _ hd] at hrel
          simp only [Except.ok.injEq] at hrel
          subst hrel
          exact ⟨by rw [Pool.free_simple _ (by exact hd), Pool.free_simple _ hd], rfl⟩
        | true =>
          obtain ⟨fs, hf, hu, _, _⟩ := hinv.dual hd
          by_cases hfs : x ∈ fs
          · rw [Pool.release_dual_dup _ hd x fs hf hfs] at hrel
            simp at hrel
          · obtain ⟨fl, ul, hrel', hfl, _⟩ := Pool.release_dual _ hd x fs c.held hf hu hfs
            rw [hrel'] at hrel
            simp only [Except.ok.injEq] at hrel
            subst hrel
            exact ⟨by rw [Pool.free_dual _ (by exact hd) _ hfl, Pool.free_dual _ hd _ hf],
              rfl⟩
      rw [hfree.1, hfree.2, Nat.sub_self]
      simp only [List.range'_zero, List.append_nil]
      by_cases hmem : x ∈ c.held
      · refine ⟨le_refl _, [], ?_, fun _ => rfl⟩
        rw [List.append_nil, List.append_assoc]
        exact List.Perm.append_left _ (List.perm_cons_erase hmem).symm
      · refine ⟨le_refl _, [x], ?_, fun h => absurd (h x rfl) hmem⟩
        rw [List.erase_of_not_mem hmem, List.append_assoc, List.append_assoc]
        exact List.Perm.append_left _ List.perm_append_comm
    | error e =>
      rw [hrel] at hc
      cases e with
      | duplicateAdd =>
        simp only [Except.ok.injEq] at hc
        subst hc
        exact ⟨le_refl _, [], by simp, fun _ => rfl⟩
      | noLast => simp at hc
      | nullRef => simp at hc
      | noPool => simp at hc
      | notInList => simp at hc
      | loops => simp at hc
  | expand m =>
    obtain ⟨q, hexp, _, _, _, _, hle, hfree⟩ := hinv.expand m
    simp only [Client.call, hexp, Except.ok.injEq] at hc
    subst hc
    refine ⟨hle, [], ?_, fun _ => rfl⟩
    dsimp only
    rw [hfree, List.append_nil, List.append_assoc, List.append_assoc]
    exact List.Perm.append_left _ List.perm_append_comm

theorem Client.call_accounted (t0 : Nat) (c : Client) (k : Call) (hinv : c.pool.Inv c.held)
    (hacc : c.Accounted t0) (hk : ∀ x, k = .release x → x ∈ c.held) (c1 : Client)
    (hc : c.call k = .ok c1) : c1.Accounted t0 := by
  obtain ⟨hle, extra, hperm, hextra⟩ := Client.call_effect c k hinv c1 hc
  obtain ⟨ht0, hp0⟩ := hacc
  rw [hextra hk, List.append_nil] at hperm
  refine ⟨le_trans ht0 hle, hperm.trans ?_⟩
  refine (List.Perm.append_right _ hp0).trans ?_
  have h1 : c.pool.totalObjects = t0 + (c.pool.totalObjects - t0) := by omega
  have h2 : c1.pool.totalObjects - t0
      = (c1.pool.totalObjects - c.pool.totalObjects) + (c.pool.totalObjects - t0) := by omega
  rw [h2, ← List.range'_append_1, ← h1]

theorem Client.call_complete (t0 : Nat) (c : Client) (k : Call) (hinv : c.pool.Inv c.held)
    (hcomp : c.Complete t0) (c1 : Client) (hc : c.call k = .ok c1) : c1.Complete t0 := by
  obtain ⟨hle, extra, hperm, _⟩ := Client.call_effect c k hinv c1 hc
  intro x hx0 hx1
  have hmem : x ∈ c1.pool.free ++ c1.held := by
    refine hperm.symm.subset ?_
    by_cases hold : x < c.pool.totalObjects
    · have := hcomp x hx0 hold
      simp only [List.mem_append]
      tauto
    · have : x ∈ List.range' c.pool.totalObjects
          (c1.pool.totalObjects - c.pool.totalObjects) := by
        rw [List.mem_range'_1]
        omega
      simp only [List.mem_append]
      tauto
  exact List.mem_append.mp hmem

theorem Client.run_accounted (t0 : Nat) (ks : List Call) (c : Client)
    (hinv : c.pool.Inv c.held) (hacc : c.Accounted t0)
    (hal : Client.allowed Client.holds c ks = true) (c1 : Client) (hrun : c.run ks = .ok c1) :
    c1.Accounted t0 := by
  induction ks generalizing c with
  | nil =>
    simp only [Client.run, Except.ok.injEq] at hrun
    subst hrun
    exact hacc
  | cons k ks ih =>
    unfold Client.allowed at hal
    rw [Bool.and_eq_true] at hal
    obtain ⟨hk, hrest⟩ := hal
    have hk' : ∀ x, k = .release x → x ∈ c.held := by
      intro x hkx
      subst hkx
      simpa [Client.holds] using hk
    obtain ⟨c2, hcall, hinv2, _, _⟩ := Client.call_inv c k hinv (fun x hx _ => Or.inl (hk' x hx))
    rw [hcall] at hrest
    unfold Client.run at hrun
    rw [hcall] at hrun
    exact ih c2 hinv2 (Client.call_accounted t0 c k hinv hacc hk' c2 hcall) hrest hrun

theorem Client.run_complete (t0 : Nat) (ks : List Call) (c : Client)
    (hinv : c.pool.Inv c.held) (hcomp : c.Complete t0)
    (hal : Client.allowed Client.constructed c ks = true) (c1 : Client)
    (hrun : c.run ks = .ok c1) : c1.Complete t0 := by
  induction ks generalizing c with
  | nil =>
    simp only [Client.run, Except.ok.injEq] at hrun
    subst hrun
    exact hcomp
  | cons k ks ih =>
    unfold Client.allowed at hal
    rw [Bool.and_eq_true] at hal
    obtain ⟨hk, hrest⟩ := hal
    obtain ⟨c2, hcall, hinv2, _, _⟩ := Client.call_inv c k hinv (by
      intro x hkx _
      subst hkx
      exact constructed_admissible c x hk)
    rw [hcall] at hrest
    unfold Client.run at hrun
    rw [hcall] at hrun
    exact ih c2 hinv2 (Client.call_complete t0 c k hinv hcomp c2 hcall) hrest hrun

theorem Client.Accounted.of_init (t0 : Nat) (tp n : Int) (d : Bool) (p : Pool)
    (hp : Pool.init t0 tp n d = .ok p) : Client.Accounted t0 ⟨p, [], 0⟩ := by
  obtain ⟨p', hinit, _, _, hd, _, ht, _, hs, hdl⟩ := Pool.Inv.init t0 tp n d
  rw [hinit] at hp
  simp only [Except.ok.injEq] at hp
  subst hp
  refine ⟨by rw [ht]; exact Nat.le_add_right _ _, ?_⟩
  dsimp only
  rw [List.append_nil, ht, Nat.add_sub_cancel_left]
  cases d with
  | false => rw [Pool.free_simple _ hd, hs rfl]
  | true => rw [Pool.free_dual _ hd _ (hdl rfl)]

theorem Client.Accounted.complete {t0 : Nat} {c : Client} (h : c.Accounted t0) :
    c.Complete t0 := by
  intro x hx0 hx1
  have : x ∈ c.pool.free ++ c.held := by
    refine h.2.symm.subset ?_
    rw [List.mem_range'_1]
    omega
  exact List.mem_append.mp this

/-! ## Properties of the pool -/

/-- C1. In either mode, after every sequence of calls in which `release` is only called on an
instance that is currently held, the session has not thrown, the held instances are
pairwise distinct, and the next `acquire` returns an instance that is not held. -/
theorem acquire_never_returns_held (t0 : Nat) (tp n : Int) (d : Bool) (calls : List Call)
    (h : Pool.disciplined t0 tp n d calls = true) :
    ∃ c, Pool.session t0 tp n d calls = .ok c ∧ c.held.Nodup ∧
      ∃ x q, c.pool.acquire = .ok (some x, q) ∧ x ∉ c.held := by
  obtain ⟨c, hrun, hinv, hdist, _⟩ := Pool.session_disciplined t0 tp n d calls h
  obtain ⟨x, q, hacq, _, _, _, _, hx, _⟩ := hinv.acquire
  exact ⟨c, hrun, hinv.held_nodup hdist, x, q, hacq, (hx hdist).1⟩

/-- C1 at a dual pool of one instance after two `acquire` calls, a `release` and a third
`acquire`. -/
theorem acquire_never_returns_held_witness :
    Pool.disciplined 0 0 1 true [.acquire, .acquire, .release 0, .acquire] = true ∧
    ∃ c, Pool.session 0 0 1 true [.acquire, .acquire, .release 0, .acquire] = .ok c ∧
      c.held.Nodup ∧ ∃ x q, c.pool.acquire = .ok (some x, q) ∧ x ∉ c.held :=
  ⟨by decide, acquire_never_returns_held 0 0 1 true _ (by decide)⟩

theorem Pool.Inv.exhausted_iff {p : Pool} {held : List Nat} (hinv : p.Inv held) :
    p.exhausted = true ↔ p.free = [] := by
  cases hd : p.dual with
  | false => rw [Pool.exhausted_simple p hd, Pool.free_simple p hd]
  | true =>
    obtain ⟨fs, hf, _, _, _⟩ := hinv.dual hd
    rw [Pool.exhausted_dual p hd, Pool.free_dual p hd fs hf]
    exact hf.first_none_iff

theorem Pool.acquire_of_not_exhausted (p : Pool) (h : p.exhausted = false) :
    p.acquire = p.take := by
  have hr : p.refill = .ok p := by
    cases hd : p.dual with
    | false =>
      refine Pool.refill_simple_nonempty p hd ?_
      intro hnil
      have := (Pool.exhausted_simple p hd).mpr hnil
      rw [h] at this
      simp at this
    | true =>
      refine Pool.refill_dual_nonempty p hd ?_
      intro hnone
      have := (Pool.exhausted_dual p hd).mpr hnone
      rw [h] at this
      simp at this
  unfold Pool.acquire
  rw [hr]

/-- C2. On a pool whose free collection is not empty, `acquire` takes exactly one instance
and does not expand.  In simple mode it is the last element of the free array, which
shrinks by one.  In dual mode it is the object of the first node of the free list; it is no
longer in the free list afterwards and it is the last element of the used list; the free
count goes down by one and the used count up by one. -/
theorem acquire_takes_one (t0 : Nat) (tp n : Int) (d : Bool) (calls : List Call)
    (hex : Pool.existing t0 tp n d calls = true) :
    ∃ c, Pool.session t0 tp n d calls = .ok c ∧
      (c.pool.free ≠ [] →
        ∃ x q, c.pool.acquire = .ok (some x, q) ∧
          q.totalObjects = c.pool.totalObjects ∧ q.totalPooled = c.pool.totalPooled ∧
          q.expansion = c.pool.expansion ∧
          (d = false → c.pool.freeArray = q.freeArray ++ [x]) ∧
          (d = true →
            (∃ a, c.pool.freeList.first = some a ∧
              (readNode c.pool.freeList.nodes a).obj = x) ∧
            c.pool.freeList.toList = x :: q.freeList.toList ∧
            x ∉ q.freeList.toList ∧ q.freeList.has x = false ∧
            q.usedList.toList = c.pool.usedList.toList ++ [x] ∧
            q.freeList.count = c.pool.freeList.count - 1 ∧
            q.usedList.count = c.pool.usedList.count + 1)) := by
  obtain ⟨c, hrun, hinv, hd, _⟩ := Pool.session_existing t0 tp n d calls hex
  refine ⟨c, hrun, fun hne => ?_⟩
  have hnex : c.pool.exhausted = false := by
    cases hx : c.pool.exhausted with
    | false => rfl
    | true => exact absurd (hinv.exhausted_iff.mp hx) hne
  rw [Pool.acquire_of_not_exhausted _ hnex]
  cases d with
  | false =>
    rw [Pool.free_simple _ hd] at hne
    rcases List.eq_nil_or_concat' c.pool.freeArray with h | ⟨init, x, hcat⟩
    · exact absurd h hne
    · refine ⟨x, { c.pool with freeArray := init }, ?_, rfl, rfl, rfl, fun _ => hcat, ?_⟩
      · rw [Pool.take_simple _ hd, hcat]
        simp
      · intro h; simp at h
  | true =>
    obtain ⟨fs, hf, hu, hdisj, _⟩ := hinv.dual hd
    rw [Pool.free_dual _ hd fs hf] at hne
    cases fs with
    | nil => exact absurd rfl hne
    | cons x rest =>
      have hx : x ∉ c.held := hdisj x (List.mem_cons_self _ _)
      obtain ⟨fl, ul, htake, hfl, hul⟩ := Pool.take_dual _ hd x rest c.held hf hu hx
      have hxrest : x ∉ rest := (List.nodup_cons.mp hf.nodup).1
      refine ⟨x, _, htake, rfl, rfl, rfl, ?_, fun _ => ⟨?_, ?_, ?_, ?_, ?_, ?_, ?_⟩⟩
      · intro h; simp at h
      · cases ha : c.pool.freeList.first with
        | none =>
          have := hf.first_none_iff.mp ha
          simp at this
        | some a =>
          obtain ⟨rest', hrest'⟩ := hf.first_obj a ha
          simp only [List.cons.injEq] at hrest'
          exact ⟨a, rfl, hrest'.1.symm⟩
      · show c.pool.freeList.toList = x :: fl.toList
        rw [hf.toList_eq, hfl.toList_eq]
      · show x ∉ fl.toList
        rw [hfl.toList_eq]
        exact hxrest
      · exact hfl.has_false x hxrest
      · show ul.toList = c.pool.usedList.toList ++ [x]
        rw [hul.toList_eq, hu.toList_eq]
      · show fl.count = c.pool.freeList.count - 1
        rw [hfl.count_eq, hf.count_eq]
        simp
      · show ul.count = c.pool.usedList.count + 1
        rw [hul.count_eq, hu.count_eq]
        simp

/-- C2 at a dual pool of two instances whose free list is `[1, 0]` after an `acquire` and a
`release`. -/
theorem acquire_takes_one_witness :
    Pool.existing 0 0 2 true [.acquire, .release 0] = true ∧
    ∃ c, Pool.session 0 0 2 true [.acquire, .release 0] = .ok c ∧ c.pool.free = [1, 0] ∧
      ∃ x q, c.pool.acquire = .ok (some x, q) ∧ q.totalObjects = c.pool.totalObjects := by
  obtain ⟨c, hrun, h⟩ := acquire_takes_one 0 0 2 true [.acquire, .release 0] (by decide)
  have hfree : c.pool.free = [1, 0] := by
    have e : (Pool.session 0 0 2 true [.acquire, .release 0]).map (fun c => c.pool.free)
        = .ok [1, 0] := by decide
    rw [hrun] at e
    simpa [Except.map] using e
  obtain ⟨x, q, h1, h2, _⟩ := h (by rw [hfree]; simp)
  exact ⟨by decide, c, hrun, hfree, x, q, h1, h2⟩

/-- C3. `release` of an instance that is held puts it back in the free collection.  In
simple mode the instance is appended to the free array.  In dual mode it leaves the used
list, whose other members keep their order, and becomes the last element of the free list;
the used count goes down by one and the free count up by one. -/
theorem release_returns_to_free (t0 : Nat) (tp n : Int) (d : Bool) (calls : List Call)
    (hex : Pool.existing t0 tp n d calls = true) :
    ∃ c, Pool.session t0 tp n d calls = .ok c ∧
      ∀ x ∈ c.held, ∃ q, c.pool.release x = .ok q ∧
        (d = false → q.freeArray = c.pool.freeArray ++ [x]) ∧
        (d = true →
          x ∈ c.pool.usedList.toList ∧
          q.freeList.toList = c.pool.freeList.toList ++ [x] ∧
          q.usedList.toList = c.pool.usedList.toList.erase x ∧
          x ∉ q.usedList.toList ∧
          q.freeList.count = c.pool.freeList.count + 1 ∧
          q.usedList.count = c.pool.usedList.count - 1) := by
  obtain ⟨c, hrun, hinv, hd, _⟩ := Pool.session_existing t0 tp n d calls hex
  refine ⟨c, hrun, fun x hx => ?_⟩
  cases d with
  | false =>
    refine ⟨_, Pool.release_simple _ hd x, fun _ => rfl, ?_⟩
    intro h; simp at h
  | true =>
    obtain ⟨fs, hf, hu, hdisj, _⟩ := hinv.dual hd
    have hxfs : x ∉ fs := fun h => hdisj x h hx
    obtain ⟨fl, ul, hrel, hfl, hul⟩ := Pool.release_dual _ hd x fs c.held hf hu hxfs
    refine ⟨_, hrel, ?_, fun _ => ⟨?_, ?_, ?_, ?_, ?_, ?_⟩⟩
    · intro h; simp at h
    · rw [hu.toList_eq]
      exact hx
    · show fl.toList = c.pool.freeList.toList ++ [x]
      rw [hfl.toList_eq, hf.toList_eq]
    · show ul.toList = c.pool.usedList.toList.erase x
      rw [hul.toList_eq, hu.toList_eq]
    · show x ∉ ul.toList
      rw [hul.toList_eq]
      exact fun h => ((List.Nodup.mem_erase_iff hu.nodup).mp h).1 rfl
    · show fl.count = c.pool.freeList.count + 1
      rw [hfl.count_eq, hf.count_eq]
      simp
    · show ul.count = c.pool.usedList.count - 1
      rw [hul.count_eq, hu.count_eq, List.length_erase_of_mem hx]
      have := List.length_pos_of_mem hx
      omega

/-- C3 at a dual pool that has handed out instances 0 and 1: the release of 0. -/
theorem release_returns_to_free_witness :
    Pool.existing 0 0 1 true [.acquire, .acquire] = true ∧
    ∃ c, Pool.session 0 0 1 true [.acquire, .acquire] = .ok c ∧ c.held = [0, 1] ∧
      ∃ q, c.pool.release 0 = .ok q ∧ q.usedList.toList = c.pool.usedList.toList.erase 0 := by
  obtain ⟨c, hrun, h⟩ := release_returns_to_free 0 0 1 true [.acquire, .acquire] (by decide)
  have hheld : c.held = [0, 1] := by
    have e : (Pool.session 0 0 1 true [.acquire, .acquire]).map (fun c => c.held)
        = .ok [0, 1] := by decide
    rw [hrun] at e
    simpa [Except.map] using e
  obtain ⟨q, h1, _, h2⟩ := h 0 (by rw [hheld]; simp)
  exact ⟨by decide, c, hrun, hheld, q, h1, (h2 rfl).2.2.1⟩

theorem mathRound_six_fifths (e : Int) :
    mathRound (e * 6) 5 = ⌊(e : ℚ) * 1.2 + 1 / 2⌋ := by
  unfold mathRound
  have h : (e : ℚ) * 1.2 + 1 / 2 = ((2 * (e * 6) + 5 : Int) : ℚ) / ((10 : Nat) : ℚ) := by
    push_cast
    norm_num
    ring
  rw [h, Rat.floor_intCast_div_natCast]
  norm_num

theorem mathRound_fifth (s : Int) : mathRound s 5 = ⌊(s : ℚ) / 5 + 1 / 2⌋ := by
  unfold mathRound
  have h : (s : ℚ) / 5 + 1 / 2 = ((2 * s + 5 : Int) : ℚ) / ((10 : Nat) : ℚ) := by
    push_cast
    ring
  rw [h, Rat.floor_intCast_div_natCast]
  norm_num

/-- C4. In simple mode the stored growth factor starts at 1 and no call lowers it.  Every
`acquire` on an empty free array first replaces the factor `e` by `round(e * 1.2) + 1`,
which is at least `e + 1` and at least 2, and adds exactly that many new instances to the
free array before one of them is handed out. -/
theorem simple_growth_factor (t0 : Nat) (tp n : Int) (calls : List Call)
    (hex : Pool.existing t0 tp n false calls = true) :
    ∃ c, Pool.session t0 tp n false calls = .ok c ∧
      (calls = [] → c.pool.expansion = 1) ∧
      1 ≤ c.pool.expansion ∧
      (∀ k c1, c.call k = .ok c1 → c.pool.expansion ≤ c1.pool.expansion) ∧
      (c.pool.freeArray = [] →
        ∃ r x q, c.pool.refill = .ok r ∧
          r.expansion = ⌊(c.pool.expansion : ℚ) * 1.2 + 1 / 2⌋ + 1 ∧
          r.expansion = mathRound (c.pool.expansion * 6) 5 + 1 ∧
          c.pool.expansion + 1 ≤ r.expansion ∧ 2 ≤ r.expansion ∧
          r.freeArray = List.range' c.pool.totalObjects r.expansion.toNat ∧
          (r.freeArray.length : Int) = r.expansion ∧
          r.totalObjects = c.pool.totalObjects + r.expansion.toNat ∧
          r.totalPooled = c.pool.totalPooled + r.expansion ∧
          c.pool.acquire = .ok (some x, q) ∧ r.take = .ok (some x, q) ∧
          q.expansion = r.expansion) := by
  obtain ⟨c, hrun, hinv, hd, hpos⟩ := Pool.session_existing t0 tp n false calls hex
  refine ⟨c, hrun, ?_, hpos, ?_, ?_⟩
  · intro hnil
    subst hnil
    obtain ⟨p, hinit, _, _, _, he, _⟩ := Pool.Inv.init t0 tp n false
    unfold Pool.session at hrun
    rw [hinit] at hrun
    simp only [Client.run, Except.ok.injEq] at hrun
    rw [← hrun]
    exact he
  · intro k c1 hc
    obtain ⟨c2, hc2, _, _, hle⟩ := Client.call_inv c k hinv (by
      intro x _ hdual
      rw [hd] at hdual
      simp at hdual)
    rw [hc] at hc2
    simp only [Except.ok.injEq] at hc2
    rw [hc2]
    exact hle
  · intro hempty
    have hgrow := mathRound_growth c.pool.expansion hpos
    have hrefill := Pool.refill_simple_empty c.pool hd hempty
    have hacq := Pool.acquire_simple_empty c.pool hd hempty
    have hk : 2 ≤ (mathRound (c.pool.expansion * 6) 5 + 1).toNat := by omega
    have hlast : (List.range' c.pool.totalObjects
        (mathRound (c.pool.expansion * 6) 5 + 1).toNat).getLast?
        = some (c.pool.totalObjects + (mathRound (c.pool.expansion * 6) 5 + 1).toNat - 1) := by
      rw [List.getLast?_range']
      rw [if_neg (by omega)]
    rw [hlast] at hacq
    refine ⟨_, _, _, hrefill, ?_, rfl, hgrow, ?_, rfl, ?_, rfl, rfl, hacq, ?_, rfl⟩
    · show mathRound (c.pool.expansion * 6) 5 + 1 = _
      rw [mathRound_six_fifths]
    · show 2 ≤ mathRound (c.pool.expansion * 6) 5 + 1
      omega
    · show ((List.range' _ _).length : Int) = mathRound (c.pool.expansion * 6) 5 + 1
      rw [List.length_range']
      omega
    · rw [Pool.take_simple _ (by exact hd)]
      dsimp only
      rw [hlast]

/-- C4 at a simple pool of one instance after one `acquire` : the factor goes from 1 to 2. -/
theorem simple_growth_factor_witness :
    Pool.existing 0 0 1 false [.acquire] = true ∧
    ∃ c, Pool.session 0 0 1 false [.acquire] = .ok c ∧ c.pool.freeArray = [] ∧
      ∃ r, c.pool.refill = .ok r ∧ r.expansion = 2 := by
  obtain ⟨c, hrun, _, _, _, h⟩ := simple_growth_factor 0 0 1 [.acquire] (by decide)
  have hstate : c.pool.freeArray = [] ∧ c.pool.expansion = 1 := by
    have e : (Pool.session 0 0 1 false [.acquire]).map
        (fun c => (c.pool.freeArray, c.pool.expansion)) = .ok ([], 1) := by decide
    rw [hrun] at e
    simpa [Except.map] using e
  obtain ⟨r, _, _, h1, _, h2, _⟩ := h hstate.1
  refine ⟨by decide, c, hrun, hstate.1, r, h1, ?_⟩
  rw [h2, hstate.2]
  decide

/-- C5. In dual mode every `acquire` on an empty free list first adds exactly
`round(s / 5) + 1` new instances to the free list, where `s = size()` is the free count plus
the used count; that number is at least 1 and the field `expansion` is left as it was. -/
theorem dual_growth (t0 : Nat) (tp n : Int) (calls : List Call)
    (hex : Pool.existing t0 tp n true calls = true) :
    ∃ c, Pool.session t0 tp n true calls = .ok c ∧
      c.pool.size = c.pool.freeList.count + c.pool.usedList.count ∧
      (c.pool.freeList.toList = [] →
        ∃ r x q, c.pool.refill = .ok r ∧
          r.freeList.toList = List.range' c.pool.totalObjects
            (⌊(c.pool.size : ℚ) / 5 + 1 / 2⌋ + 1).toNat ∧
          r.freeList.count = ⌊(c.pool.size : ℚ) / 5 + 1 / 2⌋ + 1 ∧
          1 ≤ ⌊(c.pool.size : ℚ) / 5 + 1 / 2⌋ + 1 ∧
          r.totalObjects = c.pool.totalObjects + (⌊(c.pool.size : ℚ) / 5 + 1 / 2⌋ + 1).toNat ∧
          r.usedList = c.pool.usedList ∧
          r.expansion = c.pool.expansion ∧
          c.pool.acquire = .ok (some x, q) ∧ r.take = .ok (some x, q) ∧
          q.expansion = c.pool.expansion) := by
  obtain ⟨c, hrun, hinv, hd, _⟩ := Pool.session_existing t0 tp n true calls hex
  refine ⟨c, hrun, ?_, ?_⟩
  · unfold Pool.size
    rw [if_pos hd]
  · intro hempty
    obtain ⟨fs, hf, hu, _, hb⟩ := hinv.dual hd
    rw [hf.toList_eq] at hempty
    subst hempty
    have hfirst := hf.first_none_iff.mpr rfl
    obtain ⟨fl, hrefill, hfl⟩ := Pool.refill_dual_empty c.pool hd hf hfirst
    have hsize := hinv.size_nonneg
    have hround := mathRound_nonneg c.pool.size hsize
    rw [← mathRound_fifth]
    -- the invariant of the refilled pool, and the instance it hands out
    obtain ⟨r, hr, hrinv, _, _, hrex, _⟩ := hinv.refill
    rw [hrefill] at hr
    simp only [Except.ok.injEq] at hr
    obtain ⟨x, q, hq, _, _, hqe, _⟩ := hrinv.take hrex
    subst hr
    refine ⟨_, x, q, hrefill, ?_, ?_, by omega, rfl, rfl, rfl, ?_, hq, hqe⟩
    · show fl.toList = _
      rw [hfl.toList_eq]
    · show fl.count = _
      rw [hfl.count_eq, List.length_range']
      omega
    · unfold Pool.acquire
      rw [hrefill]
      exact hq

/-- C5 at a dual pool of six instances, all handed out: `round(6 / 5) + 1 = 2` instances
are added. -/
theorem dual_growth_witness :
    Pool.existing 0 0 6 true [.acquire, .acquire, .acquire, .acquire, .acquire, .acquire]
      = true ∧
    ∃ c, Pool.session 0 0 6 true [.acquire, .acquire, .acquire, .acquire, .acquire, .acquire]
        = .ok c ∧ c.pool.freeList.toList = [] ∧ c.pool.size = 6 ∧
      ∃ r, c.pool.refill = .ok r ∧ r.freeList.toList = [6, 7] := by
  obtain ⟨c, hrun, _, h⟩ := dual_growth 0 0 6
    [.acquire, .acquire, .acquire, .acquire, .acquire, .acquire] (by decide)
  have hstate : c.pool.freeList.toList = [] ∧ c.pool.size = 6 ∧ c.pool.totalObjects = 6 := by
    have e : (Pool.session 0 0 6 true
        [.acquire, .acquire, .acquire, .acquire, .acquire, .acquire]).map
        (fun c => (c.pool.freeList.toList, c.pool.size, c.pool.totalObjects))
        = .ok ([], 6, 6) := by decide
    rw [hrun] at e
    simpa [Except.map] using e
  obtain ⟨r, _, _, h1, h2, _⟩ := h hstate.1
  refine ⟨by decide, c, hrun, hstate.1, hstate.2.1, r, h1, ?_⟩
  rw [h2, hstate.2.1, hstate.2.2, ← mathRound_fifth]
  decide

theorem Client.run_append (ks ks' : List Call) (c c1 : Client) (h : c.run ks = .ok c1) :
    c.run (ks ++ ks') = c1.run ks' := by
  induction ks generalizing c with
  | nil =>
    simp only [Client.run, Except.ok.injEq] at h
    subst h
    rfl
  | cons k ks ih =>
    unfold Client.run at h
    have hstep : c.run (k :: ks ++ ks') =
        match c.call k with
        | .ok c2 => c2.run (ks ++ ks')
        | .error e => .error e := rfl
    rw [hstep]
    cases hc : c.call k with
    | ok c2 =>
      rw [hc] at h
      exact ih c2 h
    | error e =>
      rw [hc] at h
      simp at h

theorem Client.allowed_acquires (test : Client → Nat → Bool) (i : Nat) (c : Client) :
    Client.allowed test c (List.replicate i .acquire) = true := by
  induction i generalizing c with
  | zero => rfl
  | succ i ih =>
    rw [List.replicate_succ]
    unfold Client.allowed
    cases hc : c.call .acquire with
    | ok c1 => simp [ih c1]
    | error e => simp

theorem Pool.Inv.refill_pooled {p : Pool} {held : List Nat} (hinv : p.Inv held) (r : Pool)
    (hr : p.refill = .ok r) :
    r.totalPooled = p.totalPooled + ((r.totalObjects - p.totalObjects : Nat) : Int) := by
  have hpos := hinv.expansion_pos
  cases hd : p.dual with
  | false =>
    by_cases hempty : p.freeArray = []
    · have hgrow := mathRound_growth p.expansion hpos
      rw [Pool.refill_simple_empty p hd hempty] at hr
      simp only [Except.ok.injEq] at hr
      subst hr
      show p.totalPooled + (mathRound (p.expansion * 6) 5 + 1)
        = p.totalPooled + ((p.totalObjects + (mathRound (p.expansion * 6) 5 + 1).toNat
            - p.totalObjects : Nat) : Int)
      rw [Nat.add_sub_cancel_left, Int.toNat_of_nonneg (by omega)]
    · rw [Pool.refill_simple_nonempty p hd hempty] at hr
      simp only [Except.ok.injEq] at hr
      subst hr
      simp
  | true =>
    obtain ⟨fs, hf, _, _, _⟩ := hinv.dual hd
    by_cases hempty : p.freeList.first = none
    · have hfs : fs = [] := hf.first_none_iff.mp hempty
      subst hfs
      obtain ⟨fl, h1, _⟩ := Pool.refill_dual_empty p hd hf hempty
      have hround := mathRound_nonneg p.size hinv.size_nonneg
      rw [h1] at hr
      simp only [Except.ok.injEq] at hr
      subst hr
      show p.totalPooled + (mathRound p.size 5 + 1)
        = p.totalPooled + ((p.totalObjects + (mathRound p.size 5 + 1).toNat
            - p.totalObjects : Nat) : Int)
      rw [Nat.add_sub_cancel_left, Int.toNat_of_nonneg (by omega)]
    · rw [Pool.refill_dual_nonempty p hd hempty] at hr
      simp only [Except.ok.injEq] at hr
      subst hr
      simp

theorem Pool.Inv.acquire_pooled {p : Pool} {held : List Nat} (hinv : p.Inv held) (x : Nat)
    (q : Pool) (hq : p.acquire = .ok (some x, q)) :
    q.totalPooled = p.totalPooled + ((q.totalObjects - p.totalObjects : Nat) : Int) := by
  obtain ⟨r, hr, hrinv, _, _, hrex, _⟩ := hinv.refill
  obtain ⟨x', q', hq', _, _, _, hqt, hqp, _⟩ := hrinv.take hrex
  have hacq : p.acquire = .ok (some x', q') := by
    unfold Pool.acquire
    rw [hr]
    exact hq'
  rw [hq] at hacq
  simp only [Except.ok.injEq, Prod.mk.injEq] at hacq
  rw [hacq.2, hqp, hqt]
  exact hinv.refill_pooled r hr

theorem Client.call_acquire (c : Client) (hinv : c.pool.Inv c.held) :
    ∃ x q, c.pool.acquire = .ok (some x, q) ∧
      c.call .acquire = .ok ⟨q, c.held ++ [x],
        if c.pool.exhausted then c.expansions + 1 else c.expansions⟩ ∧
      q.Inv (c.held ++ [x]) ∧ q.dual = c.pool.dual ∧
      c.pool.totalObjects ≤ q.totalObjects ∧
      (x :: q.free).Perm
        (c.pool.free ++ List.range' c.pool.totalObjects
          (q.totalObjects - c.pool.totalObjects)) ∧
      (c.pool.exhausted = false → q.totalObjects = c.pool.totalObjects) := by
  obtain ⟨x, q, hacq, hqinv, hqd, _, _, _, hle, hperm, hsame⟩ := hinv.acquire
  exact ⟨x, q, hacq, by simp [Client.call, hacq], hqinv, hqd, hle, hperm, hsame⟩

/-- While the free collection lasts, `acquire` calls do not expand the pool. -/
theorem Client.run_acquires (i : Nat) (c : Client) (hinv : c.pool.Inv c.held)
    (hlen : i ≤ c.pool.free.length) :
    ∃ c1, c.run (List.replicate i .acquire) = .ok c1 ∧ c1.pool.Inv c1.held ∧
      c1.expansions = c.expansions ∧ c1.held.length = c.held.length + i ∧
      c1.pool.free.length = c.pool.free.length - i ∧
      c1.pool.totalObjects = c.pool.totalObjects := by
  induction i generalizing c with
  | zero => exact ⟨c, rfl, hinv, rfl, rfl, rfl, rfl⟩
  | succ i ih =>
    have hne : c.pool.free ≠ [] := by
      intro h
      rw [h] at hlen
      simp at hlen
    have hnex : c.pool.exhausted = false := by
      cases hx : c.pool.exhausted with
      | false => rfl
      | true => exact absurd (hinv.exhausted_iff.mp hx) hne
    obtain ⟨x, q, _, hcall, hqinv, _, _, hperm, hsame⟩ := Client.call_acquire c hinv
    have hqt := hsame hnex
    rw [hqt, Nat.sub_self] at hperm
    have hqlen : q.free.length + 1 = c.pool.free.length := by
      have := hperm.length_eq
      simpa using this
    rw [hnex] at hcall
    obtain ⟨c1, hrun, hinv1, he1, hh1, hf1, ht1⟩ :=
      ih ⟨q, c.held ++ [x], c.expansions⟩ hqinv (by show i ≤ q.free.length; omega)
    refine ⟨c1, ?_, hinv1, he1, ?_, ?_, by rw [ht1]; exact hqt⟩
    · rw [List.replicate_succ]
      unfold Client.run
      rw [hcall]
      exact hrun
    · rw [hh1]
      simp only [List.length_append, List.length_singleton]
      omega
    · rw [hf1]
      show q.free.length - i = c.pool.free.length - (i + 1)
      omega

/-- C6. A pool constructed with `N` free instances, in either mode: `acquire` calls up to
the `N`-th perform no expansion and leave `N - i` instances free after the `i`-th; then the
free collection is exhausted, the expansion makes it non-empty, and after the `(N+1)`-th
`acquire` exactly one expansion has happened and `N + 1` distinct instances are held. -/
theorem one_expansion (t0 : Nat) (tp : Int) (N : Nat) (d : Bool) :
    (∀ i, i ≤ N →
      ∃ c, Pool.session t0 tp N d (List.replicate i .acquire) = .ok c ∧
        c.expansions = 0 ∧ c.held.length = i ∧ c.pool.free.length = N - i) ∧
    (∃ c r, Pool.session t0 tp N d (List.replicate N .acquire) = .ok c ∧
      c.pool.exhausted = true ∧ c.pool.refill = .ok r ∧ r.free ≠ [] ∧
      r.exhausted = false) ∧
    (∃ c, Pool.session t0 tp N d (List.replicate (N + 1) .acquire) = .ok c ∧
      c.expansions = 1 ∧ c.held.length = N + 1 ∧ c.held.Nodup) := by
  obtain ⟨p, hinit, hinv, _, hd, _, _, _, hs, hdl⟩ := Pool.Inv.init t0 tp N d
  have hfree : p.free.length = N := by
    cases d with
    | false => rw [Pool.free_simple p hd, hs rfl]; simp
    | true => rw [Pool.free_dual p hd _ (hdl rfl)]; simp
  have hsession : ∀ ks, Pool.session t0 tp N d ks = Client.run ⟨p, [], 0⟩ ks := by
    intro ks
    unfold Pool.session
    rw [hinit]
  have hfirst : ∀ i, i ≤ N →
      ∃ c, Client.run ⟨p, [], 0⟩ (List.replicate i .acquire) = .ok c ∧ c.pool.Inv c.held ∧
        c.expansions = 0 ∧ c.held.length = i ∧ c.pool.free.length = N - i := by
    intro i hi
    obtain ⟨c, hrun, hcinv, he, hh, hf, _⟩ :=
      Client.run_acquires i ⟨p, [], 0⟩ hinv (by rw [hfree]; exact hi)
    exact ⟨c, hrun, hcinv, he, by simpa using hh, by rw [hf, hfree]⟩
  obtain ⟨cN, hrunN, hinvN, heN, hhN, hfN⟩ := hfirst N (le_refl N)
  have hnil : cN.pool.free = [] := List.length_eq_zero.mp (by rw [hfN]; simp)
  have hexN : cN.pool.exhausted = true := hinvN.exhausted_iff.mpr hnil
  refine ⟨?_, ?_, ?_⟩
  · intro i hi
    obtain ⟨c, hrun, _, he, hh, hf⟩ := hfirst i hi
    exact ⟨c, by rw [hsession]; exact hrun, he, hh, hf⟩
  · obtain ⟨r, hr, hrinv, _, _, hrex, _⟩ := hinvN.refill
    refine ⟨cN, r, by rw [hsession]; exact hrunN, hexN, hr, ?_, hrex⟩
    intro h
    have := hrinv.exhausted_iff.mpr h
    rw [hrex] at this
    simp at this
  · obtain ⟨x, q, _, hcall, _⟩ := Client.call_acquire cN hinvN
    have hdisc : Pool.disciplined t0 tp N d (List.replicate (N + 1) .acquire) = true := by
      unfold Pool.disciplined
      rw [hinit]
      exact Client.allowed_acquires _ _ _
    obtain ⟨c, hrun, hcinv, hcdist, _⟩ := Pool.session_disciplined t0 tp N d _ hdisc
    have hc : c = ⟨q, cN.held ++ [x], cN.expansions + 1⟩ := by
      rw [hsession, List.replicate_succ', Client.run_append _ _ _ _ hrunN] at hrun
      unfold Client.run at hrun
      rw [hcall, hexN] at hrun
      simp only [Client.run, Except.ok.injEq, if_true] at hrun
      exact hrun.symm
    refine ⟨c, hrun, ?_, ?_, hcinv.held_nodup hcdist⟩
    · rw [hc, heN]
    · rw [hc]
      simp [hhN]

theorem Pool.Inv.freeCount_eq {p : Pool} {held : List Nat} (hinv : p.Inv held) :
    p.freeCount = p.free.length := by
  cases hd : p.dual with
  | false =>
    rw [Pool.free_simple p hd]
    unfold Pool.freeCount
    rw [if_neg (by rw [hd]; simp)]
  | true =>
    obtain ⟨fs, hf, _, _, _⟩ := hinv.dual hd
    rw [Pool.free_dual p hd fs hf]
    unfold Pool.freeCount
    rw [if_pos hd, hf.count_eq]

theorem Pool.Inv.usedCount_eq {p : Pool} {held : List Nat} (hinv : p.Inv held)
    (hd : p.dual = true) : p.usedCount = held.length := by
  obtain ⟨_, _, hu, _, _⟩ := hinv.dual hd
  unfold Pool.usedCount
  rw [hu.count_eq]

/-- C7, as stated, fails on an empty free collection: a pool constructed with one instance
has free count 0 after one `acquire`, and `release(acquire())` from there ends with free
count 2 in simple mode and 1 in dual mode. -/
theorem roundtrip_counts_counterexample :
    (∃ c q, Pool.session 0 0 1 false [.acquire] = .ok c ∧ c.pool.roundTrip = .ok q ∧
      c.pool.freeCount = 0 ∧ q.freeCount = 2) ∧
    (∃ c q, Pool.session 0 0 1 true [.acquire] = .ok c ∧ c.pool.roundTrip = .ok q ∧
      c.pool.freeCount = 0 ∧ q.freeCount = 1 ∧ c.pool.usedCount = 1 ∧ q.usedCount = 1) :=
  ⟨⟨_, _, rfl, rfl, rfl, rfl⟩, ⟨_, _, rfl, rfl, rfl, rfl, rfl, rfl⟩⟩

/-- C7, amended. `release(acquire())` succeeds on every pool and leaves the used count as it
was.  It leaves the free count as it was when the free collection is not empty; in general
the free count grows by the number of instances the expansion has constructed. -/
theorem roundtrip_counts (t0 : Nat) (tp n : Int) (d : Bool) (calls : List Call)
    (hex : Pool.existing t0 tp n d calls = true) :
    ∃ c q, Pool.session t0 tp n d calls = .ok c ∧ c.pool.roundTrip = .ok q ∧
      (d = true → q.usedCount = c.pool.usedCount) ∧
      (c.pool.free ≠ [] → q.freeCount = c.pool.freeCount) ∧
      c.pool.totalObjects ≤ q.totalObjects ∧
      q.freeCount = c.pool.freeCount + ((q.totalObjects - c.pool.totalObjects : Nat) : Int) := by
  obtain ⟨c, hrun, hinv, hd, _⟩ := Pool.session_existing t0 tp n d calls hex
  obtain ⟨x, q1, hacq, hq1inv, hq1d, _, hxdual, _, hle, hperm, hsame⟩ := hinv.acquire
  obtain ⟨q, hrel, hqinv, hqd, _, hqt, _, hqfree⟩ :=
    hq1inv.release_held x (List.mem_append_right _ (List.mem_singleton_self x))
  have hround : c.pool.roundTrip = .ok q := by
    unfold Pool.roundTrip
    rw [hacq]
    exact hrel
  have hlen : q.free.length
      = c.pool.free.length + (q.totalObjects - c.pool.totalObjects) := by
    have h1 := hperm.length_eq
    rw [hqfree, hqt]
    simp only [List.length_append, List.length_cons, List.length_range',
      List.length_singleton] at h1 ⊢
    exact h1
  have hcount : q.freeCount
      = c.pool.freeCount + ((q.totalObjects - c.pool.totalObjects : Nat) : Int) := by
    rw [hqinv.freeCount_eq, hinv.freeCount_eq, hlen]
    push_cast
    rfl
  refine ⟨c, q, hrun, hround, ?_, ?_, by rw [hqt]; exact hle, hcount⟩
  · intro hdt
    have hcd : c.pool.dual = true := hd.trans hdt
    have hxn : x ∉ c.held := hxdual hcd
    have herase : (c.held ++ [x]).erase x = c.held := by
      rw [List.erase_append_right _ hxn]
      simp
    rw [herase] at hqinv
    rw [hqinv.usedCount_eq (by rw [hqd, hq1d]; exact hcd), hinv.usedCount_eq hcd]
  · intro hne
    have hnex : c.pool.exhausted = false := by
      cases hx : c.pool.exhausted with
      | false => rfl
      | true => exact absurd (hinv.exhausted_iff.mp hx) hne
    rw [hcount, hqt, hsame hnex]
    simp

/-- C7, amended, at a dual pool whose free list is `[0]`. -/
theorem roundtrip_counts_witness :
    Pool.existing 0 0 1 true [.acquire, .release 0] = true ∧
    ∃ c q, Pool.session 0 0 1 true [.acquire, .release 0] = .ok c ∧
      c.pool.roundTrip = .ok q ∧ c.pool.free = [0] ∧ q.freeCount = c.pool.freeCount := by
  obtain ⟨c, q, hrun, hround, _, h, _⟩ :=
    roundtrip_counts 0 0 1 true [.acquire, .release 0] (by decide)
  have hfree : c.pool.free = [0] := by
    have e : (Pool.session 0 0 1 true [.acquire, .release 0]).map (fun c => c.pool.free)
        = .ok [0] := by decide
    rw [hrun] at e
    simpa [Except.map] using e
  exact ⟨by decide, c, q, hrun, hround, hfree, h (by rw [hfree]; simp)⟩

theorem Client.run_acquires_any (i : Nat) (c : Client) (hinv : c.pool.Inv c.held) :
    ∃ c1, c.run (List.replicate i .acquire) = .ok c1 ∧ c1.pool.Inv c1.held ∧
      c1.held.length = c.held.length + i ∧ c.expansions ≤ c1.expansions ∧
      c.pool.totalObjects ≤ c1.pool.totalObjects ∧
      c1.pool.totalPooled
        = c.pool.totalPooled + ((c1.pool.totalObjects - c.pool.totalObjects : Nat) : Int) := by
  induction i generalizing c with
  | zero => exact ⟨c, rfl, hinv, rfl, le_refl _, le_refl _, by simp⟩
  | succ i ih =>
    obtain ⟨x, q, hacq, hcall, hqinv, _, hle, _⟩ := Client.call_acquire c hinv
    have hpooled := hinv.acquire_pooled x q hacq
    obtain ⟨c1, hrun, hinv1, hh1, he1, hle1, hp1⟩ :=
      ih ⟨q, c.held ++ [x], if c.pool.exhausted then c.expansions + 1 else c.expansions⟩ hqinv
    refine ⟨c1, ?_, hinv1, ?_, le_trans ?_ he1, le_trans hle hle1, ?_⟩
    · rw [List.replicate_succ]
      unfold Client.run
      rw [hcall]
      exact hrun
    · rw [hh1]
      simp only [List.length_append, List.length_singleton]
      omega
    · show c.expansions ≤ if c.pool.exhausted then c.expansions + 1 else c.expansions
      split <;> omega
    · have hle1' : q.totalObjects ≤ c1.pool.totalObjects := hle1
      have hp1' : c1.pool.totalPooled
          = q.totalPooled + ((c1.pool.totalObjects - q.totalObjects : Nat) : Int) := hp1
      rw [hp1', hpooled]
      omega

theorem Client.run_releases (t0 : Nat) (rel : List Nat) (c : Client)
    (hinv : c.pool.Inv c.held) (hacc : c.Accounted t0) (hperm : rel.Perm c.held) :
    ∃ c1, c.run (rel.map .release) = .ok c1 ∧ c1.held = [] ∧ c1.pool.Inv c1.held ∧
      c1.Accounted t0 ∧ c1.pool.totalObjects = c.pool.totalObjects ∧
      c1.expansions = c.expansions ∧ c1.pool.dual = c.pool.dual ∧
      c1.pool.totalPooled = c.pool.totalPooled := by
  induction rel generalizing c with
  | nil =>
    exact ⟨c, rfl, (List.nil_perm.mp hperm), hinv, hacc, rfl, rfl, rfl, rfl⟩
  | cons x rest ih =>
    obtain ⟨hx, hrest⟩ := List.cons_perm_iff_perm_erase.mp hperm
    obtain ⟨q, hrel, hqinv, hqd, _, hqt, hqp, _⟩ := hinv.release_held x hx
    have hcall : c.call (.release x) = .ok ⟨q, c.held.erase x, c.expansions⟩ := by
      simp [Client.call, hrel]
    have hacc1 := Client.call_accounted t0 c (.release x) hinv hacc
      (by intro y hy; cases hy; exact hx) _ hcall
    obtain ⟨c1, hrun, hheld, hinv1, hacc2, ht, he, hd, hp⟩ :=
      ih ⟨q, c.held.erase x, c.expansions⟩ hqinv hacc1 hrest
    refine ⟨c1, ?_, hheld, hinv1, hacc2, ht.trans hqt, he, hd.trans hqd, hp.trans hqp⟩
    simp only [List.map_cons]
    unfold Client.run
    rw [hcall]
    exact hrun

/-- C8. A pool constructed with `n` instances, in either mode, then `m` calls of `acquire`
and the release of every acquired instance exactly once, in any order `rel`: the acquired
instances are pairwise distinct; at least one expansion has happened when `m` exceeds the
initial number; and at the end nothing is held, the free count is the number of instances
constructed since the pool was created, which is what `expand` has added to `totalPooled`
(the initial ones and those of all expansions), and in dual mode the used list is empty
with count 0. -/
theorem acquire_all_release_all (t0 : Nat) (tp n : Int) (d : Bool) (m : Nat) :
    ∃ c, Pool.session t0 tp n d (List.replicate m .acquire) = .ok c ∧
      c.held.length = m ∧ c.held.Nodup ∧ (n.toNat < m → 1 ≤ c.expansions) ∧
      ∀ rel : List Nat, rel.Perm c.held →
        ∃ c1, c.run (rel.map .release) = .ok c1 ∧ c1.held = [] ∧
          c1.pool.totalObjects = c.pool.totalObjects ∧ c1.expansions = c.expansions ∧
          t0 + n.toNat ≤ c1.pool.totalObjects ∧
          c1.pool.freeCount = ((c1.pool.totalObjects - t0 : Nat) : Int) ∧
          (0 ≤ n → c1.pool.freeCount = c1.pool.totalPooled - tp) ∧
          (d = true → c1.pool.usedCount = 0 ∧ c1.pool.usedList.toList = []) := by
  obtain ⟨p, hinit, hinv, _, hd, _, ht, htp, hs, hdl⟩ := Pool.Inv.init t0 tp n d
  have hfree : p.free.length = n.toNat := by
    cases d with
    | false => rw [Pool.free_simple p hd, hs rfl]; simp
    | true => rw [Pool.free_dual p hd _ (hdl rfl)]; simp
  have hsession : ∀ ks, Pool.session t0 tp n d ks = Client.run ⟨p, [], 0⟩ ks := by
    intro ks
    unfold Pool.session
    rw [hinit]
  have hdisc : Pool.disciplined t0 tp n d (List.replicate m .acquire) = true := by
    unfold Pool.disciplined
    rw [hinit]
    exact Client.allowed_acquires _ _ _
  obtain ⟨c, hrun, hcinv, hcdist, hcd⟩ := Pool.session_disciplined t0 tp n d _ hdisc
  have hrun' := hrun
  rw [hsession] at hrun'
  have hacc : c.Accounted t0 :=
    Client.run_accounted t0 _ ⟨p, [], 0⟩ hinv (Client.Accounted.of_init t0 tp n d p hinit)
      (Client.allowed_acquires _ _ _) c hrun'
  obtain ⟨c', hrunm, _, hlenm, _, hlem, hpooledm⟩ := Client.run_acquires_any m ⟨p, [], 0⟩ hinv
  have hcc : c' = c := by
    rw [hrunm] at hrun'
    exact Except.ok.inj hrun'
  subst hcc
  have hle0 : p.totalObjects ≤ c'.pool.totalObjects := by
    have h1 := hacc.1
    have h2 := hacc.2.length_eq
    simp only [List.length_append, List.length_range'] at h2
    -- every held instance was constructed after the pool's own `t0`
    obtain ⟨cN, hrunN, hinvN, _, _, _, htN⟩ :=
      Client.run_acquires (min m n.toNat) ⟨p, [], 0⟩ hinv (by rw [hfree]; exact min_le_right _ _)
    have hsplit : List.replicate m Call.acquire
        = List.replicate (min m n.toNat) Call.acquire
          ++ List.replicate (m - min m n.toNat) Call.acquire := by
      rw [← List.replicate_add]
      congr 1
      omega
    rw [hsplit, Client.run_append _ _ _ _ hrunN] at hrunm
    have hmono : ∀ (ks : List Call) (a b : Client), a.pool.Inv a.held → a.run ks = .ok b →
        Client.allowed Client.holds a ks = true →
        a.pool.totalObjects ≤ b.pool.totalObjects := by
      intro ks
      induction ks with
      | nil =>
        intro a b _ hab _
        simp only [Client.run, Except.ok.injEq] at hab
        rw [hab]
      | cons k ks ihk =>
        intro a b hainv hab hal
        unfold Client.allowed at hal
        rw [Bool.and_eq_true] at hal
        unfold Client.run at hab
        cases hc : a.call k with
        | error e => rw [hc] at hab; simp at hab
        | ok a1 =>
          rw [hc] at hab
          have hk' : ∀ x, k = .release x → x ∈ a.held := by
            intro x hkx
            subst hkx
            simpa [Client.holds] using hal.1
          obtain ⟨a2, hc2, hinv2, _, _⟩ :=
            Client.call_inv a k hainv (fun x hx _ => Or.inl (hk' x hx))
          rw [hc] at hc2
          have := Except.ok.inj hc2
          subst this
          have h3 := (Client.call_effect a k hainv a1 hc).1
          have hal2 := hal.2
          rw [hc] at hal2
          exact le_trans h3 (ihk a1 b hinv2 hab hal2)
    have := hmono _ cN c' hinvN hrunm (Client.allowed_acquires _ _ _)
    rw [htN] at this
    exact this
  refine ⟨c', hrun, by simpa using hlenm, hcinv.held_nodup hcdist, ?_, ?_⟩
  · intro hlt
    obtain ⟨cN, hrunN, hinvN, heN, _, hfN, _⟩ :=
      Client.run_acquires n.toNat ⟨p, [], 0⟩ hinv (by rw [hfree])
    have hnil : cN.pool.free = [] :=
      List.length_eq_zero.mp (by rw [hfN, hfree]; simp)
    have hexN : cN.pool.exhausted = true := hinvN.exhausted_iff.mpr hnil
    obtain ⟨x, q, _, hcall, hqinv, _⟩ := Client.call_acquire cN hinvN
    rw [hexN] at hcall
    obtain ⟨c2, hrun2, _, _, he2, _, _⟩ := Client.run_acquires_any (m - n.toNat - 1)
      ⟨q, cN.held ++ [x], cN.expansions + 1⟩ hqinv
    have hsplit : List.replicate m Call.acquire
        = List.replicate n.toNat Call.acquire
          ++ (Call.acquire :: List.replicate (m - n.toNat - 1) Call.acquire) := by
      rw [← List.replicate_succ, ← List.replicate_add]
      congr 1
      omega
    rw [hsplit, Client.run_append _ _ _ _ hrunN] at hrunm
    unfold Client.run at hrunm
    rw [hcall] at hrunm
    simp only [if_true] at hrunm
    rw [hrun2] at hrunm
    have := Except.ok.inj hrunm
    subst this
    show 1 ≤ c2.expansions
    have : cN.expansions + 1 ≤ c2.expansions := he2
    omega
  · intro rel hperm
    obtain ⟨c1, hrun1, hheld1, hinv1, hacc1, ht1, he1, hd1, hp1⟩ :=
      Client.run_releases t0 rel c' hcinv hacc hperm
    have hcount : c1.pool.freeCount = ((c1.pool.totalObjects - t0 : Nat) : Int) := by
      rw [hinv1.freeCount_eq]
      have h2 := hacc1.2.length_eq
      rw [hheld1] at h2
      simp only [List.append_nil, List.length_range'] at h2
      rw [h2]
    refine ⟨c1, hrun1, hheld1, ht1, he1, ?_, hcount, ?_, ?_⟩
    · rw [ht1, ← ht]
      exact hle0
    · intro hn
      have hpm : c'.pool.totalPooled
          = p.totalPooled + ((c'.pool.totalObjects - p.totalObjects : Nat) : Int) := hpooledm
      rw [hcount, hp1, hpm, htp, ht1, ht]
      have := hle0
      rw [ht] at this
      omega
    · intro hdt
      have hcd1 : c1.pool.dual = true := by rw [hd1, hcd]; exact hdt
      obtain ⟨_, _, hu, _, _⟩ := hinv1.dual hcd1
      rw [hheld1] at hu
      exact ⟨by rw [Pool.usedCount, hu.count_eq]; rfl, hu.toList_eq⟩

/-- C8 at the scenario of the specification: initial size 1, three `acquire` calls, three
`release` calls (dual mode, released in the order 1, 0, 2). -/
theorem acquire_all_release_all_witness :
    ∃ c c1, Pool.session 0 0 1 true [.acquire, .acquire, .acquire] = .ok c ∧
      c.held = [0, 1, 2] ∧ c.expansions = 2 ∧
      c.run [.release 1, .release 0, .release 2] = .ok c1 ∧ c1.held = [] ∧
      c1.pool.freeCount = 3 ∧ c1.pool.usedCount = 0 := by
  obtain ⟨c, hrun, _, _, _, h⟩ := acquire_all_release_all 0 0 1 true 3
  have hstate : c.held = [0, 1, 2] ∧ c.expansions = 2 ∧ c.pool.totalObjects = 3 := by
    have e : (Pool.session 0 0 1 true [.acquire, .acquire, .acquire]).map
        (fun c => (c.held, c.expansions, c.pool.totalObjects)) = .ok ([0, 1, 2], 2, 3) := by
      decide
    have hrun' : Pool.session 0 0 1 true [.acquire, .acquire, .acquire] = .ok c := hrun
    rw [hrun'] at e
    simpa [Except.map] using e
  obtain ⟨c1, h1, h2, h3, _, _, h4, _, h5⟩ := h [1, 0, 2] (by rw [hstate.1]; decide)
  refine ⟨c, c1, hrun, hstate.1, hstate.2.1, h1, h2, ?_, (h5 rfl).1⟩
  rw [h4, h3, hstate.2.2]
  rfl

/-- C9. In dual mode, after construction and any sequence of `acquire`, `release` and
`expand` calls: no instance is in both the free list and the used list; `size()` is the free
count plus the used count, which is the number of distinct instances in the two lists; the
used list holds exactly the instances that are held; and every instance constructed since
the pool was created that is not held is in the free list. -/
theorem dual_partition (t0 : Nat) (tp n : Int) (calls : List Call)
    (hex : Pool.existing t0 tp n true calls = true) :
    ∃ c, Pool.session t0 tp n true calls = .ok c ∧
      (∀ x, x ∈ c.pool.freeList.toList → x ∉ c.pool.usedList.toList) ∧
      (∀ x, c.pool.freeList.has x = true → c.pool.usedList.has x = false) ∧
      (c.pool.freeList.toList ++ c.pool.usedList.toList).Nodup ∧
      c.pool.size = c.pool.freeList.count + c.pool.usedList.count ∧
      c.pool.size = (c.pool.freeList.toList ++ c.pool.usedList.toList).length ∧
      c.pool.usedList.toList = c.held ∧
      (∀ x, t0 ≤ x → x < c.pool.totalObjects → x ∉ c.held → x ∈ c.pool.freeList.toList) := by
  obtain ⟨p, hinit, hpinv, _, _, _⟩ := Pool.Inv.init t0 tp n true
  obtain ⟨c, hrun, hinv, hd, _⟩ := Pool.session_existing t0 tp n true calls hex
  have hcomp : c.Complete t0 := by
    have hrun' := hrun
    unfold Pool.session at hrun'
    rw [hinit] at hrun'
    have hal := hex
    unfold Pool.existing at hal
    rw [hinit] at hal
    exact Client.run_complete t0 calls ⟨p, [], 0⟩ hpinv
      (Client.Accounted.of_init t0 tp n true p hinit).complete hal c hrun'
  obtain ⟨fs, hf, hu, hdisj, _⟩ := hinv.dual hd
  have hsize : c.pool.size = c.pool.freeList.count + c.pool.usedList.count := by
    unfold Pool.size
    rw [if_pos hd]
  refine ⟨c, hrun, ?_, ?_, ?_, hsize, ?_, hu.toList_eq, ?_⟩
  · intro x hx
    rw [hf.toList_eq] at hx
    rw [hu.toList_eq]
    exact hdisj x hx
  · intro x hx
    exact hu.has_false x (hdisj x ((hf.has_iff x).mp hx))
  · rw [hf.toList_eq, hu.toList_eq]
    exact List.Nodup.append hf.nodup hu.nodup (fun x hx hx' => hdisj x hx hx')
  · rw [hsize, hf.count_eq, hu.count_eq, hf.toList_eq, hu.toList_eq]
    simp
  · intro x hx0 hx1 hxh
    rcases hcomp x hx0 hx1 with h | h
    · rw [Pool.free_dual _ hd fs hf] at h
      rw [hf.toList_eq]
      exact h
    · exact absurd h hxh

/-- C9 at a dual session that releases an instance constructed before the pool, an
instance that is held, and the same instance once more. -/
theorem dual_partition_witness :
    Pool.existing 3 0 2 true [.acquire, .release 1, .release 3, .release 3, .acquire, .expand 2]
      = true ∧
    ∃ c, Pool.session 3 0 2 true
        [.acquire, .release 1, .release 3, .release 3, .acquire, .expand 2] = .ok c ∧
      (c.pool.freeList.toList ++ c.pool.usedList.toList).Nodup ∧
      c.pool.size = (c.pool.freeList.toList ++ c.pool.usedList.toList).length ∧
      c.pool.usedList.toList = c.held := by
  obtain ⟨c, hrun, _, _, h1, _, h2, h3, _⟩ := dual_partition 3 0 2
    [.acquire, .release 1, .release 3, .release 3, .acquire, .expand 2] (by decide)
  exact ⟨by decide, c, hrun, h1, h2, h3⟩

/-- C10. In simple mode `release` of the same instance twice in a row is accepted: the free
array then ends with that instance twice, and the next two `acquire` calls both return
it. -/
theorem simple_double_release (p : Pool) (x : Nat) (hd : p.dual = false) :
    ∃ q1 q2 r1 r2, p.release x = .ok q1 ∧ q1.release x = .ok q2 ∧
      q2.freeArray = p.freeArray ++ [x, x] ∧
      q2.acquire = .ok (some x, r1) ∧ r1.acquire = .ok (some x, r2) ∧
      r2.freeArray = p.freeArray := by
  refine ⟨{ p with freeArray := p.freeArray ++ [x] },
    { p with freeArray := p.freeArray ++ [x] ++ [x] },
    { p with freeArray := p.freeArray ++ [x] }, p, Pool.release_simple p hd x,
    Pool.release_simple _ (by exact hd) x, by simp, ?_, ?_, rfl⟩
  · rw [Pool.acquire_simple_nonempty _ (by exact hd) (by simp)]
    simp
  · rw [Pool.acquire_simple_nonempty _ (by exact hd) (by simp)]
    simp

/-- C10 at a simple pool whose free array is `[5]` : instance 7 is released twice. -/
theorem simple_double_release_witness :
    ∃ q1 q2 r1 r2,
      (⟨false, [5], LinkedList.init, LinkedList.init, 1, none, 8, 8⟩ : Pool).release 7
        = .ok q1 ∧ q1.release 7 = .ok q2 ∧
      q2.freeArray = [5] ++ [7, 7] ∧
      q2.acquire = .ok (some 7, r1) ∧ r1.acquire = .ok (some 7, r2) ∧ r2.freeArray = [5] :=
  simple_double_release ⟨false, [5], LinkedList.init, LinkedList.init, 1, none, 8, 8⟩ 7 rfl

/-! ## Exhaustion -/

theorem Pool.Inv.refill_take {p : Pool} {held : List Nat} (hinv : p.Inv held) :
    ∃ r x q, p.refill = .ok r ∧ r.exhausted = false ∧ r.take = .ok (some x, q) ∧
      p.acquire = .ok (some x, q) ∧ r.Inv held ∧ q.Inv (held ++ [x]) ∧
      r.free = p.free ++ List.range' p.totalObjects (r.totalObjects - p.totalObjects) ∧
      (x :: q.free).Perm r.free ∧ q.totalObjects = r.totalObjects ∧ r.dual = p.dual ∧
      q.dual = p.dual := by
  obtain ⟨r, hr, hrinv, hrd, _, hne, _, _, hfree, _⟩ := hinv.refill
  obtain ⟨x, q, ht, hqinv, hqd, _, htot, _, _, _, hperm⟩ := hrinv.take hne
  refine ⟨r, x, q, hr, hne, ht, ?_, hrinv, hqinv, hfree, hperm, htot, hrd, hqd.trans hrd⟩
  unfold Pool.acquire
  rw [hr]
  exact ht

/-- C11. In either mode, after every sequence of calls in which `release` is only called on
existing instances of the pooled class, the session has not thrown and the next `acquire`
does not throw and returns an instance, never `undefined`: its first statement leaves a
pool that is not exhausted, by constructing at least one instance when the pool was, and
the instance is taken from that pool. -/
theorem acquire_always_returns (t0 : Nat) (tp n : Int) (d : Bool) (calls : List Call)
    (hex : Pool.existing t0 tp n d calls = true) :
    ∃ c, Pool.session t0 tp n d calls = .ok c ∧
      ∃ r x q, c.pool.acquire = .ok (some x, q) ∧
        c.pool.refill = .ok r ∧ r.exhausted = false ∧ r.free ≠ [] ∧
        r.take = .ok (some x, q) ∧ x ∈ r.free ∧
        (c.pool.exhausted = true →
          c.pool.free = [] ∧ c.pool.totalObjects < r.totalObjects ∧
          r.free = List.range' c.pool.totalObjects (r.totalObjects - c.pool.totalObjects)) := by
  obtain ⟨c, hrun, hinv, _, _⟩ := Pool.session_existing t0 tp n d calls hex
  obtain ⟨r, x, q, hr, hne, ht, hacq, hrinv, _, hfree, hperm, _, _, _⟩ := hinv.refill_take
  have hrne : r.free ≠ [] := by
    intro hnil
    have := hrinv.exhausted_iff.mpr hnil
    rw [hne] at this
    simp at this
  refine ⟨c, hrun, r, x, q, hacq, hr, hne, hrne, ht, ?_, ?_⟩
  · exact hperm.subset (List.mem_cons_self x _)
  · intro hexh
    have hnil := hinv.exhausted_iff.mp hexh
    rw [hnil, List.nil_append] at hfree
    refine ⟨hnil, ?_, hfree⟩
    by_contra hle
    have h0 : r.totalObjects - c.pool.totalObjects = 0 := by omega
    rw [h0] at hfree
    exact hrne (by simpa using hfree)

/-- C11 at a dual pool of one instance whose client holds two instances: the free list is
empty when `acquire` is called. -/
theorem acquire_always_returns_witness :
    Pool.existing 0 0 1 true [.acquire, .acquire] = true ∧
    ∃ c, Pool.session 0 0 1 true [.acquire, .acquire] = .ok c ∧ c.pool.exhausted = true ∧
      ∃ x q, c.pool.acquire = .ok (some x, q) := by
  obtain ⟨c, hrun, r, x, q, hacq, _⟩ :=
    acquire_always_returns 0 0 1 true [.acquire, .acquire] (by decide)
  have hexh : c.pool.exhausted = true := by
    have e : (Pool.session 0 0 1 true [.acquire, .acquire]).map (fun c => c.pool.exhausted)
        = .ok true := by decide
    rw [hrun] at e
    simpa [Except.map] using e
  exact ⟨by decide, c, hrun, hexh, x, q, hacq⟩

/-- C12 fails. A dual pool of one instance whose client holds that instance has no free
object and the oldest object of its used list is instance `0`; `acquire` returns instance
`1`, which the call has constructed, and instance `0` is still the first of the used list. -/
theorem acquire_exhausted_counterexample :
    ∃ c x q, Pool.session 0 0 1 true [.acquire] = .ok c ∧ c.pool.free = [] ∧
      c.pool.usedList.toList = [0] ∧ c.pool.acquire = .ok (some x, q) ∧ x = 1 ∧
      q.usedList.toList = [0, 1] := by
  obtain ⟨c, hrun, hinv, _, _⟩ := Pool.session_existing 0 0 1 true [.acquire] (by decide)
  obtain ⟨x, q, hacq, _⟩ := hinv.acquire
  have e : (Pool.session 0 0 1 true [.acquire]).map
      (fun c => (c.pool.free, c.pool.usedList.toList,
        c.pool.acquire.map (fun r => (r.1, r.2.usedList.toList)))) =
      .ok ([], [0], .ok (some 1, [0, 1])) := by decide
  rw [hrun] at e
  simp only [Except.map] at e
  rw [hacq] at e
  simp only [Except.ok.injEq, Prod.mk.injEq, Option.some.injEq] at e
  exact ⟨c, x, q, hrun, e.1, e.2.1, hacq, e.2.2.1, e.2.2.2⟩

/-- C12, amended. After every sequence of calls in which `release` is only called on
existing instances of the pooled class, when the pool has no free object `acquire` expands
the pool and returns an instance that this expansion has constructed.  In dual mode the
instance was not in the used list, and the used list keeps its objects in their order and
gains the instance at its end. -/
theorem acquire_exhausted_returns_new (t0 : Nat) (tp n : Int) (d : Bool) (calls : List Call)
    (hex : Pool.existing t0 tp n d calls = true) :
    ∃ c, Pool.session t0 tp n d calls = .ok c ∧
      (c.pool.free = [] →
        ∃ x q, c.pool.acquire = .ok (some x, q) ∧
          c.pool.totalObjects ≤ x ∧ x < q.totalObjects ∧
          (d = true →
            c.pool.usedList.toList = c.held ∧ x ∉ c.pool.usedList.toList ∧
            c.pool.usedList.has x = false ∧
            q.usedList.toList = c.pool.usedList.toList ++ [x])) := by
  obtain ⟨c, hrun, hinv, hd, _⟩ := Pool.session_existing t0 tp n d calls hex
  refine ⟨c, hrun, fun hnil => ?_⟩
  obtain ⟨r, x, q, _, _, _, hacq, _, hqinv, hfree, hperm, htot, _, hqd⟩ := hinv.refill_take
  have hx : x ∈ List.range' c.pool.totalObjects (r.totalObjects - c.pool.totalObjects) := by
    rw [hnil, List.nil_append] at hfree
    rw [← hfree]
    exact hperm.subset (List.mem_cons_self x _)
  rw [List.mem_range'_1] at hx
  refine ⟨x, q, hacq, hx.1, by omega, fun hdt => ?_⟩
  subst hdt
  obtain ⟨fs, _, hu, _, hlt⟩ := hinv.dual hd
  obtain ⟨_, _, hqu, _, _⟩ := hqinv.dual (hqd.trans hd)
  have hxh : x ∉ c.held := by
    intro hmem
    have := hlt x (List.mem_append_right _ hmem)
    omega
  rw [hu.toList_eq, hqu.toList_eq]
  exact ⟨rfl, hxh, hu.has_false x hxh, rfl⟩

/-- C12, amended, at a dual pool of one instance whose client holds that instance. -/
theorem acquire_exhausted_returns_new_witness :
    Pool.existing 0 0 1 true [.acquire] = true ∧
    ∃ c, Pool.session 0 0 1 true [.acquire] = .ok c ∧ c.pool.free = [] ∧
      ∃ x q, c.pool.acquire = .ok (some x, q) ∧ c.pool.totalObjects ≤ x ∧
        q.usedList.toList = c.pool.usedList.toList ++ [x] := by
  obtain ⟨c, hrun, h⟩ := acquire_exhausted_returns_new 0 0 1 true [.acquire] (by decide)
  have hfree : c.pool.free = [] := by
    have e : (Pool.session 0 0 1 true [.acquire]).map (fun c => c.pool.free) = .ok [] := by
      decide
    rw [hrun] at e
    simpa [Except.map] using e
  obtain ⟨x, q, hacq, hx, _, hdual⟩ := h hfree
  exact ⟨by decide, c, hrun, hfree, x, q, hacq, hx, (hdual rfl).2.2.2⟩

/-! ## Throws and the state they leave -/

theorem LinkedList.append_eq_effect (l : LinkedList) (a : Nat) :
    l.append a = match l.appendEffect a with
      | (l', none) => .ok l'
      | (_, some e) => .error e := by
  unfold LinkedList.append LinkedList.appendEffect
  cases l.first with
  | none => rfl
  | some f =>
    cases l.last with
    | none => rfl
    | some z => rfl

theorem LinkedList.add_eq_effect (l : LinkedList) (k : Nat) :
    l.add k = match l.addEffect k with
      | (l', none) => .ok l'
      | (_, some e) => .error e := by
  unfold LinkedList.add LinkedList.addEffect
  cases l.getNode k with
  | none => exact LinkedList.append_eq_effect _ _
  | some a =>
    by_cases hf : (readNode l.nodes a).free = false
    · simp only [hf, if_true]
    · simp only [hf, if_false]
      exact LinkedList.append_eq_effect _ _

theorem LinkedList.addEffect_of_has (l : LinkedList) (k : Nat) (hk : l.has k = true) :
    l.addEffect k = (l, some Err.duplicateAdd) := by
  unfold LinkedList.has at hk
  unfold LinkedList.addEffect
  cases hg : l.getNode k with
  | none => rw [hg] at hk; simp at hk
  | some a =>
    rw [hg] at hk
    have hf : (readNode l.nodes a).free = false := by simpa using hk
    simp only [hf, if_true]

theorem LinkedList.addEffect_of_ok (l l' : LinkedList) (k : Nat) (h : l.add k = .ok l') :
    l.addEffect k = (l', none) := by
  rw [LinkedList.add_eq_effect] at h
  rcases hr : l.addEffect k with ⟨l1, _ | e⟩
  · rw [hr] at h
    simp only [Except.ok.injEq] at h
    rw [h]
  · rw [hr] at h
    simp at h

theorem LinkedList.addEffect_thrown (l : LinkedList) (k : Nat) :
    (l.addEffect k).2 = none ∨ (l.addEffect k).2 = some Err.duplicateAdd ∨
      (l.addEffect k).2 = some Err.noLast := by
  have happ : ∀ (m : LinkedList) (a : Nat),
      (m.appendEffect a).2 = none ∨ (m.appendEffect a).2 = some Err.noLast := by
    intro m a
    unfold LinkedList.appendEffect
    cases m.first with
    | none => exact Or.inl rfl
    | some f =>
      cases m.last with
      | none => exact Or.inr rfl
      | some z => exact Or.inl rfl
  unfold LinkedList.addEffect
  cases l.getNode k with
  | none =>
    rcases happ (l.addNode k).1 (l.addNode k).2 with h | h
    · exact Or.inl h
    · exact Or.inr (Or.inr h)
  | some a =>
    by_cases hf : (readNode l.nodes a).free = false
    · dsimp only
      rw [if_pos hf]
      exact Or.inr (Or.inl rfl)
    · dsimp only
      rw [if_neg hf]
      rcases happ _ a with h | h
      · exact Or.inl h
      · exact Or.inr (Or.inr h)

theorem Pool.release_eq_effect (p : Pool) (x : Nat) :
    p.release x = match p.releaseEffect x with
      | (q, none) => .ok q
      | (_, some e) => .error e := by
  unfold Pool.release Pool.releaseEffect
  cases hd : p.dual with
  | false => rfl
  | true =>
    simp only [if_true]
    rw [LinkedList.add_eq_effect]
    rcases p.freeList.addEffect x with ⟨fl, _ | e⟩
    · rfl
    · rfl

theorem Pool.releaseEffect_of_ok (p q : Pool) (x : Nat) (h : p.release x = .ok q) :
    p.releaseEffect x = (q, none) := by
  rw [Pool.release_eq_effect] at h
  rcases hr : p.releaseEffect x with ⟨q1, _ | e⟩
  · rw [hr] at h
    simp only [Except.ok.injEq] at h
    rw [h]
  · rw [hr] at h
    simp at h

theorem Pool.releaseEffect_thrown (p : Pool) (x : Nat) :
    (p.releaseEffect x).2 = none ∨ (p.releaseEffect x).2 = some Err.duplicateAdd ∨
      (p.releaseEffect x).2 = some Err.noLast := by
  unfold Pool.releaseEffect
  cases hd : p.dual with
  | false => exact Or.inl rfl
  | true =>
    simp only [if_true]
    have h := LinkedList.addEffect_thrown p.freeList x
    rcases hr : p.freeList.addEffect x with ⟨fl, _ | e⟩
    · exact Or.inl rfl
    · rw [hr] at h
      exact h

theorem Pool.releaseEffect_dup (p : Pool) (x : Nat) (hd : p.dual = true)
    (hx : p.freeList.has x = true) : p.releaseEffect x = (p, some Err.duplicateAdd) := by
  unfold Pool.releaseEffect
  rw [if_pos hd, LinkedList.addEffect_of_has _ _ hx]

/-! ## The registry -/

theorem Pool.Inv.with_pooled {p : Pool} {held : List Nat} (h : p.Inv held) (t : Int) :
    Pool.Inv { p with totalPooled := t } held :=
  ⟨h.dual, h.expansion_pos⟩

theorem Registry.Wf.start (n tp : Int) : (⟨n, Hashtable.empty, tp, []⟩ : Registry).Wf := by
  refine ⟨Hashtable.Wf.of_empty, ?_, ?_, ?_⟩
  · intro name ref h
    rw [Hashtable.get_empty] at h
    simp at h
  · intro n1 n2 ref h
    rw [Hashtable.get_empty] at h
    simp at h
  · intro p hp
    simp at hp

theorem Registry.Wf.load_some {g : Registry} (hw : g.Wf) (ref : Nat)
    (hlt : ref < g.heap.length) :
    ∃ p0 held, g.heap[ref]? = some p0 ∧
      g.load ref = some { p0 with totalPooled := g.totalPooled } ∧
      Pool.Inv { p0 with totalPooled := g.totalPooled } held := by
  have hget : g.heap[ref]? = some (g.heap[ref]) := List.getElem?_eq_getElem hlt
  obtain ⟨held, hinv⟩ := hw.pools (g.heap[ref]) (List.getElem_mem hlt)
  refine ⟨g.heap[ref], held, hget, ?_, hinv.with_pooled _⟩
  unfold Registry.load
  rw [hget]

theorem Registry.Wf.store_inv {g : Registry} (hw : g.Wf) (ref : Nat) (q : Pool)
    (held : List Nat) (hq : q.Inv held) : (g.store ref q).Wf := by
  refine ⟨hw.table, ?_, hw.inj, ?_⟩
  · intro name r h
    have := hw.valid name r h
    show r < (g.heap.set ref q).length
    rw [List.length_set]
    exact this
  · intro p hp
    rcases List.mem_or_eq_of_mem_set hp with h | h
    · exact hw.pools p h
    · exact ⟨held, h ▸ hq⟩

theorem Registry.Wf.acquireFrom_ok {g : Registry} (hw : g.Wf) (ref : Nat)
    (hlt : ref < g.heap.length) :
    ∃ p x q, g.load ref = some p ∧ p.acquire = .ok (some x, q) ∧ q.dual = p.dual ∧
      g.acquireFrom ref = .ok (some x, g.store ref q) ∧ (g.store ref q).Wf := by
  obtain ⟨p0, held, _, hload, hinv⟩ := hw.load_some ref hlt
  obtain ⟨x, q, hacq, hqinv, hqd, _⟩ := hinv.acquire
  refine ⟨_, x, q, hload, hacq, hqd, ?_, hw.store_inv ref q _ hqinv⟩
  unfold Registry.acquireFrom
  rw [hload]
  dsimp only
  rw [hacq]

theorem Registry.Wf.register {g : Registry} (hw : g.Wf) (name : String) (p : Pool)
    (held : List Nat) (hp : p.Inv held) :
    Registry.Wf { g with heap := g.heap ++ [p],
                         pools := (g.pools.put name g.heap.length).1,
                         totalPooled := p.totalPooled } := by
  refine ⟨hw.table.put _ _, ?_, ?_, ?_⟩
  · intro nm r h
    show r < (g.heap ++ [p]).length
    rw [List.length_append, List.length_singleton]
    by_cases hn : nm = name
    · subst hn
      have h' : (g.pools.put nm g.heap.length).1.get nm = some r := h
      rw [Hashtable.get_put_self] at h'
      simp only [Option.some.injEq] at h'
      omega
    · have h' : (g.pools.put name g.heap.length).1.get nm = some r := h
      rw [Hashtable.get_put_other _ _ _ _ hn] at h'
      have := hw.valid nm r h'
      omega
  · intro n1 n2 r h1 h2
    have h1' : (g.pools.put name g.heap.length).1.get n1 = some r := h1
    have h2' : (g.pools.put name g.heap.length).1.get n2 = some r := h2
    by_cases e1 : n1 = name
    · by_cases e2 : n2 = name
      · rw [e1, e2]
      · rw [e1, Hashtable.get_put_self] at h1'
        rw [Hashtable.get_put_other _ _ _ _ e2] at h2'
        have := hw.valid n2 r h2'
        simp only [Option.some.injEq] at h1'
        omega
    · rw [Hashtable.get_put_other _ _ _ _ e1] at h1'
      by_cases e2 : n2 = name
      · rw [e2, Hashtable.get_put_self] at h2'
        have := hw.valid n1 r h1'
        simp only [Option.some.injEq] at h2'
        omega
      · rw [Hashtable.get_put_other _ _ _ _ e2] at h2'
        exact hw.inj n1 n2 r h1' h2'
  · intro p' hp'
    have hp'' : p' ∈ g.heap ++ [p] := hp'
    rcases List.mem_append.mp hp'' with h | h
    · exact hw.pools p' h
    · rw [List.mem_singleton] at h
      exact ⟨held, h ▸ hp⟩

theorem Registry.release_pools (g : Registry) (o : Pooled) :
    (g.release o).1.pools = g.pools ∧ (g.release o).1.heap.length = g.heap.length := by
  unfold Registry.release
  cases g.pools.get o.fullName with
  | none => exact ⟨rfl, rfl⟩
  | some ref =>
    dsimp only
    cases g.load ref with
    | none => exact ⟨rfl, rfl⟩
    | some p => exact ⟨rfl, List.length_set _ _ _⟩

/-- One static `acquire` on a registry that satisfies the invariant. -/
theorem Registry.Wf.acquire_step {g : Registry} (hw : g.Wf) (classType : ClassType)
    (dual : Option Bool) :
    ∃ ref p x q g1,
      g.acquire classType dual = .ok (some x, g1) ∧
      (∀ r, g.getPool classType = some r →
        ref = r ∧ g.load r = some p ∧ g1.pools = g.pools ∧
        g1.heap.length = g.heap.length) ∧
      (g.getPool classType = none →
        ref = g.heap.length ∧
        Pool.init classType.totalObjects g.totalPooled g.INITIAL_POOL_SIZE
          (dual.getD false) = .ok p ∧
        p.dual = dual.getD false ∧
        p.free = List.range' classType.totalObjects g.INITIAL_POOL_SIZE.toNat ∧
        g1.pools = (g.pools.put classType.fullName ref).1 ∧
        g1.heap.length = g.heap.length + 1) ∧
      p.acquire = .ok (some x, q) ∧ q.dual = p.dual ∧
      g1.getPool classType = some ref ∧ g1.load ref = some q ∧
      g1.Wf ∧ g1.pools.keys.Nodup ∧
      (∀ name r, g.pools.get name = some r → g1.pools.get name = some r) ∧
      (∀ name, name ≠ classType.fullName → g1.pools.get name = g.pools.get name) ∧
      (∀ r, r ≠ ref → g1.heap[r]? = g.heap[r]?) ∧
      ∀ o, (g1.release o).1.pools = g1.pools := by
  have hstore : ∀ (g0 : Registry) (ref : Nat) (q : Pool), ref < g0.heap.length →
      (g0.store ref q).load ref = some q ∧
        ∀ r, r ≠ ref → (g0.store ref q).heap[r]? = g0.heap[r]? := by
    intro g0 ref q hlt
    refine ⟨?_, fun r hr => ?_⟩
    · unfold Registry.load Registry.store
      dsimp only
      rw [List.getElem?_set_self hlt]
    · show (g0.heap.set ref q)[r]? = g0.heap[r]?
      rw [List.getElem?_set_ne (Ne.symm hr)]
  cases hg : g.getPool classType with
  | some r0 =>
    have hlt := hw.valid _ _ hg
    obtain ⟨p, x, q, hload, hacq, hqd, hfrom, hw1⟩ := hw.acquireFrom_ok r0 hlt
    obtain ⟨hl1, hh1⟩ := hstore g r0 q hlt
    refine ⟨r0, p, x, q, g.store r0 q, ?_, ?_, ?_, hacq, hqd, hg, hl1, hw1,
      hw1.table.keys_nodup, fun name r h => h, fun name _ => rfl, hh1,
      fun o => (Registry.release_pools _ o).1⟩
    · unfold Registry.acquire
      rw [hg]
      exact hfrom
    · intro r hr
      simp only [Option.some.injEq] at hr
      subst hr
      exact ⟨rfl, hload, rfl, List.length_set _ _ _⟩
    · intro h
      simp at h
  | none =>
    obtain ⟨p, hinit, hpinv, _, hpd, _, _, _, hsimple, hdual⟩ :=
      Pool.Inv.init classType.totalObjects g.totalPooled g.INITIAL_POOL_SIZE (dual.getD false)
    have hw0 := hw.register classType.fullName p [] hpinv
    have hlt : g.heap.length < (g.heap ++ [p]).length := by
      rw [List.length_append, List.length_singleton]
      omega
    obtain ⟨p', x, q, hload, hacq, hqd, hfrom, hw1⟩ := hw0.acquireFrom_ok g.heap.length hlt
    have hp' : p' = p := by
      unfold Registry.load at hload
      dsimp only at hload
      rw [List.getElem?_append_right (le_refl _)] at hload
      simp only [Nat.sub_self, List.getElem?_cons_zero, Option.some.injEq] at hload
      exact hload.symm
    subst hp'
    obtain ⟨hl1, hh1⟩ := hstore
      { g with heap := g.heap ++ [p'],
               pools := (g.pools.put classType.fullName g.heap.length).1,
               totalPooled := p'.totalPooled }
      g.heap.length q hlt
    have hfree : p'.free = List.range' classType.totalObjects g.INITIAL_POOL_SIZE.toNat := by
      cases hd : p'.dual with
      | false => rw [Pool.free_simple _ hd, hsimple (hpd.symm.trans hd)]
      | true => rw [Pool.free_dual _ hd _ (hdual (hpd.symm.trans hd))]
    refine ⟨g.heap.length, p', x, q, _, ?_, ?_, ?_, hacq, hqd, ?_, hl1, hw1,
      hw1.table.keys_nodup, ?_, ?_, ?_, fun o => (Registry.release_pools _ o).1⟩
    · unfold Registry.acquire
      rw [hg]
      dsimp only
      rw [hinit]
      exact hfrom
    · intro r hr
      simp at hr
    · intro _
      refine ⟨rfl, hinit, hpd, hfree, rfl, ?_⟩
      show (List.set (g.heap ++ [p']) g.heap.length q).length = g.heap.length + 1
      rw [List.length_set, List.length_append, List.length_singleton]
    · exact Hashtable.get_put_self _ _ _
    · intro name r h
      have hne : name ≠ classType.fullName := by
        intro e
        rw [e] at h
        unfold Registry.getPool at hg
        rw [hg] at h
        simp at h
      exact (Hashtable.get_put_other _ _ _ _ hne).trans h
    · intro name hne
      exact Hashtable.get_put_other _ _ _ _ hne
    · intro r hr
      rw [hh1 r hr]
      show (g.heap ++ [p'])[r]? = g.heap[r]?
      by_cases hrl : r < g.heap.length
      · rw [List.getElem?_append_left hrl]
      · have hgt : g.heap.length < r := by omega
        rw [List.getElem?_eq_none (by rw [List.length_append, List.length_singleton]; omega),
          List.getElem?_eq_none (by omega)]

theorem Pool.Inv.releaseEffect_cases {p : Pool} {held : List Nat} (hinv : p.Inv held)
    (x : Nat) :
    (p.dual = true ∧ p.freeList.has x = true ∧
        p.releaseEffect x = (p, some Err.duplicateAdd)) ∨
      ((p.dual = true → p.freeList.has x = false) ∧
        ∃ q, p.release x = .ok q ∧ p.releaseEffect x = (q, none)) := by
  cases hd : p.dual with
  | false =>
    refine Or.inr ⟨fun h => by simp at h, _, Pool.release_simple p hd x, ?_⟩
    exact Pool.releaseEffect_of_ok _ _ _ (Pool.release_simple p hd x)
  | true =>
    obtain ⟨fs, hf, hu, _, _⟩ := hinv.dual hd
    by_cases hx : x ∈ fs
    · have hhas := (hf.has_iff x).mpr hx
      exact Or.inl ⟨rfl, hhas, Pool.releaseEffect_dup p x hd hhas⟩
    · obtain ⟨fl, ul, hrel, _⟩ := Pool.release_dual p hd x fs held hf hu hx
      exact Or.inr ⟨fun _ => hf.has_false x hx, _, hrel, Pool.releaseEffect_of_ok _ _ _ hrel⟩

theorem Registry.load_store (g : Registry) (ref : Nat) (q : Pool) (hlt : ref < g.heap.length)
    (r : Nat) :
    (g.store ref q).load r =
      if r = ref then some q
      else match g.heap[r]? with
        | some p => some { p with totalPooled := q.totalPooled }
        | none => none := by
  unfold Registry.load Registry.store
  dsimp only
  by_cases hr : r = ref
  · subst hr
    rw [if_pos rfl, List.getElem?_set_self hlt]
  · rw [if_neg hr, List.getElem?_set_ne (Ne.symm hr)]

/-- One static `release` on a registry that satisfies the invariant. -/
theorem Registry.Wf.release_step {g : Registry} (hw : g.Wf) (o : Pooled) :
    ((g.release o).2 = some Err.noPool ↔ g.pools.get o.fullName = none) ∧
    (g.pools.get o.fullName = none → (g.release o).1 = g) ∧
    (∀ ref, g.pools.get o.fullName = some ref →
      ∃ p, g.load ref = some p ∧
        g.release o =
          (g.store ref (p.releaseEffect o.objectId).1, (p.releaseEffect o.objectId).2) ∧
        (∀ q, p.release o.objectId = .ok q → g.release o = (g.store ref q, none)) ∧
        (∀ e, p.release o.objectId = .error e → (g.release o).2 = some e) ∧
        ((g.release o).2 = none ∨ (g.release o).2 = some Err.duplicateAdd) ∧
        ((g.release o).2 = some Err.duplicateAdd ↔
          p.dual = true ∧ p.freeList.has o.objectId = true) ∧
        ((g.release o).2 = some Err.duplicateAdd →
          (g.release o).1.totalPooled = g.totalPooled ∧
          ∀ r, (g.release o).1.load r = g.load r) ∧
        (g.release o).1.pools = g.pools ∧
        (∀ r, r ≠ ref → (g.release o).1.heap[r]? = g.heap[r]?) ∧
        (o.objectId < p.totalObjects → (g.release o).1.Wf)) := by
  have hreg : ∀ ref, g.pools.get o.fullName = some ref →
      ∃ p0 held, g.heap[ref]? = some p0 ∧ ref < g.heap.length ∧
        g.load ref = some { p0 with totalPooled := g.totalPooled } ∧
        Pool.Inv { p0 with totalPooled := g.totalPooled } held ∧
        g.release o =
          (g.store ref
            (Pool.releaseEffect { p0 with totalPooled := g.totalPooled } o.objectId).1,
           (Pool.releaseEffect { p0 with totalPooled := g.totalPooled } o.objectId).2) := by
    intro ref href
    obtain ⟨p0, held, hget, hload, hinv⟩ := hw.load_some ref (hw.valid _ _ href)
    refine ⟨p0, held, hget, hw.valid _ _ href, hload, hinv, ?_⟩
    unfold Registry.release
    rw [href]
    dsimp only
    rw [hload]
  refine ⟨⟨?_, ?_⟩, ?_, ?_⟩
  · intro hthrown
    cases hget : g.pools.get o.fullName with
    | none => rfl
    | some ref =>
      obtain ⟨p0, held, _, _, _, _, hrel⟩ := hreg ref hget
      rw [hrel] at hthrown
      rcases Pool.releaseEffect_thrown { p0 with totalPooled := g.totalPooled } o.objectId
        with h | h | h <;> rw [h] at hthrown <;> simp at hthrown
  · intro hnone
    unfold Registry.release
    rw [hnone]
  · intro hnone
    unfold Registry.release
    rw [hnone]
  · intro ref href
    obtain ⟨p0, held, hget, hlt, hload, hinv, hrel⟩ := hreg ref href
    refine ⟨_, hload, hrel, ?_, ?_, ?_, ?_, ?_, (Registry.release_pools g o).1, ?_, ?_⟩
    · intro q hq
      rw [hrel, Pool.releaseEffect_of_ok _ _ _ hq]
    · intro e he
      rw [hrel]
      rw [Pool.release_eq_effect] at he
      rcases hr : Pool.releaseEffect { p0 with totalPooled := g.totalPooled } o.objectId
        with ⟨q1, _ | e1⟩
      · rw [hr] at he
        simp at he
      · rw [hr] at he
        simp only [Except.error.injEq] at he
        rw [he]
    · rw [hrel]
      rcases hinv.releaseEffect_cases o.objectId with ⟨_, _, h⟩ | ⟨_, q, _, h⟩
      · exact Or.inr (by rw [h])
      · exact Or.inl (by rw [h])
    · rw [hrel]
      rcases hinv.releaseEffect_cases o.objectId with ⟨hd, hhas, h⟩ | ⟨hno, q, _, h⟩
      · rw [h]
        exact ⟨fun _ => ⟨hd, hhas⟩, fun _ => rfl⟩
      · rw [h]
        refine ⟨fun hc => by simp at hc, fun hc => ?_⟩
        rw [hno hc.1] at hc
        simp at hc
    · intro hthrown
      rw [hrel] at hthrown ⊢
      rcases hinv.releaseEffect_cases o.objectId with ⟨_, _, h⟩ | ⟨_, q, _, h⟩
      · rw [h]
        refine ⟨rfl, fun r => ?_⟩
        rw [Registry.load_store g ref _ hlt r]
        by_cases hr : r = ref
        · rw [if_pos hr, hr, hload]
        · rw [if_neg hr]
          rfl
      · rw [h] at hthrown
        simp at hthrown
    · intro r hr
      rw [hrel]
      show (g.heap.set ref _)[r]? = g.heap[r]?
      rw [List.getElem?_set_ne (Ne.symm hr)]
    · intro hadm
      rw [hrel]
      rcases hinv.release o.objectId (fun _ _ => hadm) with ⟨q, hq, hqinv, _⟩ | ⟨hq, _, _⟩
      · rw [Pool.releaseEffect_of_ok _ _ _ hq]
        exact hw.store_inv ref q _ hqinv
      · rcases hinv.releaseEffect_cases o.objectId with ⟨_, _, h⟩ | ⟨_, q, hok, _⟩
        · rw [h]
          exact hw.store_inv ref _ _ hinv
        · rw [hok] at hq
          simp at hq

theorem Registry.acquireFrom_size (g g1 : Registry) (ref : Nat) (x : Option Nat)
    (h : g.acquireFrom ref = .ok (x, g1)) : g1.INITIAL_POOL_SIZE = g.INITIAL_POOL_SIZE := by
  unfold Registry.acquireFrom at h
  cases hl : g.load ref with
  | none => rw [hl] at h; simp at h
  | some p =>
    rw [hl] at h
    dsimp only at h
    cases ha : p.acquire with
    | error e => rw [ha] at h; simp at h
    | ok r =>
      rw [ha] at h
      simp only [Except.ok.injEq, Prod.mk.injEq] at h
      rw [← h.2]
      rfl

theorem Registry.acquire_size (g g1 : Registry) (classType : ClassType) (dual : Option Bool)
    (x : Option Nat) (h : g.acquire classType dual = .ok (x, g1)) :
    g1.INITIAL_POOL_SIZE = g.INITIAL_POOL_SIZE := by
  unfold Registry.acquire at h
  cases hg : g.getPool classType with
  | some ref =>
    rw [hg] at h
    exact Registry.acquireFrom_size g g1 ref x h
  | none =>
    rw [hg] at h
    dsimp only at h
    cases hi : Pool.init classType.totalObjects g.totalPooled g.INITIAL_POOL_SIZE
        (dual.getD false) with
    | error e => rw [hi] at h; simp at h
    | ok p =>
      rw [hi] at h
      dsimp only at h
      have hsz := Registry.acquireFrom_size _ g1 _ x h
      exact hsz

theorem Registry.release_size (g : Registry) (o : Pooled) :
    (g.release o).1.INITIAL_POOL_SIZE = g.INITIAL_POOL_SIZE := by
  unfold Registry.release
  cases g.pools.get o.fullName with
  | none => rfl
  | some ref =>
    dsimp only
    cases g.load ref with
    | none => rfl
    | some p => rfl

theorem Registry.Wf.run_ok {g : Registry} (hw : g.Wf) (calls : List RegistryCall) :
    g.allowed calls = true → ∃ g1, g.run calls = .ok g1 ∧ g1.Wf ∧
      g1.INITIAL_POOL_SIZE = g.INITIAL_POOL_SIZE ∧
      ∀ name r, g.pools.get name = some r → g1.pools.get name = some r := by
  induction calls generalizing g with
  | nil => intro _; exact ⟨g, rfl, hw, rfl, fun _ _ h => h⟩
  | cons k ks ih =>
    intro hall
    unfold Registry.allowed at hall
    rw [Bool.and_eq_true] at hall
    obtain ⟨hk, hrest⟩ := hall
    have hstep : ∃ g1, g.call k = .ok g1 ∧ g1.Wf ∧
        g1.INITIAL_POOL_SIZE = g.INITIAL_POOL_SIZE ∧
        ∀ name r, g.pools.get name = some r → g1.pools.get name = some r := by
      cases k with
      | acquire classType dual =>
        obtain ⟨ref, p, x, q, g1, hacq, hold, hnew, _, _, _, _, hw1, _, hmono, _⟩ :=
          hw.acquire_step classType dual
        refine ⟨g1, ?_, hw1, Registry.acquire_size g g1 classType dual _ hacq, hmono⟩
        simp only [Registry.call, hacq]
      | release o =>
        refine ⟨(g.release o).1, rfl, ?_, Registry.release_size g o, ?_⟩
        · obtain ⟨_, hnone, hsome⟩ := hw.release_step o
          cases hget : g.pools.get o.fullName with
          | none =>
            rw [hnone hget]
            exact hw
          | some ref =>
            obtain ⟨p, hload, _, _, _, _, _, _, _, _, hwf⟩ := hsome ref hget
            refine hwf ?_
            have hk' : g.existing o = true := hk
            unfold Registry.existing at hk'
            rw [hget] at hk'
            dsimp only at hk'
            rw [hload] at hk'
            simpa using hk'
        · intro name r h
          rw [(Registry.release_pools g o).1]
          exact h
    obtain ⟨g1, hcall, hw1, hsz, hmono⟩ := hstep
    rw [hcall] at hrest
    obtain ⟨g2, hrun, hw2, hsz2, hmono2⟩ := ih hw1 hrest
    refine ⟨g2, ?_, hw2, hsz2.trans hsz, fun name r h => hmono2 name r (hmono name r h)⟩
    show (match g.call k with
      | .ok g1 => Registry.run g1 ks
      | .error e => .error e) = .ok g2
    rw [hcall]
    exact hrun

/-- C13. After every sequence of registry calls in which `release` is only called on
existing instances, the static `acquire(classType, dual)` does not throw and returns an
instance.  When a pool is registered under `classType.fullName`, that pool is used as it
is, in the mode it has, and the table `pools` is not written.  When none is, a pool is
constructed in the requested mode (simple when `dual` is not a boolean) with
`INITIAL_POOL_SIZE` new instances in its free collection, and it is registered under that
name.  In both cases the instance returned is the one that pool's `acquire()` returns and
the pool is left as that call leaves it.  `keys()` lists no name twice, before and after;
every name registered before is registered to the same pool object after, every other name
and every other pool object is as it was; `release` does not write the table; and after any
further calls every registered name is still registered to the same pool object. -/
theorem registry_acquire (size : Int) (calls : List RegistryCall) (classType : ClassType)
    (dual : Option Bool) (h : Registry.admissible size calls = true) :
    ∃ g, Registry.session size calls = .ok g ∧ g.INITIAL_POOL_SIZE = size ∧
      g.pools.keys.Nodup ∧
      (∃ ref p x q g1,
        g.acquire classType dual = .ok (some x, g1) ∧
        (∀ r, g.getPool classType = some r →
          ref = r ∧ g.load r = some p ∧ g1.pools = g.pools ∧
          g1.heap.length = g.heap.length) ∧
        (g.getPool classType = none →
          ref = g.heap.length ∧
          Pool.init classType.totalObjects g.totalPooled g.INITIAL_POOL_SIZE
            (dual.getD false) = .ok p ∧
          p.dual = dual.getD false ∧
          p.free = List.range' classType.totalObjects g.INITIAL_POOL_SIZE.toNat ∧
          g1.pools = (g.pools.put classType.fullName ref).1 ∧
          g1.heap.length = g.heap.length + 1) ∧
        p.acquire = .ok (some x, q) ∧ q.dual = p.dual ∧
        g1.getPool classType = some ref ∧ g1.load ref = some q ∧
        g1.pools.keys.Nodup ∧
        (∀ name r, g.pools.get name = some r → g1.pools.get name = some r) ∧
        (∀ name, name ≠ classType.fullName → g1.pools.get name = g.pools.get name) ∧
        (∀ r, r ≠ ref → g1.heap[r]? = g.heap[r]?) ∧
        ∀ o, (g1.release o).1.pools = g1.pools) ∧
      ∀ more, g.allowed more = true →
        ∃ g2, g.run more = .ok g2 ∧
          ∀ name r, g.pools.get name = some r → g2.pools.get name = some r := by
  obtain ⟨g, hrun, hw, hsz, _⟩ := (Registry.Wf.start size 0).run_ok calls h
  refine ⟨g, hrun, hsz, hw.table.keys_nodup, ?_, ?_⟩
  · obtain ⟨ref, p, x, q, g1, h1, h2, h3, h4, h5, h6, h7, _, h9, h10, h11, h12, h13⟩ :=
      hw.acquire_step classType dual
    exact ⟨ref, p, x, q, g1, h1, h2, h3, h4, h5, h6, h7, h9, h10, h11, h12, h13⟩
  · intro more hmore
    obtain ⟨g2, hrun2, _, _, hmono⟩ := hw.run_ok more hmore
    exact ⟨g2, hrun2, hmono⟩

/-- C13 at the default registry after an `acquire` of class `Point` in dual mode and the
`release` of the instance: the next `acquire` of the class finds the pool registered. -/
theorem registry_acquire_witness :
    Registry.admissible 1
      [.acquire ⟨"Point", 0⟩ (some true), .release ⟨"Point", 0⟩] = true ∧
    ∃ g, Registry.session 1
        [.acquire ⟨"Point", 0⟩ (some true), .release ⟨"Point", 0⟩] = .ok g ∧
      g.getPool ⟨"Point", 1⟩ = some 0 ∧
      ∃ x g1, g.acquire ⟨"Point", 1⟩ none = .ok (some x, g1) ∧ g1.pools = g.pools := by
  obtain ⟨g, hrun, _, _, ⟨ref, p, x, q, g1, hacq, hold, _⟩, _⟩ :=
    registry_acquire 1 [.acquire ⟨"Point", 0⟩ (some true), .release ⟨"Point", 0⟩]
      ⟨"Point", 1⟩ none (by decide)
  have hget : g.getPool ⟨"Point", 1⟩ = some 0 := by
    have e : (Registry.session 1
        [.acquire ⟨"Point", 0⟩ (some true), .release ⟨"Point", 0⟩]).map
        (fun g => g.getPool ⟨"Point", 1⟩) = .ok (some 0) := by decide
    rw [hrun] at e
    simpa [Except.map] using e
  exact ⟨by decide, g, hrun, hget, x, g1, hacq, (hold 0 hget).2.2.1⟩

/-- C14 fails. Class `Point` has a dual pool in the registry; a first `release` of the
instance acquired from it returns, the pool is still registered, and a second `release` of
that instance throws (`'Attempting to add object ... twice'`, from the pool's free list). -/
theorem registry_release_counterexample :
    ∃ x g1, Registry.init.acquire ⟨"Point", 0⟩ (some true) = .ok (some x, g1) ∧
      (g1.release ⟨"Point", x⟩).2 = none ∧
      (g1.release ⟨"Point", x⟩).1.pools.get "Point" = some 0 ∧
      ((g1.release ⟨"Point", x⟩).1.release ⟨"Point", x⟩).2 = some Err.duplicateAdd := by
  refine ⟨0, _, rfl, ?_, ?_, ?_⟩ <;> decide

/-- C14, amended. After every sequence of registry calls in which `release` is only called
on existing instances, the static `release(instance)` throws its own error exactly when no
pool is registered under the instance's class `fullName`, and the registry is then as it
was.  Otherwise it performs the registered pool's `release(instance)` : it leaves that pool
as that call leaves it and throws what that call throws, which is nothing, or the duplicate
error of the free list exactly when the pool is dual and the instance is in its free list;
after that error every pool is as it was.  The table `pools` and every other pool object
are untouched. -/
theorem registry_release (size : Int) (calls : List RegistryCall) (o : Pooled)
    (h : Registry.admissible size calls = true) :
    ∃ g, Registry.session size calls = .ok g ∧
      ((g.release o).2 = some Err.noPool ↔ g.pools.get o.fullName = none) ∧
      (g.pools.get o.fullName = none → (g.release o).1 = g) ∧
      (∀ ref, g.pools.get o.fullName = some ref →
        ∃ p, g.load ref = some p ∧
          g.release o =
            (g.store ref (p.releaseEffect o.objectId).1, (p.releaseEffect o.objectId).2) ∧
          (∀ q, p.release o.objectId = .ok q → g.release o = (g.store ref q, none)) ∧
          (∀ e, p.release o.objectId = .error e → (g.release o).2 = some e) ∧
          ((g.release o).2 = none ∨ (g.release o).2 = some Err.duplicateAdd) ∧
          ((g.release o).2 = some Err.duplicateAdd ↔
            p.dual = true ∧ p.freeList.has o.objectId = true) ∧
          ((g.release o).2 = some Err.duplicateAdd →
            (g.release o).1.totalPooled = g.totalPooled ∧
            ∀ r, (g.release o).1.load r = g.load r) ∧
          (g.release o).1.pools = g.pools ∧
          (∀ r, r ≠ ref → (g.release o).1.heap[r]? = g.heap[r]?)) := by
  obtain ⟨g, hrun, hw, _, _⟩ := (Registry.Wf.start size 0).run_ok calls h
  obtain ⟨h1, h2, h3⟩ := hw.release_step o
  refine ⟨g, hrun, h1, h2, fun ref href => ?_⟩
  obtain ⟨p, a1, a2, a3, a4, a5, a6, a7, a8, a9, _⟩ := h3 ref href
  exact ⟨p, a1, a2, a3, a4, a5, a6, a7, a8, a9⟩

/-- C14, amended, at the default registry after an `acquire` of class `Point` in dual mode
and the `release` of the instance: a second `release` of it throws the duplicate error and
leaves the table as it was. -/
theorem registry_release_witness :
    Registry.admissible 1
      [.acquire ⟨"Point", 0⟩ (some true), .release ⟨"Point", 0⟩] = true ∧
    ∃ g, Registry.session 1
        [.acquire ⟨"Point", 0⟩ (some true), .release ⟨"Point", 0⟩] = .ok g ∧
      g.pools.get "Point" = some 0 ∧
      (g.release ⟨"Point", 0⟩).2 = some Err.duplicateAdd ∧
      (g.release ⟨"Point", 0⟩).1.pools = g.pools := by
  obtain ⟨g, hrun, _, _, hreg⟩ :=
    registry_release 1 [.acquire ⟨"Point", 0⟩ (some true), .release ⟨"Point", 0⟩]
      ⟨"Point", 0⟩ (by decide)
  have e : (Registry.session 1
      [.acquire ⟨"Point", 0⟩ (some true), .release ⟨"Point", 0⟩]).map
      (fun g => (g.pools.get "Point", (g.release ⟨"Point", 0⟩).2)) =
      .ok (some 0, some Err.duplicateAdd) := by decide
  rw [hrun] at e
  simp only [Except.map, Except.ok.injEq, Prod.mk.injEq] at e
  obtain ⟨p, _, _, _, _, _, _, _, hpools, _⟩ := hreg 0 e.1
  exact ⟨by decide, g, hrun, e.1, e.2, hpools⟩

/-! ## What `add` and `remove` write -/

theorem LinkedList.append_frame (l l1 : LinkedList) (a : Nat) (h : l.append a = .ok l1) :
    l1.objToNodeMap = l.objToNodeMap ∧ l1.nodes.length = l.nodes.length ∧
      l1.count = l.count + 1 ∧ l1.last = some a ∧
      ∀ b, (readNode l1.nodes b).obj = (readNode l.nodes b).obj ∧
        (readNode l1.nodes b).free = (readNode l.nodes b).free := by
  unfold LinkedList.append at h
  cases hf : l.first with
  | none =>
    rw [hf] at h
    simp only [Except.ok.injEq] at h
    subst h
    refine ⟨rfl, by simp [length_writeNode], rfl, rfl, fun b => ⟨?_, ?_⟩⟩
    · dsimp only
      rw [readNode_writeNode_field LinkedNode.obj, readNode_writeNode_field LinkedNode.obj]
      all_goals intro n; rfl
    · dsimp only
      rw [readNode_writeNode_field LinkedNode.free, readNode_writeNode_field LinkedNode.free]
      all_goals intro n; rfl
  | some x =>
    rw [hf] at h
    cases hz : l.last with
    | none => rw [hz] at h; simp at h
    | some z =>
      rw [hz] at h
      simp only [Except.ok.injEq] at h
      subst h
      refine ⟨rfl, by simp [length_writeNode], rfl, rfl, fun b => ⟨?_, ?_⟩⟩
      · dsimp only
        rw [readNode_writeNode_field LinkedNode.obj, readNode_writeNode_field LinkedNode.obj,
          readNode_writeNode_field LinkedNode.obj]
        all_goals intro n; rfl
      · dsimp only
        rw [readNode_writeNode_field LinkedNode.free, readNode_writeNode_field LinkedNode.free,
          readNode_writeNode_field LinkedNode.free]
        all_goals intro n; rfl

theorem LinkedList.add_frame_new (l l1 : LinkedList) (k : Nat) (hg : l.getNode k = none)
    (h : l.add k = .ok l1) :
    l1.objToNodeMap = (l.objToNodeMap.put k l.nodes.length).1 ∧
      l1.nodes.length = l.nodes.length + 1 ∧ l1.count = l.count + 1 ∧
      l1.last = some l.nodes.length ∧
      (readNode l1.nodes l.nodes.length).obj = k ∧
      (readNode l1.nodes l.nodes.length).free = false ∧
      ∀ b, b < l.nodes.length → (readNode l1.nodes b).obj = (readNode l.nodes b).obj ∧
        (readNode l1.nodes b).free = (readNode l.nodes b).free := by
  unfold LinkedList.add at h
  rw [hg] at h
  obtain ⟨hmap, hlen, hcnt, hlast, hfr⟩ := LinkedList.append_frame _ _ _ h
  have h1 := (hfr l.nodes.length).1
  have h2 := (hfr l.nodes.length).2
  simp only [LinkedList.addNode, readNode_append_new] at h1 h2
  refine ⟨hmap, ?_, hcnt, hlast, h1, h2, ?_⟩
  · rw [hlen]
    simp [LinkedList.addNode]
  · intro b hb
    have h1 := (hfr b).1
    have h2 := (hfr b).2
    simp only [LinkedList.addNode] at h1 h2
    rw [readNode_append_old _ _ _ hb] at h1 h2
    exact ⟨h1, h2⟩

theorem LinkedList.add_frame_reuse (l l1 : LinkedList) (k a : Nat)
    (hg : l.getNode k = some a) (hlt : a < l.nodes.length) (h : l.add k = .ok l1) :
    (readNode l.nodes a).free = true ∧
      l1.objToNodeMap = l.objToNodeMap ∧ l1.nodes.length = l.nodes.length ∧
      l1.count = l.count + 1 ∧ l1.last = some a ∧
      (readNode l1.nodes a).obj = k ∧ (readNode l1.nodes a).free = false ∧
      ∀ b, b ≠ a → (readNode l1.nodes b).obj = (readNode l.nodes b).obj ∧
        (readNode l1.nodes b).free = (readNode l.nodes b).free := by
  unfold LinkedList.add at h
  rw [hg] at h
  dsimp only at h
  by_cases hf : (readNode l.nodes a).free = false
  · rw [if_pos hf] at h
    simp at h
  · rw [if_neg hf] at h
    obtain ⟨hmap, hlen, hcnt, hlast, hfr⟩ := LinkedList.append_frame _ _ _ h
    have hfree : (readNode l.nodes a).free = true := by simpa using hf
    refine ⟨hfree, hmap, ?_, hcnt, hlast, ?_, ?_, ?_⟩
    · rw [hlen]
      dsimp only
      exact length_writeNode _ _ _
    · rw [(hfr a).1]
      dsimp only
      rw [readNode_writeNode_same _ _ _ hlt]
    · rw [(hfr a).2]
      dsimp only
      rw [readNode_writeNode_same _ _ _ hlt]
    · intro b hb
      rw [(hfr b).1, (hfr b).2]
      dsimp only
      rw [readNode_writeNode_ne _ _ _ _ (Ne.symm hb)]
      exact ⟨rfl, rfl⟩

/-! ## Properties of the linked list -/

/-- C15. On a well-formed list that holds the objects `xs`, `add` of an object that has no
node in `objToNodeMap` does not throw.  It constructs one node, at the end of the heap, for
this object and not free, and records it in the index under the object's id; no other index
entry and no object or free flag of an older node changes.  The forward sequence becomes
`xs ++ [item]`, `last` is the new node, `count` is one more and `has(item)` is true; the
list is well formed again. -/
theorem add_new_item (l : LinkedList) (xs : List Nat) (k : Nat) (hl : Holds l xs)
    (hk : l.getNode k = none) :
    ∃ l1, l.add k = .ok l1 ∧ l.addEffect k = (l1, none) ∧
      l1.nodes.length = l.nodes.length + 1 ∧
      l1.getNode k = some l.nodes.length ∧
      (readNode l1.nodes l.nodes.length).obj = k ∧
      (readNode l1.nodes l.nodes.length).free = false ∧
      (∀ j, j ≠ k → l1.getNode j = l.getNode j) ∧
      (∀ b, b < l.nodes.length → (readNode l1.nodes b).obj = (readNode l.nodes b).obj ∧
        (readNode l1.nodes b).free = (readNode l.nodes b).free) ∧
      l.toList = xs ∧ l1.toList = xs ++ [k] ∧ l1.last = some l.nodes.length ∧
      l1.count = l.count + 1 ∧ l1.length = l.length + 1 ∧ l1.has k = true ∧
      Holds l1 (xs ++ [k]) := by
  have hhas : l.has k = false := by
    unfold LinkedList.has
    rw [hk]
  have hnot : k ∉ xs := fun hmem => by
    have := (hl.has_iff k).mpr hmem
    rw [hhas] at this
    simp at this
  obtain ⟨l1, hadd, hl1⟩ := hl.add k hnot
  obtain ⟨hmap, hlen, hcnt, hlast, hobj, hfree, hold⟩ := LinkedList.add_frame_new l l1 k hk hadd
  refine ⟨l1, hadd, LinkedList.addEffect_of_ok l l1 k hadd, hlen, ?_, hobj, hfree, ?_, hold,
    hl.toList_eq, hl1.toList_eq, hlast, hcnt, hcnt, ?_, hl1⟩
  · unfold LinkedList.getNode
    rw [hmap]
    exact Hashtable.get_put_self _ _ _
  · intro j hj
    unfold LinkedList.getNode
    rw [hmap]
    exact Hashtable.get_put_other _ _ _ _ hj
  · exact (hl1.has_iff k).mpr (List.mem_append_right _ (List.mem_singleton_self k))

/-- C15 at the list that holds object `7`, for object `3`. -/
theorem add_new_item_witness :
    ∃ l, LinkedList.init.add 7 = .ok l ∧ Holds l [7] ∧ l.getNode 3 = none ∧
      ∃ l1, l.add 3 = .ok l1 ∧ l1.toList = [7, 3] ∧ l1.has 3 = true ∧
        l1.count = l.count + 1 := by
  obtain ⟨l, hadd, hl⟩ := Holds.empty_list.add 7 (by simp)
  have hg : l.getNode 3 = none := by
    have e : (LinkedList.init.add 7).map (fun l => l.getNode 3) = .ok none := by decide
    rw [hadd] at e
    simpa [Except.map] using e
  obtain ⟨l1, h1, _, _, _, _, _, _, _, _, h2, _, h3, _, h4, _⟩ := add_new_item l [7] 3 hl hg
  exact ⟨l, hadd, hl, hg, l1, h1, h2, h4, h3⟩

theorem Holds.remove_frame {l : LinkedList} {xs : List Nat} (h : Holds l xs) (k : Nat)
    (hk : k ∈ xs) :
    ∃ a, l.getNode k = some a ∧ (readNode l.nodes a).free = false ∧
      l.remove k = (l.unlink a, true) ∧
      (l.unlink a).objToNodeMap = l.objToNodeMap ∧
      (l.unlink a).nodes.length = l.nodes.length ∧ (l.unlink a).count = l.count - 1 ∧
      (readNode (l.unlink a).nodes a).free = true ∧
      (∀ b, (readNode (l.unlink a).nodes b).obj = (readNode l.nodes b).obj) ∧
      (∀ b, b ≠ a → (readNode (l.unlink a).nodes b).free = (readNode l.nodes b).free) ∧
      (xs = [k] → (l.unlink a).first = none ∧ (l.unlink a).last = none) := by
  have hhas := (h.has_iff k).mpr hk
  obtain ⟨as, hl, hxs⟩ := h
  unfold LinkedList.has at hhas
  cases hg : l.getNode k with
  | none => rw [hg] at hhas; simp at hhas
  | some a =>
    rw [hg] at hhas
    have hfree : (readNode l.nodes a).free = false := by simpa using hhas
    have hmem : a ∈ as := by
      by_contra hcon
      have := hl.free_of k a hg hcon
      rw [hfree] at this
      exact absurd this (by simp)
    obtain ⟨pre, post, hsplit⟩ := List.append_of_mem hmem
    subst hsplit
    have hrem : l.remove k = (l.unlink a, true) := by
      unfold LinkedList.remove
      rw [hg]
      simp [hfree]
    obtain ⟨_, hcount, hmap, hlen, hobjs, hfrees, hfreea⟩ :=
      LinkedList.unlink_spec l pre post a hl.toChain
    refine ⟨a, rfl, hfree, hrem, hmap, hlen, hcount, hfreea, hobjs, hfrees, ?_⟩
    intro hone
    have hlen1 : (pre ++ a :: post).length = 1 := by
      have := congrArg List.length hxs
      rw [hone] at this
      simpa [objsOf] using this
    have hpre : pre = [] := by
      cases pre with
      | nil => rfl
      | cons p ps => simp at hlen1
    have hpost : post = [] := by
      cases post with
      | nil => rfl
      | cons p ps =>
        simp only [List.length_append, List.length_cons] at hlen1
        omega
    subst hpre hpost
    have hnext : (readNode l.nodes a).nextLinked = none := hl.fwd.1
    have hprev : (readNode l.nodes a).prevLinked = none := hl.bwd.1
    simp [LinkedList.unlink, hnext, hprev, setNextLinked, setPrevLinked]

theorem Holds.first_last {l : LinkedList} {xs : List Nat} (h : Holds l xs) :
    l.first.map (fun a => (readNode l.nodes a).obj) = xs.head? ∧
      (xs ≠ [] → l.last.map (fun a => (readNode l.nodes a).obj) = xs.getLast?) := by
  obtain ⟨as, hl, rfl⟩ := h
  refine ⟨?_, fun hne => ?_⟩
  · rw [hl.first_eq]
    unfold objsOf
    rw [List.head?_map]
  · have hne' : as ≠ [] := by
      intro e
      rw [e] at hne
      exact hne rfl
    rw [hl.last_eq hne']
    unfold objsOf
    rw [List.getLast?_map]

theorem Holds.getNode_valid {l : LinkedList} {xs : List Nat} (h : Holds l xs) (k a : Nat)
    (hg : l.getNode k = some a) : a < l.nodes.length ∧ (readNode l.nodes a).obj = k := by
  obtain ⟨as, hl, _⟩ := h
  exact hl.map_valid k a hg

theorem Holds.after_call {l : LinkedList} {xs : List Nat} (h : Holds l xs) (c : ListCall) :
    ∃ ys, Holds (l.call c) ys := by
  cases c with
  | add k =>
    by_cases hk : k ∈ xs
    · refine ⟨xs, ?_⟩
      show Holds (l.addEffect k).1 xs
      rw [LinkedList.addEffect_of_has l k ((h.has_iff k).mpr hk)]
      exact h
    · obtain ⟨l1, hadd, hl1⟩ := h.add k hk
      refine ⟨xs ++ [k], ?_⟩
      show Holds (l.addEffect k).1 (xs ++ [k])
      rw [LinkedList.addEffect_of_ok l l1 k hadd]
      exact hl1
  | remove k =>
    by_cases hk : k ∈ xs
    · exact ⟨xs.erase k, (h.remove k hk).2⟩
    · refine ⟨xs, ?_⟩
      show Holds (l.remove k).1 xs
      rw [h.remove_absent k hk]
      exact h

theorem Holds.after_run {l : LinkedList} {xs : List Nat} (h : Holds l xs)
    (calls : List ListCall) : ∃ ys, Holds (l.run calls) ys := by
  induction calls generalizing l xs with
  | nil => exact ⟨xs, h⟩
  | cons c cs ih =>
    obtain ⟨ys, hys⟩ := h.after_call c
    exact ih hys

theorem LinkedList.run_concat (l : LinkedList) (cs ds : List ListCall) :
    l.run (cs ++ ds) = (l.run cs).run ds := by
  unfold LinkedList.run
  rw [List.foldl_append]

/-- C16. `add` throws the duplicate error whenever the object has a node in the index that
is not free, and the list it leaves is the list it was called on (`first`, `last`, `count`,
the nodes and the index).  In particular, after an `add` that returned on a well-formed
list, `has` is true for the object and a second `add` of it throws and leaves the list as
the first one left it. -/
theorem add_present_throws (l : LinkedList) (k : Nat) :
    (∀ a, l.getNode k = some a → (readNode l.nodes a).free = false →
      l.add k = .error Err.duplicateAdd ∧ l.addEffect k = (l, some Err.duplicateAdd)) ∧
    (∀ xs l1, Holds l xs → l.add k = .ok l1 →
      l1.has k = true ∧ l1.add k = .error Err.duplicateAdd ∧
      l1.addEffect k = (l1, some Err.duplicateAdd)) := by
  refine ⟨?_, ?_⟩
  · intro a hg hf
    have hhas : l.has k = true := by
      unfold LinkedList.has
      rw [hg]
      simp [hf]
    exact ⟨LinkedList.add_of_has l k hhas, LinkedList.addEffect_of_has l k hhas⟩
  · intro xs l1 hl hadd
    have hk : k ∉ xs := by
      intro hmem
      rw [hl.add_dup k hmem] at hadd
      simp at hadd
    obtain ⟨l2, hadd2, hl2⟩ := hl.add k hk
    rw [hadd] at hadd2
    simp only [Except.ok.injEq] at hadd2
    subst hadd2
    have hhas : l1.has k = true :=
      (hl2.has_iff k).mpr (List.mem_append_right _ (List.mem_singleton_self k))
    exact ⟨hhas, LinkedList.add_of_has l1 k hhas, LinkedList.addEffect_of_has l1 k hhas⟩

/-- C16 at the empty list and object `7` : the first `add` returns, the second throws and
leaves the list as it was. -/
theorem add_present_throws_witness :
    ∃ l1, LinkedList.init.add 7 = .ok l1 ∧ l1.has 7 = true ∧
      l1.add 7 = .error Err.duplicateAdd ∧ l1.addEffect 7 = (l1, some Err.duplicateAdd) := by
  obtain ⟨l1, hadd, _⟩ := Holds.empty_list.add 7 (by simp)
  exact ⟨l1, hadd, (add_present_throws LinkedList.init 7).2 [] l1 Holds.empty_list hadd⟩

/-- C17 fails. The first `add` of object `7` to an empty list returns; the second `add` of
it throws (`'Attempting to add object ... twice'`). -/
theorem second_add_counterexample :
    ∃ l1, LinkedList.init.add 7 = .ok l1 ∧ l1.toList = [7] ∧
      l1.add 7 = .error Err.duplicateAdd := by
  obtain ⟨l1, hadd, hl1⟩ := Holds.empty_list.add 7 (by simp)
  exact ⟨l1, hadd, hl1.toList_eq, hl1.add_dup 7 (by simp)⟩

/-- C17, amended. After every sequence of `add` and `remove` calls on a new list: when the
list holds the object, `add` of it throws the duplicate error and the list is unchanged;
when it does not, `add` of it returns, and `add` of it once more throws and leaves the list
as the first `add` left it. -/
theorem second_add_throws (calls : List ListCall) (k : Nat) :
    ((LinkedList.init.run calls).has k = true →
      (LinkedList.init.run calls).add k = .error Err.duplicateAdd ∧
      LinkedList.init.run (calls ++ [.add k]) = LinkedList.init.run calls) ∧
    ((LinkedList.init.run calls).has k = false →
      ∃ l1, (LinkedList.init.run calls).add k = .ok l1 ∧
        LinkedList.init.run (calls ++ [.add k]) = l1 ∧
        l1.add k = .error Err.duplicateAdd ∧
        LinkedList.init.run (calls ++ [.add k, .add k]) = l1) := by
  obtain ⟨ys, hys⟩ := Holds.empty_list.after_run calls
  have hstep : ∀ (l : LinkedList) (c : ListCall), l.run [c] = l.call c := fun _ _ => rfl
  refine ⟨?_, ?_⟩
  · intro hhas
    refine ⟨LinkedList.add_of_has _ k hhas, ?_⟩
    rw [LinkedList.run_concat, hstep]
    show ((LinkedList.init.run calls).addEffect k).1 = _
    rw [LinkedList.addEffect_of_has _ k hhas]
  · intro hhas
    have hk : k ∉ ys := by
      intro hmem
      rw [(hys.has_iff k).mpr hmem] at hhas
      simp at hhas
    obtain ⟨l1, hadd, hl1⟩ := hys.add k hk
    have hhas1 : l1.has k = true :=
      (hl1.has_iff k).mpr (List.mem_append_right _ (List.mem_singleton_self k))
    have h1 : LinkedList.init.run (calls ++ [.add k]) = l1 := by
      rw [LinkedList.run_concat, hstep]
      show ((LinkedList.init.run calls).addEffect k).1 = l1
      rw [LinkedList.addEffect_of_ok _ l1 k hadd]
    refine ⟨l1, hadd, h1, LinkedList.add_of_has l1 k hhas1, ?_⟩
    have hsplit : calls ++ [ListCall.add k, ListCall.add k] =
        (calls ++ [ListCall.add k]) ++ [ListCall.add k] := by simp
    rw [hsplit, LinkedList.run_concat, h1, hstep]
    show (l1.addEffect k).1 = l1
    rw [LinkedList.addEffect_of_has l1 k hhas1]

/-- C17, amended, at the sequence `add(7), add(3), remove(3)` and object `7`, which the list
holds. -/
theorem second_add_throws_witness :
    (LinkedList.init.run [.add 7, .add 3, .remove 3]).has 7 = true ∧
    (LinkedList.init.run [.add 7, .add 3, .remove 3]).add 7 = .error Err.duplicateAdd ∧
    LinkedList.init.run ([.add 7, .add 3, .remove 3] ++ [.add 7]) =
      LinkedList.init.run [.add 7, .add 3, .remove 3] :=
  ⟨by decide, (second_add_throws [.add 7, .add 3, .remove 3] 7).1 (by decide)⟩

/-- C18. On a well-formed list that holds `xs`, for an object that is not in it:
`add`, `remove`, `add` of the object do not throw and `remove` returns true.  The second
`add` uses the node of the first: the index and the number of nodes are those after the
first `add`; the node, which `remove` had marked free, is not free and carries the object;
the forward sequence is `xs ++ [item]` again with the node as `last`; `has(item)` is true
and `count` is what it was after the first `add`. -/
theorem add_remove_add (l : LinkedList) (xs : List Nat) (k : Nat) (hl : Holds l xs)
    (hk : k ∉ xs) :
    ∃ l1 l3 a, l.add k = .ok l1 ∧ (l1.remove k).2 = true ∧
      (l1.remove k).1.add k = .ok l3 ∧
      l1.getNode k = some a ∧ l3.getNode k = some a ∧
      l3.objToNodeMap = l1.objToNodeMap ∧ l3.nodes.length = l1.nodes.length ∧
      (readNode (l1.remove k).1.nodes a).free = true ∧
      (readNode l3.nodes a).free = false ∧ (readNode l3.nodes a).obj = k ∧
      l1.toList = xs ++ [k] ∧ (l1.remove k).1.toList = xs ∧ l3.toList = xs ++ [k] ∧
      l3.last = some a ∧ l3.has k = true ∧ l3.count = l1.count ∧
      Holds l3 (xs ++ [k]) := by
  obtain ⟨l1, hadd, hl1⟩ := hl.add k hk
  have hmem : k ∈ xs ++ [k] := List.mem_append_right _ (List.mem_singleton_self k)
  obtain ⟨a, hg1, _, hrem, hmap2, hlen2, hcnt2, _, _, _, _⟩ := hl1.remove_frame k hmem
  obtain ⟨hret, hl2⟩ := hl1.remove k hmem
  have herase : (xs ++ [k]).erase k = xs := by
    rw [List.erase_append_right _ hk]
    simp
  rw [herase] at hl2
  obtain ⟨l3, hadd3, hl3⟩ := hl2.add k hk
  have hg2 : (l1.remove k).1.getNode k = some a := by
    rw [hrem]
    unfold LinkedList.getNode
    rw [hmap2]
    exact hg1
  obtain ⟨hfree2, hmap3, hlen3, hcnt3, hlast3, hobj3, hfree3, _⟩ :=
    LinkedList.add_frame_reuse _ l3 k a hg2 (hl2.getNode_valid k a hg2).1 hadd3
  rw [hrem] at hmap3 hlen3 hcnt3
  refine ⟨l1, l3, a, hadd, hret, hadd3, hg1, ?_, hmap3.trans hmap2, hlen3.trans hlen2, hfree2,
    hfree3, hobj3, hl1.toList_eq, hl2.toList_eq, hl3.toList_eq, hlast3,
    (hl3.has_iff k).mpr hmem, ?_, hl3⟩
  · unfold LinkedList.getNode
    rw [hmap3, hmap2]
    exact hg1
  · rw [hcnt3, hcnt2]
    ring

/-- C18 at the list that holds object `7`, for object `3`. -/
theorem add_remove_add_witness :
    ∃ l, LinkedList.init.add 7 = .ok l ∧ Holds l [7] ∧
      ∃ l1 l3, l.add 3 = .ok l1 ∧ (l1.remove 3).2 = true ∧ (l1.remove 3).1.add 3 = .ok l3 ∧
        l3.toList = [7, 3] ∧ l3.nodes.length = l1.nodes.length ∧ l3.count = l1.count := by
  obtain ⟨l, hadd, hl⟩ := Holds.empty_list.add 7 (by simp)
  obtain ⟨l1, l3, a, h1, h2, h3, _, _, _, h4, _, _, _, _, _, h5, _, _, h6, _⟩ :=
    add_remove_add l [7] 3 hl (by simp)
  exact ⟨l, hadd, hl, l1, l3, h1, h2, h3, h5, h4, h6⟩

/-- C19. `remove` on a well-formed list that holds `xs`.  When the object has no node in
the index, or its node is free, `remove` returns false and the list is unchanged.
Otherwise it returns true; `count` is one less; `has(item)` is false; the node stays in the
index and is free; the forward sequence is `xs` with the one occurrence of the object
erased; `first` and `last` are the nodes of the first and the last object of that sequence,
and both are `null` when the object was the only one; the list is well formed again. -/
theorem remove_item (l : LinkedList) (xs : List Nat) (k : Nat) (hl : Holds l xs) :
    (l.getNode k = none → l.remove k = (l, false)) ∧
    (∀ a, l.getNode k = some a → (readNode l.nodes a).free = true →
      l.remove k = (l, false)) ∧
    (∀ a, l.getNode k = some a → (readNode l.nodes a).free = false →
      (l.remove k).2 = true ∧
      (l.remove k).1.count = l.count - 1 ∧ (l.remove k).1.length = l.length - 1 ∧
      (l.remove k).1.has k = false ∧
      (l.remove k).1.getNode k = some a ∧ (readNode (l.remove k).1.nodes a).free = true ∧
      l.toList = xs ∧ xs.count k = 1 ∧ (l.remove k).1.toList = xs.erase k ∧
      k ∉ xs.erase k ∧
      (l.remove k).1.first.map (fun b => (readNode (l.remove k).1.nodes b).obj) =
        (xs.erase k).head? ∧
      (l.remove k).1.last.map (fun b => (readNode (l.remove k).1.nodes b).obj) =
        (xs.erase k).getLast? ∧
      (xs = [k] → (l.remove k).1.first = none ∧ (l.remove k).1.last = none) ∧
      Holds (l.remove k).1 (xs.erase k)) := by
  refine ⟨?_, ?_, ?_⟩
  · intro hg
    refine LinkedList.remove_of_not_has l k ?_
    unfold LinkedList.has
    rw [hg]
  · intro a hg hf
    refine LinkedList.remove_of_not_has l k ?_
    unfold LinkedList.has
    rw [hg]
    simp [hf]
  · intro a hg hf
    have hhas : l.has k = true := by
      unfold LinkedList.has
      rw [hg]
      simp [hf]
    have hmem : k ∈ xs := (hl.has_iff k).mp hhas
    have hnd : xs.Nodup := hl.nodup
    obtain ⟨a', hg', _, hrem, hmap, _, hcnt, hfreea, _, _, hone⟩ := hl.remove_frame k hmem
    rw [hg] at hg'
    simp only [Option.some.injEq] at hg'
    subst hg'
    obtain ⟨hret, hl2⟩ := hl.remove k hmem
    have hnot : k ∉ xs.erase k := fun h => (hnd.mem_erase_iff.mp h).1 rfl
    obtain ⟨hfirst, hlast⟩ := hl2.first_last
    refine ⟨hret, ?_, ?_, hl2.has_false k hnot, ?_, ?_, hl.toList_eq,
      List.count_eq_one_of_mem hnd hmem, hl2.toList_eq, hnot, hfirst, ?_, ?_, hl2⟩
    · rw [hrem]
      exact hcnt
    · rw [hrem]
      exact hcnt
    · rw [hrem]
      unfold LinkedList.getNode
      rw [hmap]
      exact hg
    · rw [hrem]
      exact hfreea
    · by_cases hne : xs.erase k = []
      · have hxs : xs = [k] := by
          cases xs with
          | nil => simp at hmem
          | cons x rest =>
            by_cases hx : x = k
            · subst hx
              rw [List.erase_cons_head] at hne
              rw [hne]
            · rw [List.erase_cons_tail (by simpa using hx)] at hne
              simp at hne
        have hl0 := (hone hxs).2
        rw [hrem, hne]
        dsimp only
        rw [hl0]
        rfl
      · exact hlast hne
    · intro hxs
      rw [hrem]
      exact hone hxs

/-- C19 at the list built by `add(7)`, `add(3)`, for object `7`, which is at its head. -/
theorem remove_item_witness :
    Holds (LinkedList.init.run [.add 7, .add 3]) [7, 3] ∧
    (LinkedList.init.run [.add 7, .add 3]).getNode 7 = some 0 ∧
    ((LinkedList.init.run [.add 7, .add 3]).remove 7).2 = true ∧
    ((LinkedList.init.run [.add 7, .add 3]).remove 7).1.toList = [7, 3].erase 7 ∧
    ((LinkedList.init.run [.add 7, .add 3]).remove 7).1.has 7 = false := by
  have hl : Holds (LinkedList.init.run [.add 7, .add 3]) [7, 3] := by
    obtain ⟨ys, hys⟩ := Holds.empty_list.after_run [.add 7, .add 3]
    have e : ys = [7, 3] := by
      rw [← hys.toList_eq]
      decide
    rw [← e]
    exact hys
  obtain ⟨h1, _, _, h2, _, _, _, _, h3, _⟩ :=
    (remove_item _ [7, 3] 7 hl).2.2 0 (by decide) (by decide)
  exact ⟨hl, by decide, h1, h3, h2⟩

/-- C20. After every sequence of `add` and `remove` calls on a new list, failed `add` calls
included, `length()` is the number of objects for which `has` is true: these objects are
the members of the forward sequence, which has no duplicate and `length()` elements. -/
theorem length_counts_members (calls : List ListCall) :
    {k | (LinkedList.init.run calls).has k = true}.Finite ∧
    (LinkedList.init.run calls).length =
      ({k | (LinkedList.init.run calls).has k = true}.ncard : Int) ∧
    (LinkedList.init.run calls).toList.Nodup ∧
    (∀ k, (LinkedList.init.run calls).has k = true ↔ k ∈ (LinkedList.init.run calls).toList) ∧
    (LinkedList.init.run calls).length = (LinkedList.init.run calls).toList.length := by
  obtain ⟨ys, hys⟩ := Holds.empty_list.after_run calls
  have hset : {k | (LinkedList.init.run calls).has k = true} =
      ((ys.toFinset : Finset Nat) : Set Nat) := by
    ext k
    simp only [Set.mem_setOf_eq, Finset.mem_coe, List.mem_toFinset]
    exact hys.has_iff k
  have hlen : (LinkedList.init.run calls).length = (ys.length : Int) := hys.count_eq
  rw [hset, hys.toList_eq]
  refine ⟨Finset.finite_toSet _, ?_, hys.nodup, hys.has_iff, hlen⟩
  rw [Set.ncard_coe_Finset, List.toFinset_card_of_nodup hys.nodup]
  exact hlen

/-- C20 at the sequence `add(7), add(3), add(7), remove(3), remove(5), add(9)` : the second
`add(7)` throws, `remove(5)` returns false, and the list holds `7` and `9`. -/
theorem length_counts_members_witness :
    (LinkedList.init.run [.add 7, .add 3, .add 7, .remove 3, .remove 5, .add 9]).length = 2 ∧
    (LinkedList.init.run [.add 7, .add 3, .add 7, .remove 3, .remove 5, .add 9]).toList
      = [7, 9] ∧
    {k | (LinkedList.init.run
        [.add 7, .add 3, .add 7, .remove 3, .remove 5, .add 9]).has k = true}.ncard = 2 := by
  have h := (length_counts_members
    [.add 7, .add 3, .add 7, .remove 3, .remove 5, .add 9]).2.1
  have hlen : (LinkedList.init.run
      [.add 7, .add 3, .add 7, .remove 3, .remove 5, .add 9]).length = 2 := by decide
  refine ⟨hlen, by decide, ?_⟩
  rw [hlen] at h
  exact_mod_cast h.symm

/-! ## Moves -/

theorem Chain.forward {l : LinkedList} {as : List Nat} (h : Chain l as) : Forward l as :=
  ⟨h.nodup, h.valid, h.fwd, h.first_eq, h.last_eq⟩

theorem walkEnds_of_Fwd (h : List LinkedNode) (as : List Nat) (fuel : Nat)
    (hf : Fwd h as none) (hfuel : as.length ≤ fuel) :
    walkEnds h fuel (headOr none as) = true := by
  induction as generalizing fuel with
  | nil => cases fuel <;> rfl
  | cons a rest ih =>
    obtain ⟨h1, h2⟩ := hf
    cases fuel with
    | zero => simp at hfuel
    | succ n =>
      show walkEnds h n (readNode h a).nextLinked = true
      rw [h1]
      exact ih n h2 (by simpa using hfuel)

theorem Forward.acyclic {l : LinkedList} {as : List Nat} (h : Forward l as) :
    l.acyclic = true := by
  unfold LinkedList.acyclic
  rw [h.first_eq, ← headOr_none_eq_head?]
  refine walkEnds_of_Fwd _ _ _ h.fwd ?_
  have := length_le_of_nodup_of_lt as l.nodes.length h.nodup h.valid
  omega

theorem Forward.walk_eq {l : LinkedList} {as : List Nat} (h : Forward l as) (fuel : Nat)
    (hfuel : l.nodes.length ≤ fuel) :
    walk l.nodes fuel l.first = objsOf l.nodes as := by
  rw [h.first_eq, ← headOr_none_eq_head?]
  refine walk_of_Fwd _ _ _ h.fwd ?_
  have := length_le_of_nodup_of_lt as l.nodes.length h.nodup h.valid
  omega

theorem swapLinks_spec (h : List LinkedNode) (b c : Nat) (a nx : Option Nat)
    (ha : (readNode h b).prevLinked = a) (hn : (readNode h c).nextLinked = nx)
    (hbc : b ≠ c) (hab : a ≠ some b) (hac : a ≠ some c)
    (hb : b < h.length) (hc : c < h.length) (hav : ∀ x, a = some x → x < h.length) :
    (swapLinks h b c).length = h.length ∧
    readNode (swapLinks h b c) c = { readNode h c with nextLinked := some b, prevLinked := a } ∧
    readNode (swapLinks h b c) b =
      { readNode h b with nextLinked := nx, prevLinked := some c } ∧
    (∀ x, a = some x →
      readNode (swapLinks h b c) x = { readNode h x with nextLinked := some c }) ∧
    (∀ x, x ≠ b → x ≠ c → a ≠ some x → readNode (swapLinks h b c) x = readNode h x) := by
  have hcb : c ≠ b := fun e => hbc e.symm
  cases a with
  | none =>
    refine ⟨?_, ?_, ?_, ?_, ?_⟩
    · simp [swapLinks, ha, setNextLinked, length_writeNode]
    · simp [swapLinks, ha, hn, setNextLinked, readNode_writeNode, length_writeNode, hbc, hcb,
        hb, hc]
    · simp [swapLinks, ha, hn, setNextLinked, readNode_writeNode, length_writeNode, hbc, hcb,
        hb, hc]
    · intro x hx
      simp at hx
    · intro x hxb hxc _
      simp [swapLinks, ha, hn, setNextLinked, readNode_writeNode, length_writeNode, hbc, hcb,
        hb, hc, Ne.symm hxb, Ne.symm hxc]
  | some a0 =>
    have ha0b : a0 ≠ b := fun e => hab (by rw [e])
    have ha0c : a0 ≠ c := fun e => hac (by rw [e])
    have hba0 : b ≠ a0 := fun e => ha0b e.symm
    have hca0 : c ≠ a0 := fun e => ha0c e.symm
    have ha0 : a0 < h.length := hav a0 rfl
    refine ⟨?_, ?_, ?_, ?_, ?_⟩
    · simp [swapLinks, ha, setNextLinked, length_writeNode]
    · simp [swapLinks, ha, hn, setNextLinked, readNode_writeNode, length_writeNode, hbc, hcb,
        hb, hc, ha0b, ha0c, hba0, hca0, ha0]
    · simp [swapLinks, ha, hn, setNextLinked, readNode_writeNode, length_writeNode, hbc, hcb,
        hb, hc, ha0b, ha0c, hba0, hca0, ha0]
    · intro x hx
      simp only [Option.some.injEq] at hx
      subst hx
      simp [swapLinks, ha, hn, setNextLinked, readNode_writeNode, length_writeNode, hbc, hcb,
        hb, hc, ha0b, ha0c, hba0, hca0, ha0]
    · intro x hxb hxc hxa
      have hxa0 : a0 ≠ x := fun e => hxa (by rw [e])
      simp [swapLinks, ha, hn, setNextLinked, readNode_writeNode, length_writeNode, hbc, hcb,
        hb, hc, ha0b, ha0c, hba0, hca0, ha0, Ne.symm hxb, Ne.symm hxc, hxa0]

theorem lastOr_cons_cons (p : Option Nat) (x y : Nat) (r : List Nat) :
    lastOr p (x :: y :: r) = lastOr none (y :: r) := rfl

theorem lastOr_of_ne_nil (p q : Option Nat) (as : List Nat) (h : as ≠ []) :
    lastOr p as = lastOr q as := by
  cases as with
  | nil => exact absurd rfl h
  | cons x r => rfl

/-- A forward chain whose last node is given a new successor. -/
theorem Fwd_retarget (h h' : List LinkedNode) (pre : List Nat) (nxt nxt' : Option Nat)
    (hnd : pre.Nodup)
    (hsame : ∀ x ∈ pre, lastOr none pre ≠ some x →
      (readNode h' x).nextLinked = (readNode h x).nextLinked)
    (hlast : ∀ x, lastOr none pre = some x → (readNode h' x).nextLinked = nxt')
    (hf : Fwd h pre nxt) : Fwd h' pre nxt' := by
  induction pre with
  | nil => trivial
  | cons x rest ih =>
    cases rest with
    | nil => exact ⟨hlast x rfl, trivial⟩
    | cons y r =>
      obtain ⟨h1, h2⟩ := hf
      rw [List.nodup_cons] at hnd
      have hx : lastOr none (x :: y :: r) ≠ some x := by
        intro e
        rw [lastOr_cons_cons] at e
        exact hnd.1 (lastOr_none_mem _ _ e)
      refine ⟨?_, ih hnd.2 ?_ ?_ h2⟩
      · rw [hsame x (List.mem_cons_self _ _) hx, h1]
        rfl
      · intro z hz hne
        exact hsame z (List.mem_cons_of_mem _ hz) (by rw [lastOr_cons_cons]; exact hne)
      · intro z hz
        exact hlast z (by rw [lastOr_cons_cons]; exact hz)

/-- `moveUp` of the object of node `c`, which follows node `b` in the forward chain and
whose `prevLinked` and that of `b` are right: the forward chain has the two swapped. -/
theorem LinkedList.moveUp_swap (l : LinkedList) (k : Nat) (pre post : List Nat) (b c : Nat)
    (hf : Forward l (pre ++ b :: c :: post)) (hg : l.getNode k = some c)
    (hcp : (readNode l.nodes c).prevLinked = some b)
    (hbp : (readNode l.nodes b).prevLinked = lastOr none pre) :
    ∃ l1, l.moveUp k = .ok l1 ∧ Forward l1 (pre ++ c :: b :: post) ∧
      l1.count = l.count ∧ l1.objToNodeMap = l.objToNodeMap ∧
      l1.nodes.length = l.nodes.length ∧
      (∀ x, (readNode l1.nodes x).obj = (readNode l.nodes x).obj ∧
        (readNode l1.nodes x).free = (readNode l.nodes x).free) ∧
      (readNode l1.nodes c).prevLinked = lastOr none pre ∧
      (readNode l1.nodes b).prevLinked = some c ∧
      (∀ x, x ≠ b → x ≠ c →
        (readNode l1.nodes x).prevLinked = (readNode l.nodes x).prevLinked) ∧
      (∀ x, x ∉ pre ++ b :: c :: post → readNode l1.nodes x = readNode l.nodes x) := by
  have hnd := hf.nodup
  have hperm : (pre ++ c :: b :: post).Perm (pre ++ b :: c :: post) :=
    List.Perm.append_left _ (List.Perm.swap _ _ _)
  rw [List.nodup_append] at hnd
  obtain ⟨hndpre, hndrest, hdisj⟩ := hnd
  rw [List.nodup_cons, List.nodup_cons] at hndrest
  obtain ⟨hbrest, hcpost, hndpost⟩ := hndrest
  have hbc : b ≠ c := fun e => hbrest (by rw [e]; exact List.mem_cons_self _ _)
  have hbpost : b ∉ post := fun hm => hbrest (List.mem_cons_of_mem _ hm)
  have hbpre : b ∉ pre := fun hm => hdisj hm (List.mem_cons_self _ _)
  have hcpre : c ∉ pre := fun hm =>
    hdisj hm (List.mem_cons_of_mem _ (List.mem_cons_self _ _))
  have hbv : b < l.nodes.length := hf.valid b (by simp)
  have hcv : c < l.nodes.length := hf.valid c (by simp)
  have hapre : ∀ x, lastOr none pre = some x → x ∈ pre := fun x hx => lastOr_none_mem _ _ hx
  obtain ⟨hfpre, hfb, hfc, hfpost⟩ := (Fwd_append _ _ _ _).mp hf.fwd
  have hcn : (readNode l.nodes c).nextLinked = headOr none post := hfc
  obtain ⟨hlen, hnc, hnb, hna, hnx⟩ := swapLinks_spec l.nodes b c (lastOr none pre)
    (headOr none post) hbp hcn hbc
    (fun e => hbpre (hapre b e)) (fun e => hcpre (hapre c e)) hbv hcv
    (fun x hx => hf.valid x (List.mem_append_left _ (hapre x hx)))
  have hmove : l.moveUp k = .ok { l with
      first := if l.first = some b then some c else l.first,
      last := if l.last = some c then some b else l.last,
      nodes := swapLinks l.nodes b c } := by
    unfold LinkedList.moveUp
    rw [hf.acyclic, if_pos rfl, hg]
    dsimp only
    rw [hcp]
  have hfields : ∀ x, (readNode (swapLinks l.nodes b c) x).obj = (readNode l.nodes x).obj ∧
      (readNode (swapLinks l.nodes b c) x).free = (readNode l.nodes x).free ∧
      (x ≠ b → x ≠ c →
        (readNode (swapLinks l.nodes b c) x).prevLinked = (readNode l.nodes x).prevLinked) ∧
      (x ≠ b → x ≠ c → lastOr none pre ≠ some x →
        (readNode (swapLinks l.nodes b c) x).nextLinked = (readNode l.nodes x).nextLinked) := by
    intro x
    by_cases hxb : x = b
    · subst hxb
      rw [hnb]
      exact ⟨rfl, rfl, fun h => absurd rfl h, fun h => absurd rfl h⟩
    · by_cases hxc : x = c
      · subst hxc
        rw [hnc]
        exact ⟨rfl, rfl, fun _ h => absurd rfl h, fun _ h => absurd rfl h⟩
      · by_cases hxa : lastOr none pre = some x
        · rw [hna x hxa]
          exact ⟨rfl, rfl, fun _ _ => rfl, fun _ _ h => absurd hxa h⟩
        · rw [hnx x hxb hxc hxa]
          exact ⟨rfl, rfl, fun _ _ => rfl, fun _ _ _ => rfl⟩
  refine ⟨_, hmove, ⟨hperm.nodup_iff.mpr hf.nodup, ?_, ?_, ?_, ?_⟩, rfl, rfl, hlen,
    fun x => ⟨(hfields x).1, (hfields x).2.1⟩, ?_, ?_, fun x hxb hxc => (hfields x).2.2.1 hxb hxc,
    ?_⟩
  · intro x hx
    show x < (swapLinks l.nodes b c).length
    rw [hlen]
    exact hf.valid x (hperm.subset hx)
  · show Fwd (swapLinks l.nodes b c) (pre ++ c :: b :: post) none
    rw [Fwd_append]
    refine ⟨?_, ?_, ?_, ?_⟩
    · refine Fwd_retarget l.nodes _ pre _ (some c) hndpre ?_ ?_ hfpre
      · intro x hx hne
        exact (hfields x).2.2.2 (fun e => hbpre (e ▸ hx)) (fun e => hcpre (e ▸ hx)) hne
      · intro x hx
        rw [hna x hx]
    · rw [hnc]
      rfl
    · rw [hnb]
    · refine Fwd_congr l.nodes _ post none ?_ hfpost
      intro x hx
      refine (hfields x).2.2.2 (fun e => hbpost (e ▸ hx)) (fun e => hcpost (e ▸ hx)) ?_
      intro e
      exact hdisj (hapre x e) (List.mem_cons_of_mem _ (List.mem_cons_of_mem _ hx))
  · show (if l.first = some b then some c else l.first) = (pre ++ c :: b :: post).head?
    rw [hf.first_eq]
    cases pre with
    | nil => simp
    | cons p ps =>
      have hpb : p ≠ b := fun e => hbpre (by rw [← e]; exact List.mem_cons_self _ _)
      simp [hpb]
  · intro _
    show (if l.last = some c then some b else l.last) = (pre ++ c :: b :: post).getLast?
    rw [hf.last_eq (by simp), ← lastOr_none_eq_getLast?, ← lastOr_none_eq_getLast?,
      lastOr_append, lastOr_append]
    show (if lastOr (some c) post = some c then some b else lastOr (some c) post) =
      lastOr (some b) post
    cases post with
    | nil => simp [lastOr]
    | cons p ps =>
      have hne : lastOr (some c) (p :: ps) ≠ some c := by
        intro e
        have e' : lastOr none (p :: ps) = some c := e
        exact hcpost (lastOr_none_mem _ _ e')
      rw [if_neg hne]
      rfl
  · show (readNode (swapLinks l.nodes b c) c).prevLinked = lastOr none pre
    rw [hnc]
  · show (readNode (swapLinks l.nodes b c) b).prevLinked = some c
    rw [hnb]
  · intro x hx
    show readNode (swapLinks l.nodes b c) x = readNode l.nodes x
    refine hnx x (fun e => hx (by rw [e]; simp)) (fun e => hx (by rw [e]; simp)) ?_
    intro e
    exact hx (List.mem_append_left _ (hapre x e))

theorem LinkedList.moveUp_first (l : LinkedList) (k c : Nat) (hac : l.acyclic = true)
    (hg : l.getNode k = some c) (hp : (readNode l.nodes c).prevLinked = none) :
    l.moveUp k = .ok l := by
  unfold LinkedList.moveUp
  rw [hac, if_pos rfl, hg]
  dsimp only
  rw [hp]

theorem LinkedList.moveUp_absent (l : LinkedList) (k : Nat) (hac : l.acyclic = true)
    (hg : l.getNode k = none) : l.moveUp k = .error Err.notInList := by
  unfold LinkedList.moveUp
  rw [hac, if_pos rfl, hg]

theorem LinkedList.moveDown_last (l : LinkedList) (k b : Nat) (hg : l.getNode k = some b)
    (hn : (readNode l.nodes b).nextLinked = none) : l.moveDown k = .ok l := by
  unfold LinkedList.moveDown
  rw [hg]
  dsimp only
  rw [hn]

/-- `moveDown` of the object of node `b`, which is followed by node `c` : it is `moveUp` of
the object of `c`, and the test of `last` that follows finds nothing to fix. -/
theorem LinkedList.moveDown_swap (l : LinkedList) (k : Nat) (pre post : List Nat) (b c : Nat)
    (hf : Forward l (pre ++ b :: c :: post)) (hg : l.getNode k = some b)
    (hgc : l.getNode (readNode l.nodes c).obj = some c)
    (hcp : (readNode l.nodes c).prevLinked = some b)
    (hbp : (readNode l.nodes b).prevLinked = lastOr none pre) :
    ∃ l1, l.moveDown k = .ok l1 ∧ l.moveUp (readNode l.nodes c).obj = .ok l1 ∧
      Forward l1 (pre ++ c :: b :: post) ∧
      l1.count = l.count ∧ l1.objToNodeMap = l.objToNodeMap ∧
      l1.nodes.length = l.nodes.length ∧
      (∀ x, (readNode l1.nodes x).obj = (readNode l.nodes x).obj ∧
        (readNode l1.nodes x).free = (readNode l.nodes x).free) ∧
      (readNode l1.nodes c).prevLinked = lastOr none pre ∧
      (readNode l1.nodes b).prevLinked = some c ∧
      (∀ x, x ≠ b → x ≠ c →
        (readNode l1.nodes x).prevLinked = (readNode l.nodes x).prevLinked) ∧
      (∀ x, x ∉ pre ++ b :: c :: post → readNode l1.nodes x = readNode l.nodes x) := by
  obtain ⟨l1, hup, hf1, h1, h2, h3, h4, h5, h6, h7, h8⟩ :=
    LinkedList.moveUp_swap l _ pre post b c hf hgc hcp hbp
  have hbn : (readNode l.nodes b).nextLinked = some c :=
    ((Fwd_append _ _ _ _).mp hf.fwd).2.1
  have hnd := hf1.nodup
  rw [List.nodup_append] at hnd
  have hcpost : c ∉ b :: post := (List.nodup_cons.mp hnd.2.1).1
  have hlast : l1.last ≠ some c := by
    rw [hf1.last_eq (by simp), ← lastOr_none_eq_getLast?, lastOr_append]
    intro e
    have e' : lastOr none (b :: post) = some c := e
    exact hcpost (lastOr_none_mem _ _ e')
  refine ⟨l1, ?_, hup, hf1, h1, h2, h3, h4, h5, h6, h7, h8⟩
  unfold LinkedList.moveDown
  rw [hg]
  dsimp only
  rw [hbn]
  dsimp only
  rw [hup]
  dsimp only
  rw [if_neg hlast]

theorem Fwd_unique (h h' : List LinkedNode) (as : List Nat) (nxt : Option Nat)
    (hf : Fwd h as nxt) (hf' : Fwd h' as nxt) :
    ∀ x ∈ as, (readNode h' x).nextLinked = (readNode h x).nextLinked := by
  induction as with
  | nil => intro x hx; simp at hx
  | cons a rest ih =>
    intro x hx
    rcases List.mem_cons.mp hx with e | hm
    · rw [e, hf.1, hf'.1]
    · exact ih hf.2 hf'.2 x hm

theorem nodes_ext (h h' : List LinkedNode) (hlen : h'.length = h.length)
    (hrd : ∀ x, x < h.length → readNode h' x = readNode h x) : h' = h := by
  refine List.ext_getElem hlen ?_
  intro x h1 h2
  have := hrd x h2
  simpa [readNode, List.getElem?_eq_getElem h1, List.getElem?_eq_getElem h2] using this

theorem LinkedNode.eq_of_fields (n m : LinkedNode) (h1 : n.obj = m.obj)
    (h2 : n.nextLinked = m.nextLinked) (h3 : n.prevLinked = m.prevLinked)
    (h4 : n.free = m.free) : n = m := by
  cases n
  cases m
  simp only [LinkedNode.mk.injEq]
  exact ⟨h1, h2, h3, h4⟩

theorem objsOf_split (h : List LinkedNode) (as xs0 xs1 : List Nat) (y k : Nat)
    (hs : objsOf h as = xs0 ++ y :: k :: xs1) :
    ∃ pre b c post, as = pre ++ b :: c :: post ∧ objsOf h pre = xs0 ∧
      (readNode h b).obj = y ∧ (readNode h c).obj = k ∧ objsOf h post = xs1 := by
  unfold objsOf at hs
  obtain ⟨pre, r1, has, hpre, hr1⟩ := List.map_eq_append_iff.mp hs
  obtain ⟨b, r2, hr1eq, hb, hr2⟩ := List.map_eq_cons_iff.mp hr1
  obtain ⟨c, post, hr2eq, hc, hpost⟩ := List.map_eq_cons_iff.mp hr2
  exact ⟨pre, b, c, post, by rw [has, hr1eq, hr2eq], hpre, hb, hc, hpost⟩

/-- `moveUp` of an object and then `moveDown` of it, on a link-consistent list in which the
object is not first, give the list back as it was. -/
theorem LinkedList.moveUp_moveDown (l : LinkedList) (k : Nat) (pre post : List Nat)
    (b c : Nat) (hc : Chain l (pre ++ b :: c :: post)) (hg : l.getNode k = some c)
    (hgb : l.getNode (readNode l.nodes b).obj = some b) :
    ∃ l1, l.moveUp k = .ok l1 ∧ Forward l1 (pre ++ c :: b :: post) ∧
      (∀ x, (readNode l1.nodes x).obj = (readNode l.nodes x).obj) ∧
      l1.moveDown k = .ok l := by
  obtain ⟨_, hbwd⟩ := (Bwd_append _ _ _ _).mp hc.bwd
  have hbp : (readNode l.nodes b).prevLinked = lastOr none pre := hbwd.1
  have hcp : (readNode l.nodes c).prevLinked = some b := hbwd.2.1
  obtain ⟨l1, hup, hf1, hcnt1, hmap1, hlen1, hfld1, hpc1, hpb1, hprev1, hout1⟩ :=
    LinkedList.moveUp_swap l k pre post b c hc.forward hg hcp hbp
  have hg1 : l1.getNode k = some c := by
    unfold LinkedList.getNode
    rw [hmap1]
    exact hg
  have hgb1 : l1.getNode (readNode l1.nodes b).obj = some b := by
    unfold LinkedList.getNode
    rw [hmap1, (hfld1 b).1]
    exact hgb
  obtain ⟨l2, hdown, _, hf2, hcnt2, hmap2, hlen2, hfld2, hpb2, hpc2, hprev2, hout2⟩ :=
    LinkedList.moveDown_swap l1 k pre post c b hf1 hg1 hgb1 hpb1 hpc1
  refine ⟨l1, hup, hf1, fun x => (hfld1 x).1, ?_⟩
  rw [hdown]
  have hnodes : l2.nodes = l.nodes := by
    refine nodes_ext _ _ (hlen2.trans hlen1) ?_
    intro x _
    have hnext : (readNode l2.nodes x).nextLinked = (readNode l.nodes x).nextLinked := by
      by_cases hx : x ∈ pre ++ b :: c :: post
      · exact Fwd_unique _ _ _ _ hc.fwd hf2.fwd x hx
      · have hx1 : x ∉ pre ++ c :: b :: post := by
          intro hm
          exact hx ((List.Perm.append_left _ (List.Perm.swap _ _ _)).subset hm)
        rw [hout2 x hx1, hout1 x hx]
    have hprev : (readNode l2.nodes x).prevLinked = (readNode l.nodes x).prevLinked := by
      by_cases hxb : x = b
      · rw [hxb, hpb2, hbp]
      · by_cases hxc : x = c
        · rw [hxc, hpc2, hcp]
        · rw [hprev2 x hxc hxb, hprev1 x hxb hxc]
    exact LinkedNode.eq_of_fields _ _ ((hfld2 x).1.trans (hfld1 x).1) hnext hprev
      ((hfld2 x).2.trans (hfld1 x).2)
  have hfirst : l2.first = l.first := by rw [hf2.first_eq, hc.first_eq]
  have hlast : l2.last = l.last := by rw [hf2.last_eq (by simp), hc.last_eq (by simp)]
  have hcount : l2.count = l.count := hcnt2.trans hcnt1
  have hmap : l2.objToNodeMap = l.objToNodeMap := hmap2.trans hmap1
  congr 1
  cases l2
  cases l
  simp only [LinkedList.mk.injEq]
  exact ⟨hfirst, hlast, hcount, hmap, hnodes⟩

theorem Forward.toList_objs {l : LinkedList} {as : List Nat} (h : Forward l as) :
    l.toList = objsOf l.nodes as :=
  h.walk_eq l.nodes.length (le_refl _)

theorem Forward.ends {l : LinkedList} {as : List Nat} (h : Forward l as) :
    l.first.map (fun a => (readNode l.nodes a).obj) = (objsOf l.nodes as).head? ∧
      (as ≠ [] →
        l.last.map (fun a => (readNode l.nodes a).obj) = (objsOf l.nodes as).getLast?) := by
  refine ⟨?_, fun hne => ?_⟩
  · rw [h.first_eq]
    unfold objsOf
    rw [List.head?_map]
  · rw [h.last_eq hne]
    unfold objsOf
    rw [List.getLast?_map]

theorem Fwd_last_next (h : List LinkedNode) (as : List Nat) (c : Nat) (hf : Fwd h as none)
    (hl : as.getLast? = some c) : (readNode h c).nextLinked = none := by
  obtain ⟨ini, rfl⟩ := List.getLast?_eq_some_iff.mp hl
  exact ((Fwd_append _ _ _ _).mp hf).2.1

theorem LinkedList.has_congr (l l1 : LinkedList) (hmap : l1.objToNodeMap = l.objToNodeMap)
    (hfree : ∀ x, (readNode l1.nodes x).free = (readNode l.nodes x).free) (j : Nat) :
    l1.has j = l.has j := by
  unfold LinkedList.has LinkedList.getNode
  rw [hmap]
  cases l.objToNodeMap.get j with
  | none => rfl
  | some a =>
    dsimp only
    rw [hfree a]

/-- C24. `moveUp` on a link-consistent list whose nodes are indexed under their objects.
When the object is the first of the forward sequence, the list is unchanged.  When the
forward sequence is `xs0 ++ y :: item :: xs1`, it becomes `xs0 ++ item :: y :: xs1` : the
item and the object before it have changed places, every other position is as it was;
`count` is unchanged, `first` and `last` are the nodes of the first and the last object of
the new sequence, and `has` is unchanged. -/
theorem moveUp_item (l : LinkedList) (as : List Nat) (k : Nat) (hc : Chain l as)
    (hidx : ∀ a ∈ as, l.getNode (readNode l.nodes a).obj = some a) :
    (l.toList.head? = some k → l.moveUp k = .ok l) ∧
    (∀ xs0 y xs1, l.toList = xs0 ++ y :: k :: xs1 →
      ∃ l1, l.moveUp k = .ok l1 ∧ l1.toList = xs0 ++ k :: y :: xs1 ∧
        l1.count = l.count ∧ l1.length = l.length ∧
        l1.first.map (fun a => (readNode l1.nodes a).obj) = (xs0 ++ k :: y :: xs1).head? ∧
        l1.last.map (fun a => (readNode l1.nodes a).obj) =
          (xs0 ++ k :: y :: xs1).getLast? ∧
        ∀ j, l1.has j = l.has j) := by
  have htl := hc.forward.toList_objs
  refine ⟨?_, ?_⟩
  · intro hhead
    rw [htl] at hhead
    unfold objsOf at hhead
    rw [List.head?_map] at hhead
    cases as with
    | nil => simp at hhead
    | cons c rest =>
      simp only [List.head?_cons, Option.map_some', Option.some.injEq] at hhead
      have hg : l.getNode k = some c := by
        rw [← hhead]
        exact hidx c (List.mem_cons_self _ _)
      exact LinkedList.moveUp_first l k c hc.forward.acyclic hg hc.bwd.1
  · intro xs0 y xs1 hseq
    rw [htl] at hseq
    obtain ⟨pre, b, c, post, has, hpre, hb, hcobj, hpost⟩ := objsOf_split _ _ _ _ _ _ hseq
    subst has
    have hg : l.getNode k = some c := by
      rw [← hcobj]
      exact hidx c (by simp)
    obtain ⟨_, hbwd⟩ := (Bwd_append _ _ _ _).mp hc.bwd
    obtain ⟨l1, hup, hf1, hcnt, hmap, _, hfld, _⟩ :=
      LinkedList.moveUp_swap l k pre post b c hc.forward hg hbwd.2.1 hbwd.1
    have hobjs : objsOf l1.nodes (pre ++ c :: b :: post) = xs0 ++ k :: y :: xs1 := by
      have hsame : ∀ bs : List Nat, objsOf l1.nodes bs = objsOf l.nodes bs := by
        intro bs
        unfold objsOf
        exact List.map_congr_left (fun x _ => (hfld x).1)
      rw [hsame]
      unfold objsOf at hpre hpost ⊢
      simp only [List.map_append, List.map_cons, hpre, hpost, hb, hcobj]
    obtain ⟨hfirst, hlast⟩ := hf1.ends
    rw [hobjs] at hfirst hlast
    exact ⟨l1, hup, hf1.toList_objs.trans hobjs, hcnt, hcnt, hfirst, hlast (by simp),
      LinkedList.has_congr l l1 hmap (fun x => (hfld x).2)⟩

/-- C24 at the list built by `add` of `0, 1, 2, 3`, for object `2`. -/
theorem moveUp_item_witness :
    ∃ l1, (LinkedList.init.run [.add 0, .add 1, .add 2, .add 3]).moveUp 2 = .ok l1 ∧
      l1.toList = [0, 2, 1, 3] ∧ l1.count = 4 := by
  obtain ⟨ys, as, hl, _⟩ := Holds.empty_list.after_run [.add 0, .add 1, .add 2, .add 3]
  obtain ⟨l1, h1, h2, h3, _⟩ :=
    (moveUp_item _ as 2 hl.toChain hl.indexed).2 [0] 1 [3] (by decide)
  exact ⟨l1, h1, h2, h3.trans (by decide)⟩

/-- C25. `moveDown` on a link-consistent list whose nodes are indexed under their objects.
When the object is the last of the forward sequence, the list is unchanged.  When the
forward sequence is `xs0 ++ item :: y :: xs1`, it becomes `xs0 ++ y :: item :: xs1` : the
item and the object after it have changed places, every other position is as it was;
`count` is unchanged, `first` and `last` are the nodes of the first and the last object of
the new sequence, and `has` is unchanged. -/
theorem moveDown_item (l : LinkedList) (as : List Nat) (k : Nat) (hc : Chain l as)
    (hidx : ∀ a ∈ as, l.getNode (readNode l.nodes a).obj = some a) :
    (l.toList.getLast? = some k → l.moveDown k = .ok l) ∧
    (∀ xs0 y xs1, l.toList = xs0 ++ k :: y :: xs1 →
      ∃ l1, l.moveDown k = .ok l1 ∧ l1.toList = xs0 ++ y :: k :: xs1 ∧
        l1.count = l.count ∧ l1.length = l.length ∧
        l1.first.map (fun a => (readNode l1.nodes a).obj) = (xs0 ++ y :: k :: xs1).head? ∧
        l1.last.map (fun a => (readNode l1.nodes a).obj) =
          (xs0 ++ y :: k :: xs1).getLast? ∧
        ∀ j, l1.has j = l.has j) := by
  have htl := hc.forward.toList_objs
  refine ⟨?_, ?_⟩
  · intro hend
    rw [htl] at hend
    unfold objsOf at hend
    rw [List.getLast?_map] at hend
    cases hz : as.getLast? with
    | none => rw [hz] at hend; simp at hend
    | some c =>
      rw [hz] at hend
      simp only [Option.map_some', Option.some.injEq] at hend
      have hg : l.getNode k = some c := by
        rw [← hend]
        exact hidx c (List.mem_of_getLast?_eq_some hz)
      exact LinkedList.moveDown_last l k c hg (Fwd_last_next _ _ _ hc.fwd hz)
  · intro xs0 y xs1 hseq
    rw [htl] at hseq
    obtain ⟨pre, b, c, post, has, hpre, hbobj, hcobj, hpost⟩ :=
      objsOf_split _ _ _ _ _ _ hseq
    subst has
    have hg : l.getNode k = some b := by
      rw [← hbobj]
      exact hidx b (by simp)
    obtain ⟨_, hbwd⟩ := (Bwd_append _ _ _ _).mp hc.bwd
    obtain ⟨l1, hdown, _, hf1, hcnt, hmap, _, hfld, _⟩ :=
      LinkedList.moveDown_swap l k pre post b c hc.forward hg (hidx c (by simp)) hbwd.2.1
        hbwd.1
    have hobjs : objsOf l1.nodes (pre ++ c :: b :: post) = xs0 ++ y :: k :: xs1 := by
      have hsame : ∀ bs : List Nat, objsOf l1.nodes bs = objsOf l.nodes bs := by
        intro bs
        unfold objsOf
        exact List.map_congr_left (fun x _ => (hfld x).1)
      rw [hsame]
      unfold objsOf at hpre hpost ⊢
      simp only [List.map_append, List.map_cons, hpre, hpost, hbobj, hcobj]
    obtain ⟨hfirst, hlast⟩ := hf1.ends
    rw [hobjs] at hfirst hlast
    exact ⟨l1, hdown, hf1.toList_objs.trans hobjs, hcnt, hcnt, hfirst, hlast (by simp),
      LinkedList.has_congr l l1 hmap (fun x => (hfld x).2)⟩

/-- C25 at the list built by `add` of `0, 1, 2, 3`, for object `2`, which becomes last. -/
theorem moveDown_item_witness :
    ∃ l1, (LinkedList.init.run [.add 0, .add 1, .add 2, .add 3]).moveDown 2 = .ok l1 ∧
      l1.toList = [0, 1, 3, 2] ∧
      l1.last.map (fun a => (readNode l1.nodes a).obj) = some 2 := by
  obtain ⟨ys, as, hl, _⟩ := Holds.empty_list.after_run [.add 0, .add 1, .add 2, .add 3]
  obtain ⟨l1, h1, h2, _, _, _, h3, _⟩ :=
    (moveDown_item _ as 2 hl.toChain hl.indexed).2 [0, 1] 3 [] (by decide)
  exact ⟨l1, h1, h2, h3⟩

/-- C26. On every list built by `add` and `remove` calls from a new list, for an object
that is in the forward sequence and not first: `moveUp(item)` swaps it with the object
before it, and `moveDown(item)` after that gives back the list as it was before the two
calls, with its forward order, `first` and `last`. -/
theorem moveUp_then_moveDown (calls : List ListCall) (xs0 xs1 : List Nat) (y k : Nat)
    (h : (LinkedList.init.run calls).toList = xs0 ++ y :: k :: xs1) :
    ∃ l1, (LinkedList.init.run calls).moveUp k = .ok l1 ∧
      l1.toList = xs0 ++ k :: y :: xs1 ∧
      l1.moveDown k = .ok (LinkedList.init.run calls) ∧
      ∀ l2, l1.moveDown k = .ok l2 →
        l2.toList = xs0 ++ y :: k :: xs1 ∧ l2.first = (LinkedList.init.run calls).first ∧
        l2.last = (LinkedList.init.run calls).last := by
  obtain ⟨ys, as, hl, _⟩ := Holds.empty_list.after_run calls
  have htl := hl.toChain.forward.toList_objs
  rw [htl] at h
  obtain ⟨pre, b, c, post, has, hpre, hbobj, hcobj, hpost⟩ := objsOf_split _ _ _ _ _ _ h
  subst has
  have hg : (LinkedList.init.run calls).getNode k = some c := by
    rw [← hcobj]
    exact hl.indexed c (by simp)
  obtain ⟨l1, hup, hf1, hfld, hdown⟩ :=
    LinkedList.moveUp_moveDown _ k pre post b c hl.toChain hg (hl.indexed b (by simp))
  have hobjs : objsOf l1.nodes (pre ++ c :: b :: post) = xs0 ++ k :: y :: xs1 := by
    have hsame : ∀ bs : List Nat,
        objsOf l1.nodes bs = objsOf (LinkedList.init.run calls).nodes bs := by
      intro bs
      unfold objsOf
      exact List.map_congr_left (fun x _ => hfld x)
    rw [hsame]
    unfold objsOf at hpre hpost ⊢
    simp only [List.map_append, List.map_cons, hpre, hpost, hbobj, hcobj]
  refine ⟨l1, hup, hf1.toList_objs.trans hobjs, hdown, ?_⟩
  intro l2 hl2
  rw [hdown] at hl2
  simp only [Except.ok.injEq] at hl2
  subst hl2
  exact ⟨htl.trans h, rfl, rfl⟩

/-- C26 at the list `[A, B, C, D]` (objects `0, 1, 2, 3`) and `C` : `moveUp(C)` gives
`[A, C, B, D]` and `moveDown(C)` after it gives `[A, B, C, D]`. -/
theorem moveUp_then_moveDown_witness :
    (LinkedList.init.run [.add 0, .add 1, .add 2, .add 3]).toList = [0, 1, 2, 3] ∧
    ∃ l1 l2, (LinkedList.init.run [.add 0, .add 1, .add 2, .add 3]).moveUp 2 = .ok l1 ∧
      l1.toList = [0, 2, 1, 3] ∧ l1.moveDown 2 = .ok l2 ∧ l2.toList = [0, 1, 2, 3] := by
  obtain ⟨l1, h1, h2, h3, h4⟩ :=
    moveUp_then_moveDown [.add 0, .add 1, .add 2, .add 3] [0] [3] 1 2 (by decide)
  exact ⟨by decide, l1, _, h1, h2, h3, (h4 _ h3).1⟩

/-- C21. After every sequence of `add` and `remove` calls on a new list: `has(item)` is true
exactly when `objToNodeMap` holds a node for the item that is not free; that is the case
exactly when the item occurs in the forward iteration; and the iteration has no duplicate,
so the item then occurs exactly once. -/
theorem has_iff_iterated (calls : List ListCall) (k : Nat) :
    ((LinkedList.init.run calls).has k = true ↔
      ∃ a, (LinkedList.init.run calls).getNode k = some a ∧
        (readNode (LinkedList.init.run calls).nodes a).free = false) ∧
    ((∃ a, (LinkedList.init.run calls).getNode k = some a ∧
        (readNode (LinkedList.init.run calls).nodes a).free = false) ↔
      k ∈ (LinkedList.init.run calls).toList) ∧
    (k ∈ (LinkedList.init.run calls).toList ↔
      (LinkedList.init.run calls).toList.count k = 1) ∧
    (LinkedList.init.run calls).toList.Nodup := by
  obtain ⟨ys, hys⟩ := Holds.empty_list.after_run calls
  have hdef : (LinkedList.init.run calls).has k = true ↔
      ∃ a, (LinkedList.init.run calls).getNode k = some a ∧
        (readNode (LinkedList.init.run calls).nodes a).free = false := by
    unfold LinkedList.has
    cases (LinkedList.init.run calls).getNode k with
    | none => simp
    | some a => simp
  rw [hys.toList_eq]
  refine ⟨hdef, hdef.symm.trans (hys.has_iff k), ?_, hys.nodup⟩
  constructor
  · intro hmem
    exact List.count_eq_one_of_mem hys.nodup hmem
  · intro hcount
    exact List.count_pos_iff.mp (by omega)

/-- C21 at the sequence `add(7), add(3), remove(7), add(9), add(3)` : the last call throws,
the list iterates `3, 9`, and `has` is true for `3` and false for `7`. -/
theorem has_iff_iterated_witness :
    (LinkedList.init.run [.add 7, .add 3, .remove 7, .add 9, .add 3]).toList = [3, 9] ∧
    (LinkedList.init.run [.add 7, .add 3, .remove 7, .add 9, .add 3]).has 3 = true ∧
    (LinkedList.init.run [.add 7, .add 3, .remove 7, .add 9, .add 3]).has 7 = false ∧
    (LinkedList.init.run [.add 7, .add 3, .remove 7, .add 9, .add 3]).toList.count 3 = 1 := by
  refine ⟨by decide, by decide, by decide, ?_⟩
  exact (has_iff_iterated [.add 7, .add 3, .remove 7, .add 9, .add 3] 3).2.2.1.mp
    (by decide)

/-- C22 fails on the code. After `add(7)` and `clear()`, `last` refers to the node of
object `7`, which is free.  After `add(0)`, `add(1)`, `clear()`, `add(0)`, `moveUp(1)`,
`first` refers to the node of object `1`, which is free.  After `add` of `0, 1, 2, 3`,
`moveUp(2)` and `remove(2)`, the `prevLinked` of the `last` node refers to the node of
object `2`, which is free. -/
theorem free_node_reachable (arraySort : List Nat → List Nat) :
    (∃ l, LinkedList.performAll arraySort LinkedList.init [.add 7, .clear] = .ok l ∧
      l.first = none ∧ l.last = some 0 ∧ (readNode l.nodes 0).free = true) ∧
    (∃ l, LinkedList.performAll arraySort LinkedList.init
        [.add 0, .add 1, .clear, .add 0, .moveUp 1] = .ok l ∧
      l.first = some 1 ∧ (readNode l.nodes 1).free = true) ∧
    (∃ l, LinkedList.performAll arraySort LinkedList.init
        [.add 0, .add 1, .add 2, .add 3, .moveUp 2, .remove 2] = .ok l ∧
      l.last = some 3 ∧ (readNode l.nodes 3).prevLinked = some 2 ∧
      (readNode l.nodes 2).free = true) :=
  ⟨⟨_, rfl, by decide, by decide, by decide⟩, ⟨_, rfl, by decide, by decide⟩,
    ⟨_, rfl, by decide, by decide, by decide⟩⟩

/-- C27 fails on the code. After `add(7)` and `remove(7)`, `has(7)` is false, and
`moveUp(7)` and `moveDown(7)` return without a throw and leave the list as it is: the node
of the object is still in `objToNodeMap`, and its links are `null`.  For an object that was
never added the two calls throw. -/
theorem move_removed_returns :
    (LinkedList.init.run [.add 7, .remove 7]).has 7 = false ∧
    (LinkedList.init.run [.add 7, .remove 7]).moveUp 7 =
      .ok (LinkedList.init.run [.add 7, .remove 7]) ∧
    (LinkedList.init.run [.add 7, .remove 7]).moveDown 7 =
      .ok (LinkedList.init.run [.add 7, .remove 7]) ∧
    (LinkedList.init.run [.add 7, .remove 7]).moveUp 5 = .error Err.notInList ∧
    (LinkedList.init.run [.add 7, .remove 7]).moveDown 5 = .error Err.notInList := by
  decide

theorem erase_eq_nil_of_mem (xs : List Nat) (k : Nat) (hmem : k ∈ xs)
    (hne : xs.erase k = []) : xs = [k] := by
  cases xs with
  | nil => simp at hmem
  | cons x rest =>
    by_cases hx : x = k
    · subst hx
      rw [List.erase_cons_head] at hne
      rw [hne]
    · rw [List.erase_cons_tail (by simpa using hx)] at hne
      simp at hne

/-- C23 fails. After `add` of `0, 1, 2, 3`, `moveUp(2)` and `moveUp(3)` the list is
link-consistent, with the forward sequence of the nodes `0, 3, 2`.  `remove(1)` returns
true, and afterwards the `last` node, node `2`, has node `3` as its next node. -/
theorem links_preserved_counterexample :
    ∃ l, LinkedList.performAll id LinkedList.init
        [.add 0, .add 1, .add 2, .add 3, .moveUp 2, .moveUp 3] = .ok l ∧
      Chain l [0, 3, 2] ∧ (l.remove 1).2 = true ∧ (l.remove 1).1.last = some 2 ∧
      (readNode (l.remove 1).1.nodes 2).nextLinked = some 3 := by
  refine ⟨_, rfl, ⟨by decide, by decide, ?_, ?_, by decide, fun _ => by decide⟩,
    by decide, by decide, by decide⟩
  · exact ⟨by decide, by decide, by decide, trivial⟩
  · exact ⟨by decide, by decide, by decide, trivial⟩

/-- C23, amended. On a well-formed list (link-consistent, with `count`, the index and the
free flags in agreement with the forward sequence), an `add` that returns and a `remove`
that returns true leave a well-formed, hence link-consistent, list.  After such a `remove`,
`first` and `last` are both `null` exactly when the forward sequence is empty. -/
theorem links_preserved (l : LinkedList) (as : List Nat) (k : Nat) (hl : Linked l as) :
    (∀ l1, l.add k = .ok l1 → ∃ as1, Chain l1 as1 ∧ Linked l1 as1) ∧
    ((l.remove k).2 = true →
      ∃ as1, Chain (l.remove k).1 as1 ∧ Linked (l.remove k).1 as1 ∧
        ((l.remove k).1.first = none ∧ (l.remove k).1.last = none ↔ as1 = []) ∧
        (as1 = [] ↔ (l.remove k).1.toList = [])) := by
  refine ⟨?_, ?_⟩
  · intro l1 hadd
    cases hk : l.has k with
    | true =>
      rw [LinkedList.add_of_has l k hk] at hadd
      simp at hadd
    | false =>
      obtain ⟨l2, a, hadd2, hl2, _⟩ := LinkedList.add_spec l as k hl hk
      rw [hadd] at hadd2
      simp only [Except.ok.injEq] at hadd2
      subst hadd2
      exact ⟨as ++ [a], hl2.toChain, hl2⟩
  · intro hret
    cases hk : l.has k with
    | false =>
      rw [LinkedList.remove_of_not_has l k hk] at hret
      simp at hret
    | true =>
      obtain ⟨as1, _, hl1, hobjs⟩ := LinkedList.remove_spec l as k hl hk
      have hholds : Holds l (objsOf l.nodes as) := ⟨as, hl, rfl⟩
      have hmem : k ∈ objsOf l.nodes as := (hl.has_iff_mem k).mp hk
      obtain ⟨a, _, _, hrem, _, _, _, _, _, _, hone⟩ := hholds.remove_frame k hmem
      have hnil : as1 = [] ↔ (l.remove k).1.toList = [] := by
        rw [hl1.toList_eq_objs]
        unfold objsOf
        simp
      refine ⟨as1, hl1.toChain, hl1, ⟨?_, ?_⟩, hnil⟩
      · intro hnone
        have := hl1.first_eq
        rw [hnone.1] at this
        exact List.head?_eq_none_iff.mp this.symm
      · intro has1
        have hxs : objsOf l.nodes as = [k] := by
          refine erase_eq_nil_of_mem _ k hmem ?_
          rw [← hobjs, has1]
          rfl
        rw [hrem]
        exact hone hxs

/-- C23, amended, at the list built by `add(7)`, `add(3)`, for `add(9)` and for
`remove(7)`. -/
theorem links_preserved_witness :
    ∃ as, Linked (LinkedList.init.run [.add 7, .add 3]) as ∧
      (∃ l1 as1, (LinkedList.init.run [.add 7, .add 3]).add 9 = .ok l1 ∧ Chain l1 as1) ∧
      ∃ as1, Chain ((LinkedList.init.run [.add 7, .add 3]).remove 7).1 as1 := by
  obtain ⟨ys, as, hl, _⟩ := Holds.empty_list.after_run [.add 7, .add 3]
  obtain ⟨_, hrem⟩ := links_preserved _ as 7 hl
  obtain ⟨hadd9, _⟩ := links_preserved _ as 9 hl
  refine ⟨as, hl, ?_, ?_⟩
  · cases h9 : (LinkedList.init.run [.add 7, .add 3]).add 9 with
    | error e =>
      have e9 : ((LinkedList.init.run [.add 7, .add 3]).add 9).toBool = true := by decide
      rw [h9] at e9
      simp [Except.toBool] at e9
    | ok l1 =>
      obtain ⟨as1, hc1, _⟩ := hadd9 l1 h9
      exact ⟨l1, as1, rfl, hc1⟩
  · obtain ⟨as1, hc1, _⟩ := hrem (by decide)
    exact ⟨as1, hc1⟩

/-! ## `clear` and `sort` -/

theorem freeWalk_spec (as : List Nat) :
    ∀ (h : List LinkedNode) (fuel : Nat), Fwd h as none → as.length ≤ fuel →
      (∀ a ∈ as, a < h.length) →
      (freeWalk h fuel (headOr none as)).length = h.length ∧
      ∀ x, (readNode (freeWalk h fuel (headOr none as)) x).obj = (readNode h x).obj ∧
        (x ∈ as → (readNode (freeWalk h fuel (headOr none as)) x).free = true) ∧
        ((readNode h x).free = true →
          (readNode (freeWalk h fuel (headOr none as)) x).free = true) := by
  induction as with
  | nil =>
    intro h fuel _ _ _
    have e : freeWalk h fuel (headOr none []) = h := by cases fuel <;> rfl
    rw [e]
    exact ⟨rfl, fun x => ⟨rfl, fun hx => by simp at hx, fun hx => hx⟩⟩
  | cons a rest ih =>
    intro h fuel hf hfuel hv
    obtain ⟨h1, h2⟩ := hf
    cases fuel with
    | zero => simp at hfuel
    | succ n =>
      have hnext : (readNode (writeNode h a (fun m => { m with free := true })) a).nextLinked
          = headOr none rest := by
        rw [readNode_writeNode_field LinkedNode.nextLinked]
        · exact h1
        · intro m; rfl
      have hfw : freeWalk h (n + 1) (headOr none (a :: rest)) =
          freeWalk (writeNode h a (fun m => { m with free := true })) n (headOr none rest) := by
        show freeWalk (writeNode h a (fun m => { m with free := true })) n
          (readNode (writeNode h a (fun m => { m with free := true })) a).nextLinked = _
        rw [hnext]
      have hf' : Fwd (writeNode h a (fun m => { m with free := true })) rest none := by
        refine Fwd_congr h _ rest none ?_ h2
        intro x _
        rw [readNode_writeNode_field LinkedNode.nextLinked]
        intro m; rfl
      obtain ⟨hlen, hall⟩ := ih _ n hf' (by simpa using hfuel)
        (fun x hx => by rw [length_writeNode]; exact hv x (List.mem_cons_of_mem _ hx))
      rw [hfw]
      refine ⟨by rw [hlen, length_writeNode], fun x => ?_⟩
      obtain ⟨hobj, hin, hmono⟩ := hall x
      refine ⟨?_, ?_, ?_⟩
      · rw [hobj, readNode_writeNode_field LinkedNode.obj]
        intro m; rfl
      · intro hx
        rcases List.mem_cons.mp hx with e | hm
        · refine hmono ?_
          rw [e, readNode_writeNode_same _ _ _ (hv a (List.mem_cons_self _ _))]
        · exact hin hm
      · intro hfree
        refine hmono ?_
        rw [readNode_writeNode]
        split
        · rfl
        · exact hfree

theorem Linked.clear_ok {l : LinkedList} {as : List Nat} (hl : Linked l as) :
    ∃ l1, l.clear = .ok l1 ∧ Linked l1 [] ∧ l1.first = none ∧ l1.count = 0 ∧
      l1.last = l.last ∧ l1.objToNodeMap = l.objToNodeMap := by
  have hac := hl.toChain.forward.acyclic
  have hlen := length_le_of_nodup_of_lt as l.nodes.length hl.nodup hl.valid
  obtain ⟨hlen1, hall⟩ := freeWalk_spec as l.nodes (l.nodes.length + 1) hl.fwd (by omega)
    hl.valid
  rw [headOr_none_eq_head?, ← hl.first_eq] at hlen1 hall
  refine ⟨{ l with first := none, count := 0,
                   nodes := freeWalk l.nodes (l.nodes.length + 1) l.first }, ?_, ?_, rfl, rfl,
    rfl, rfl⟩
  · unfold LinkedList.clear
    rw [hac, if_pos rfl]
  · refine ⟨⟨List.nodup_nil, ?_, trivial, trivial, rfl, fun h => absurd rfl h⟩, rfl, ?_, ?_,
      ?_, ?_⟩
    · intro a ha; simp at ha
    · intro a ha; simp at ha
    · intro k a hg
      have hv := hl.map_valid k a hg
      exact ⟨by show a < (freeWalk _ _ _).length; rw [hlen1]; exact hv.1,
        by show (readNode (freeWalk _ _ _) a).obj = k; rw [(hall a).1]; exact hv.2⟩
    · intro a ha; simp at ha
    · intro k a hg _
      show (readNode (freeWalk _ _ _) a).free = true
      by_cases ha : a ∈ as
      · exact (hall a).2.1 ha
      · exact (hall a).2.2 (hl.free_of k a hg ha)

theorem Holds.addAll {l : LinkedList} {xs : List Nat} (h : Holds l xs) (ys : List Nat)
    (hnd : ys.Nodup) (hdisj : ∀ y ∈ ys, y ∉ xs) :
    ∃ l1, l.addAll ys = .ok l1 ∧ Holds l1 (xs ++ ys) := by
  induction ys generalizing l xs with
  | nil => exact ⟨l, rfl, by simpa using h⟩
  | cons y rest ih =>
    rw [List.nodup_cons] at hnd
    obtain ⟨l1, hadd, hl1⟩ := h.add y (hdisj y (List.mem_cons_self _ _))
    obtain ⟨l2, hall, hl2⟩ := ih hl1 hnd.2 (by
      intro z hz hmem
      rcases List.mem_append.mp hmem with hm | hm
      · exact hdisj z (List.mem_cons_of_mem _ hz) hm
      · rw [List.mem_singleton] at hm
        exact hnd.1 (hm ▸ hz))
    refine ⟨l2, ?_, by simpa using hl2⟩
    show (match l.add y with
      | .ok l1 => LinkedList.addAll l1 rest
      | .error e => .error e) = .ok l2
    rw [hadd]
    exact hall

theorem Holds.sort_ok {l : LinkedList} {xs : List Nat} (h : Holds l xs)
    (arraySort : List Nat → List Nat) (hperm : (arraySort xs).Perm xs) :
    ∃ l1, l.sort arraySort = .ok l1 ∧ Holds l1 (arraySort xs) := by
  obtain ⟨as, hl, hxs⟩ := h
  obtain ⟨lc, hclear, hlc, _⟩ := hl.clear_ok
  have hwalk : walk l.nodes (l.nodes.length + 1) l.first = xs := by
    rw [hl.toChain.forward.walk_eq _ (by omega), hxs]
  have hnd : (arraySort xs).Nodup := hperm.nodup_iff.mpr (hxs ▸ hl.objs_nodup)
  obtain ⟨l1, hall, hl1⟩ := Holds.addAll (⟨[], hlc, rfl⟩ : Holds lc []) (arraySort xs) hnd
    (fun _ _ hm => by simp at hm)
  refine ⟨l1, ?_, by simpa using hl1⟩
  unfold LinkedList.sort
  rw [hl.toChain.forward.acyclic, if_pos rfl]
  dsimp only
  rw [hclear, hwalk]
  exact hall

/-- C28 fails. After `add` of `0, 1, 2, 3`, `moveUp(2)` and `moveUp(3)` the list is
link-consistent, with the forward sequence of the nodes `0, 3, 2`, and `length()` is 4.
`sort` with an ascending comparator leaves the forward sequence `0, 2, 3` and `length()`
is 3. -/
theorem sort_length_counterexample :
    ∃ l l1, LinkedList.performAll id LinkedList.init
        [.add 0, .add 1, .add 2, .add 3, .moveUp 2, .moveUp 3] = .ok l ∧
      Chain l [0, 3, 2] ∧ l.toList = [0, 3, 2] ∧ l.length = 4 ∧
      l.sort (fun xs => xs.insertionSort (fun a b => a ≤ b)) = .ok l1 ∧
      l1.toList = [0, 2, 3] ∧ l1.length = 3 := by
  refine ⟨_, _, rfl, ⟨by decide, by decide, ?_, ?_, by decide, fun _ => by decide⟩,
    by decide, by decide, rfl, by decide, by decide⟩
  · exact ⟨by decide, by decide, by decide, trivial⟩
  · exact ⟨by decide, by decide, by decide, trivial⟩

/-- C28, amended. On a well-formed list that holds `xs`, for a comparator `compare` and an
array sort that returns a permutation of `xs` ordered according to it (what
`Array.prototype.sort` does with a comparator that is a valid ordering): `sort` does not
throw; the forward iteration afterwards is the sorted array, a permutation of the
iteration before that is ordered according to the comparator; `length()` is unchanged and
`has` is unchanged for every item; the list is well formed again. -/
theorem sort_sorts (l : LinkedList) (xs : List Nat) (arraySort : List Nat → List Nat)
    (compare : Nat → Nat → Int) (hl : Holds l xs) (hperm : (arraySort xs).Perm xs)
    (hsorted : (arraySort xs).Sorted (fun a b => compare a b ≤ 0)) :
    ∃ l1, l.sort arraySort = .ok l1 ∧ l.toList = xs ∧ l1.toList = arraySort xs ∧
      l1.toList.Perm l.toList ∧ l1.toList.Sorted (fun a b => compare a b ≤ 0) ∧
      l1.length = l.length ∧ (∀ j, l1.has j = l.has j) ∧ Holds l1 (arraySort xs) := by
  obtain ⟨l1, hsort, hl1⟩ := hl.sort_ok arraySort hperm
  refine ⟨l1, hsort, hl.toList_eq, hl1.toList_eq, ?_, ?_, ?_, ?_, hl1⟩
  · rw [hl1.toList_eq, hl.toList_eq]
    exact hperm
  · rw [hl1.toList_eq]
    exact hsorted
  · show l1.count = l.count
    rw [hl1.count_eq, hl.count_eq, hperm.length_eq]
  · intro j
    rw [Bool.eq_iff_iff, hl1.has_iff, hl.has_iff]
    exact hperm.mem_iff

/-- C28, amended, at the list built by `add` of `0, 1, 2` (the items with the keys `a`,
`b`, `c`), sorted by key descending: the list iterates `2, 1, 0` and `length()` is 3. -/
theorem sort_sorts_witness :
    Holds (LinkedList.init.run [.add 0, .add 1, .add 2]) [0, 1, 2] ∧
    ∃ l1, (LinkedList.init.run [.add 0, .add 1, .add 2]).sort
        (fun xs => xs.insertionSort (fun a b => b ≤ a)) = .ok l1 ∧
      l1.toList = [2, 1, 0] ∧ l1.length = 3 := by
  have hl : Holds (LinkedList.init.run [.add 0, .add 1, .add 2]) [0, 1, 2] := by
    obtain ⟨ys, hys⟩ := Holds.empty_list.after_run [.add 0, .add 1, .add 2]
    have e : ys = [0, 1, 2] := by
      rw [← hys.toList_eq]
      decide
    rw [← e]
    exact hys
  obtain ⟨l1, h1, _, h2, _, _, h3, _⟩ :=
    sort_sorts _ [0, 1, 2] (fun xs => xs.insertionSort (fun a b => b ≤ a))
      (fun a b => (b : Int) - a) hl (by decide) (by decide)
  exact ⟨hl, l1, h1, h2.trans (by decide), h3.trans (by decide)⟩

/-! ## The round trip on a pool that is not exhausted -/

/-- C38. On a pool whose free collection is not empty, `release(acquire())` succeeds and
restores the free collection.  In simple mode `acquire` hands out the last element of the
free array and the free array afterwards is equal to the array before.  In dual mode
`acquire` hands out the first element of the free list, the free list afterwards is the list
before with that element moved to the tail, and the used list holds what it held before, in
the same order. -/
theorem roundtrip_restores_free (t0 : Nat) (tp n : Int) (d : Bool) (calls : List Call)
    (hex : Pool.existing t0 tp n d calls = true) :
    ∃ c, Pool.session t0 tp n d calls = .ok c ∧
      (c.pool.free ≠ [] →
        ∃ x q1 q, c.pool.acquire = .ok (some x, q1) ∧ q1.release x = .ok q ∧
          c.pool.roundTrip = .ok q ∧
          (d = false → c.pool.freeArray.getLast? = some x ∧ q.freeArray = c.pool.freeArray) ∧
          (d = true →
            ∃ rest, c.pool.freeList.toList = x :: rest ∧
              q.freeList.toList = rest ++ [x] ∧
              q.usedList.toList = c.pool.usedList.toList ∧
              q.freeList.count = c.pool.freeList.count ∧
              q.usedList.count = c.pool.usedList.count)) := by
  obtain ⟨c, hrun, hinv, hd, _⟩ := Pool.session_existing t0 tp n d calls hex
  refine ⟨c, hrun, fun hne => ?_⟩
  have hnex : c.pool.exhausted = false := by
    cases hx : c.pool.exhausted with
    | false => rfl
    | true => exact absurd (hinv.exhausted_iff.mp hx) hne
  have hacq := Pool.acquire_of_not_exhausted _ hnex
  cases d with
  | false =>
    rw [Pool.free_simple _ hd] at hne
    rcases List.eq_nil_or_concat' c.pool.freeArray with h | ⟨init, x, hcat⟩
    · exact absurd h hne
    · have htake : c.pool.acquire = .ok (some x, { c.pool with freeArray := init }) := by
        rw [hacq, Pool.take_simple _ hd, hcat]
        simp
      have hrel : ({ c.pool with freeArray := init } : Pool).release x
          = .ok { c.pool with freeArray := init ++ [x] } :=
        Pool.release_simple _ (by exact hd) x
      refine ⟨x, _, _, htake, hrel, ?_, fun _ => ⟨?_, ?_⟩, ?_⟩
      · unfold Pool.roundTrip
        rw [htake]
        exact hrel
      · rw [hcat]
        simp
      · exact hcat.symm
      · intro h; simp at h
  | true =>
    obtain ⟨fs, hf, hu, hdisj, _⟩ := hinv.dual hd
    rw [Pool.free_dual _ hd fs hf] at hne
    cases fs with
    | nil => exact absurd rfl hne
    | cons x rest =>
      have hx : x ∉ c.held := hdisj x (List.mem_cons_self _ _)
      obtain ⟨fl, ul, htake, hfl, hul⟩ := Pool.take_dual _ hd x rest c.held hf hu hx
      have hxrest : x ∉ rest := (List.nodup_cons.mp hf.nodup).1
      obtain ⟨fl2, ul2, hrel, hfl2, hul2⟩ :=
        Pool.release_dual { c.pool with returnObj := some x, freeList := fl, usedList := ul }
          (by exact hd) x rest (c.held ++ [x]) hfl hul hxrest
      have herase : (c.held ++ [x]).erase x = c.held := by
        rw [List.erase_append_right _ hx]
        simp
      rw [herase] at hul2
      refine ⟨x, _, _, hacq.trans htake, hrel, ?_, ?_, fun _ => ⟨rest, ?_, ?_, ?_, ?_, ?_⟩⟩
      · unfold Pool.roundTrip
        rw [hacq, htake]
        exact hrel
      · intro h; simp at h
      · rw [hf.toList_eq]
      · show fl2.toList = rest ++ [x]
        rw [hfl2.toList_eq]
      · show ul2.toList = c.pool.usedList.toList
        rw [hul2.toList_eq, hu.toList_eq]
      · show fl2.count = c.pool.freeList.count
        rw [hfl2.count_eq, hf.count_eq]
        simp
      · show ul2.count = c.pool.usedList.count
        rw [hul2.count_eq, hu.count_eq]

/-- C38 at a dual pool whose free list is `[1, 2, 0]` and whose used list is empty, and at
a simple pool whose free array is `[0, 1, 2]`. -/
theorem roundtrip_restores_free_witness :
    (Pool.existing 0 0 3 true [.acquire, .release 0] = true ∧
      ∃ c q, Pool.session 0 0 3 true [.acquire, .release 0] = .ok c ∧
        c.pool.freeList.toList = [1, 2, 0] ∧ c.pool.roundTrip = .ok q ∧
        q.freeList.toList = [2, 0, 1] ∧ q.usedList.toList = c.pool.usedList.toList) ∧
    (Pool.existing 0 0 3 false [] = true ∧
      ∃ c q, Pool.session 0 0 3 false [] = .ok c ∧ c.pool.freeArray = [0, 1, 2] ∧
        c.pool.roundTrip = .ok q ∧ q.freeArray = c.pool.freeArray) := by
  refine ⟨⟨by decide, ?_⟩, ⟨by decide, ?_⟩⟩
  · obtain ⟨c, hrun, h⟩ := roundtrip_restores_free 0 0 3 true [.acquire, .release 0] (by decide)
    have hfree : c.pool.free = [1, 2, 0] := by
      have e : (Pool.session 0 0 3 true [.acquire, .release 0]).map (fun c => c.pool.free)
          = .ok [1, 2, 0] := by decide
      rw [hrun] at e
      simpa [Except.map] using e
    have hfl : c.pool.freeList.toList = [1, 2, 0] := by
      have e : (Pool.session 0 0 3 true [.acquire, .release 0]).map
          (fun c => c.pool.freeList.toList) = .ok [1, 2, 0] := by decide
      rw [hrun] at e
      simpa [Except.map] using e
    obtain ⟨x, q1, q, _, _, hround, _, h2⟩ := h (by rw [hfree]; simp)
    obtain ⟨rest, h3, h4, h5, _⟩ := h2 rfl
    rw [hfl] at h3
    simp only [List.cons.injEq] at h3
    refine ⟨c, q, hrun, hfl, hround, ?_, h5⟩
    rw [h4, ← h3.1, ← h3.2]
    rfl
  · obtain ⟨c, hrun, h⟩ := roundtrip_restores_free 0 0 3 false [] (by decide)
    have hfree : c.pool.free = [0, 1, 2] := by
      have e : (Pool.session 0 0 3 false []).map (fun c => c.pool.free)
          = .ok [0, 1, 2] := by decide
      rw [hrun] at e
      simpa [Except.map] using e
    have hfa : c.pool.freeArray = [0, 1, 2] := by
      have e : (Pool.session 0 0 3 false []).map (fun c => c.pool.freeArray)
          = .ok [0, 1, 2] := by decide
      rw [hrun] at e
      simpa [Except.map] using e
    obtain ⟨x, q1, q, _, _, hround, h1, _⟩ := h (by rw [hfree]; simp)
    exact ⟨c, q, hrun, hfa, hround, (h1 rfl).2⟩

/-! ## A release that throws -/

/-- C39. In dual mode, `release` of an instance that is in the free list throws the
duplicate error of `LinkedList.add`, and the pool the call leaves is the pool it was called
on: the free list and the used list are unchanged.  In particular the second of two
releases of a held instance throws and leaves both lists as the first release left them. -/
theorem dual_release_free_throws (t0 : Nat) (tp n : Int) (calls : List Call)
    (hex : Pool.existing t0 tp n true calls = true) :
    ∃ c, Pool.session t0 tp n true calls = .ok c ∧
      (∀ x ∈ c.pool.freeList.toList,
        c.pool.release x = .error Err.duplicateAdd ∧
        c.pool.releaseEffect x = (c.pool, some Err.duplicateAdd) ∧
        (c.pool.releaseEffect x).1.freeList = c.pool.freeList ∧
        (c.pool.releaseEffect x).1.usedList = c.pool.usedList) ∧
      (∀ x ∈ c.held, ∃ q, c.pool.release x = .ok q ∧
        q.release x = .error Err.duplicateAdd ∧
        q.releaseEffect x = (q, some Err.duplicateAdd) ∧
        (q.releaseEffect x).1.freeList = q.freeList ∧
        (q.releaseEffect x).1.usedList = q.usedList) := by
  obtain ⟨c, hrun, hinv, hd, _⟩ := Pool.session_existing t0 tp n true calls hex
  obtain ⟨fs, hf, hu, hdisj, _⟩ := hinv.dual hd
  refine ⟨c, hrun, ?_, ?_⟩
  · intro x hx
    rw [hf.toList_eq] at hx
    have heff := Pool.releaseEffect_dup c.pool x hd ((hf.has_iff x).mpr hx)
    refine ⟨Pool.release_dual_dup _ hd x fs hf hx, heff, ?_, ?_⟩
    · rw [heff]
    · rw [heff]
  · intro x hx
    have hxfs : x ∉ fs := fun h => hdisj x h hx
    obtain ⟨fl, ul, hrel, hfl, _⟩ := Pool.release_dual _ hd x fs c.held hf hu hxfs
    have hmem : x ∈ fs ++ [x] := List.mem_append_right _ (List.mem_singleton_self x)
    have heff := Pool.releaseEffect_dup { c.pool with freeList := fl, usedList := ul } x
      (by exact hd) ((hfl.has_iff x).mpr hmem)
    refine ⟨_, hrel, Pool.release_dual_dup _ (by exact hd) x _ hfl hmem, heff, ?_, ?_⟩
    · rw [heff]
    · rw [heff]

/-- C39 at a dual pool of two instances that has handed out instance 0: the release of
instance 1, which is in the free list, and the second release of instance 0. -/
theorem dual_release_free_throws_witness :
    Pool.existing 0 0 2 true [.acquire] = true ∧
    ∃ c, Pool.session 0 0 2 true [.acquire] = .ok c ∧
      c.pool.freeList.toList = [1] ∧ c.held = [0] ∧
      c.pool.releaseEffect 1 = (c.pool, some Err.duplicateAdd) ∧
      ∃ q, c.pool.release 0 = .ok q ∧ q.release 0 = .error Err.duplicateAdd ∧
        q.releaseEffect 0 = (q, some Err.duplicateAdd) := by
  obtain ⟨c, hrun, h1, h2⟩ := dual_release_free_throws 0 0 2 [.acquire] (by decide)
  have hfl : c.pool.freeList.toList = [1] := by
    have e : (Pool.session 0 0 2 true [.acquire]).map (fun c => c.pool.freeList.toList)
        = .ok [1] := by decide
    rw [hrun] at e
    simpa [Except.map] using e
  have hheld : c.held = [0] := by
    have e : (Pool.session 0 0 2 true [.acquire]).map (fun c => c.held) = .ok [0] := by decide
    rw [hrun] at e
    simpa [Except.map] using e
  obtain ⟨q, hq1, hq2, hq3, _⟩ := h2 0 (by rw [hheld]; simp)
  exact ⟨by decide, c, hrun, hfl, hheld, (h1 1 (by rw [hfl]; simp)).2.1, q, hq1, hq2, hq3⟩

/-! ## Moves that leave a stale `prevLinked` -/

/-- C36 fails on the code. After `add` of `0, 1, 2, 3`, `moveUp(2)` and `moveUp(3)`, each
called on an item of the list, `length()` is 4, the iteration from `first` along the next
links ends after the three items `0, 3, 2`, and `has(1)` is true although item `1` is not
visited.  The first `moveUp` leaves the `prevLinked` of node `3` on node `2`; the second
one reads it and swaps node `3` with node `2`, which is not the node before it. -/
theorem length_iteration_diverge :
    ∃ l, LinkedList.performAll id LinkedList.init
        [.add 0, .add 1, .add 2, .add 3, .moveUp 2, .moveUp 3] = .ok l ∧
      l.length = 4 ∧ l.acyclic = true ∧ l.toList = [0, 3, 2] ∧ l.toList.length = 3 ∧
      l.has 1 = true ∧ 1 ∉ l.toList ∧
      (∃ l1, LinkedList.performAll id LinkedList.init
          [.add 0, .add 1, .add 2, .add 3, .moveUp 2] = .ok l1 ∧
        l1.toList = [0, 2, 1, 3] ∧ l1.has 3 = true ∧
        (readNode l1.nodes 3).prevLinked = some 2) :=
  ⟨_, rfl, by decide, by decide, by decide, by decide, by decide, by decide,
    _, rfl, by decide, by decide, by decide⟩

/-- C37 fails on the code. The list after `add` of `0, 1, 2, 3` is link-consistent, with
the nodes `0, 1, 2, 3` in forward order.  After `moveUp(2)`, and likewise after
`moveDown(1)`, the forward order is `0, 2, 1, 3` : the node that follows the swapped pair is
node `3`, its predecessor is node `1`, and its `prevLinked` still refers to node `2`. -/
theorem move_leaves_stale_prev :
    ∃ l, LinkedList.performAll id LinkedList.init [.add 0, .add 1, .add 2, .add 3] = .ok l ∧
      Chain l [0, 1, 2, 3] ∧
      (∃ l1, l.moveUp 2 = .ok l1 ∧ l1.toList = [0, 2, 1, 3] ∧
        (readNode l1.nodes 1).nextLinked = some 3 ∧
        (readNode l1.nodes 3).prevLinked = some 2) ∧
      (∃ l2, l.moveDown 1 = .ok l2 ∧ l2.toList = [0, 2, 1, 3] ∧
        (readNode l2.nodes 1).nextLinked = some 3 ∧
        (readNode l2.nodes 3).prevLinked = some 2) := by
  refine ⟨_, rfl, ⟨by decide, by decide, ?_, ?_, by decide, fun _ => by decide⟩,
    ⟨_, rfl, by decide, by decide, by decide⟩, ⟨_, rfl, by decide, by decide, by decide⟩⟩
  · exact ⟨by decide, by decide, by decide, by decide, trivial⟩
  · exact ⟨by decide, by decide, by decide, by decide, trivial⟩

/-- C40 fails on the code in dual mode. On a dual pool constructed with two instances the
free list's count is 2 and `getFreeCount()` returns the method `length` of the list, not a
number; on every simple pool it returns the length of the free array. -/
theorem getFreeCount_dual_not_count :
    (∃ c, Pool.session 0 0 2 true [] = .ok c ∧ c.pool.freeList.length = 2 ∧
      c.pool.freeCount = 2 ∧ c.pool.getFreeCount = JsValue.method "length") ∧
    (∀ p : Pool, (p.dual = true → p.getFreeCount = JsValue.method "length") ∧
      (p.dual = false → p.getFreeCount = JsValue.number p.freeCount)) := by
  refine ⟨⟨_, rfl, by decide, by decide, by decide⟩, fun p => ⟨fun h => ?_, fun h => ?_⟩⟩
  · unfold Pool.getFreeCount
    rw [if_pos h]
  · unfold Pool.getFreeCount Pool.freeCount
    rw [if_neg (by rw [h]; simp), if_neg (by rw [h]; simp)]

/-! ## The queue -/

theorem Queue.Rep.fresh {α : Type} : (Queue.init : Queue α).Rep [] :=
  ⟨rfl, Or.inl ⟨rfl, rfl⟩⟩

theorem Queue.Rep.after_push {α : Type} {q : Queue α} {r : List α} (h : q.Rep r) (obj : α) :
    (q.push obj).Rep (RefQueue.push r obj) := by
  obtain ⟨hp, hoff⟩ := h
  unfold Queue.pending at hp
  have hle : q.offset ≤ q.queue.length := by
    rcases hoff with ⟨h1, h2⟩ | h1
    · rw [h2]; exact Nat.zero_le _
    · omega
  refine ⟨?_, Or.inr ?_⟩
  · show (q.queue ++ [Cell.item obj]).drop q.offset = (r ++ [obj]).map Cell.item
    rw [List.drop_append_of_le_length hle, hp]
    simp
  · show q.offset + q.offset < (q.queue ++ [Cell.item obj]).length
    rw [List.length_append, List.length_singleton]
    rcases hoff with ⟨h1, h2⟩ | h1
    · rw [h2]; omega
    · omega

theorem Queue.Rep.after_pop {α : Type} {q : Queue α} {r : List α} (h : q.Rep r) :
    (q.pop).1 = (RefQueue.pop r).1 ∧ (q.pop).2.Rep (RefQueue.pop r).2 ∧
      (r = [] → (q.pop).2 = q) := by
  obtain ⟨hp, hoff⟩ := h
  unfold Queue.pending at hp
  rcases hoff with ⟨h1, h2⟩ | h1
  · have hr : r = [] := by
      rw [h1] at hp
      simp only [List.drop_nil] at hp
      exact List.map_eq_nil_iff.mp hp.symm
    subst hr
    have hpop : q.pop = (Cell.undefined, q) := by
      unfold Queue.pop
      rw [if_pos (by rw [h1]; rfl)]
    rw [hpop]
    exact ⟨rfl, ⟨by unfold Queue.pending; rw [h1]; simp [RefQueue.pop], Or.inl ⟨h1, h2⟩⟩,
      fun _ => rfl⟩
  · have hlt : q.offset < q.queue.length := by omega
    rw [List.drop_eq_getElem_cons hlt] at hp
    cases r with
    | nil => simp at hp; omega
    | cons a rest =>
      simp only [List.map_cons, List.cons.injEq] at hp
      obtain ⟨ha, hrest⟩ := hp
      have hget : arrayGet q.queue q.offset = Cell.item a := by
        unfold arrayGet
        rw [List.getElem?_eq_getElem hlt, ha]
        rfl
      have hset : arraySet q.queue q.offset Cell.null = q.queue.set q.offset Cell.null := by
        unfold arraySet
        rw [if_pos hlt]
      have hlen : (q.queue.set q.offset Cell.null).length = q.queue.length :=
        List.length_set _ _ _
      have hdrop : (q.queue.set q.offset Cell.null).drop (q.offset + 1) = rest.map Cell.item := by
        rw [List.drop_set_of_lt _ _ (Nat.lt_succ_self _)]
        exact hrest
      have hne : ¬ q.queue.length = 0 := by omega
      refine ⟨?_, ?_, fun h0 => by simp at h0⟩
      · unfold Queue.pop
        rw [if_neg hne]
        dsimp only
        rw [hget]
        split <;> rfl
      · unfold Queue.pop
        rw [if_neg hne]
        dsimp only
        rw [hset, hlen]
        by_cases hc : (q.offset + 1) * 2 ≥ q.queue.length
        · rw [if_pos hc]
          refine ⟨?_, ?_⟩
          · show ((q.queue.set q.offset Cell.null).drop (q.offset + 1)).drop 0 = _
            rw [List.drop_zero, hdrop]
            rfl
          · show ((q.queue.set q.offset Cell.null).drop (q.offset + 1) = [] ∧ 0 = 0) ∨
              0 + 0 < ((q.queue.set q.offset Cell.null).drop (q.offset + 1)).length
            rw [hdrop]
            cases rest with
            | nil => exact Or.inl ⟨rfl, rfl⟩
            | cons b rest2 => exact Or.inr (by simp)
        · rw [if_neg hc]
          refine ⟨?_, Or.inr ?_⟩
          · show (q.queue.set q.offset Cell.null).drop (q.offset + 1) = _
            rw [hdrop]
            rfl
          · show q.offset + 1 + (q.offset + 1) < (q.queue.set q.offset Cell.null).length
            rw [hlen]
            omega

theorem Queue.Rep.run_refines {α : Type} (calls : List (QueueCall α)) :
    ∀ (q : Queue α) (r : List α), q.Rep r →
      (Queue.run q calls).1 = (RefQueue.run r calls).1 ∧
        (Queue.run q calls).2.Rep (RefQueue.run r calls).2 := by
  induction calls with
  | nil => intro q r h; exact ⟨rfl, h⟩
  | cons k ks ih =>
    intro q r h
    cases k with
    | push obj => exact ih _ _ (h.after_push obj)
    | pop =>
      obtain ⟨h1, h2, _⟩ := h.after_pop
      obtain ⟨h3, h4⟩ := ih _ _ h2
      refine ⟨?_, h4⟩
      show (q.pop).1 :: (Queue.run (q.pop).2 ks).1
        = (RefQueue.pop r).1 :: (RefQueue.run (RefQueue.pop r).2 ks).1
      rw [h1, h3]

/-- C34. For every sequence of `push` and `pop` calls on a new queue, the `pop` calls return
what they return on the reference queue that appends on `push` and removes its head on
`pop` : the oldest item pushed and not yet returned, or `undefined` when there is none.  The
queue left holds the items of the reference queue, in the same order, from `offset` on; its
next `pop` returns what the reference queue's next `pop` returns; and when it holds no item
its array is empty, and `pop` returns `undefined` and leaves the queue as it is. -/
theorem queue_is_fifo {α : Type} (calls : List (QueueCall α)) :
    (Queue.run Queue.init calls).1 = (RefQueue.run [] calls).1 ∧
    (Queue.run Queue.init calls).2.pending = (RefQueue.run [] calls).2.map Cell.item ∧
    (Queue.run Queue.init calls).2.pop.1 = (RefQueue.pop (RefQueue.run [] calls).2).1 ∧
    ((RefQueue.run [] calls).2 = [] →
      (Queue.run Queue.init calls).2.queue = [] ∧
      (Queue.run Queue.init calls).2.pop = (Cell.undefined, (Queue.run Queue.init calls).2)) := by
  obtain ⟨h1, h2⟩ := Queue.Rep.run_refines calls Queue.init [] Queue.Rep.fresh
  obtain ⟨h3, _, h5⟩ := h2.after_pop
  refine ⟨h1, h2.1, h3, fun h0 => ⟨?_, ?_⟩⟩
  · rcases h2.2 with ⟨h6, _⟩ | h6
    · exact h6
    · have h7 := h2.1
      unfold Queue.pending at h7
      rw [h0] at h7
      have h8 := congrArg List.length h7
      simp only [List.length_drop, List.map_nil, List.length_nil] at h8
      omega
  · have h9 : (Queue.run Queue.init calls).2.pop.1 = Cell.undefined := by
      rw [h3, h0]
      rfl
    exact Prod.ext h9 (h5 h0)

/-- C34 at a run of five pushes and seven pops. -/
theorem queue_is_fifo_witness :
    (Queue.run Queue.init
      [.push 1, .push 2, .pop, .push 3, .push 4, .pop, .pop, .push 5, .pop, .pop, .pop,
        .pop]).1
      = [Cell.item 1, Cell.item 2, Cell.item 3, Cell.item 4, Cell.item 5, Cell.undefined,
          Cell.undefined] ∧
    (Queue.run (Queue.init : Queue Nat)
      [.push 1, .push 2, .pop, .push 3, .push 4, .pop, .pop, .push 5, .pop, .pop, .pop,
        .pop]).2.queue = [] := by
  have h := @queue_is_fifo Nat
    [.push 1, .push 2, .pop, .push 3, .push 4, .pop, .pop, .push 5, .pop, .pop, .pop, .pop]
  exact ⟨h.1.trans (by decide), (h.2.2.2 (by decide)).1⟩

/-! ## Logging -/

/-- C35 fails on the code for the instance with `objectId` 0. The first `Fighter` has
`objectId` 0, and its `warn('oops')` logs `'Fighter [WARN] oops'`, without the id, where the
class documentation has `'Fighter:0 [WARN] oops'`.  For every instance whose `objectId` is
not 0 the line is the full name, a colon, the id, `' [WARN] '` and the message. -/
theorem warn_drops_id_zero :
    BaseObject.warn ⟨"Fighter", 0⟩ "oops" = "Fighter [WARN] oops" ∧
    BaseObject.warn ⟨"Fighter", 1⟩ "oops" = "Fighter:1 [WARN] oops" ∧
    (∀ (F m : String), BaseObject.warn ⟨F, 0⟩ m = F ++ "" ++ " [" ++ "WARN" ++ "] " ++ m) ∧
    (∀ (F m : String) (n : Nat), n ≠ 0 →
      BaseObject.warn ⟨F, n⟩ m = F ++ (":" ++ toString n) ++ " [" ++ "WARN" ++ "] " ++ m) := by
  refine ⟨by decide, by decide, fun F m => rfl, fun F m n hn => ?_⟩
  unfold BaseObject.warn Base.log
  simp only [hn, ne_eq, not_false_eq_true, if_true]
  rfl

/-! ## Properties of the hashtable -/

section HashtableClaims

variable {H K V : Type} [DecidableEq H] [DecidableEq K] [Hashing K H]

/-- C29 fails on the code for a key whose hash is `__proto__`. After `put('__proto__', 5)`
and `remove('__proto__')`, `get('__proto__')` is `null` and `size()` is 0; the bucket that
`remove` emptied has left `buckets` and is still the prototype of `bucketsByHash`.
`put('__proto__', 6)` writes into that bucket: it returns `null`, and afterwards `get` is 6
while `size()` is still 0 and `keys()` is empty.  On every table `put` returns what `get`
returned before the call.  On every table without a detached bucket, whatever the key and
the hashing function, `size()` is one more after the call when the key was not mapped and
the same when it was, and when `buckets` satisfies the invariant the key is in `keys()`
exactly once after the call. -/
theorem put_into_detached_bucket :
    (∃ t : Hashtable String String Nat,
      Hashtable.run Hashtable.empty [.put "__proto__" 5, .remove "__proto__"] = t ∧
      t.get "__proto__" = none ∧ t.size = 0 ∧
      (t.put "__proto__" 6).2 = none ∧
      (t.put "__proto__" 6).1.get "__proto__" = some 6 ∧
      (t.put "__proto__" 6).1.size = 0 ∧ (t.put "__proto__" 6).1.keys = []) ∧
    (∀ (t : Hashtable H K V) (key : K) (value : V),
      (t.put key value).2 = t.get key ∧
      (t.detached = [] →
        (t.get key = none → (t.put key value).1.size = t.size + 1) ∧
        (∀ old, t.get key = some old → (t.put key value).1.size = t.size) ∧
        (t.Wf → (t.put key value).1.keys.count key = 1))) := by
  refine ⟨⟨_, rfl, by decide, by decide, by decide, by decide, by decide, by decide⟩, ?_⟩
  intro t key value
  refine ⟨rfl, fun hd => ⟨fun h => ?_, fun old h => ?_, fun hw => ?_⟩⟩
  · rw [Hashtable.size_put _ _ _ hd, h]
    rfl
  · rw [Hashtable.size_put _ _ _ hd, h]
    rfl
  · have hw1 := hw.put key value
    exact List.count_eq_one_of_mem hw1.keys_nodup
      ((hw1.mem_keys_iff (t.detached_put key value hd) key).mpr
        ⟨value, t.get_put_self key value⟩)

/-- C30. For every table, keys `k` and `k1` and value `v`, whatever the hashing function:
after `put(k, v)`, `get(k)` is `v`; for `k1` other than `k`, `get(k1)` and `containsKey(k1)`
are what they were before the `put`, also when `k1` has the hash of `k`; and `get` is
`null` for a key that is in no entry of a bucket of the table (on a table without a detached
bucket: a key that is not in `keys()`), as for every key on a new table. -/
theorem get_after_put (t : Hashtable H K V) (k : K) (v : V) :
    (t.put k v).1.get k = some v ∧
    (∀ k1, k1 ≠ k → (t.put k v).1.get k1 = t.get k1 ∧
      (t.put k v).1.containsKey k1 = t.containsKey k1) ∧
    (∀ k1, (∀ b, b ∈ t.detached ∨ b ∈ t.buckets → k1 ∉ b.entries.map Prod.fst) →
      t.get k1 = none) ∧
    (t.detached = [] → ∀ k1, k1 ∉ t.keys → t.get k1 = none) ∧
    (∀ k1, (Hashtable.empty : Hashtable H K V).get k1 = none) := by
  refine ⟨t.get_put_self k v, fun k1 hk => ⟨t.get_put_other k v k1 hk, ?_⟩, fun k1 hk => ?_,
    fun hd k1 hk => ?_, fun k1 => rfl⟩
  · rw [Hashtable.containsKey_eq, Hashtable.containsKey_eq, t.get_put_other k v k1 hk]
  · cases hg : t.get k1 with
    | none => rfl
    | some x =>
      obtain ⟨b, hb, he⟩ := t.mem_of_get k1 x hg
      exact absurd (List.mem_map.mpr ⟨(k1, x), he, rfl⟩) (hk b hb)
  · cases hg : t.get k1 with
    | none => rfl
    | some x =>
      have hmem := t.mem_entries_of_get hd k1 x hg
      rw [Hashtable.keys_eq_map] at hk
      exact absurd (List.mem_map.mpr ⟨(k1, x), hmem, rfl⟩) hk

/-- C31 fails on the code for a key whose hash is `__proto__`. After `put('__proto__', 5)`,
`remove('__proto__')` and `put('__proto__', 6)` the key is mapped to 6 in the bucket that has
left `buckets`, and `size()` is 0.  `remove('__proto__')` returns 6 and `size()` is still 0:
`searchBuckets` finds no bucket of that hash and `arrayRemoveAt(buckets, null)` removes the
element at index 0, if there is one.  With the key `'a'` mapped as well, that element is the
bucket of `'a'` : after the `remove`, `keys()` is empty while `get('a')` is still 1.  In
every table state reached by `put`, `remove` and `clear` calls none of whose keys has the
hash `__proto__`, whatever the hashing function: `remove(key)` returns what `get(key)`
returned before the call; afterwards `get(key)` is `null` and `containsKey(key)` is false;
`size()` is one less when the key was mapped, and the same when it was not; and for every
other key `get` and `containsKey` are what they were. -/
theorem remove_detached_bucket :
    (∃ t : Hashtable String String Nat,
      Hashtable.run Hashtable.empty
        [.put "__proto__" 5, .remove "__proto__", .put "__proto__" 6] = t ∧
      t.get "__proto__" = some 6 ∧ t.size = 0 ∧
      (t.remove "__proto__").2 = some 6 ∧ (t.remove "__proto__").1.size = 0) ∧
    (∃ t : Hashtable String String Nat,
      Hashtable.run Hashtable.empty
        [.put "a" 1, .put "__proto__" 5, .remove "__proto__", .put "__proto__" 6] = t ∧
      t.keys = ["a"] ∧ t.get "a" = some 1 ∧
      (t.remove "__proto__").2 = some 6 ∧ (t.remove "__proto__").1.keys = [] ∧
      (t.remove "__proto__").1.get "a" = some 1) ∧
    (∀ (calls : List (TableCall K V)) (key : K), TableCall.plain calls = true →
      ∃ t : Hashtable H K V, Hashtable.run Hashtable.empty calls = t ∧
        (t.remove key).2 = t.get key ∧
        (t.remove key).1.get key = none ∧
        (t.remove key).1.containsKey key = false ∧
        (∀ old, t.get key = some old → (t.remove key).1.size + 1 = t.size) ∧
        (t.get key = none → (t.remove key).1.size = t.size) ∧
        (∀ k, k ≠ key → (t.remove key).1.get k = t.get k ∧
          (t.remove key).1.containsKey k = t.containsKey k)) := by
  refine ⟨⟨_, rfl, by decide, by decide, by decide, by decide⟩,
    ⟨_, rfl, by decide, by decide, by decide, by decide, by decide⟩, ?_⟩
  intro calls key hp
  obtain ⟨hw, hd⟩ := Hashtable.Wf.run_plain calls
    (Hashtable.Wf.of_empty : (Hashtable.empty : Hashtable H K V).Wf) rfl hp
  obtain ⟨h1, h2, h3, h4, _⟩ := hw.remove_entry hd key
  refine ⟨_, rfl, h1, h2, ?_, fun old ho => ?_, fun hn => ?_, fun k hk => ⟨h3 k hk, ?_⟩⟩
  · rw [Hashtable.containsKey_eq, h2]
    rfl
  · rw [ho] at h4
    exact h4
  · rw [hn] at h4
    exact h4
  · rw [Hashtable.containsKey_eq, Hashtable.containsKey_eq, h3 k hk]

/-- C32. `put`, `get`, `remove` and `containsKey` throw when the key is `null` or
`undefined`, and `put` also when the value is; the table the throwing call leaves is the
table it was called on.  With a key that is neither (and, for `put`, a value that is
neither) none of them throws. -/
theorem null_key_throws (t : Hashtable H K V) (value : Arg V) :
    (t.putArg Arg.null value = (t, .error (CheckErr.nullNotValid "key")) ∧
      t.putArg Arg.undefined value = (t, .error (CheckErr.mustNotBeUndefined "key")) ∧
      t.getArg Arg.null = (t, .error (CheckErr.nullNotValid "key")) ∧
      t.getArg Arg.undefined = (t, .error (CheckErr.mustNotBeUndefined "key")) ∧
      t.removeArg Arg.null = (t, .error (CheckErr.nullNotValid "key")) ∧
      t.removeArg Arg.undefined = (t, .error (CheckErr.mustNotBeUndefined "key")) ∧
      t.containsKeyArg Arg.null = (t, .error (CheckErr.nullNotValid "key")) ∧
      t.containsKeyArg Arg.undefined = (t, .error (CheckErr.mustNotBeUndefined "key"))) ∧
    (∀ k : K,
      t.putArg (Arg.value k) Arg.null = (t, .error (CheckErr.nullNotValid "value")) ∧
      t.putArg (Arg.value k) Arg.undefined
        = (t, .error (CheckErr.mustNotBeUndefined "value")) ∧
      (∀ v : V, t.putArg (Arg.value k) (Arg.value v) = ((t.put k v).1, .ok (t.put k v).2)) ∧
      t.getArg (Arg.value k) = (t, .ok (t.get k)) ∧
      t.removeArg (Arg.value k) = ((t.remove k).1, .ok (t.remove k).2) ∧
      t.containsKeyArg (Arg.value k) = (t, .ok (t.containsKey k))) :=
  ⟨⟨rfl, rfl, rfl, rfl, rfl, rfl, rfl, rfl⟩, fun _ => ⟨rfl, rfl, fun _ => rfl, rfl, rfl, rfl⟩⟩

/-- C33 fails on the code for a key whose hash is `__proto__`. In the table state reached
by `put('__proto__', 5)`, `remove('__proto__')` and `put('__proto__', 6)`, `get('__proto__')`
is 6 and `containsKey('__proto__')` is true, while `keys()`, `values()` and `entries()` are
empty and `size()` is 0: the mapped key is not in `keys()`.  On every table `containsKey(k)`
is true exactly when `get(k)` is not `null`, and `size()` is the length of `keys()`, of
`values()` and of `entries()`.  In every table state reached by `put`, `remove` and `clear`
calls none of whose keys has the hash `__proto__`, whatever the hashing function: `keys()`
holds no key twice, and holds exactly the mapped keys, each once; and for every entry
`[k, v]` of `entries()`, `get(k)` is `v`. -/
theorem detached_bucket_unlisted :
    (∃ t : Hashtable String String Nat,
      Hashtable.run Hashtable.empty
        [.put "__proto__" 5, .remove "__proto__", .put "__proto__" 6] = t ∧
      t.get "__proto__" = some 6 ∧ t.containsKey "__proto__" = true ∧
      t.keys = [] ∧ t.values = [] ∧ t.entries = [] ∧ t.size = 0) ∧
    (∀ t : Hashtable H K V,
      (∀ k, t.containsKey k = true ↔ t.get k ≠ none) ∧
      t.size = t.keys.length ∧ t.size = t.values.length ∧ t.size = t.entries.length) ∧
    (∀ calls : List (TableCall K V), TableCall.plain calls = true →
      ∃ t : Hashtable H K V, Hashtable.run Hashtable.empty calls = t ∧
        t.keys.Nodup ∧
        (∀ k, t.get k ≠ none → t.keys.count k = 1) ∧
        (∀ k, k ∈ t.keys → t.get k ≠ none) ∧
        (∀ e ∈ t.entries, t.get e.1 = some e.2)) := by
  refine ⟨⟨_, rfl, by decide, by decide, by decide, by decide, by decide, by decide⟩,
    fun t => ⟨fun k => ?_, ?_, ?_, Hashtable.size_eq_length _⟩, fun calls hp => ?_⟩
  · rw [Hashtable.containsKey_eq, Option.isSome_iff_ne_none]
  · rw [Hashtable.size_eq_length, Hashtable.keys_eq_map, List.length_map]
  · rw [Hashtable.size_eq_length, Hashtable.values_eq_map, List.length_map]
  · obtain ⟨hw, hd⟩ := Hashtable.Wf.run_plain calls
      (Hashtable.Wf.of_empty : (Hashtable.empty : Hashtable H K V).Wf) rfl hp
    refine ⟨_, rfl, hw.keys_nodup, fun k hk => ?_, fun k hk => ?_,
      fun e he => hw.get_of_mem hd e he⟩
    · refine List.count_eq_one_of_mem hw.keys_nodup ((hw.mem_keys_iff hd k).mpr ?_)
      exact Option.ne_none_iff_exists'.mp hk
    · obtain ⟨v, hv⟩ := (hw.mem_keys_iff hd k).mp hk
      rw [hv]
      simp

end HashtableClaims

/-- C30 at a table of key objects: a `put` under a key whose hash another mapped key
has. -/
theorem get_after_put_witness :
    (((Hashtable.empty : Hashtable String KeyObject Nat).run
        [.put ⟨"a", 0⟩ 10, .put ⟨"b", 2⟩ 12]).put ⟨"a", 1⟩ 11).1.get ⟨"a", 1⟩ = some 11 ∧
    (((Hashtable.empty : Hashtable String KeyObject Nat).run
        [.put ⟨"a", 0⟩ 10, .put ⟨"b", 2⟩ 12]).put ⟨"a", 1⟩ 11).1.get ⟨"a", 0⟩ = some 10 ∧
    (((Hashtable.empty : Hashtable String KeyObject Nat).run
        [.put ⟨"a", 0⟩ 10, .put ⟨"b", 2⟩ 12]).put ⟨"a", 1⟩ 11).1.containsKey ⟨"a", 0⟩
      = true := by
  have h := get_after_put ((Hashtable.empty : Hashtable String KeyObject Nat).run
    [.put ⟨"a", 0⟩ 10, .put ⟨"b", 2⟩ 12]) ⟨"a", 1⟩ 11
  exact ⟨h.1, (h.2.1 ⟨"a", 0⟩ (by decide)).1.trans (by decide),
    (h.2.1 ⟨"a", 0⟩ (by decide)).2.trans (by decide)⟩

/-- C32 at a table with one mapping: the calls with `null` leave it as it is. -/
theorem null_key_throws_witness :
    ((Hashtable.empty : Hashtable String String Nat).run [.put "test1" 5]).putArg
        Arg.null (Arg.value 7)
      = ((Hashtable.empty : Hashtable String String Nat).run [.put "test1" 5],
          .error (CheckErr.nullNotValid "key")) ∧
    (((Hashtable.empty : Hashtable String String Nat).run [.put "test1" 5]).removeArg
        Arg.null).1.get "test1" = some 5 :=
  ⟨(null_key_throws _ (Arg.value 7)).1.1,
    ((null_key_throws ((Hashtable.empty : Hashtable String String Nat).run [.put "test1" 5])
      Arg.null).1.2.2.2.2.1 ▸ (by decide))⟩

end Gamecore
